import Mathlib

/-! # Tiny "GIF" codec: shallow embedding of `tegif_lib.c` and `tdgif_lib.c`

Conventions of the embedding.

* C integers are natural numbers.  Where a C type can wrap for some argument
  the reduction is written out (`% 256`, `% 2 ^ 32`).  The `int` fields of the
  encoder never go below zero, except `CrntShiftState` inside the flush loop,
  which is reset to `0` right after the loop; truncated subtraction gives the
  same loop exit there.
* A `const void *` into the caller's buffer is the function from byte offsets
  to bytes; pointer addition shifts the argument.
* The output file of the encoder is the list of bytes written so far; `fwrite`
  writes all the bytes it is given, so the `WRITE_FAILED` / `DISK_IS_FULL`
  branches (taken only when `fwrite` comes back short) do not appear.
* `printf("Co:%d/%d ", Code, RunningBits)` in `TEGifCompressOutput` is kept as
  the field `Log` (standard output), one pair per call.
* The decoder's `Prefix`, `Suffix` and `Stack` arrays have `DictSize` cells.
  An access with an index outside `[0, DictSize)` is undefined behaviour in C.
  The decoder is given twice.  With the three arrays kept apart such an
  access is a separate result, `DResult.fault`, and ends the run of the model.
  In the namespace `Flat` the arrays lie in the one block of `ALLOC`, as in
  the compiled code: such an access reads or writes the byte at that address
  and the run goes on.  Statements about all streams are made on `Flat`.
* `uint24_t` is `uint32_t` (the hosted build of `tdgif_lib.c`).
* Loops are structural recursions on a counter that the loop itself bounds;
  the hash probes and the decoder's outer loop carry explicit fuel and yield
  `none` / `DResult.fuel` when it runs out.
-/

namespace TinyGif

/-! ## `tgif_lib.h`, `tgif_lib_private.h`, error codes -/

def TGIF_ERROR : Nat := 0
def TGIF_OK : Nat := 1

def LZ_MAX_CODE : Nat := 1023
def LZ_BITS : Nat := 10
def FLUSH_OUTPUT : Nat := LZ_MAX_CODE + 1
def FIRST_CODE : Nat := LZ_MAX_CODE + 2
def NO_SUCH_CODE : Nat := LZ_MAX_CODE + 3
def FILE_STATE_WRITE : Nat := 0x01
def FILE_STATE_SCREEN : Nat := 0x02

def E_TGIF_SUCCEEDED : Nat := 0
def E_TGIF_ERR_WRITE_FAILED : Nat := 2
def E_TGIF_ERR_HAS_SCRN_DSCR : Nat := 3
def E_TGIF_ERR_DATA_TOO_BIG : Nat := 6
def E_TGIF_ERR_DISK_IS_FULL : Nat := 8

def D_TGIF_ERR_MAXSZ : Nat := 20
def D_TGIF_ERR_ZWH : Nat := 21
def D_TGIF_ERR_TOOBIG : Nat := 22
def D_TGIF_ERR_NOT_ENOUGH_MEM : Nat := 23
def D_TGIF_ERR_IMAGE_DEFECT : Nat := 24

/-! ## Encoder hash table (`tegif_lib.c`) -/

def HT_SIZE : Nat := 8192
def HT_KEY_MASK : Nat := 0x1FFF

def HT_GET_KEY (l : Nat) : Nat := l >>> 12
def HT_GET_CODE (l : Nat) : Nat := l &&& 0x0FFF
/-- The macro `HT_PUT_KEY(l)` is `l << 12` on a `uint32_t`. -/
def HT_PUT_KEY (l : Nat) : Nat := (l <<< 12) % 2 ^ 32
def HT_PUT_CODE (l : Nat) : Nat := l &&& 0x0FFF

/-- The array `uint32_t HTable[HT_SIZE]`; only cells below `HT_SIZE` are used. -/
abbrev TGifHashTableType := Nat → Nat

/-- The function `_ClearHashTable`: `memset` of every cell to `0xFF` bytes. -/
def _ClearHashTable : TGifHashTableType := fun _ => 0xFFFFFFFF

def KeyItem (Item : Nat) : Nat := ((Item >>> 12) ^^^ Item) &&& HT_KEY_MASK

/-- The probe loop of `_InsertHashTable`; `none` when `fuel` probes found no
free cell. -/
def insertProbe (HTable : TGifHashTableType) : Nat → Nat → Option Nat
  | 0, _ => none
  | fuel + 1, HKey =>
    if HT_GET_KEY (HTable HKey) ≠ 0xFFFFF then
      insertProbe HTable fuel ((HKey + 1) &&& HT_KEY_MASK)
    else some HKey

/-- The function `_InsertHashTable`.  After `HT_SIZE` probes the loop is back
at its first cell with the table unchanged, so `none` stands for a loop that
never ends. -/
def _InsertHashTable (HTable : TGifHashTableType) (Key Code : Nat) :
    Option TGifHashTableType :=
  match insertProbe HTable HT_SIZE (KeyItem Key) with
  | none => none
  | some HKey =>
    some (fun i => if i = HKey then HT_PUT_KEY Key ||| HT_PUT_CODE Code else HTable i)

/-- The probe loop of `_ExistsHashTable`: `some (-1)` for an absent key. -/
def existsProbe (HTable : TGifHashTableType) (Key : Nat) : Nat → Nat → Option Int
  | 0, _ => none
  | fuel + 1, HKey =>
    if HT_GET_KEY (HTable HKey) ≠ 0xFFFFF then
      if Key = HT_GET_KEY (HTable HKey) then some (HT_GET_CODE (HTable HKey) : Nat)
      else existsProbe HTable Key fuel ((HKey + 1) &&& HT_KEY_MASK)
    else some (-1)

def _ExistsHashTable (HTable : TGifHashTableType) (Key : Nat) : Option Int :=
  existsProbe HTable Key HT_SIZE (KeyItem Key)

/-! ## Encoder state -/

structure TColorMapObject where
  ColorCount : Nat
  /-- The array `TGifColorType Colors[256]`. -/
  Colors : Nat → Nat

structure TGifFilePrivateType where
  FileState : Nat
  ColorCount : Nat
  InitCodeBits : Nat
  ClearCode : Nat
  RunningCode : Nat
  RunningBits : Nat
  MaxCode1 : Nat
  MaxCodePoint : Nat
  CrntCode : Nat
  CrntShiftState : Nat
  CrntShiftDWord : Nat
  PixelCount : Nat
  /-- Bytes written to `FILE *File` so far. -/
  File : List Nat
  /-- The cells `Buf[1 .. Buf[0]]`; `Buf[0]` is the length of this list. -/
  Buf : List Nat
  HashTable : TGifHashTableType
  /-- Standard output of `TEGifCompressOutput`: the pairs `Code/RunningBits`. -/
  Log : List (Nat × Nat)

structure TGifFileType where
  Error : Nat
  MaxCodeUsed : Nat
  Private : TGifFilePrivateType

/-- The handle `TEGifOpenFileName` returns when `fopen` and `malloc` succeed:
both structures zeroed, an empty file, a cleared hash table. -/
def TEGifOpenFileName : TGifFileType :=
  { Error := 0
    MaxCodeUsed := 0
    Private :=
      { FileState := FILE_STATE_WRITE
        ColorCount := 0, InitCodeBits := 0, ClearCode := 0, RunningCode := 0
        RunningBits := 0, MaxCode1 := 0, MaxCodePoint := 0, CrntCode := 0
        CrntShiftState := 0, CrntShiftDWord := 0, PixelCount := 0
        File := [], Buf := [], HashTable := _ClearHashTable, Log := [] } }

/-- The function `InternalWrite`: appends `buf` to the file. -/
def InternalWrite (P : TGifFilePrivateType) (buf : List Nat) : TGifFilePrivateType :=
  { P with File := P.File ++ buf }

namespace Enc

/-- The loop of `BitSize` in `tegif_lib.c`, `k` iterations left, counter `i`. -/
def BitSizeLoop (n : Nat) : Nat → Nat → Nat
  | 0, i => i
  | k + 1, i => if (1 <<< i) > n then i else BitSizeLoop n k (i + 1)

/-- The function `BitSize` of `tegif_lib.c`: `for (i = 1; i <= 12; i++)`. -/
def BitSize (n : Nat) : Nat := BitSizeLoop n 12 1

end Enc

/-- The function `TEGifBufferedOutput`. -/
def TEGifBufferedOutput (P : TGifFilePrivateType) (c : Nat) : TGifFilePrivateType :=
  if c = FLUSH_OUTPUT then
    if P.Buf.length ≠ 0 then InternalWrite P P.Buf else P
  else
    let P := if P.Buf.length = 255 then { InternalWrite P P.Buf with Buf := [] } else P
    { P with Buf := P.Buf ++ [c % 256] }

/-- The body shared by the two byte loops of `TEGifCompressOutput`: the low
byte of the accumulator goes to `TEGifBufferedOutput`, then
`CrntShiftDWord >>= 8; CrntShiftState -= 8`. -/
def emitLowByte (P : TGifFilePrivateType) : TGifFilePrivateType :=
  let P := TEGifBufferedOutput P (P.CrntShiftDWord &&& 0xff)
  { P with CrntShiftDWord := P.CrntShiftDWord >>> 8
           CrntShiftState := P.CrntShiftState - 8 }

/-- The loop `while (CrntShiftState >= 8)` of `TEGifCompressOutput`, called
with `k = CrntShiftState`: every pass takes 8 off `CrntShiftState`, so the
counter reaches `0` only once the condition is false. -/
def dumpBytes : Nat → TGifFilePrivateType → TGifFilePrivateType
  | 0, P => P
  | k + 1, P => if P.CrntShiftState ≥ 8 then dumpBytes k (emitLowByte P) else P

/-- The loop `while (CrntShiftState > 0)` of the flush branch, called with
`k = CrntShiftState`. -/
def flushBytes : Nat → TGifFilePrivateType → TGifFilePrivateType
  | 0, P => P
  | k + 1, P => if P.CrntShiftState > 0 then flushBytes k (emitLowByte P) else P

/-- The flush branch of `TEGifCompressOutput` (`Code == FLUSH_OUTPUT`). -/
def flushCode (P : TGifFilePrivateType) : TGifFilePrivateType :=
  let P := flushBytes P.CrntShiftState P
  let P := { P with CrntShiftState := 0 }
  TEGifBufferedOutput P FLUSH_OUTPUT

/-- The other branch of `TEGifCompressOutput`: `Code` is shifted into the
accumulator as `width` bits and the full bytes are dumped.  The source
passes `RunningBits` for `width`. -/
def packCode (P : TGifFilePrivateType) (Code width : Nat) : TGifFilePrivateType :=
  let P := { P with CrntShiftDWord := P.CrntShiftDWord ||| (Code <<< P.CrntShiftState) }
  let P := { P with CrntShiftState := P.CrntShiftState + width }
  dumpBytes P.CrntShiftState P

/-- The function `TEGifCompressOutput`. -/
def TEGifCompressOutput (P : TGifFilePrivateType) (Code : Nat) : TGifFilePrivateType :=
  let P :=
    if Code = FLUSH_OUTPUT then flushCode P
    else packCode { P with Log := P.Log ++ [(Code, P.RunningBits)] } Code P.RunningBits
  if P.RunningCode ≥ P.MaxCode1 ∧ Code ≤ LZ_MAX_CODE then
    { P with RunningBits := P.RunningBits + 1, MaxCode1 := 1 <<< (P.RunningBits + 1) }
  else P

/-- The function `TEGifSetupCompress`. -/
def TEGifSetupCompress (P : TGifFilePrivateType) (SRAMLimit : Nat) : TGifFilePrivateType :=
  let P := InternalWrite P [P.ColorCount % 256]
  let MaxCodePoint := P.ColorCount + 1 + SRAMLimit / 4
  let MaxCodePoint := if MaxCodePoint > LZ_MAX_CODE then LZ_MAX_CODE else MaxCodePoint
  let RunningCode := P.ColorCount + 1
  let RunningBits := Enc.BitSize RunningCode
  { P with
    MaxCodePoint := MaxCodePoint
    Buf := []
    ClearCode := P.ColorCount
    RunningCode := RunningCode
    RunningBits := RunningBits
    InitCodeBits := RunningBits
    MaxCode1 := 1 <<< RunningBits
    CrntCode := FIRST_CODE
    CrntShiftState := 0
    CrntShiftDWord := 0
    HashTable := _ClearHashTable }

/-- The bytes of `ColorCount` entries of `TGifColorType Colors[]` as `fwrite`
stores them on a little-endian host. -/
def colorBytes (ColorMap : TColorMapObject) : List Nat :=
  (List.range ColorMap.ColorCount).flatMap
    fun i => [ColorMap.Colors i % 256, ColorMap.Colors i / 256 % 256]

/-- The function `TEGifPutScreenDesc`; `ColorMap = none` is the null pointer. -/
def TEGifPutScreenDesc (GifFile : TGifFileType) (Width Height : Nat)
    (ColorMap : Option TColorMapObject) (SRAMLimit : Nat) : Nat × TGifFileType :=
  let Private := GifFile.Private
  if Private.FileState &&& FILE_STATE_SCREEN ≠ 0 then
    (TGIF_ERROR, { GifFile with Error := E_TGIF_ERR_HAS_SCRN_DSCR })
  else
    match ColorMap with
    | none => (TGIF_ERROR, GifFile)
    | some ColorMap =>
      let SRAMLimit := SRAMLimit &&& 0xFF00
      if SRAMLimit = 0 then (TGIF_ERROR, GifFile)
      else
        let Buf0 := ((SRAMLimit >>> 4) &&& 0xF0) ||| ((Width >>> 6) &&& 0x0C)
                      ||| ((Height >>> 8) &&& 0x03)
        let Buf1 := Width % 256
        let Buf2 := Height % 256
        let Buf3 := ColorMap.ColorCount % 256
        let Private := { Private with ColorCount := ColorMap.ColorCount }
        let Private := InternalWrite Private [Buf0, Buf1, Buf2, Buf3]
        let Private := InternalWrite Private (colorBytes ColorMap)
        let Private := { Private with PixelCount := Width * Height }
        let Private := TEGifSetupCompress Private SRAMLimit
        let Private := { Private with FileState := Private.FileState ||| FILE_STATE_SCREEN }
        (TGIF_OK, { GifFile with Private := Private })

/-- One pass of the loop `while (i < LineLen)` of `TEGifCompressLine`, for the
pixel `Pixel`, with the local `CrntCode` as second component. -/
def compressPixel (G : TGifFileType) (CrntCode Pixel : Nat) : Option (TGifFileType × Nat) :=
  let NewKey := (CrntCode <<< 8) + Pixel
  match _ExistsHashTable G.Private.HashTable NewKey with
  | none => none
  | some NewCode =>
    if NewCode ≥ 0 then some (G, NewCode.toNat)
    else
      let P := TEGifCompressOutput G.Private CrntCode
      if P.RunningCode ≥ P.MaxCodePoint then
        let G := { G with MaxCodeUsed := P.MaxCodePoint }
        let P := TEGifCompressOutput P P.ClearCode
        let P := { P with RunningCode := P.ClearCode + 1
                          RunningBits := P.InitCodeBits
                          MaxCode1 := 1 <<< P.InitCodeBits
                          HashTable := _ClearHashTable }
        some ({ G with Private := P }, Pixel)
      else
        match _InsertHashTable P.HashTable NewKey P.RunningCode with
        | none => none
        | some HT =>
          some ({ G with Private := { P with HashTable := HT
                                             RunningCode := P.RunningCode + 1 } }, Pixel)

/-- The loop `while (i < LineLen)` of `TEGifCompressLine` over the pixels
still to read. -/
def compressLoop : TGifFileType → Nat → List Nat → Option (TGifFileType × Nat)
  | G, CrntCode, [] => some (G, CrntCode)
  | G, CrntCode, Pixel :: rest =>
    match compressPixel G CrntCode Pixel with
    | none => none
    | some (G, CrntCode) => compressLoop G CrntCode rest

/-- The end of `TEGifCompressLine`, after the loop. -/
def compressFinish (G : TGifFileType) (CrntCode : Nat) : Nat × TGifFileType :=
  let G := { G with Private := { G.Private with CrntCode := CrntCode } }
  if G.Private.PixelCount = 0 then
    let G := if G.MaxCodeUsed < G.Private.RunningCode - 1
             then { G with MaxCodeUsed := G.Private.RunningCode - 1 } else G
    let P := TEGifCompressOutput G.Private CrntCode
    let P := TEGifCompressOutput P FLUSH_OUTPUT
    (TGIF_OK, { G with Private := P })
  else (TGIF_OK, G)

/-- The function `TEGifCompressLine`; `LineLen` is the length of `Line`.
`none`: a hash probe never ends, or `Line[0]` is read from an empty line. -/
def TEGifCompressLine (G : TGifFileType) (Line : List Nat) : Option (Nat × TGifFileType) :=
  let start : Option (Nat × List Nat) :=
    if G.Private.CrntCode = FIRST_CODE then
      match Line with
      | [] => none
      | p :: rest => some (p, rest)
    else some (G.Private.CrntCode, Line)
  match start with
  | none => none
  | some (CrntCode, rest) =>
    match compressLoop G CrntCode rest with
    | none => none
    | some (G, CrntCode) => some (compressFinish G CrntCode)

/-- The function `TEGifPutLine`. -/
def TEGifPutLine (G : TGifFileType) (Line : List Nat) : Option (Nat × TGifFileType) :=
  if G.Private.PixelCount < Line.length then
    some (TGIF_ERROR, { G with Error := E_TGIF_ERR_DATA_TOO_BIG })
  else
    TEGifCompressLine
      { G with Private := { G.Private with PixelCount := G.Private.PixelCount - Line.length } }
      Line

/-! ## Decoder (`tdgif_lib.c`) -/

structure TGifInfo where
  Width : Nat
  Height : Nat
  SRAMLimit : Nat
  ColorCount : Nat
  Colors : Nat → Nat
  Data : Nat → Nat
  Error : Nat
  MaxSz : Nat

structure TDGifPrivateType where
  Info : TGifInfo
  Prefix : Nat → Nat
  ReadOffset : Nat
  ClearCode : Nat
  RunningCode : Nat
  MaxCode1 : Nat
  MaxCodePoint : Nat
  DictBase : Nat
  DictSize : Nat
  CrntShiftDWord : Nat
  RunningBits : Nat
  InitCodeBits : Nat
  MaxCodeBits : Nat
  CrntShiftState : Nat

/-- The function `TDGifReadByte`: one `uint8_t` at `base + offset`. -/
def TDGifReadByte (base : Nat → Nat) (offset : Nat) : Nat := base offset % 256

/-- The function `TDGifInput`: return value, new state, `*NextByte`. -/
def TDGifInput (P : TDGifPrivateType) : Nat × TDGifPrivateType × Nat :=
  if P.ReadOffset ≥ P.Info.MaxSz then
    (TGIF_ERROR, { P with Info := { P.Info with Error := D_TGIF_ERR_MAXSZ } }, 0)
  else
    (TGIF_OK, { P with ReadOffset := P.ReadOffset + 1 },
      TDGifReadByte P.Info.Data P.ReadOffset)

def CodeMasks : List Nat :=
  [0x0000, 0x0001, 0x0003, 0x0007, 0x000f, 0x001f, 0x003f, 0x007f, 0x00ff, 0x01ff, 0x03ff]

/-- The loop `while (CrntShiftState < RunningBits)` of `TDGifDecompressInput`
for `RunningBits = width`, called with `k = width - CrntShiftState`: every
pass adds 8 to `CrntShiftState`. -/
def readBits (width : Nat) : Nat → TDGifPrivateType → Nat × TDGifPrivateType
  | 0, P => (TGIF_OK, P)
  | k + 1, P =>
    if P.CrntShiftState < width then
      match TDGifInput P with
      | (r, P, NextByte) =>
        if r = TGIF_ERROR then (TGIF_ERROR, P)
        else
          let BigNextByte := NextByte
          let BigShift := P.CrntShiftState
          let BigNextByte := if BigShift ≥ 8 then (BigNextByte <<< 8) % 2 ^ 32 else BigNextByte
          let BigShift := if BigShift ≥ 8 then BigShift - 8 else BigShift
          readBits width k
            { P with
              CrntShiftDWord := P.CrntShiftDWord ||| ((BigNextByte <<< BigShift) % 2 ^ 32)
              CrntShiftState := (P.CrntShiftState + 8) % 256 }
    else (TGIF_OK, P)

/-- The first part of `TDGifDecompressInput`, up to the update of
`CrntShiftState`: reads one code of `width` bits.  The source passes
`RunningBits` for `width`.  Return value, new state, `*Code`. -/
def unpackCode (P : TDGifPrivateType) (width : Nat) : Nat × TDGifPrivateType × Nat :=
  match readBits width (width - P.CrntShiftState) P with
  | (r, P) =>
    if r = TGIF_ERROR then (TGIF_ERROR, P, 0)
    else
      let Code := P.CrntShiftDWord &&& CodeMasks.getD width 0
      let BigShift := width
      let DWord := if BigShift ≥ 8 then P.CrntShiftDWord >>> 8 else P.CrntShiftDWord
      let BigShift := if BigShift ≥ 8 then BigShift - 8 else BigShift
      (TGIF_OK,
        { P with CrntShiftDWord := DWord >>> BigShift
                 CrntShiftState := P.CrntShiftState - width },
        Code)

/-- The function `TDGifDecompressInput`. -/
def TDGifDecompressInput (P : TDGifPrivateType) : Nat × TDGifPrivateType × Nat :=
  match unpackCode P P.RunningBits with
  | (r, P, Code) =>
    if r = TGIF_ERROR then (TGIF_ERROR, P, Code)
    else if P.RunningCode < P.MaxCodePoint + 2 then
      let P := { P with RunningCode := P.RunningCode + 1 }
      if P.RunningCode > P.MaxCode1 ∧ P.RunningBits < P.MaxCodeBits then
        (TGIF_OK, { P with MaxCode1 := (P.MaxCode1 <<< 1) % 65536
                           RunningBits := P.RunningBits + 1 }, Code)
      else (TGIF_OK, P, Code)
    else (TGIF_OK, P, Code)

/-- The function `TDGifGetInfo`; `Info = none` is the null pointer. -/
def TDGifGetInfo (TGif : Nat → Nat) (Info : Option TGifInfo) (MaxW MaxH MaxSz : Nat) :
    Nat × Option TGifInfo :=
  match Info with
  | none => (TGIF_ERROR, none)
  | some Info =>
    if MaxSz < 8 then (TGIF_ERROR, some { Info with Error := D_TGIF_ERR_MAXSZ })
    else
      let ExtBits := TDGifReadByte TGif 0
      let Width := TDGifReadByte TGif 1 ||| ((ExtBits &&& 0xC) <<< 6)
      let Height := TDGifReadByte TGif 2 ||| ((ExtBits &&& 0x3) <<< 8)
      let ColorCount := TDGifReadByte TGif 3
      let ColorCount := if ColorCount = 0 then 256 else ColorCount
      let SRAMLimit := (ExtBits &&& 0xF0) <<< 4
      let SRAMLimit := if SRAMLimit = 0 then 4096 else SRAMLimit
      let Info := { Info with Width := Width, Height := Height
                              ColorCount := ColorCount, SRAMLimit := SRAMLimit }
      if Width = 0 ∨ Height = 0 then
        (TGIF_ERROR, some { Info with Error := D_TGIF_ERR_ZWH })
      else if Width > MaxW ∨ Height > MaxH then
        (TGIF_ERROR, some { Info with Error := D_TGIF_ERR_TOOBIG })
      else
        let Info := { Info with Colors := fun i => TGif (4 + i) }
        let ColorTableSize := 2 * ColorCount
        let Info := { Info with Data := fun i => TGif (4 + ColorTableSize + i) }
        if MaxSz < 6 + ColorTableSize then
          (TGIF_ERROR, some { Info with Error := D_TGIF_ERR_MAXSZ })
        else
          (TGIF_OK, some { Info with MaxSz := MaxSz - (ColorTableSize + 4), Error := 0 })

namespace Dec

/-- The loop of `BitSize` in `tdgif_lib.c`, `k` iterations left. -/
def BitSizeLoop (n : Nat) : Nat → Nat → Nat → Nat
  | 0, i, _ => i
  | k + 1, i, shv => if shv > n then i else BitSizeLoop n k (i + 1) ((shv <<< 1) % 65536)

/-- The function `BitSize` of `tdgif_lib.c`. -/
def BitSize (n : Nat) : Nat := BitSizeLoop n 12 1 2

end Dec

/-- The cell `a - b` of an array of `n` cells, when that index is in `[0, n)`. -/
def cell (n a b : Nat) : Option Nat := if b ≤ a ∧ a - b < n then some (a - b) else none

/-- The loop of `TDGifGetPrefixChar` with `k = LZ_MAX_CODE + 1 - i` passes
left before `i++ <= LZ_MAX_CODE` fails.  `none`: `Prefix` is read outside
its bounds. -/
def prefixCharLoop (P : TDGifPrivateType) (ClearCode : Nat) : Nat → Nat → Option Nat
  | 0, Code => some Code
  | k + 1, Code =>
    if Code > ClearCode then
      if Code > P.MaxCodePoint then some NO_SUCH_CODE
      else
        match cell P.DictSize Code P.DictBase with
        | none => none
        | some j => prefixCharLoop P ClearCode k (P.Prefix j)
    else some Code

/-- The function `TDGifGetPrefixChar`. -/
def TDGifGetPrefixChar (P : TDGifPrivateType) (Code ClearCode : Nat) : Option Nat :=
  prefixCharLoop P ClearCode (LZ_MAX_CODE + 1) Code

/-- The locals of `TDGifDecompress` that live across its loop, and the
arguments of the calls of `OutputCB` so far. -/
structure DState where
  Private : TDGifPrivateType
  Suffix : Nat → Nat
  Stack : Nat → Nat
  LastCode : Nat
  StackPtr : Nat
  i : Nat
  Out : List Nat

/-- How a pass of the loop of `TDGifDecompress`, or the function, ends. -/
inductive DResult where
  /-- The pass is over and the loop goes on. -/
  | next (s : DState)
  /-- The statement `return r`. -/
  | ret (r : Nat) (s : DState)
  /-- An array is accessed outside its bounds. -/
  | fault (s : DState)
  /-- The fuel of the model ran out. -/
  | fuel (s : DState)

/-- The state a result carries. -/
def DResult.state : DResult → DState
  | .next s => s
  | .ret _ s => s
  | .fault s => s
  | .fuel s => s

/-- The trace loop `while (StackPtr < DictSize && CrntPrefix > ClearCode &&
CrntPrefix <= MaxCodePoint)`, called with `k = DictSize - StackPtr`.
Result: `Stack`, `StackPtr`, `CrntPrefix`. -/
def traceLoop (P : TDGifPrivateType) (Suffix : Nat → Nat) (ClearCode : Nat) :
    Nat → (Nat → Nat) → Nat → Nat → Option ((Nat → Nat) × Nat × Nat)
  | 0, Stack, StackPtr, CrntPrefix => some (Stack, StackPtr, CrntPrefix)
  | k + 1, Stack, StackPtr, CrntPrefix =>
    if CrntPrefix > ClearCode ∧ CrntPrefix ≤ P.MaxCodePoint then
      match cell P.DictSize StackPtr 0, cell P.DictSize CrntPrefix P.DictBase with
      | some t, some j =>
        traceLoop P Suffix ClearCode k
          (fun x => if x = t then Suffix j else Stack x) (StackPtr + 1) (P.Prefix j)
      | _, _ => none
    else some (Stack, StackPtr, CrntPrefix)

/-- The loop `while (StackPtr != 0 && i < PixelCount)`.  Result: `StackPtr`,
`i`, the output. -/
def popLoop (PixelCount DictSize : Nat) (Stack : Nat → Nat) :
    Nat → Nat → List Nat → Option (Nat × Nat × List Nat)
  | 0, i, Out => some (0, i, Out)
  | sp + 1, i, Out =>
    if i < PixelCount then
      match cell DictSize sp 0 with
      | some t => popLoop PixelCount DictSize Stack sp (i + 1) (Out ++ [Stack t % 256])
      | none => none
    else some (sp + 1, i, Out)

/-- The dictionary update at the end of a pass of the loop of
`TDGifDecompress` (the statement `if (LastCode != NO_SUCH_CODE && ...)`),
followed by `LastCode = CrntCode`. -/
def decodeUpdate (s : DState) (CrntCode ClearCode : Nat) : DResult :=
  let P := s.Private
  if s.LastCode ≠ NO_SUCH_CODE then
    match cell P.DictSize (P.RunningCode - 2) P.DictBase with
    | none => .fault s
    | some j =>
      if P.RunningCode < 2 then .fault s
      else if P.Prefix j = NO_SUCH_CODE then
        let P := { P with Prefix := fun x => if x = j then s.LastCode else P.Prefix x }
        match TDGifGetPrefixChar P
            (if CrntCode = P.RunningCode - 2 then s.LastCode else CrntCode) ClearCode with
        | none => .fault s
        | some c =>
          .next { s with Private := P
                         Suffix := fun x => if x = j then c % 256 else s.Suffix x
                         LastCode := CrntCode }
      else .next { s with LastCode := CrntCode }
  else .next { s with LastCode := CrntCode }

/-- The start of the `else` branch of `if (CrntCode < ClearCode)`: the choice
of `CrntPrefix` and, when `Prefix[CrntCode - DictBase]` is `NO_SUCH_CODE`, the
first push on the stack.  `none`: an array is accessed outside its bounds. -/
def traceFirst (s : DState) (CrntCode ClearCode : Nat) : Option (DState × Nat) :=
  let P := s.Private
  match cell P.DictSize CrntCode P.DictBase with
  | none => none
  | some j =>
    if P.Prefix j = NO_SUCH_CODE then
      match TDGifGetPrefixChar P
          (if CrntCode = P.RunningCode - 2 then s.LastCode else CrntCode) ClearCode,
        cell P.DictSize s.StackPtr 0, cell P.DictSize (P.RunningCode - 2) P.DictBase with
      | some c, some t, some u =>
        if P.RunningCode < 2 then none
        else
          some ({ s with Stack := fun x => if x = t then c % 256 else s.Stack x
                         StackPtr := s.StackPtr + 1
                         Suffix := fun x => if x = u then c % 256 else s.Suffix x },
                s.LastCode)
      | _, _, _ => none
    else some (s, CrntCode)

/-- The `else` branch of `if (CrntCode < ClearCode)`: a code to be traced. -/
def decodeTrace (PixelCount : Nat) (s : DState) (CrntCode ClearCode : Nat) : DResult :=
  match traceFirst s CrntCode ClearCode with
  | none => .fault s
  | some (s, CrntPrefix) =>
    let P := s.Private
    match traceLoop P s.Suffix ClearCode (P.DictSize - s.StackPtr) s.Stack s.StackPtr
        CrntPrefix with
    | none => .fault s
    | some (Stack, StackPtr, CrntPrefix) =>
      let s := { s with Stack := Stack, StackPtr := StackPtr }
      if StackPtr ≥ P.DictSize ∨ CrntPrefix > P.MaxCodePoint then
        .ret TGIF_ERROR
          { s with Private :=
              { P with Info := { P.Info with Error := D_TGIF_ERR_IMAGE_DEFECT } } }
      else
        match popLoop PixelCount P.DictSize Stack StackPtr (s.i + 1)
            (s.Out ++ [CrntPrefix % 256]) with
        | none => .fault s
        | some (StackPtr, i, Out) =>
          decodeUpdate { s with StackPtr := StackPtr, i := i, Out := Out } CrntCode ClearCode

/-- One pass of the loop `while (i < PixelCount)` of `TDGifDecompress`. -/
def decodeBody (PixelCount CodeCount : Nat) (s : DState) : DResult :=
  match TDGifDecompressInput s.Private with
  | (r, P, CrntCode) =>
    let s := { s with Private := P }
    if r = TGIF_ERROR then .ret TGIF_ERROR s
    else
      let ClearCode := P.ClearCode
      if CrntCode = ClearCode then
        .next { s with
                Private :=
                  { P with Prefix := fun j => if j < P.DictSize then NO_SUCH_CODE else P.Prefix j
                           RunningCode := CodeCount + 1
                           RunningBits := P.InitCodeBits
                           MaxCode1 := (1 <<< P.InitCodeBits) % 65536 }
                LastCode := NO_SUCH_CODE }
      else if CrntCode < ClearCode then
        decodeUpdate { s with Out := s.Out ++ [CrntCode % 256], i := s.i + 1 } CrntCode ClearCode
      else decodeTrace PixelCount s CrntCode ClearCode

/-- The loop `while (i < PixelCount)` of `TDGifDecompress` with fuel. -/
def decodeLoop (PixelCount CodeCount : Nat) : Nat → DState → DResult
  | 0, s => if s.i < PixelCount then .fuel s else .ret TGIF_OK s
  | k + 1, s =>
    if s.i < PixelCount then
      match decodeBody PixelCount CodeCount s with
      | .next s => decodeLoop PixelCount CodeCount k s
      | r => r
    else .ret TGIF_OK s

/-- The state of `TDGifDecompress` when it enters its loop.  `Suffix` and
`Stack` come from `malloc`; their cells are written before they are used. -/
def decodeInit (Info : TGifInfo) : DState :=
  let CodeCount := TDGifReadByte Info.Data 0
  let CodeCount := if CodeCount = 0 then 256 else CodeCount
  let DictBase := CodeCount + 1
  let DictSize := Info.SRAMLimit / 4
  let DictSize := if DictSize + DictBase > LZ_MAX_CODE + 1
                  then LZ_MAX_CODE + 1 - DictBase else DictSize
  let MaxCodePoint := (DictBase + DictSize - 1) % 65536
  let InitCodeBits := Dec.BitSize (CodeCount + 1)
  { Private :=
      { Info := Info
        Prefix := fun _ => NO_SUCH_CODE
        ReadOffset := 1
        ClearCode := CodeCount
        RunningCode := CodeCount + 1
        MaxCode1 := (1 <<< InitCodeBits) % 65536
        MaxCodePoint := MaxCodePoint
        DictBase := DictBase
        DictSize := DictSize
        CrntShiftDWord := 0
        RunningBits := InitCodeBits
        InitCodeBits := InitCodeBits
        MaxCodeBits := Dec.BitSize MaxCodePoint
        CrntShiftState := 0 }
    Suffix := fun _ => 0
    Stack := fun _ => 0
    LastCode := NO_SUCH_CODE
    StackPtr := 0
    i := 0
    Out := [] }

/-- The function `TDGifDecompress`.  `alloc` tells whether `ALLOC` returns a
block; `s.Out` lists the arguments of the calls of `OutputCB`.  Each pass of
the loop takes at least two bits from the `MaxSz` bytes of data, hence the
fuel. -/
def TDGifDecompress (Info : TGifInfo) (alloc : Bool) : DResult :=
  let s := decodeInit Info
  if alloc = false then
    .ret TGIF_ERROR
      { s with Private :=
          { s.Private with Info := { Info with Error := D_TGIF_ERR_NOT_ENOUGH_MEM } } }
  else
    decodeLoop ((Info.Width * Info.Height) % 2 ^ 32) s.Private.ClearCode
      (4 * Info.MaxSz + 1) s

/-- The bits of the data that the reader has not handed out yet: 8 for every
byte below `MaxSz` still to read, and those in the accumulator. -/
def bitsLeft (P : TDGifPrivateType) : Nat :=
  8 * (P.Info.MaxSz - P.ReadOffset) + P.CrntShiftState

/-! ## The callers: `convert.c` and `testdec.c` -/

/-- The encoder calls of `main` in `convert.c`: a new handle, then
`TEGifPutScreenDesc`, then one `TEGifPutLine` with all the pixels. -/
def convert (Width Height : Nat) (ColorMap : TColorMapObject) (SRAMLimit : Nat)
    (Pixels : List Nat) : Option (Nat × TGifFileType) :=
  match TEGifPutScreenDesc TEGifOpenFileName Width Height (some ColorMap) SRAMLimit with
  | (r, G) => if r = TGIF_ERROR then some (r, G) else TEGifPutLine G Pixels

/-- The bytes of a file as the buffer the decoder is given. -/
def bufferOf (file : List Nat) : Nat → Nat := fun i => file.getD i 0

/-- The zeroed `static TGifInfo Info` of `testdec.c`. -/
def zeroInfo : TGifInfo :=
  { Width := 0, Height := 0, SRAMLimit := 0, ColorCount := 0
    Colors := fun _ => 0, Data := fun _ => 0, Error := 0, MaxSz := 0 }

/-- The decoder calls of `main` in `testdec.c` on a file of less than 65536
bytes: `TDGifGetInfo` with bounds 1023, 1023 and the file length, then
`TDGifDecompress`.  Result: return value, `Info.Error`, the arguments of the
calls of `Output`; `none` for a fault or spent fuel. -/
def testdec (file : List Nat) : Option (Nat × Nat × List Nat) :=
  match TDGifGetInfo (bufferOf file) (some zeroInfo) 1023 1023 file.length with
  | (_, none) => none
  | (r, some Info) =>
    if r = TGIF_ERROR then some (r, Info.Error, [])
    else
      match TDGifDecompress Info true with
      | .ret r s => some (r, s.Private.Info.Error, s.Out)
      | _ => none

/-! ## Header fields as the format lays them out -/

/-- Width field of a header: low byte `b[1]`, bits 9..8 from bits 3..2 of `b[0]`. -/
def headerWidth (b : Nat → Nat) : Nat :=
  TDGifReadByte b 1 ||| ((TDGifReadByte b 0 &&& 0x0C) <<< 6)

/-- Height field of a header: low byte `b[2]`, bits 9..8 from bits 1..0 of `b[0]`. -/
def headerHeight (b : Nat → Nat) : Nat :=
  TDGifReadByte b 2 + 256 * (TDGifReadByte b 0 % 4)

/-- Colour count of a header: `b[3]`, with 0 standing for 256. -/
def headerColorCount (b : Nat → Nat) : Nat :=
  if TDGifReadByte b 3 = 0 then 256 else TDGifReadByte b 3

/-- SRAM limit of a header: `(b[0] & 0xF0) << 4`, with 0 standing for 4096. -/
def headerSRAMLimit (b : Nat → Nat) : Nat :=
  if (TDGifReadByte b 0 &&& 0xF0) <<< 4 = 0 then 4096 else (TDGifReadByte b 0 &&& 0xF0) <<< 4

/-- The bytes `TEGifPutScreenDesc` writes on a new handle. -/
def screenDescBytes (W H S : Nat) (ColorMap : TColorMapObject) : List Nat :=
  [((S &&& 0xFF00) >>> 4 &&& 0xF0) ||| (W >>> 6 &&& 0x0C) ||| (H >>> 8 &&& 0x03),
    W % 256, H % 256, ColorMap.ColorCount % 256] ++ colorBytes ColorMap
    ++ [ColorMap.ColorCount % 256]

/-- The file `convert` leaves when both encoder calls return `TGIF_OK`. -/
def convertFile (Width Height : Nat) (ColorMap : TColorMapObject) (SRAMLimit : Nat)
    (Pixels : List Nat) : Option (List Nat) :=
  match convert Width Height ColorMap SRAMLimit Pixels with
  | some (r, G) => if r = TGIF_OK then some G.Private.File else none
  | none => none

/-- The codes `convert` writes, from the log of `TEGifCompressOutput`. -/
def convertCodes (Width Height : Nat) (ColorMap : TColorMapObject) (SRAMLimit : Nat)
    (Pixels : List Nat) : Option (List (Nat × Nat)) :=
  match convert Width Height ColorMap SRAMLimit Pixels with
  | some (r, G) => if r = TGIF_OK then some G.Private.Log else none
  | none => none

/-! ## Sample inputs -/

/-- A palette of 63 colours. -/
def palette63 : TColorMapObject := { ColorCount := 63, Colors := fun i => i }

/-- The pixels of a 66x1 image over 63 colours: 0, 1, ..., 62, 1, 3, 5. -/
def pixels66 : List Nat := List.range 63 ++ [1, 3, 5]


/-- The file of a 2x1 image with two colours, pixels 0 1, SRAM limit 256. -/
def sample2x1 : List Nat := [16, 2, 1, 2, 0, 0, 1, 1, 2, 4]

/-- What `TDGifGetInfo` makes of `sample2x1` with `maxSz = 10`. -/
def sample2x1Info : TGifInfo :=
  { Width := 2, Height := 1, SRAMLimit := 256, ColorCount := 2
    Colors := fun i => bufferOf sample2x1 (4 + i)
    Data := fun i => bufferOf sample2x1 (4 + 2 * 2 + i)
    Error := 0, MaxSz := 2 }

/-! ## The bit stream: writer and reader over a width schedule -/

/-- Little-endian value of a list of bytes. -/
def leValue : List Nat → Nat
  | [] => 0
  | b :: bs => b + 256 * leValue bs

/-- The value of codes laid out from bit 0 upwards, each `(code, width)` right
above the one before. -/
def bitsValue : List (Nat × Nat) → Nat
  | [] => 0
  | (c, w) :: cs => c + 2 ^ w * bitsValue cs

/-- Sum of the widths of a schedule. -/
def totalBits : List (Nat × Nat) → Nat
  | [] => 0
  | (_, w) :: cs => w + totalBits cs

/-- The writer of `TEGifCompressOutput` over the pairs `(code, width)`, then
its final flush (`Code == FLUSH_OUTPUT`). -/
def packSeq (P : TGifFilePrivateType) : List (Nat × Nat) → TGifFilePrivateType
  | [] => flushCode P
  | (c, w) :: cs => packSeq (packCode P c w) cs

/-- The reader of `TDGifDecompressInput` over a schedule of widths; `none`
when a read returns `TGIF_ERROR`. -/
def unpackSeq (Q : TDGifPrivateType) : List Nat → Option (List Nat)
  | [] => some []
  | w :: ws =>
    match unpackCode Q w with
    | (r, Q, c) =>
      if r = TGIF_ERROR then none
      else
        match unpackSeq Q ws with
        | none => none
        | some l => some (c :: l)

/-- The bytes `rem` are what the reader state `Q` finds next in its data,
inside the declared size. -/
def Feeds (Q : TDGifPrivateType) (rem : List Nat) : Prop :=
  (∀ i, i < rem.length → TDGifReadByte Q.Info.Data (Q.ReadOffset + i) = rem.getD i 0) ∧
  Q.ReadOffset + rem.length ≤ Q.Info.MaxSz

/-- For the state at the top of a pass of the loop of `TDGifDecompress` whose
code is traced: `DictSize`, and `StackPtr` before and after the trace loop
of that pass. -/
def tracePasses (s : DState) : Option (Nat × Nat × Nat) :=
  match TDGifDecompressInput s.Private with
  | (r, P, CrntCode) =>
    if r = TGIF_ERROR ∨ CrntCode ≤ P.ClearCode then none
    else
      match traceFirst { s with Private := P } CrntCode P.ClearCode with
      | none => none
      | some (s1, CrntPrefix) =>
        match traceLoop s1.Private s1.Suffix P.ClearCode (s1.Private.DictSize - s1.StackPtr)
            s1.Stack s1.StackPtr CrntPrefix with
        | none => none
        | some (_, StackPtr, _) => some (s1.Private.DictSize, s1.StackPtr, StackPtr)

/-- What holds of the code widths of the decoder all along. -/
def WidthsOk (P : TDGifPrivateType) : Prop :=
  2 ≤ P.RunningBits ∧ P.RunningBits ≤ 13 ∧ 2 ≤ P.InitCodeBits ∧ P.InitCodeBits ≤ 13 ∧
  P.MaxCodeBits ≤ 13

/-- A file with a corrupt code stream: 8x1, one colour, SRAM limit 256, codes
0, 3, 0 (2 bits each), 3 (3 bits). -/
def sampleCycle : List Nat := [16, 8, 1, 1, 0, 0, 1, 0xCC, 0x00]

/-- What `TDGifGetInfo` makes of `sampleCycle` with `maxSz = 9`. -/
def sampleCycleInfo : TGifInfo :=
  { Width := 8, Height := 1, SRAMLimit := 256, ColorCount := 1
    Colors := fun i => bufferOf sampleCycle (4 + i)
    Data := fun i => bufferOf sampleCycle (4 + 2 * 1 + i)
    Error := 0, MaxSz := 3 }

/-! ## Encoder invariant -/

/-- A cell of the hash table that holds an entry (its key is not the all-ones
mark of a free cell). -/
def Occupied (HTable : TGifHashTableType) (i : Nat) : Prop :=
  HT_GET_KEY (HTable i) ≠ 0xFFFFF

/-- What holds of the encoder between two pixels, for the clear code `CC` and
the limit `M` on `RunningCode`; `CrntCode` is the local of
`TEGifCompressLine`. -/
def EncInv (CC M : Nat) (G : TGifFileType) (CrntCode : Nat) : Prop :=
  G.Private.ClearCode = CC ∧ G.Private.MaxCodePoint = M ∧
  CC + 1 ≤ G.Private.RunningCode ∧ G.Private.RunningCode ≤ M ∧ M ≤ LZ_MAX_CODE ∧
  CrntCode < G.Private.RunningCode ∧
  (∀ i, Occupied G.Private.HashTable i → HT_GET_CODE (G.Private.HashTable i) < G.Private.RunningCode) ∧
  (∃ L : List Nat, L.length + CC + 1 ≤ G.Private.RunningCode ∧
    ∀ i, Occupied G.Private.HashTable i → i ∈ L) ∧
  (∀ p ∈ G.Private.Log, p.1 < M)

/-- The fields of the encoder state that the byte output leaves alone. -/
def codecFields (P : TGifFilePrivateType) :
    Nat × Nat × Nat × Nat × Nat × Nat × Nat × Nat × Nat × Nat × TGifHashTableType
      × List (Nat × Nat) :=
  (P.FileState, P.ColorCount, P.InitCodeBits, P.ClearCode, P.RunningCode, P.RunningBits,
    P.MaxCode1, P.MaxCodePoint, P.CrntCode, P.PixelCount, P.HashTable, P.Log)

/-- Calls of `TEGifPutLine` one after the other, one per chunk, up to the
first that returns `TGIF_ERROR`. -/
def putLines : TGifFileType → List (List Nat) → Option (Nat × TGifFileType)
  | G, [] => some (TGIF_OK, G)
  | G, l :: ls =>
    match TEGifPutLine G l with
    | none => none
    | some (r, G') => if r = TGIF_ERROR then some (r, G') else putLines G' ls

/-- The encoder state with other values in `PixelCount` and `CrntCode`, the
two fields the loop of `TEGifCompressLine` neither reads nor writes. -/
def reCountP (P : TGifFilePrivateType) (n x : Nat) : TGifFilePrivateType :=
  { P with PixelCount := n, CrntCode := x }

/-- The handle with other values in `PixelCount` and `CrntCode`. -/
def reCount (G : TGifFileType) (n x : Nat) : TGifFileType :=
  { G with Private := reCountP G.Private n x }

/-! ## Calls of the encoder API one after the other -/

/-- A call of the encoder API on an open handle. -/
inductive EncCall where
  /-- The call `TEGifPutScreenDesc(GifFile, Width, Height, ColorMap, SRAMLimit)`. -/
  | screenDesc (Width Height : Nat) (ColorMap : Option TColorMapObject) (SRAMLimit : Nat)
  /-- The call `TEGifPutLine(GifFile, Line, LineLen)`. -/
  | line (Line : List Nat)

/-- The handle after a call, whatever the call returns; `none` when the call
does not return. -/
def encCall (G : TGifFileType) : EncCall → Option TGifFileType
  | .screenDesc Width Height ColorMap SRAMLimit =>
    some (TEGifPutScreenDesc G Width Height ColorMap SRAMLimit).2
  | .line Line => (TEGifPutLine G Line).map Prod.snd

/-- The handle after a sequence of calls. -/
def encCalls : TGifFileType → List EncCall → Option TGifFileType
  | G, [] => some G
  | G, c :: cs =>
    match encCall G c with
    | none => none
    | some G' => encCalls G' cs

/-- A palette of two colours. -/
def palette2 : TColorMapObject := { ColorCount := 2, Colors := fun i => if i = 0 then 0xF800 else 0x07E0 }

/-- The handle after `TEGifPutScreenDesc` for a 2x1 image over `palette2` with
SRAM limit 256 on a new handle. -/
def handle2x1 : TGifFileType :=
  (TEGifPutScreenDesc TEGifOpenFileName 2 1 (some palette2) 256).2

/-- The handle `handle2x1` after `TEGifPutLine` with the pixel 0 alone. -/
def handle2x1Line : TGifFileType :=
  { handle2x1 with
    Private := { handle2x1.Private with PixelCount := 1, CrntCode := 0 } }

/-- A palette with the one colour `0xF800`. -/
def palette1 : TColorMapObject := { ColorCount := 1, Colors := fun _ => 0xF800 }

/-- A colour map with no colour in it. -/
def palette0 : TColorMapObject := { ColorCount := 0, Colors := fun _ => 0 }

/-- A buffer of 24 bytes: `00 0A 14 00`, then 20 bytes for a palette. -/
def sampleHeaderOnly : List Nat := [0x00, 0x0A, 0x14, 0x00] ++ List.replicate 20 0

/-- What holds of `MaxCodeUsed` between two pixels, for the limit `M` on
`RunningCode`: either no `CLEAR` has been written and every code written is
below `RunningCode`, or `MaxCodeUsed` is `M`. -/
def UsedInv (M : Nat) (G : TGifFileType) : Prop :=
  (∀ p ∈ G.Private.Log, p.1 < G.Private.RunningCode) ∨ G.MaxCodeUsed = M

/-! ## The dictionary both coders build, as a list

Entry `j` of the list is the pair (prefix code, suffix pixel) that stands
behind the code `CC + 1 + j`, with `CC` the clear code. -/

/-- Prefix code of the dictionary code `c`. -/
def dictPrefix (CC : Nat) (D : List (Nat × Nat)) (c : Nat) : Nat :=
  (D.getD (c - (CC + 1)) (0, 0)).1

/-- Suffix pixel of the dictionary code `c`. -/
def dictSuffix (CC : Nat) (D : List (Nat × Nat)) (c : Nat) : Nat :=
  (D.getD (c - (CC + 1)) (0, 0)).2

/-- The suffix pixels met on the way from the code `c` down its prefixes to a
pixel, in that order; `f` bounds the number of steps. -/
def codeChain (CC : Nat) (D : List (Nat × Nat)) : Nat → Nat → List Nat
  | 0, _ => []
  | f + 1, c =>
    if c > CC then dictSuffix CC D c :: codeChain CC D f (dictPrefix CC D c) else []

/-- The pixel at the end of the prefixes of the code `c`. -/
def codeRoot (CC : Nat) (D : List (Nat × Nat)) : Nat → Nat → Nat
  | 0, c => c
  | f + 1, c => if c > CC then codeRoot CC D f (dictPrefix CC D c) else c

/-- First pixel of the string of the code `c`. -/
def codeFirst (CC : Nat) (D : List (Nat × Nat)) (c : Nat) : Nat := codeRoot CC D (c + 1) c

/-- The string of pixels the code `c` stands for. -/
def codeString (CC : Nat) (D : List (Nat × Nat)) (c : Nat) : List Nat :=
  codeFirst CC D c :: (codeChain CC D (c + 1) c).reverse

/-- Every prefix code is older than the code it stands behind. -/
def DictOk (CC : Nat) (D : List (Nat × Nat)) : Prop :=
  ∀ j < D.length, (D.getD j (0, 0)).1 < CC + 1 + j

/-- The width in bits of the `k`-th code of a stream (from 0) while the
dictionary grows by one entry per code: `BitSize(CC + 1)` at the start, one
more after each code written with `RunningCode >= MaxCode1`. -/
def widthAt (CC : Nat) : Nat → Nat
  | 0 => Enc.BitSize (CC + 1)
  | k + 1 => if CC + 1 + k ≥ 2 ^ widthAt CC k then widthAt CC k + 1 else widthAt CC k

/-- The bytes the encoder has put out after the first `hdr` (in the file or
still in `Buf`) and the bits in its accumulator hold, from bit 0 upwards, the
codes of the log at their widths. -/
def StreamInv (hdr : List Nat) (P : TGifFilePrivateType) : Prop :=
  ∃ bs, P.File ++ P.Buf = hdr ++ bs ∧ (∀ b ∈ bs, b < 256) ∧ P.CrntShiftState < 8 ∧
    P.CrntShiftDWord < 2 ^ P.CrntShiftState ∧
    8 * bs.length + P.CrntShiftState = totalBits P.Log ∧
    leValue bs + 2 ^ (8 * bs.length) * P.CrntShiftDWord = bitsValue P.Log

/-- The codes `cs` written so far and the current code `c` fit the dictionary
list `D`: one entry per code written, entry `j` made of the `j`-th code and
the first pixel of the string of the next one. -/
structure CodesOk (CC : Nat) (D : List (Nat × Nat)) (cs : List Nat) (c : Nat) : Prop where
  len : cs.length = D.length
  cur : c < CC + 1 + D.length ∧ c ≠ CC
  ent : ∀ j < D.length,
    (D.getD j (0, 0)).1 = cs.getD j 0 ∧
    (D.getD j (0, 0)).1 < CC + 1 + j ∧ (D.getD j (0, 0)).1 ≠ CC ∧
    (D.getD j (0, 0)).2 < CC ∧
    (D.getD j (0, 0)).2 = codeFirst CC D ((cs ++ [c]).getD (j + 1) 0)

/-- The pixels the codes `cs` stand for, one string after the other. -/
def codesString (CC : Nat) (D : List (Nat × Nat)) (cs : List Nat) : List Nat :=
  (cs.map (codeString CC D)).flatten

/-- What links the encoder state between two pixels to the dictionary list
`D` and the list `cs` of the codes written, while no CLEAR has been written:
the hash table holds entries of `D` only, the log holds `cs` at the widths of
the schedule. -/
structure LzwInv (CC : Nat) (D : List (Nat × Nat)) (cs : List Nat) (G : TGifFileType) :
    Prop where
  rc : G.Private.RunningCode = CC + 1 + D.length
  log : G.Private.Log.map Prod.fst = cs
  ht : ∀ i, Occupied G.Private.HashTable i → ∃ j < D.length,
    G.Private.HashTable i
      = HT_PUT_KEY (((D.getD j (0, 0)).1 <<< 8) + (D.getD j (0, 0)).2)
        ||| HT_PUT_CODE (CC + 1 + j)
  bits : G.Private.RunningBits = widthAt CC D.length
  max1 : G.Private.MaxCode1 = 2 ^ G.Private.RunningBits
  widths : G.Private.Log.map Prod.snd = (List.range D.length).map (widthAt CC)

/-- The fields of the decoder state that reading bits leaves alone. -/
def dictFields (P : TDGifPrivateType) :
    (Nat → Nat) × Nat × Nat × Nat × Nat × Nat × Nat × Nat × Nat × Nat :=
  (P.Prefix, P.ClearCode, P.RunningCode, P.MaxCode1, P.MaxCodePoint, P.DictBase, P.DictSize,
    P.RunningBits, P.InitCodeBits, P.MaxCodeBits)

/-- The reader has taken `a` bits of a stream of `T` bits whose value is `V`:
what is left of the value is in the accumulator and in the bytes up to
`MaxSz`. -/
def ReadInv (V T a : Nat) (Q : TDGifPrivateType) : Prop :=
  ∃ rem, Feeds Q rem ∧ Q.ReadOffset + rem.length = Q.Info.MaxSz ∧ Q.CrntShiftState < 8 ∧
    Q.CrntShiftDWord < 2 ^ Q.CrntShiftState ∧
    Q.CrntShiftState + 8 * rem.length + a = T ∧
    Q.CrntShiftDWord + 2 ^ Q.CrntShiftState * leValue rem = V / 2 ^ a

/-- The whole list `cs` of the codes of a stream fits the dictionary list
`D`: the `k`-th code is at most `CC + k` and is not the clear code, and entry
`j` of `D` is made of the `j`-th code and the first pixel of the next. -/
structure StreamOk (CC : Nat) (D : List (Nat × Nat)) (cs : List Nat) : Prop where
  len : cs.length = D.length + 1
  code : ∀ k < cs.length, cs.getD k 0 ≤ CC + k ∧ cs.getD k 0 ≠ CC
  ent : ∀ j < D.length,
    D.getD j (0, 0) = (cs.getD j 0, codeFirst CC D (cs.getD (j + 1) 0)) ∧
    (D.getD j (0, 0)).2 < CC

/-- The state of `TDGifDecompress` at the top of its loop after `k` codes of
a stream of the encoder (`a` bits): the arrays hold the first `k - 1` entries
of the dictionary list, the widths follow the schedule, and the strings of
the codes read have gone out. -/
structure DecInv (CC Dsz : Nat) (D : List (Nat × Nat)) (cs : List Nat) (Info : TGifInfo)
    (V T k a : Nat) (s : DState) : Prop where
  info : s.Private.Info = Info
  cc : s.Private.ClearCode = CC
  base : s.Private.DictBase = CC + 1
  size : s.Private.DictSize = Dsz
  maxp : s.Private.MaxCodePoint = CC + Dsz
  maxb : s.Private.MaxCodeBits = Dec.BitSize (CC + Dsz)
  rc : s.Private.RunningCode = CC + 1 + k
  bits : s.Private.RunningBits = widthAt CC k
  max1 : s.Private.MaxCode1 = 2 ^ widthAt CC k
  pre : ∀ j, s.Private.Prefix j = if j + 1 < k then (D.getD j (0, 0)).1 else NO_SUCH_CODE
  suf : ∀ j, j + 1 < k → s.Suffix j = (D.getD j (0, 0)).2
  last : s.LastCode = if k = 0 then NO_SUCH_CODE else cs.getD (k - 1) 0
  sp : s.StackPtr = 0
  out : s.Out = codesString CC D (cs.take k)
  cnt : s.i = s.Out.length
  read : ReadInv V T a s.Private

/-- The number of bits of the first `k` codes of a stream that follows the
width schedule. -/
def widthSum (CC : Nat) : Nat → Nat
  | 0 => 0
  | k + 1 => widthSum CC k + widthAt CC k

/-- The encoder state `P` with the bytes `h` in the file ahead of its own. -/
def prependFile (h : List Nat) (P : TGifFilePrivateType) : TGifFilePrivateType :=
  { P with File := h ++ P.File }

/-- The handle after `TEGifPutScreenDesc` on a new handle with the bytes it
wrote taken out of the file; the colours of the palette are in those bytes
only. -/
def startHandle (W H ColorCount S : Nat) : TGifFileType :=
  let G := (TEGifPutScreenDesc TEGifOpenFileName W H
    (some { ColorCount := ColorCount, Colors := fun _ => 0 }) S).2
  { G with Private := { G.Private with File := [] } }

/-- A palette of 16 colours. -/
def palette16 : TColorMapObject := { ColorCount := 16, Colors := fun i => 0x0841 * i }

/-- A line of 64 pixels over 16 colours. -/
def sample64x1 : List Nat := (List.range 64).map (fun i => (i * i + i / 3) % 16)

/-- The widths `RunningBits` with which the calls of `TDGifDecompressInput`
made by the loop of `TDGifDecompress` read their codes, call by call (what
the commented-out `printf("Co:%d/%d ", *Code, Private->RunningBits)` of that
function would print as second number). -/
def decodeWidths (PixelCount CodeCount : Nat) : Nat → DState → List Nat
  | 0, _ => []
  | k + 1, s =>
    if s.i < PixelCount then
      s.Private.RunningBits ::
        (match decodeBody PixelCount CodeCount s with
         | .next s' => decodeWidths PixelCount CodeCount k s'
         | _ => [])
    else []

/-- The widths the decoder reads its codes with when `testdec` runs on a
file; `none` when `TDGifGetInfo` fails. -/
def testdecWidths (file : List Nat) : Option (List Nat) :=
  match TDGifGetInfo (bufferOf file) (some zeroInfo) 1023 1023 file.length with
  | (_, none) => none
  | (r, some Info) =>
    if r = TGIF_ERROR then none
    else
      some (decodeWidths ((Info.Width * Info.Height) % 2 ^ 32) (decodeInit Info).Private.ClearCode
        (4 * Info.MaxSz + 1) (decodeInit Info))

/-- A line of 66 pixels over 16 colours in which no pair of neighbours occurs
twice: 16 steps of 1, 16 of 3, 16 of 5, 16 of 7 and one of 9, modulo 16. -/
def sample66x1 : List Nat := (List.range 66).map (fun i => (i % 16) * (2 * (i / 16) + 1) % 16)

/-- The number of codes of a log written after its last CLEAR code (all of
them when there is none). -/
def sinceClear (CC : Nat) (L : List (Nat × Nat)) : Nat :=
  L.foldl (fun n p => if p.1 = CC then 0 else n + 1) 0

/-- The value `x` clamped to `[lo, hi]`. -/
def clampBits (lo hi x : Nat) : Nat := max lo (min hi x)

/-- What links the widths of the encoder between two pixels to its log, CLEAR
codes included: `RunningCode` counts the codes since the last CLEAR, the width
is the one of the schedule at that count, and every code of the log was
written with the width of the schedule at its place after the CLEAR before
it (the number of codes between the two).  `c` is the local `CrntCode`. -/
structure WidthInv (CC : Nat) (G : TGifFileType) (c : Nat) : Prop where
  cur : c ≠ CC
  tab : ∀ i, Occupied G.Private.HashTable i → CC < HT_GET_CODE (G.Private.HashTable i)
  rc : G.Private.RunningCode = CC + 1 + sinceClear CC G.Private.Log
  bits : G.Private.RunningBits = widthAt CC (sinceClear CC G.Private.Log)
  max1 : G.Private.MaxCode1 = 2 ^ G.Private.RunningBits
  init : G.Private.InitCodeBits = widthAt CC 0
  log : ∀ k < G.Private.Log.length,
    (G.Private.Log.getD k (0, 0)).2 = widthAt CC (sinceClear CC (G.Private.Log.take k))

/-- The widths of the encoder fit `RunningCode`: `RunningBits` is
`ceil(log2(RunningCode))` clamped to `[InitCodeBits, BitSize(MaxCodePoint)]`
and `MaxCode1` is `1 << RunningBits`. -/
def EncBitsOk (P : TGifFilePrivateType) : Prop :=
  P.RunningBits
    = clampBits P.InitCodeBits (Enc.BitSize P.MaxCodePoint) (Nat.clog 2 P.RunningCode) ∧
  P.MaxCode1 = 1 <<< P.RunningBits

/-- The widths of the decoder fit `RunningCode`, as `EncBitsOk` for the
encoder. -/
def DecBitsOk (Q : TDGifPrivateType) : Prop :=
  Q.RunningBits
    = clampBits Q.InitCodeBits (Dec.BitSize Q.MaxCodePoint) (Nat.clog 2 Q.RunningCode) ∧
  Q.MaxCode1 = 1 <<< Q.RunningBits

/-- The fields of the decoder state that set the code widths. -/
def widthFields (Q : TDGifPrivateType) : Nat × Nat × Nat × Nat × Nat × Nat :=
  (Q.RunningCode, Q.MaxCode1, Q.MaxCodePoint, Q.RunningBits, Q.InitCodeBits, Q.MaxCodeBits)

/-- What the decoder keeps of its code widths from one pass of its loop to
the next; `CodeCount` is the local of `TDGifDecompress` of that name. -/
def DecWidthInv (CodeCount : Nat) (Q : TDGifPrivateType) : Prop :=
  DecBitsOk Q ∧ Q.MaxCodeBits = Dec.BitSize Q.MaxCodePoint ∧ Q.InitCodeBits ≤ 13 ∧
  CodeCount + 1 ≤ 2 ^ Q.InitCodeBits

/-- A run of `_InsertHashTable` over a list of pairs `(Key, Code)`, first to
last.  `none`: a probe loop does not end. -/
def insertMany : TGifHashTableType → List (Nat × Nat) → Option TGifHashTableType
  | T, [] => some T
  | T, p :: rest =>
    match _InsertHashTable T p.1 p.2 with
    | none => none
    | some T' => insertMany T' rest

/-- The table `T` holds the pairs of `kvs` and nothing else: every occupied
cell holds one of the pairs, every pair is in a cell on its probe path with
only occupied cells before it, the occupied cells are no more than the
pairs, and no key is the mark of a free cell. -/
structure TableInv (T : TGifHashTableType) (kvs : List (Nat × Nat)) : Prop where
  cells : ∀ i, Occupied T i → ∃ p ∈ kvs, T i = HT_PUT_KEY p.1 ||| HT_PUT_CODE p.2
  path : ∀ p ∈ kvs, ∃ d < 8192,
    T ((KeyItem p.1 + d) % 8192) = HT_PUT_KEY p.1 ||| HT_PUT_CODE p.2 ∧
    ∀ e < d, Occupied T ((KeyItem p.1 + e) % 8192)
  count : ∃ L : List Nat, L.length ≤ kvs.length ∧ ∀ i, Occupied T i → i ∈ L
  keys : ∀ p ∈ kvs, p.1 < 0xFFFFF

/-- The file the encoder writes for the 65x33 image of pixels 0 over
`palette2` with SRAM limit 256. -/
def file65x33 : List Nat :=
  [16, 65, 33, 2, 0, 248, 224, 7, 2, 204, 250, 152, 186, 220, 254, 48, 202, 73, 171, 189, 56,
    235, 205, 187, 255, 96, 40, 142, 100, 105, 158, 104, 170, 174, 108, 235, 190, 112, 44, 207,
    116, 109, 223, 120, 174, 239, 124, 239, 255, 192, 160, 16]

/-- What `TDGifGetInfo` makes of `file65x33` with `maxSz = 52`. -/
def info65x33 : TGifInfo :=
  { Width := 65, Height := 33, SRAMLimit := 256, ColorCount := 2
    Colors := fun i => bufferOf file65x33 (4 + i)
    Data := fun i => bufferOf file65x33 (4 + 2 * 2 + i)
    Error := 0, MaxSz := 44 }

/-- A file whose first code, 3 on 2 bits, is above the clear code: 1x1, two
colours, SRAM limit 256, code count byte 2. -/
def sampleFirstCode : List Nat := [16, 1, 1, 2, 0, 0, 0, 0, 2, 0x03]

/-- What `TDGifGetInfo` makes of `sampleFirstCode` with `maxSz = 10`. -/
def sampleFirstCodeInfo : TGifInfo :=
  { Width := 1, Height := 1, SRAMLimit := 256, ColorCount := 2
    Colors := fun i => bufferOf sampleFirstCode (4 + i)
    Data := fun i => bufferOf sampleFirstCode (4 + 2 * 2 + i)
    Error := 0, MaxSz := 2 }

/-- A file whose first code, 511 on 9 bits, is above `MaxCodePoint`: 1x1, one
colour, SRAM limit 256, code count byte 0 (256 codes). -/
def sampleHighCode : List Nat := [16, 1, 1, 1, 0, 0, 0, 0xFF, 0x01]

/-- What `TDGifGetInfo` makes of `sampleHighCode` with `maxSz = 9`. -/
def sampleHighCodeInfo : TGifInfo :=
  { Width := 1, Height := 1, SRAMLimit := 256, ColorCount := 1
    Colors := fun i => bufferOf sampleHighCode (4 + i)
    Data := fun i => bufferOf sampleHighCode (4 + 2 * 1 + i)
    Error := 0, MaxSz := 3 }

/-- The decoder state with other memory behind the pointers `Info->Colors`
and `Info->Data`. -/
def reDataP (P : TDGifPrivateType) (Colors Data : Nat → Nat) : TDGifPrivateType :=
  { P with Info := { P.Info with Colors := Colors, Data := Data } }

/-- The locals of `TDGifDecompress` with other memory behind `Info->Colors`
and `Info->Data`. -/
def reData (s : DState) (Colors Data : Nat → Nat) : DState :=
  { s with Private := reDataP s.Private Colors Data }

/-- A result with other memory behind `Info->Colors` and `Info->Data`. -/
def DResult.reData : DResult → (Nat → Nat) → (Nat → Nat) → DResult
  | .next s, C, D => .next (TinyGif.reData s C D)
  | .ret r s, C, D => .ret r (TinyGif.reData s C D)
  | .fault s, C, D => .fault (TinyGif.reData s C D)
  | .fuel s, C, D => .fuel (TinyGif.reData s C D)

/-- The bytes of `Data` agree with those behind `P.Info.Data` below
`P.Info.MaxSz`. -/
def AgreeData (P : TDGifPrivateType) (Data : Nat → Nat) : Prop :=
  ∀ i < P.Info.MaxSz, TDGifReadByte Data i = TDGifReadByte P.Info.Data i

/-! ## The decoder on the flat block of `ALLOC`

`TDGifDecompress` takes one block `Alloc` of `DictSize * 4` bytes and lays
three arrays over it: `Prefix = (uint16_t*)Alloc`, `Suffix = Alloc +
DictSize * 2`, `Stack = Alloc + DictSize * 3`.  The C code checks no index.
The definitions `traceFirst` .. `TDGifDecompress` above keep the three arrays
apart and end a run with `fault` at the first index outside `[0, DictSize)`;
they serve to exhibit such an index and to follow runs that have none.  The
definitions of this section follow the same statements with the arrays as
address arithmetic on one byte memory, as the compiled code has them: an
index outside `[0, DictSize)` reads or writes the neighbouring array, or the
memory around the block, and the run goes on.  There is no `fault` here.

`Mem a` is the byte at address `Alloc + a`, for `a` in the block (`0 ≤ a <
DictSize * 4`) and around it; 16-bit cells are little-endian (AVR, x86).  The
memory `mem` the run starts from, the block as `malloc` left it and what lies
around it, is a parameter, and the theorems hold for every `mem`.  The locals
of the function and the input buffer are not part of `Mem`. -/

namespace Flat

/-- The value of `Prefix[j]`: the 16-bit cell at bytes `2j`, `2j + 1`. -/
def readPrefix (Mem : Int → Nat) (j : Int) : Nat :=
  Mem (2 * j) % 256 + 256 * (Mem (2 * j + 1) % 256)

/-- The statement `Prefix[j] = v` for a `uint16_t` cell. -/
def writePrefix (Mem : Int → Nat) (j : Int) (v : Nat) : Int → Nat :=
  fun a => if a = 2 * j then v % 256 else if a = 2 * j + 1 then v / 256 % 256 else Mem a

/-- The value of `Suffix[j]`, at address `Alloc + DictSize * 2 + j`. -/
def readSuffix (DictSize : Nat) (Mem : Int → Nat) (j : Int) : Nat :=
  Mem (2 * DictSize + j) % 256

/-- The statement `Suffix[j] = v` for a `uint8_t` cell. -/
def writeSuffix (DictSize : Nat) (Mem : Int → Nat) (j : Int) (v : Nat) : Int → Nat :=
  fun a => if a = 2 * DictSize + j then v % 256 else Mem a

/-- The value of `Stack[j]`, at address `Alloc + DictSize * 3 + j`. -/
def readStack (DictSize : Nat) (Mem : Int → Nat) (j : Int) : Nat :=
  Mem (3 * DictSize + j) % 256

/-- The statement `Stack[j] = v` for a `uint8_t` cell. -/
def writeStack (DictSize : Nat) (Mem : Int → Nat) (j : Int) (v : Nat) : Int → Nat :=
  fun a => if a = 3 * DictSize + j then v % 256 else Mem a

/-- The loop `for (j = 0; j < n; j++) Prefix[j] = NO_SUCH_CODE`. -/
def fillPrefix (Mem : Int → Nat) : Nat → Int → Nat
  | 0 => Mem
  | n + 1 => writePrefix (fillPrefix Mem n) n NO_SUCH_CODE

/-- The loop of `TDGifGetPrefixChar` from the counter `i` and the code
`Code`.  Result: the value returned and the number of passes through the
body; `none`: the fuel of the model ran out. -/
def prefixCharLoop (P : TDGifPrivateType) (Mem : Int → Nat) (ClearCode : Nat) :
    Nat → Nat → Nat → Option (Nat × Nat)
  | 0, i, Code => if Code > ClearCode ∧ i ≤ LZ_MAX_CODE then none else some (Code, 0)
  | fuel + 1, i, Code =>
    if Code > ClearCode ∧ i ≤ LZ_MAX_CODE then
      if Code > P.MaxCodePoint then some (NO_SUCH_CODE, 1)
      else
        match prefixCharLoop P Mem ClearCode fuel (i + 1)
            (readPrefix Mem ((Code : Int) - P.DictBase)) with
        | some (c, n) => some (c, n + 1)
        | none => none
    else some (Code, 0)

/-- The function `TDGifGetPrefixChar`, with the number of passes of its loop. -/
def prefixCharRun (P : TDGifPrivateType) (Mem : Int → Nat) (Code ClearCode : Nat) :
    Option (Nat × Nat) :=
  prefixCharLoop P Mem ClearCode (LZ_MAX_CODE + 2) 0 Code

/-- The function `TDGifGetPrefixChar`. -/
def TDGifGetPrefixChar (P : TDGifPrivateType) (Mem : Int → Nat) (Code ClearCode : Nat) :
    Option Nat :=
  (prefixCharRun P Mem Code ClearCode).map Prod.fst

/-- The locals of `TDGifDecompress` that live across its loop, the memory,
and the arguments of the calls of `OutputCB` so far.  The field `Prefix` of
`Private` is not used here: the pointer it stands for is `Alloc`. -/
structure State where
  Private : TDGifPrivateType
  Mem : Int → Nat
  LastCode : Nat
  StackPtr : Nat
  i : Nat
  Out : List Nat

/-- How a pass of the loop of `TDGifDecompress`, or the function, ends. -/
inductive Result where
  /-- The pass is over and the loop goes on. -/
  | next (s : State)
  /-- The statement `return r`. -/
  | ret (r : Nat) (s : State)
  /-- The fuel of the model ran out. -/
  | fuel (s : State)

/-- The state a result carries. -/
def Result.state : Result → State
  | .next s => s
  | .ret _ s => s
  | .fuel s => s

/-- The trace loop `while (StackPtr < DictSize && CrntPrefix > ClearCode &&
CrntPrefix <= MaxCodePoint)`.  Result: memory, `StackPtr`, `CrntPrefix`;
`none`: the fuel of the model ran out. -/
def traceLoop (P : TDGifPrivateType) (ClearCode : Nat) :
    Nat → (Int → Nat) → Nat → Nat → Option ((Int → Nat) × Nat × Nat)
  | 0, Mem, StackPtr, CrntPrefix =>
    if StackPtr < P.DictSize ∧ CrntPrefix > ClearCode ∧ CrntPrefix ≤ P.MaxCodePoint then none
    else some (Mem, StackPtr, CrntPrefix)
  | fuel + 1, Mem, StackPtr, CrntPrefix =>
    if StackPtr < P.DictSize ∧ CrntPrefix > ClearCode ∧ CrntPrefix ≤ P.MaxCodePoint then
      let Mem1 := writeStack P.DictSize Mem StackPtr
        (readSuffix P.DictSize Mem ((CrntPrefix : Int) - P.DictBase))
      traceLoop P ClearCode fuel Mem1 (StackPtr + 1)
        (readPrefix Mem1 ((CrntPrefix : Int) - P.DictBase))
    else some (Mem, StackPtr, CrntPrefix)

/-- The loop `while (StackPtr != 0 && i < PixelCount)`.  Result: `StackPtr`,
`i`, the output. -/
def popLoop (PixelCount DictSize : Nat) (Mem : Int → Nat) :
    Nat → Nat → List Nat → Nat × Nat × List Nat
  | 0, i, Out => (0, i, Out)
  | sp + 1, i, Out =>
    if i < PixelCount then
      popLoop PixelCount DictSize Mem sp (i + 1) (Out ++ [readStack DictSize Mem sp])
    else (sp + 1, i, Out)

/-- The dictionary update at the end of a pass of the loop of
`TDGifDecompress` (the statement `if (LastCode != NO_SUCH_CODE && ...)`),
followed by `LastCode = CrntCode`. -/
def decodeUpdate (s : State) (CrntCode ClearCode : Nat) : Result :=
  let P := s.Private
  let j : Int := (P.RunningCode : Int) - 2 - P.DictBase
  if s.LastCode ≠ NO_SUCH_CODE ∧ readPrefix s.Mem j = NO_SUCH_CODE then
    let Mem1 := writePrefix s.Mem j s.LastCode
    match TDGifGetPrefixChar P Mem1
        (if (CrntCode : Int) = (P.RunningCode : Int) - 2 then s.LastCode else CrntCode)
        ClearCode with
    | none => .fuel s
    | some c => .next { s with Mem := writeSuffix P.DictSize Mem1 j c, LastCode := CrntCode }
  else .next { s with LastCode := CrntCode }

/-- The start of the `else` branch of `if (CrntCode < ClearCode)`: the choice
of `CrntPrefix` and, when `Prefix[CrntCode - DictBase]` is `NO_SUCH_CODE`, the
first push on the stack.  Result: memory, `StackPtr`, `CrntPrefix`; `none`:
the fuel of the model ran out in `TDGifGetPrefixChar`. -/
def traceFirst (s : State) (CrntCode ClearCode : Nat) : Option ((Int → Nat) × Nat × Nat) :=
  let P := s.Private
  if readPrefix s.Mem ((CrntCode : Int) - P.DictBase) = NO_SUCH_CODE then
    match TDGifGetPrefixChar P s.Mem
        (if (CrntCode : Int) = (P.RunningCode : Int) - 2 then s.LastCode else CrntCode)
        ClearCode with
    | none => none
    | some c =>
      some (writeSuffix P.DictSize (writeStack P.DictSize s.Mem s.StackPtr c)
              ((P.RunningCode : Int) - 2 - P.DictBase) c,
            s.StackPtr + 1, s.LastCode)
  else some (s.Mem, s.StackPtr, CrntCode)

/-- The `else` branch of `if (CrntCode < ClearCode)`: a code to be traced.
The trace loop gets the fuel `DictSize`, one unit for each cell of the stack. -/
def decodeTrace (PixelCount : Nat) (s : State) (CrntCode ClearCode : Nat) : Result :=
  let P := s.Private
  match traceFirst s CrntCode ClearCode with
  | none => .fuel s
  | some (Mem, StackPtr, CrntPrefix) =>
    match traceLoop P ClearCode P.DictSize Mem StackPtr CrntPrefix with
    | none => .fuel s
    | some (Mem, StackPtr, CrntPrefix) =>
      let s := { s with Mem := Mem, StackPtr := StackPtr }
      if StackPtr ≥ P.DictSize ∨ CrntPrefix > P.MaxCodePoint then
        .ret TGIF_ERROR
          { s with Private :=
              { P with Info := { P.Info with Error := D_TGIF_ERR_IMAGE_DEFECT } } }
      else
        match popLoop PixelCount P.DictSize Mem StackPtr (s.i + 1)
            (s.Out ++ [CrntPrefix % 256]) with
        | (StackPtr, i, Out) =>
          decodeUpdate { s with StackPtr := StackPtr, i := i, Out := Out } CrntCode ClearCode

/-- One pass of the loop `while (i < PixelCount)` of `TDGifDecompress`. -/
def decodeBody (PixelCount CodeCount : Nat) (s : State) : Result :=
  match TDGifDecompressInput s.Private with
  | (r, P, CrntCode) =>
    let s := { s with Private := P }
    if r = TGIF_ERROR then .ret TGIF_ERROR s
    else
      let ClearCode := P.ClearCode
      if CrntCode = ClearCode then
        .next { s with
                Private :=
                  { P with RunningCode := CodeCount + 1
                           RunningBits := P.InitCodeBits
                           MaxCode1 := (1 <<< P.InitCodeBits) % 65536 }
                Mem := fillPrefix s.Mem P.DictSize
                LastCode := NO_SUCH_CODE }
      else if CrntCode < ClearCode then
        decodeUpdate { s with Out := s.Out ++ [CrntCode % 256], i := s.i + 1 } CrntCode ClearCode
      else decodeTrace PixelCount s CrntCode ClearCode

/-- The loop `while (i < PixelCount)` of `TDGifDecompress` with fuel. -/
def decodeLoop (PixelCount CodeCount : Nat) : Nat → State → Result
  | 0, s => if s.i < PixelCount then .fuel s else .ret TGIF_OK s
  | k + 1, s =>
    if s.i < PixelCount then
      match decodeBody PixelCount CodeCount s with
      | .next s => decodeLoop PixelCount CodeCount k s
      | r => r
    else .ret TGIF_OK s

/-- The state of `TDGifDecompress` when it enters its loop, on the memory
`mem` that `ALLOC` hands over: the block as `malloc` left it and what lies
around it. -/
def decodeInit (Info : TGifInfo) (mem : Int → Nat) : State :=
  { Private := (TinyGif.decodeInit Info).Private
    Mem := fillPrefix mem (TinyGif.decodeInit Info).Private.DictSize
    LastCode := NO_SUCH_CODE
    StackPtr := 0
    i := 0
    Out := [] }

/-- The function `TDGifDecompress`.  `alloc` tells whether `ALLOC` returns a
block, `mem` is the memory at and around that block; `s.Out` lists the
arguments of the calls of `OutputCB`.  Each pass of the loop takes at least
two bits from the `MaxSz` bytes of data, hence the fuel. -/
def TDGifDecompress (Info : TGifInfo) (alloc : Bool) (mem : Int → Nat) : Result :=
  if alloc = false then
    .ret TGIF_ERROR
      { decodeInit Info mem with
        Mem := mem
        Private :=
          { (TinyGif.decodeInit Info).Private with
            Info := { Info with Error := D_TGIF_ERR_NOT_ENOUGH_MEM } } }
  else
    decodeLoop ((Info.Width * Info.Height) % 2 ^ 32) (TinyGif.decodeInit Info).Private.ClearCode
      (4 * Info.MaxSz + 1) (decodeInit Info mem)

end Flat

/-- The locals of `TDGifDecompress` on the flat block with other memory
behind `Info->Colors` and `Info->Data`. -/
def Flat.reData (s : Flat.State) (Colors Data : Nat → Nat) : Flat.State :=
  { s with Private := reDataP s.Private Colors Data }

/-- A result on the flat block with other memory behind `Info->Colors` and
`Info->Data`. -/
def Flat.Result.reData : Flat.Result → (Nat → Nat) → (Nat → Nat) → Flat.Result
  | .next s, C, D => .next (Flat.reData s C D)
  | .ret r s, C, D => .ret r (Flat.reData s C D)
  | .fuel s, C, D => .fuel (Flat.reData s C D)

/-! # Theorems -/

/-! ## Bytes and bit fields -/

theorem readByte_lt (b : Nat → Nat) (i : Nat) : TDGifReadByte b i < 256 := by
  unfold TDGifReadByte; omega

theorem byte_or_shift (a c : Nat) (ha : a < 256) : a ||| (c <<< 8) = a + 256 * c := by
  have h := Nat.mul_add_lt_is_or (i := 8) (b := a) (by simpa using ha) c
  rw [Nat.shiftLeft_eq, Nat.or_comm]
  simp only [Nat.reducePow] at h ⊢
  rw [Nat.mul_comm c 256, ← h]; omega

set_option maxRecDepth 100000 in
theorem byte_fields : ∀ e < 256,
    (e &&& 0x0C) <<< 6 = (e / 4 % 4) <<< 8 ∧ (e &&& 0x03) <<< 8 = (e % 4) <<< 8 ∧
    (e &&& 0xF0) <<< 4 = 256 * (e / 16) := by decide

theorem headerHeight_eq (b : Nat → Nat) :
    TDGifReadByte b 2 ||| ((TDGifReadByte b 0 &&& 0x3) <<< 8) = headerHeight b := by
  unfold headerHeight
  rw [(byte_fields _ (readByte_lt b 0)).2.1, byte_or_shift _ _ (readByte_lt b 2)]

/-! ## `TDGifGetInfo` -/

/-- The three results `TDGifGetInfo` can give for a non-null `Info`, by the
first check that fails. -/
theorem getInfo_cases (b : Nat → Nat) (I : TGifInfo) (MaxW MaxH maxSz : Nat) :
    TDGifGetInfo b (some I) MaxW MaxH maxSz =
      if maxSz < 8 then (TGIF_ERROR, some { I with Error := D_TGIF_ERR_MAXSZ })
      else
        let J : TGifInfo :=
          { I with Width := headerWidth b, Height := headerHeight b
                   ColorCount := headerColorCount b, SRAMLimit := headerSRAMLimit b }
        if headerWidth b = 0 ∨ headerHeight b = 0 then
          (TGIF_ERROR, some { J with Error := D_TGIF_ERR_ZWH })
        else if headerWidth b > MaxW ∨ headerHeight b > MaxH then
          (TGIF_ERROR, some { J with Error := D_TGIF_ERR_TOOBIG })
        else if maxSz < 6 + 2 * headerColorCount b then
          (TGIF_ERROR, some { J with Colors := fun i => b (4 + i)
                                     Data := fun i => b (4 + 2 * headerColorCount b + i)
                                     Error := D_TGIF_ERR_MAXSZ })
        else
          (TGIF_OK, some { J with Colors := fun i => b (4 + i)
                                  Data := fun i => b (4 + 2 * headerColorCount b + i)
                                  MaxSz := maxSz - (2 * headerColorCount b + 4)
                                  Error := 0 }) := by
  simp only [TDGifGetInfo, headerHeight_eq]
  rfl

/-- C5: when `TDGifGetInfo` succeeds on the buffer `b` with size bound `maxSz`,
`Width` is `b[1] | ((b[0] & 0x0C) << 6)`, `Height` is the 10-bit value with
low byte `b[2]` and bits 9..8 from bits 1..0 of `b[0]`, `ColorCount` is `b[3]`
(256 for 0), `SRAMLimit` is `(b[0] & 0xF0) << 4` (4096 for 0), `Colors` is
offset 4 of `b`, `Data` is offset `4 + 2 * ColorCount`, `MaxSz` is
`maxSz - (4 + 2 * ColorCount)` and `Error` is 0. -/
theorem C5_getInfo_fields (b : Nat → Nat) (I J : TGifInfo) (MaxW MaxH maxSz : Nat)
    (h : TDGifGetInfo b (some I) MaxW MaxH maxSz = (TGIF_OK, some J)) :
    J.Width = TDGifReadByte b 1 ||| ((TDGifReadByte b 0 &&& 0x0C) <<< 6) ∧
    (J.Height < 1024 ∧ J.Height % 256 = TDGifReadByte b 2 ∧
      J.Height / 256 = TDGifReadByte b 0 % 4) ∧
    J.ColorCount = (if TDGifReadByte b 3 = 0 then 256 else TDGifReadByte b 3) ∧
    J.SRAMLimit = (if (TDGifReadByte b 0 &&& 0xF0) <<< 4 = 0 then 4096
                   else (TDGifReadByte b 0 &&& 0xF0) <<< 4) ∧
    J.Colors = (fun i => b (4 + i)) ∧
    J.Data = (fun i => b (4 + 2 * J.ColorCount + i)) ∧
    J.MaxSz = maxSz - (4 + 2 * J.ColorCount) ∧
    J.Error = 0 := by
  rw [getInfo_cases] at h
  have hne : TGIF_ERROR ≠ TGIF_OK := by decide
  split_ifs at h <;> simp only [Prod.mk.injEq, hne, false_and] at h
  obtain ⟨-, hJ⟩ := h
  simp only [Option.some.injEq] at hJ
  subst hJ
  have h2 := readByte_lt b 2
  have h0 := readByte_lt b 0
  refine ⟨rfl, ⟨?_, ?_, ?_⟩, rfl, rfl, rfl, rfl, ?_, rfl⟩
  · show headerHeight b < 1024
    unfold headerHeight; omega
  · show headerHeight b % 256 = _
    unfold headerHeight; omega
  · show headerHeight b / 256 = _
    unfold headerHeight; omega
  · show maxSz - (2 * headerColorCount b + 4) = maxSz - (4 + 2 * headerColorCount b)
    omega

/-- C6: with a non-null `Info`, `TDGifGetInfo` returns `TGIF_OK` exactly when
`maxSz >= 8`, `Width != 0`, `Height != 0`, `Width <= MaxW`, `Height <= MaxH`
and `maxSz >= 6 + 2 * ColorCount`; otherwise it returns `TGIF_ERROR` and
`Error` is the code of the first failing check in the order MAXSZ
(`maxSz < 8`), ZWH, TOOBIG, MAXSZ (`maxSz < 6 + 2 * ColorCount`). -/
theorem C6_getInfo_outcome (b : Nat → Nat) (I : TGifInfo) (MaxW MaxH maxSz : Nat) :
    ((TDGifGetInfo b (some I) MaxW MaxH maxSz).1 = TGIF_OK ↔
      8 ≤ maxSz ∧ headerWidth b ≠ 0 ∧ headerHeight b ≠ 0 ∧ headerWidth b ≤ MaxW ∧
        headerHeight b ≤ MaxH ∧ 6 + 2 * headerColorCount b ≤ maxSz) ∧
    ((TDGifGetInfo b (some I) MaxW MaxH maxSz).1 ≠ TGIF_OK →
      (TDGifGetInfo b (some I) MaxW MaxH maxSz).1 = TGIF_ERROR ∧
      ∃ J, (TDGifGetInfo b (some I) MaxW MaxH maxSz).2 = some J ∧
        J.Error =
          if maxSz < 8 then D_TGIF_ERR_MAXSZ
          else if headerWidth b = 0 ∨ headerHeight b = 0 then D_TGIF_ERR_ZWH
          else if headerWidth b > MaxW ∨ headerHeight b > MaxH then D_TGIF_ERR_TOOBIG
          else D_TGIF_ERR_MAXSZ) := by
  rw [getInfo_cases]
  have hne : TGIF_ERROR ≠ TGIF_OK := by decide
  by_cases h1 : maxSz < 8
  · simp only [h1, if_true, hne, false_iff, ne_eq, not_false_eq_true, true_implies]
    exact ⟨by omega, trivial, _, rfl, rfl⟩
  · by_cases h2 : headerWidth b = 0 ∨ headerHeight b = 0
    · simp only [h1, h2, if_true, if_false, hne, false_iff, ne_eq, not_false_eq_true,
        true_implies]
      exact ⟨by rcases h2 with h | h <;> simp [h], trivial, _, rfl, rfl⟩
    · by_cases h3 : headerWidth b > MaxW ∨ headerHeight b > MaxH
      · simp only [h1, h2, h3, if_true, if_false, hne, false_iff, ne_eq, not_false_eq_true,
          true_implies]
        exact ⟨by rcases h3 with h | h <;> omega, trivial, _, rfl, rfl⟩
      · by_cases h4 : maxSz < 6 + 2 * headerColorCount b
        · simp only [h1, h2, h3, h4, if_true, if_false, hne, false_iff, ne_eq,
            not_false_eq_true, true_implies]
          exact ⟨by omega, trivial, _, rfl, rfl⟩
        · simp only [h1, h2, h3, h4, if_false, ne_eq, not_true_eq_false, false_implies,
            and_true, true_iff]
          push_neg at h2 h3
          exact ⟨by omega, h2.1, h2.2, h3.1, h3.2, by omega⟩

theorem sample2x1_getInfo :
    TDGifGetInfo (bufferOf sample2x1) (some zeroInfo) 1023 1023 10
      = (TGIF_OK, some sample2x1Info) := by
  rfl

/-- C5 at the file `sample2x1`. -/
theorem C5_getInfo_fields_witness :
    sample2x1Info.Width = TDGifReadByte (bufferOf sample2x1) 1
        ||| ((TDGifReadByte (bufferOf sample2x1) 0 &&& 0x0C) <<< 6) ∧
    sample2x1Info.Height % 256 = TDGifReadByte (bufferOf sample2x1) 2 ∧
    sample2x1Info.MaxSz = 10 - (4 + 2 * sample2x1Info.ColorCount) :=
  have h := C5_getInfo_fields (bufferOf sample2x1) zeroInfo sample2x1Info 1023 1023 10
    sample2x1_getInfo
  ⟨h.1, h.2.1.2.1, h.2.2.2.2.2.2.1⟩

/-! ## `TEGifPutScreenDesc` -/

theorem mod_256_eq_and (y : Nat) : y % 256 = y &&& 0xFF := by
  have h := Nat.and_pow_two_sub_one_eq_mod y 8
  simpa using h.symm

theorem and_byte_mask (y m : Nat) (hm : 255 &&& m = m) : y &&& m = (y % 256) &&& m := by
  rw [mod_256_eq_and, Nat.and_assoc, hm]

set_option maxRecDepth 100000 in
theorem byte_masks : ∀ v < 256,
    v &&& 0xF0 = ((v / 16) % 16) <<< 4 ∧ v &&& 0x0C = ((v / 4) % 4) <<< 2 ∧
    v &&& 0x03 = v % 4 ∧ v &&& 0x0F = v % 16 := by decide

theorem sram_field (x : Nat) : (x >>> 4) &&& 0xF0 = ((x >>> 8) &&& 0x0F) <<< 4 := by
  rw [and_byte_mask _ 0xF0 (by decide), and_byte_mask (x >>> 8) 0x0F (by decide),
    (byte_masks _ (Nat.mod_lt _ (by decide))).1,
    (byte_masks _ (Nat.mod_lt _ (by decide))).2.2.2]
  simp only [Nat.shiftRight_eq_div_pow]
  congr 1
  omega

theorem width_field (x : Nat) : (x >>> 6) &&& 0x0C = ((x >>> 8) &&& 3) <<< 2 := by
  rw [and_byte_mask _ 0x0C (by decide), and_byte_mask (x >>> 8) 3 (by decide),
    (byte_masks _ (Nat.mod_lt _ (by decide))).2.1,
    (byte_masks _ (Nat.mod_lt _ (by decide))).2.2.1]
  simp only [Nat.shiftRight_eq_div_pow]
  congr 1
  omega

/-- What a call of `TEGifPutScreenDesc` that gets past its checks does. -/
theorem putScreenDesc_ok (G : TGifFileType) (W H S : Nat) (ColorMap : TColorMapObject)
    (hS : G.Private.FileState &&& FILE_STATE_SCREEN = 0) (hL : S &&& 0xFF00 ≠ 0) :
    TEGifPutScreenDesc G W H (some ColorMap) S =
      (TGIF_OK,
        { G with Private :=
          { TEGifSetupCompress
              { G.Private with
                ColorCount := ColorMap.ColorCount
                File := G.Private.File ++
                  [((S &&& 0xFF00) >>> 4 &&& 0xF0) ||| (W >>> 6 &&& 0x0C) ||| (H >>> 8 &&& 0x03),
                    W % 256, H % 256, ColorMap.ColorCount % 256] ++ colorBytes ColorMap
                PixelCount := W * H } (S &&& 0xFF00) with
            FileState := G.Private.FileState ||| FILE_STATE_SCREEN } }) := by
  simp only [TEGifPutScreenDesc, hS, hL, ne_eq, not_true_eq_false, if_false, InternalWrite]
  rfl

/-- C4: a successful `TEGifPutScreenDesc(W, H, palette, SRAMLimit)` appends to
the file exactly: byte0 `(((S >> 8) & 0x0F) << 4) | (((W >> 8) & 3) << 2) |
((H >> 8) & 3)` with `S = SRAMLimit & ~0xFF`, `W & 0xFF`, `H & 0xFF`,
`ColorCount & 0xFF`, then `ColorCount` palette entries of two bytes each, low
byte first, then one preamble byte `ColorCount & 0xFF`; nothing stays
buffered. -/
theorem C4_container_layout (G G' : TGifFileType) (W H S : Nat) (ColorMap : TColorMapObject)
    (h : TEGifPutScreenDesc G W H (some ColorMap) S = (TGIF_OK, G')) :
    G'.Private.File = G.Private.File ++
      ([((((S &&& 0xFF00) >>> 8) &&& 0x0F) <<< 4) ||| (((W >>> 8) &&& 3) <<< 2)
          ||| ((H >>> 8) &&& 3),
        W &&& 0xFF, H &&& 0xFF, ColorMap.ColorCount &&& 0xFF]
      ++ (List.range ColorMap.ColorCount).flatMap
          (fun i => [ColorMap.Colors i % 256, ColorMap.Colors i / 256 % 256])
      ++ [ColorMap.ColorCount &&& 0xFF]) ∧
    G'.Private.Buf = [] := by
  have hne : TGIF_ERROR ≠ TGIF_OK := by decide
  by_cases hS : G.Private.FileState &&& FILE_STATE_SCREEN = 0
  · by_cases hL : S &&& 0xFF00 = 0
    · simp [TEGifPutScreenDesc, hS, hL, hne] at h
    · rw [putScreenDesc_ok G W H S ColorMap hS hL] at h
      simp only [Prod.mk.injEq, true_and] at h
      subst h
      simp only [TEGifSetupCompress, InternalWrite, colorBytes, sram_field, width_field,
        mod_256_eq_and, List.append_assoc, and_true]
  · simp [TEGifPutScreenDesc, hS, hne] at h

/-- C4 at a 2x1 image with two colours. -/
theorem C4_container_layout_witness :
    (TEGifPutScreenDesc TEGifOpenFileName 2 1 (some ⟨2, fun _ => 0⟩) 256).2.Private.File
      = [] ++ ([((((256 &&& 0xFF00) >>> 8) &&& 0x0F) <<< 4) ||| (((2 >>> 8) &&& 3) <<< 2)
          ||| ((1 >>> 8) &&& 3), 2 &&& 0xFF, 1 &&& 0xFF, 2 &&& 0xFF]
        ++ (List.range 2).flatMap (fun _ => [0 % 256, 0 / 256 % 256]) ++ [2 &&& 0xFF]) :=
  (C4_container_layout TEGifOpenFileName _ 2 1 256 ⟨2, fun _ => 0⟩ rfl).1

theorem and_shiftLeft_mask (x m k : Nat) : x &&& (m <<< k) = ((x >>> k) &&& m) <<< k := by
  apply Nat.eq_of_testBit_eq
  intro i
  simp only [Nat.testBit_and, Nat.testBit_shiftLeft, Nat.testBit_shiftRight]
  by_cases h : i ≥ k
  · have : k + (i - k) = i := by omega
    simp [h, this]
  · simp [h]

/-- The statement `SRAMLimit &= ~0xFF` on a `uint16_t`. -/
theorem sram_mask (S : Nat) : S &&& 0xFF00 = (S / 256 % 256) * 256 := by
  have h := and_shiftLeft_mask S 0xFF 8
  have e : (0xFF : Nat) <<< 8 = 0xFF00 := by decide
  rw [e] at h
  rw [h, Nat.shiftLeft_eq, Nat.shiftRight_eq_div_pow]
  have := Nat.and_pow_two_sub_one_eq_mod (S / 2 ^ 8) 8
  simp only [Nat.reducePow, Nat.add_one_sub_one] at this ⊢
  rw [this]

set_option maxRecDepth 100000 in
theorem hdr_byte0 : ∀ s < 17, ∀ w < 4, ∀ h < 4,
    ((s % 16) <<< 4 ||| w <<< 2 ||| h) < 256 ∧
    (((s % 16) <<< 4 ||| w <<< 2 ||| h) &&& 0x0C) <<< 6 = 256 * w ∧
    ((s % 16) <<< 4 ||| w <<< 2 ||| h) % 4 = h ∧
    (((s % 16) <<< 4 ||| w <<< 2 ||| h) &&& 0xF0) <<< 4 = 256 * (s % 16) := by decide

/-- Byte 0 of the header `TEGifPutScreenDesc` writes, for fields in range. -/
theorem header_byte0 (S W H : Nat) (hS : S ≤ 4096) (hW : W ≤ 1023) (hH : H ≤ 1023) :
    ((S &&& 0xFF00) >>> 4 &&& 0xF0) ||| (W >>> 6 &&& 0x0C) ||| (H >>> 8 &&& 0x03)
      = ((S / 256) % 16) <<< 4 ||| (W / 256) <<< 2 ||| (H / 256) := by
  rw [sram_field, width_field, sram_mask]
  have e1 : (S / 256 % 256 * 256) >>> 8 = S / 256 := by
    rw [Nat.shiftRight_eq_div_pow]; omega
  have e2 : W >>> 8 = W / 256 := by rw [Nat.shiftRight_eq_div_pow]
  have e3 : H >>> 8 = H / 256 := by rw [Nat.shiftRight_eq_div_pow]
  rw [e1, e2, e3, (byte_masks (S / 256) (by omega)).2.2.2,
    (byte_masks (W / 256) (by omega)).2.2.1, (byte_masks (H / 256) (by omega)).2.2.1]
  have : W / 256 % 4 = W / 256 := by omega
  have : H / 256 % 4 = H / 256 := by omega
  simp only [*]

theorem putScreenDesc_open (W H S : Nat) (ColorMap : TColorMapObject)
    (hL : S &&& 0xFF00 ≠ 0) :
    ∃ G, TEGifPutScreenDesc TEGifOpenFileName W H (some ColorMap) S = (TGIF_OK, G) ∧
      G.Private.File = screenDescBytes W H S ColorMap := by
  refine ⟨_, putScreenDesc_ok TEGifOpenFileName W H S ColorMap (by decide) hL, ?_⟩
  simp [TEGifSetupCompress, InternalWrite, TEGifOpenFileName, screenDescBytes]

theorem screenDesc_header (W H S : Nat) (ColorMap : TColorMapObject)
    (hW : W ≤ 1023) (hH : H ≤ 1023)
    (hC : 1 ≤ ColorMap.ColorCount ∧ ColorMap.ColorCount ≤ 256)
    (hS : 256 ≤ S ∧ S ≤ 4096) :
    headerWidth (bufferOf (screenDescBytes W H S ColorMap)) = W ∧
    headerHeight (bufferOf (screenDescBytes W H S ColorMap)) = H ∧
    headerColorCount (bufferOf (screenDescBytes W H S ColorMap)) = ColorMap.ColorCount ∧
    headerSRAMLimit (bufferOf (screenDescBytes W H S ColorMap)) = S &&& 0xFF00 := by
  obtain ⟨b0lt, bw, bh, bs⟩ := hdr_byte0 (S / 256) (by omega) (W / 256) (by omega)
    (H / 256) (by omega)
  have r0 : TDGifReadByte (bufferOf (screenDescBytes W H S ColorMap)) 0
      = ((S / 256) % 16) <<< 4 ||| (W / 256) <<< 2 ||| (H / 256) := by
    simp only [screenDescBytes, bufferOf, TDGifReadByte, List.cons_append,
      List.getD_cons_zero, header_byte0 S W H hS.2 hW hH]
    omega
  have r1 : TDGifReadByte (bufferOf (screenDescBytes W H S ColorMap)) 1 = W % 256 := by
    simp [screenDescBytes, bufferOf, TDGifReadByte]
  have r2 : TDGifReadByte (bufferOf (screenDescBytes W H S ColorMap)) 2 = H % 256 := by
    simp [screenDescBytes, bufferOf, TDGifReadByte]
  have r3 : TDGifReadByte (bufferOf (screenDescBytes W H S ColorMap)) 3
      = ColorMap.ColorCount % 256 := by
    simp [screenDescBytes, bufferOf, TDGifReadByte]
  refine ⟨?_, ?_, ?_, ?_⟩
  · unfold headerWidth
    rw [r0, r1, bw]
    have := byte_or_shift (W % 256) (W / 256) (by omega)
    rw [Nat.shiftLeft_eq] at this
    simp only [Nat.reducePow] at this
    rw [Nat.mul_comm 256, this]; omega
  · unfold headerHeight
    rw [r0, r2, bh]
    omega
  · unfold headerColorCount
    rw [r3]
    split_ifs <;> omega
  · unfold headerSRAMLimit
    rw [r0, bs, sram_mask]
    split_ifs <;> omega

/-- C3: for `W`, `H` in 1..1023, `ColorCount` in 1..256 and `SRAMLimit` in
256..4096, `TDGifGetInfo` on the bytes `TEGifPutScreenDesc` wrote (with
`MaxW >= W`, `MaxH >= H` and `MaxSz` large enough) succeeds with `Width = W`,
`Height = H`, the same `ColorCount` (256 travels as byte 0) and
`SRAMLimit & ~0xFF`. -/
theorem C3_header_roundtrip (W H S : Nat) (ColorMap : TColorMapObject) (I : TGifInfo)
    (MaxW MaxH MaxSz : Nat)
    (hW : 1 ≤ W ∧ W ≤ 1023) (hH : 1 ≤ H ∧ H ≤ 1023)
    (hC : 1 ≤ ColorMap.ColorCount ∧ ColorMap.ColorCount ≤ 256)
    (hS : 256 ≤ S ∧ S ≤ 4096)
    (hMW : W ≤ MaxW) (hMH : H ≤ MaxH)
    (hSz : 8 ≤ MaxSz ∧ 6 + 2 * ColorMap.ColorCount ≤ MaxSz) :
    ∃ G J, TEGifPutScreenDesc TEGifOpenFileName W H (some ColorMap) S = (TGIF_OK, G) ∧
      TDGifGetInfo (bufferOf G.Private.File) (some I) MaxW MaxH MaxSz = (TGIF_OK, some J) ∧
      J.Width = W ∧ J.Height = H ∧ J.ColorCount = ColorMap.ColorCount ∧
      J.SRAMLimit = S &&& 0xFF00 := by
  have hL : S &&& 0xFF00 ≠ 0 := by rw [sram_mask]; omega
  obtain ⟨G, hG, hF⟩ := putScreenDesc_open W H S ColorMap hL
  obtain ⟨hw, hh, hc, hs⟩ := screenDesc_header W H S ColorMap hW.2 hH.2 hC hS
  have hgi := getInfo_cases (bufferOf G.Private.File) I MaxW MaxH MaxSz
  rw [hF] at hgi
  have c1 : ¬ MaxSz < 8 := by omega
  have c2 : ¬ (W = 0 ∨ H = 0) := by omega
  have c3 : ¬ (W > MaxW ∨ H > MaxH) := by omega
  have c4 : ¬ MaxSz < 6 + 2 * ColorMap.ColorCount := by omega
  simp only [hw, hh, hc, hs, c1, c2, c3, c4, if_false] at hgi
  exact ⟨G, _, hG, by rw [hF]; exact hgi, rfl, rfl, rfl, rfl⟩

/-- C3 at a 2x1 image with two colours and SRAM limit 256. -/
theorem C3_header_roundtrip_witness :
    ∃ G J, TEGifPutScreenDesc TEGifOpenFileName 2 1 (some ⟨2, fun _ => 0⟩) 256 = (TGIF_OK, G) ∧
      TDGifGetInfo (bufferOf G.Private.File) (some zeroInfo) 1023 1023 10 = (TGIF_OK, some J) ∧
      J.Width = 2 ∧ J.Height = 1 ∧ J.ColorCount = 2 ∧ J.SRAMLimit = 256 &&& 0xFF00 :=
  C3_header_roundtrip 2 1 256 ⟨2, fun _ => 0⟩ zeroInfo 1023 1023 10 (by decide) (by decide)
    (by decide) (by decide) (by decide) (by decide) (by decide)

/-! ## Round trip -/

set_option maxRecDepth 1000000 in
/-- C1 fails on the code: the 66x1 image `pixels66` over 63 colours, encoded
with SRAM limit 256, is accepted by both encoder calls; after its 65th code
the encoder raises the width and writes the CLEAR code with 8 bits, the
decoder (whose width stops at `BitSize(MaxCodePoint) = 7`) reads it with 7,
and returns `TGIF_OK` with last pixel 10 where the image has 5. -/
theorem C1_roundtrip_defect :
    (convertCodes 66 1 palette63 256 pixels66).map (fun l => l.drop 64)
      = some [(3, 7), (63, 8), (5, 7)] ∧
    (convertFile 66 1 palette63 256 pixels66).bind testdec
      = some (TGIF_OK, 0, List.range 63 ++ [1, 3, 10]) ∧
    pixels66 = List.range 63 ++ [1, 3, 5] := by
  decide

/-! ## Bit stream -/

theorem leValue_append (bs : List Nat) (b : Nat) :
    leValue (bs ++ [b]) = leValue bs + 2 ^ (8 * bs.length) * b := by
  induction bs with
  | nil => simp [leValue]
  | cons x xs ih =>
    have e : 2 ^ (8 * (xs.length + 1)) = 256 * 2 ^ (8 * xs.length) := by
      rw [Nat.mul_add, Nat.pow_add]; simp [Nat.mul_comm]
    show x + 256 * leValue (xs ++ [b]) = x + 256 * leValue xs + 2 ^ (8 * (xs.length + 1)) * b
    rw [ih, e]; ring

theorem or_shift_eq_add (D c s : Nat) (hD : D < 2 ^ s) : D ||| (c <<< s) = D + 2 ^ s * c := by
  have h := Nat.mul_add_lt_is_or hD c
  rw [Nat.shiftLeft_eq, Nat.or_comm, Nat.mul_comm c, ← h, Nat.add_comm]

theorem bufferedOutput_byte (P : TGifFilePrivateType) (c : Nat) (hc : c < 256) :
    (TEGifBufferedOutput P c).File ++ (TEGifBufferedOutput P c).Buf = P.File ++ P.Buf ++ [c] ∧
    (TEGifBufferedOutput P c).CrntShiftState = P.CrntShiftState ∧
    (TEGifBufferedOutput P c).CrntShiftDWord = P.CrntShiftDWord := by
  have hne : c ≠ FLUSH_OUTPUT := by unfold FLUSH_OUTPUT LZ_MAX_CODE; omega
  have hm : c % 256 = c := by omega
  unfold TEGifBufferedOutput
  simp only [hne, if_false, hm]
  split_ifs <;> simp [InternalWrite]

theorem bufferedOutput_flush (P : TGifFilePrivateType) :
    (TEGifBufferedOutput P FLUSH_OUTPUT).File = P.File ++ P.Buf := by
  unfold TEGifBufferedOutput
  simp only [if_true]
  split_ifs with h
  · simp [InternalWrite]
  · simp only [ne_eq, List.length_eq_zero, not_not] at h
    simp [h]

theorem and_ff_lt (D : Nat) : D &&& 0xff < 256 := by
  rw [← mod_256_eq_and]; omega

/-- One pass of a byte loop: the low byte joins the stream (the file followed
by the buffer). -/
theorem emitLowByte_spec (P : TGifFilePrivateType) :
    (emitLowByte P).File ++ (emitLowByte P).Buf = P.File ++ P.Buf ++ [P.CrntShiftDWord % 256] ∧
    (emitLowByte P).CrntShiftState = P.CrntShiftState - 8 ∧
    (emitLowByte P).CrntShiftDWord = P.CrntShiftDWord / 256 := by
  obtain ⟨h1, h2, h3⟩ := bufferedOutput_byte P (P.CrntShiftDWord &&& 0xff) (and_ff_lt _)
  refine ⟨?_, ?_, ?_⟩
  · simpa [emitLowByte, mod_256_eq_and] using h1
  · simpa [emitLowByte] using congrArg (· - 8) h2
  · simp only [emitLowByte, h3, Nat.shiftRight_eq_div_pow]

theorem stream_step (v L D : Nat) :
    v + 2 ^ (8 * L) * (D % 256) + 2 ^ (8 * (L + 1)) * (D / 256) = v + 2 ^ (8 * L) * D := by
  have e : 2 ^ (8 * (L + 1)) = 2 ^ (8 * L) * 256 := by rw [Nat.mul_add, Nat.pow_add]
  have hd := Nat.div_add_mod D 256
  rw [e, Nat.add_assoc, Nat.mul_assoc, ← Nat.mul_add]
  congr 2
  omega

/-- The loop that dumps full bytes keeps the value of the stream. -/
theorem dumpBytes_spec (out0 : List Nat) :
    ∀ (k : Nat) (P : TGifFilePrivateType) (bs : List Nat),
      P.CrntShiftState ≤ k → P.File ++ P.Buf = out0 ++ bs →
      P.CrntShiftDWord < 2 ^ P.CrntShiftState → (∀ b ∈ bs, b < 256) →
      ∃ bs', (dumpBytes k P).File ++ (dumpBytes k P).Buf = out0 ++ bs' ∧
        (∀ b ∈ bs', b < 256) ∧
        (dumpBytes k P).CrntShiftState < 8 ∧
        (dumpBytes k P).CrntShiftDWord < 2 ^ (dumpBytes k P).CrntShiftState ∧
        8 * bs'.length + (dumpBytes k P).CrntShiftState = 8 * bs.length + P.CrntShiftState ∧
        leValue bs' + 2 ^ (8 * bs'.length) * (dumpBytes k P).CrntShiftDWord
          = leValue bs + 2 ^ (8 * bs.length) * P.CrntShiftDWord := by
  intro k
  induction k with
  | zero =>
    intro P bs hk hout hD hb
    exact ⟨bs, by simpa [dumpBytes] using hout, hb, by simp only [dumpBytes]; omega,
      by simpa [dumpBytes] using hD, by simp [dumpBytes], by simp [dumpBytes]⟩
  | succ k ih =>
    intro P bs hk hout hD hb
    by_cases h8 : P.CrntShiftState ≥ 8
    · obtain ⟨f1, f2, f3⟩ := emitLowByte_spec P
      have e : dumpBytes (k + 1) P = dumpBytes k (emitLowByte P) := by simp [dumpBytes, h8]
      rw [e]
      generalize emitLowByte P = P2 at f1 f2 f3 ⊢
      have hD2 : P2.CrntShiftDWord < 2 ^ P2.CrntShiftState := by
        rw [f2, f3, Nat.div_lt_iff_lt_mul (by decide)]
        have : 2 ^ P.CrntShiftState = 2 ^ (P.CrntShiftState - 8) * 256 := by
          rw [show (256 : Nat) = 2 ^ 8 by rfl, ← Nat.pow_add]; congr 1; omega
        rw [← this]; exact hD
      have hb2 : ∀ b ∈ bs ++ [P.CrntShiftDWord % 256], b < 256 := by
        intro b hmem
        rcases List.mem_append.1 hmem with h | h
        · exact hb b h
        · rw [List.mem_singleton.1 h]; omega
      obtain ⟨bs', e1, eb, e2, e3, e4, e5⟩ := ih P2 (bs ++ [P.CrntShiftDWord % 256]) (by omega)
        (by rw [f1, hout, List.append_assoc]) hD2 hb2
      refine ⟨bs', e1, eb, e2, e3, ?_, ?_⟩
      · rw [e4, f2, List.length_append, List.length_singleton]; omega
      · rw [e5, f3, leValue_append, List.length_append, List.length_singleton]
        exact stream_step _ _ _
    · have e : dumpBytes (k + 1) P = P := by simp [dumpBytes, h8]
      rw [e]
      exact ⟨bs, hout, hb, by omega, hD, rfl, rfl⟩

theorem packCode_eq (P : TGifFilePrivateType) (c w : Nat) :
    packCode P c w = dumpBytes (P.CrntShiftState + w)
      { P with CrntShiftDWord := P.CrntShiftDWord ||| (c <<< P.CrntShiftState)
               CrntShiftState := P.CrntShiftState + w } := rfl

/-- Writing one code of `width` bits: the stream value gains the code at the
current bit position. -/
theorem packCode_spec (out0 : List Nat) (P : TGifFilePrivateType) (bs : List Nat)
    (c w : Nat) (hc : c < 2 ^ w)
    (hout : P.File ++ P.Buf = out0 ++ bs)
    (hD : P.CrntShiftDWord < 2 ^ P.CrntShiftState) (hb : ∀ b ∈ bs, b < 256) :
    ∃ bs', (packCode P c w).File ++ (packCode P c w).Buf = out0 ++ bs' ∧
      (∀ b ∈ bs', b < 256) ∧
      (packCode P c w).CrntShiftState < 8 ∧
      (packCode P c w).CrntShiftDWord < 2 ^ (packCode P c w).CrntShiftState ∧
      8 * bs'.length + (packCode P c w).CrntShiftState
        = 8 * bs.length + P.CrntShiftState + w ∧
      leValue bs' + 2 ^ (8 * bs'.length) * (packCode P c w).CrntShiftDWord
        = leValue bs + 2 ^ (8 * bs.length) * P.CrntShiftDWord
          + 2 ^ (8 * bs.length + P.CrntShiftState) * c := by
  rw [packCode_eq]
  generalize hP1 : ({ P with CrntShiftDWord := P.CrntShiftDWord ||| (c <<< P.CrntShiftState),
                              CrntShiftState := P.CrntShiftState + w } : TGifFilePrivateType) = P1
  have g1 : P1.File ++ P1.Buf = out0 ++ bs := by subst hP1; exact hout
  have g2 : P1.CrntShiftState = P.CrntShiftState + w := by subst hP1; rfl
  have g3 : P1.CrntShiftDWord = P.CrntShiftDWord + 2 ^ P.CrntShiftState * c := by
    subst hP1; exact or_shift_eq_add _ _ _ hD
  have g4 : P1.CrntShiftDWord < 2 ^ P1.CrntShiftState := by
    rw [g2, g3, Nat.pow_add]
    have : 2 ^ P.CrntShiftState * c + 2 ^ P.CrntShiftState ≤ 2 ^ P.CrntShiftState * 2 ^ w := by
      rw [← Nat.mul_succ]; exact Nat.mul_le_mul_left _ hc
    omega
  obtain ⟨bs', e1, eb, e2, e3, e4, e5⟩ :=
    dumpBytes_spec out0 (P.CrntShiftState + w) P1 bs (by omega) g1 g4 hb
  refine ⟨bs', e1, eb, e2, e3, ?_, ?_⟩
  · rw [e4, g2]; omega
  · rw [e5, g3, Nat.mul_add, Nat.pow_add, Nat.mul_assoc, Nat.add_assoc]

theorem flushBytes_zero (k : Nat) (P : TGifFilePrivateType) (h : P.CrntShiftState = 0) :
    flushBytes k P = P := by
  cases k with
  | zero => rfl
  | succ k => simp [flushBytes, h]

/-- The final flush: at most one more byte, holding the bits left in the
accumulator. -/
theorem flushCode_spec (out0 : List Nat) (P : TGifFilePrivateType) (bs : List Nat)
    (hout : P.File ++ P.Buf = out0 ++ bs) (hs : P.CrntShiftState < 8)
    (hD : P.CrntShiftDWord < 2 ^ P.CrntShiftState) (hb : ∀ b ∈ bs, b < 256) :
    ∃ bs', (flushCode P).File = out0 ++ bs' ∧ (∀ b ∈ bs', b < 256) ∧
      8 * bs.length + P.CrntShiftState ≤ 8 * bs'.length ∧
      8 * bs'.length < 8 * bs.length + P.CrntShiftState + 8 ∧
      leValue bs' = leValue bs + 2 ^ (8 * bs.length) * P.CrntShiftDWord := by
  unfold flushCode
  simp only [bufferedOutput_flush]
  by_cases h0 : P.CrntShiftState = 0
  · rw [flushBytes_zero _ _ h0]
    rw [h0] at hD
    have hD0 : P.CrntShiftDWord = 0 := by simpa using hD
    exact ⟨bs, hout, hb, by omega, by omega, by simp [hD0]⟩
  · obtain ⟨k, hk⟩ : ∃ k, P.CrntShiftState = k + 1 := ⟨P.CrntShiftState - 1, by omega⟩
    obtain ⟨f1, f2, f3⟩ := emitLowByte_spec P
    have e : flushBytes P.CrntShiftState P = emitLowByte P := by
      rw [hk]
      have hpos : P.CrntShiftState > 0 := by omega
      simp only [flushBytes, hpos, if_true]
      exact flushBytes_zero _ _ (by rw [f2]; omega)
    rw [e]
    have hlt : P.CrntShiftDWord < 256 := by
      have : 2 ^ P.CrntShiftState ≤ 2 ^ 8 := Nat.pow_le_pow_right (by decide) (by omega)
      simp only [Nat.reducePow] at this
      omega
    have hm : P.CrntShiftDWord % 256 = P.CrntShiftDWord := by omega
    refine ⟨bs ++ [P.CrntShiftDWord], ?_, ?_, ?_, ?_, ?_⟩
    · rw [f1, hout, hm, List.append_assoc]
    · intro b hmem
      rcases List.mem_append.1 hmem with h | h
      · exact hb b h
      · rw [List.mem_singleton.1 h]; exact hlt
    · rw [List.length_append, List.length_singleton]; omega
    · rw [List.length_append, List.length_singleton]; omega
    · exact leValue_append _ _

/-- The writer over a whole schedule. -/
theorem packSeq_spec (out0 : List Nat) :
    ∀ (cs : List (Nat × Nat)) (P : TGifFilePrivateType) (bs : List Nat),
      (∀ p ∈ cs, p.1 < 2 ^ p.2) →
      P.File ++ P.Buf = out0 ++ bs → P.CrntShiftState < 8 →
      P.CrntShiftDWord < 2 ^ P.CrntShiftState → (∀ b ∈ bs, b < 256) →
      ∃ bs', (packSeq P cs).File = out0 ++ bs' ∧ (∀ b ∈ bs', b < 256) ∧
        8 * bs.length + P.CrntShiftState + totalBits cs ≤ 8 * bs'.length ∧
        8 * bs'.length < 8 * bs.length + P.CrntShiftState + totalBits cs + 8 ∧
        leValue bs' = leValue bs + 2 ^ (8 * bs.length) * P.CrntShiftDWord
          + 2 ^ (8 * bs.length + P.CrntShiftState) * bitsValue cs := by
  intro cs
  induction cs with
  | nil =>
    intro P bs _ hout hs hD hb
    obtain ⟨bs', e1, eb, e2, e3, e4⟩ := flushCode_spec out0 P bs hout hs hD hb
    exact ⟨bs', e1, eb, by simpa [totalBits] using e2, by simpa [totalBits] using e3,
      by simpa [bitsValue] using e4⟩
  | cons p cs ih =>
    intro P bs hcs hout hs hD hb
    obtain ⟨c, w⟩ := p
    have hc : c < 2 ^ w := hcs (c, w) (List.mem_cons_self _ _)
    obtain ⟨bs1, e1, eb, e2, e3, e4, e5⟩ := packCode_spec out0 P bs c w hc hout hD hb
    obtain ⟨bs', g1, gb, g2, g3, g4⟩ := ih (packCode P c w) bs1
      (fun p hp => hcs p (List.mem_cons_of_mem _ hp)) e1 e2 e3 eb
    refine ⟨bs', g1, gb, ?_, ?_, ?_⟩
    · simp only [totalBits]; omega
    · simp only [totalBits]; omega
    · rw [g4, e5, e4]
      simp only [bitsValue]
      rw [Nat.mul_add, Nat.pow_add (n := w), Nat.mul_assoc]
      omega

theorem input_feeds (Q : TDGifPrivateType) (b : Nat) (rem : List Nat) (h : Feeds Q (b :: rem)) :
    TDGifInput Q = (TGIF_OK, { Q with ReadOffset := Q.ReadOffset + 1 }, b) ∧
    Feeds { Q with ReadOffset := Q.ReadOffset + 1 } rem ∧ b < 256 := by
  obtain ⟨h1, h2⟩ := h
  have hlt : ¬ Q.ReadOffset ≥ Q.Info.MaxSz := by
    simp only [List.length_cons] at h2; omega
  have hb := h1 0 (by simp)
  simp only [Nat.add_zero, List.getD_cons_zero] at hb
  refine ⟨by simp only [TDGifInput, hlt, if_false, hb], ⟨?_, ?_⟩, ?_⟩
  · intro i hi
    have := h1 (i + 1) (by simpa using hi)
    simp only [List.getD_cons_succ] at this
    rw [← this]
    show TDGifReadByte Q.Info.Data (Q.ReadOffset + 1 + i) = _
    congr 1; omega
  · show Q.ReadOffset + 1 + rem.length ≤ Q.Info.MaxSz
    simp only [List.length_cons] at h2; omega
  · rw [← hb]; exact readByte_lt _ _

theorem shift_byte (b s : Nat) (hb : b < 256) (hs : s < 16) :
    ((if s ≥ 8 then (b <<< 8) % 2 ^ 32 else b) <<< (if s ≥ 8 then s - 8 else s)) % 2 ^ 32
      = b <<< s := by
  have hp : 2 ^ s ≤ 2 ^ 15 := Nat.pow_le_pow_right (by decide) (by omega)
  have hlt : b * 2 ^ s < 2 ^ 32 := by
    calc b * 2 ^ s < 256 * 2 ^ 15 + 1 := by nlinarith
      _ ≤ 2 ^ 32 := by decide
  split_ifs with h
  · have e : (b <<< 8) % 2 ^ 32 = b <<< 8 := by
      rw [Nat.shiftLeft_eq]; exact Nat.mod_eq_of_lt (by simp only [Nat.reducePow]; omega)
    rw [e, ← Nat.shiftLeft_add, show 8 + (s - 8) = s by omega, Nat.shiftLeft_eq]
    exact Nat.mod_eq_of_lt hlt
  · rw [Nat.shiftLeft_eq]; exact Nat.mod_eq_of_lt hlt

/-- The loop that fills the accumulator of the reader. -/
theorem readBits_spec (w : Nat) (hw : w ≤ 16) :
    ∀ (k : Nat) (Q : TDGifPrivateType) (rem : List Nat),
      w - Q.CrntShiftState ≤ k → w ≤ Q.CrntShiftState + 8 * rem.length →
      Q.CrntShiftState < 8 → Q.CrntShiftDWord < 2 ^ Q.CrntShiftState → Feeds Q rem →
      ∃ Q' rem', readBits w k Q = (TGIF_OK, Q') ∧ Feeds Q' rem' ∧
        w ≤ Q'.CrntShiftState ∧ Q'.CrntShiftState < w + 8 ∧
        Q'.CrntShiftDWord < 2 ^ Q'.CrntShiftState ∧
        Q'.CrntShiftState + 8 * rem'.length = Q.CrntShiftState + 8 * rem.length ∧
        Q'.CrntShiftDWord + 2 ^ Q'.CrntShiftState * leValue rem'
          = Q.CrntShiftDWord + 2 ^ Q.CrntShiftState * leValue rem := by
  have aux : ∀ (k : Nat) (Q : TDGifPrivateType) (rem : List Nat),
      w - Q.CrntShiftState ≤ k → w ≤ Q.CrntShiftState + 8 * rem.length →
      Q.CrntShiftState < w + 8 → Q.CrntShiftDWord < 2 ^ Q.CrntShiftState → Feeds Q rem →
      ∃ Q' rem', readBits w k Q = (TGIF_OK, Q') ∧ Feeds Q' rem' ∧
        w ≤ Q'.CrntShiftState ∧ Q'.CrntShiftState < w + 8 ∧
        Q'.CrntShiftDWord < 2 ^ Q'.CrntShiftState ∧
        Q'.CrntShiftState + 8 * rem'.length = Q.CrntShiftState + 8 * rem.length ∧
        Q'.CrntShiftDWord + 2 ^ Q'.CrntShiftState * leValue rem'
          = Q.CrntShiftDWord + 2 ^ Q.CrntShiftState * leValue rem := by
    intro k
    induction k with
    | zero =>
      intro Q rem hk hav hs hD hf
      exact ⟨Q, rem, rfl, hf, by omega, hs, hD, rfl, rfl⟩
    | succ k ih =>
      intro Q rem hk hav hs hD hf
      by_cases hlt : Q.CrntShiftState < w
      · cases rem with
        | nil => simp at hav; omega
        | cons b rem =>
          obtain ⟨hin, hf', hb⟩ := input_feeds Q b rem hf
          have hne : TGIF_OK ≠ TGIF_ERROR := by decide
          have e : readBits w (k + 1) Q = readBits w k
              { Q with ReadOffset := Q.ReadOffset + 1,
                       CrntShiftDWord := Q.CrntShiftDWord ||| (b <<< Q.CrntShiftState),
                       CrntShiftState := (Q.CrntShiftState + 8) % 256 } := by
            simp only [readBits, hlt, if_true, hin, hne, if_false]
            rw [shift_byte b Q.CrntShiftState hb (by omega)]
          rw [e]
          generalize hQ1 :
            ({ Q with ReadOffset := Q.ReadOffset + 1,
                      CrntShiftDWord := Q.CrntShiftDWord ||| (b <<< Q.CrntShiftState),
                      CrntShiftState := (Q.CrntShiftState + 8) % 256 } : TDGifPrivateType) = Q1
          have g1 : Feeds Q1 rem := by subst hQ1; exact hf'
          have g2 : Q1.CrntShiftState = Q.CrntShiftState + 8 := by
            subst hQ1; show (Q.CrntShiftState + 8) % 256 = _; omega
          have g3 : Q1.CrntShiftDWord = Q.CrntShiftDWord + 2 ^ Q.CrntShiftState * b := by
            subst hQ1; exact or_shift_eq_add _ _ _ hD
          have g4 : Q1.CrntShiftDWord < 2 ^ Q1.CrntShiftState := by
            rw [g2, g3, Nat.pow_add]
            have : 2 ^ Q.CrntShiftState * b + 2 ^ Q.CrntShiftState
                ≤ 2 ^ Q.CrntShiftState * 2 ^ 8 := by
              rw [← Nat.mul_succ]; exact Nat.mul_le_mul_left _ hb
            omega
          obtain ⟨Q', rem', e1, e2, e3, e4, e5, e6, e7⟩ := ih Q1 rem (by omega)
            (by simp only [List.length_cons] at hav; omega) (by omega) g4 g1
          refine ⟨Q', rem', e1, e2, e3, e4, e5, ?_, ?_⟩
          · rw [e6, g2, List.length_cons]; omega
          · rw [e7, g2, g3]
            simp only [leValue]
            rw [Nat.pow_add]
            ring
      · have e : readBits w (k + 1) Q = (TGIF_OK, Q) := by simp [readBits, hlt]
        exact ⟨Q, rem, e, hf, by omega, hs, hD, rfl, rfl⟩
  intro k Q rem h1 h2 h3 h4 h5
  exact aux k Q rem h1 h2 (by omega) h4 h5

set_option maxRecDepth 100000 in
theorem codeMasks_eq : ∀ w < 11, CodeMasks.getD w 0 = 2 ^ w - 1 := by decide

theorem shift_out (D w : Nat) :
    (if w ≥ 8 then D >>> 8 else D) >>> (if w ≥ 8 then w - 8 else w) = D / 2 ^ w := by
  split_ifs with h
  · rw [← Nat.shiftRight_add, show 8 + (w - 8) = w by omega, Nat.shiftRight_eq_div_pow]
  · rw [Nat.shiftRight_eq_div_pow]

/-- Reading one code of `w` bits: the code is the low `w` bits of the stream
value, and the stream value loses them. -/
theorem unpackCode_spec (Q : TDGifPrivateType) (rem : List Nat) (w : Nat) (hw : w ≤ 10)
    (hav : w ≤ Q.CrntShiftState + 8 * rem.length) (hs : Q.CrntShiftState < 8)
    (hD : Q.CrntShiftDWord < 2 ^ Q.CrntShiftState) (hf : Feeds Q rem) :
    ∃ Q' rem',
      unpackCode Q w = (TGIF_OK, Q',
        (Q.CrntShiftDWord + 2 ^ Q.CrntShiftState * leValue rem) % 2 ^ w) ∧
      Feeds Q' rem' ∧ Q'.CrntShiftState < 8 ∧ Q'.CrntShiftDWord < 2 ^ Q'.CrntShiftState ∧
      Q'.CrntShiftState + 8 * rem'.length + w = Q.CrntShiftState + 8 * rem.length ∧
      Q'.CrntShiftDWord + 2 ^ Q'.CrntShiftState * leValue rem'
        = (Q.CrntShiftDWord + 2 ^ Q.CrntShiftState * leValue rem) / 2 ^ w := by
  obtain ⟨Q1, rem1, e1, e2, e3, e4, e5, e6, e7⟩ :=
    readBits_spec w (by omega) (w - Q.CrntShiftState) Q rem (le_refl _) hav hs hD hf
  have hne : TGIF_OK ≠ TGIF_ERROR := by decide
  have hpow : 2 ^ Q1.CrntShiftState = 2 ^ w * 2 ^ (Q1.CrntShiftState - w) := by
    rw [← Nat.pow_add]; congr 1; omega
  have hR : Q.CrntShiftDWord + 2 ^ Q.CrntShiftState * leValue rem
      = Q1.CrntShiftDWord + 2 ^ w * (2 ^ (Q1.CrntShiftState - w) * leValue rem1) := by
    rw [← e7, hpow, Nat.mul_assoc]
  have hcode : Q1.CrntShiftDWord &&& CodeMasks.getD w 0
      = (Q.CrntShiftDWord + 2 ^ Q.CrntShiftState * leValue rem) % 2 ^ w := by
    rw [codeMasks_eq w (by omega), Nat.and_pow_two_sub_one_eq_mod, hR,
      Nat.add_mul_mod_self_left]
  refine ⟨{ Q1 with CrntShiftDWord := Q1.CrntShiftDWord / 2 ^ w,
                    CrntShiftState := Q1.CrntShiftState - w }, rem1, ?_, ?_, ?_, ?_, ?_, ?_⟩
  · simp only [unpackCode, e1, hne, if_false, shift_out, hcode]
  · exact e2
  · show Q1.CrntShiftState - w < 8
    omega
  · show Q1.CrntShiftDWord / 2 ^ w < 2 ^ (Q1.CrntShiftState - w)
    rw [Nat.div_lt_iff_lt_mul (by positivity), Nat.mul_comm, ← hpow]
    exact e5
  · show Q1.CrntShiftState - w + 8 * rem1.length + w = _
    omega
  · show Q1.CrntShiftDWord / 2 ^ w + 2 ^ (Q1.CrntShiftState - w) * leValue rem1 = _
    rw [hR, Nat.add_mul_div_left _ _ (by positivity)]

/-- The reader over a whole schedule gives back the codes whose layout is the
low part of the stream value. -/
theorem unpackSeq_spec :
    ∀ (cs : List (Nat × Nat)) (Q : TDGifPrivateType) (rem : List Nat) (X : Nat),
      (∀ p ∈ cs, p.2 ≤ 10 ∧ p.1 < 2 ^ p.2) →
      Feeds Q rem → Q.CrntShiftState < 8 → Q.CrntShiftDWord < 2 ^ Q.CrntShiftState →
      totalBits cs ≤ Q.CrntShiftState + 8 * rem.length →
      Q.CrntShiftDWord + 2 ^ Q.CrntShiftState * leValue rem
        = bitsValue cs + 2 ^ totalBits cs * X →
      unpackSeq Q (cs.map Prod.snd) = some (cs.map Prod.fst) := by
  intro cs
  induction cs with
  | nil => intros; rfl
  | cons p cs ih =>
    intro Q rem X hcs hf hs hD hav hval
    obtain ⟨c, w⟩ := p
    obtain ⟨hw, hc⟩ := hcs (c, w) (List.mem_cons_self _ _)
    simp only [totalBits] at hav
    obtain ⟨Q', rem', e1, e2, e3, e4, e5, e6⟩ :=
      unpackCode_spec Q rem w hw (by omega) hs hD hf
    have hsplit : bitsValue ((c, w) :: cs) + 2 ^ totalBits ((c, w) :: cs) * X
        = c + 2 ^ w * (bitsValue cs + 2 ^ totalBits cs * X) := by
      simp only [bitsValue, totalBits]
      rw [Nat.pow_add]; ring
    rw [hval, hsplit] at e1 e6
    rw [Nat.add_mul_mod_self_left, Nat.mod_eq_of_lt hc] at e1
    rw [Nat.add_mul_div_left _ _ (by positivity), Nat.div_eq_of_lt hc, Nat.zero_add] at e6
    have hne : TGIF_OK ≠ TGIF_ERROR := by decide
    have hrec := ih Q' rem' X (fun p hp => hcs p (List.mem_cons_of_mem _ hp)) e2 e3 e4
      (by omega) e6
    simp only [List.map_cons, unpackSeq, e1, hne, if_false, hrec]

/-- C7: for every sequence of (code, width) pairs with `2 <= width <= 10` and
`code < 2^width`, the writer of `TEGifCompressOutput` (with its final flush)
appends bytes whose little-endian value is the codes laid out from bit 0
upwards, each right above the one before, in the fewest bytes that hold
them; and the reader of `TDGifDecompressInput`, run over those bytes with
the same widths, returns the codes. -/
theorem C7_bitstream_law (cs : List (Nat × Nat))
    (hcs : ∀ p ∈ cs, 2 ≤ p.2 ∧ p.2 ≤ 10 ∧ p.1 < 2 ^ p.2)
    (P : TGifFilePrivateType)
    (hP : P.CrntShiftState = 0 ∧ P.CrntShiftDWord = 0 ∧ P.Buf = []) :
    ∃ bytes, (packSeq P cs).File = P.File ++ bytes ∧
      (∀ b ∈ bytes, b < 256) ∧
      leValue bytes = bitsValue cs ∧
      totalBits cs ≤ 8 * bytes.length ∧ 8 * bytes.length < totalBits cs + 8 ∧
      ∀ Q : TDGifPrivateType, Q.CrntShiftState = 0 → Q.CrntShiftDWord = 0 →
        Feeds Q bytes → unpackSeq Q (cs.map Prod.snd) = some (cs.map Prod.fst) := by
  obtain ⟨hs, hD, hB⟩ := hP
  obtain ⟨bytes, e1, eb, e2, e3, e4⟩ := packSeq_spec P.File cs P []
    (fun p hp => (hcs p hp).2.2) (by simp [hB]) (by omega) (by rw [hs, hD]; decide)
    (by simp)
  simp only [List.length_nil, Nat.mul_zero, hs, hD, Nat.add_zero, Nat.zero_add, leValue,
    Nat.pow_zero, Nat.one_mul] at e2 e3 e4
  refine ⟨bytes, e1, eb, e4, e2, e3, ?_⟩
  intro Q hQs hQD hf
  refine unpackSeq_spec cs Q bytes 0 (fun p hp => ⟨(hcs p hp).2.1, (hcs p hp).2.2⟩) hf
    (by omega) (by rw [hQs, hQD]; decide) (by omega) ?_
  rw [hQs, hQD, e4]; simp

set_option maxRecDepth 100000 in
/-- C7 at the codes 1 (2 bits), 5 (3 bits), 300 (9 bits), written on a new
handle. -/
theorem C7_bitstream_law_witness :
    ∃ bytes, (packSeq TEGifOpenFileName.Private [(1, 2), (5, 3), (300, 9)]).File
        = TEGifOpenFileName.Private.File ++ bytes ∧
      (∀ b ∈ bytes, b < 256) ∧
      leValue bytes = bitsValue [(1, 2), (5, 3), (300, 9)] ∧
      totalBits [(1, 2), (5, 3), (300, 9)] ≤ 8 * bytes.length ∧
      8 * bytes.length < totalBits [(1, 2), (5, 3), (300, 9)] + 8 ∧
      ∀ Q : TDGifPrivateType, Q.CrntShiftState = 0 → Q.CrntShiftDWord = 0 →
        Feeds Q bytes →
        unpackSeq Q ([(1, 2), (5, 3), (300, 9)].map Prod.snd)
          = some ([(1, 2), (5, 3), (300, 9)].map Prod.fst) :=
  C7_bitstream_law [(1, 2), (5, 3), (300, 9)] (by decide) TEGifOpenFileName.Private
    ⟨rfl, rfl, rfl⟩

/-! ## `TDGifDecompress`: number of calls of the callback -/

theorem decodeUpdate_state (s : DState) (c cc : Nat) :
    (decodeUpdate s c cc).state.i = s.i ∧ (decodeUpdate s c cc).state.Out = s.Out ∧
    (decodeUpdate s c cc).state.Private.Info = s.Private.Info ∧
    (decodeUpdate s c cc).state.Private.ReadOffset = s.Private.ReadOffset ∧
    (decodeUpdate s c cc).state.Private.CrntShiftState = s.Private.CrntShiftState ∧
    (decodeUpdate s c cc).state.Private.RunningBits = s.Private.RunningBits ∧
    (decodeUpdate s c cc).state.Private.InitCodeBits = s.Private.InitCodeBits ∧
    (decodeUpdate s c cc).state.Private.MaxCodeBits = s.Private.MaxCodeBits ∧
    ∀ r s', decodeUpdate s c cc ≠ .ret r s' := by
  generalize h : decodeUpdate s c cc = r
  unfold decodeUpdate at h
  dsimp only at h
  repeat' split at h
  all_goals (subst h; simp [DResult.state])

theorem popLoop_count (PC DS : Nat) (Stack : Nat → Nat) :
    ∀ (sp i : Nat) (Out : List Nat) (sp' i' : Nat) (Out' : List Nat),
      popLoop PC DS Stack sp i Out = some (sp', i', Out') →
      i = Out.length → i ≤ PC → i' = Out'.length ∧ i' ≤ PC := by
  intro sp
  induction sp with
  | zero =>
    intro i Out sp' i' Out' h h1 h2
    simp only [popLoop, Option.some.injEq, Prod.mk.injEq] at h
    obtain ⟨-, rfl, rfl⟩ := h
    exact ⟨h1, h2⟩
  | succ sp ih =>
    intro i Out sp' i' Out' h h1 h2
    simp only [popLoop] at h
    split_ifs at h with hlt
    · split at h
      · exact ih _ _ _ _ _ h (by simp [h1]) (by omega)
      · exact absurd h (by simp)
    · simp only [Option.some.injEq, Prod.mk.injEq] at h
      obtain ⟨-, rfl, rfl⟩ := h
      exact ⟨h1, h2⟩

theorem traceFirst_state (s s1 : DState) (c cc cp : Nat)
    (h : traceFirst s c cc = some (s1, cp)) :
    s1.i = s.i ∧ s1.Out = s.Out ∧ s1.Private = s.Private := by
  unfold traceFirst at h
  dsimp only at h
  repeat' split at h
  all_goals (cases h; first | exact ⟨rfl, rfl, rfl⟩ | skip)

theorem decodeTrace_count (PC : Nat) (s : DState) (c cc : Nat)
    (h1 : s.i = s.Out.length) (h2 : s.i < PC) :
    (decodeTrace PC s c cc).state.i = (decodeTrace PC s c cc).state.Out.length ∧
    (decodeTrace PC s c cc).state.i ≤ PC ∧
    ∀ s', decodeTrace PC s c cc ≠ .ret TGIF_OK s' := by
  have hne : TGIF_ERROR ≠ TGIF_OK := by decide
  unfold decodeTrace
  dsimp only
  split
  · exact ⟨h1, by simp only [DResult.state]; omega, by simp⟩
  · rename_i s1 cp hf
    obtain ⟨g1, g2, -⟩ := traceFirst_state s s1 c cc cp hf
    split
    · exact ⟨by simp only [DResult.state]; rw [g1, g2]; exact h1,
        by simp only [DResult.state]; omega, by simp⟩
    · rename_i Stack sp cp' ht
      split_ifs
      · exact ⟨by simp only [DResult.state]; rw [g1, g2]; exact h1,
          by simp only [DResult.state]; omega, by simp [hne]⟩
      · split
        · exact ⟨by simp only [DResult.state]; rw [g1, g2]; exact h1,
            by simp only [DResult.state]; omega, by simp⟩
        · rename_i sp2 i2 Out2 hp
          obtain ⟨p1, p2⟩ := popLoop_count _ _ _ _ _ _ _ _ _ hp
            (by simp [g1, g2, h1]) (by omega)
          obtain ⟨u1, u2, -, -, -, -, -, -, u3⟩ := decodeUpdate_state
            { s1 with Stack := Stack, StackPtr := sp2, i := i2, Out := Out2 } c cc
          exact ⟨by rw [u1, u2]; exact p1, by rw [u1]; exact p2, fun s' => u3 _ _⟩

theorem decodeBody_count (PC CC : Nat) (s : DState)
    (h1 : s.i = s.Out.length) (h2 : s.i < PC) :
    (decodeBody PC CC s).state.i = (decodeBody PC CC s).state.Out.length ∧
    (decodeBody PC CC s).state.i ≤ PC ∧
    ∀ s', decodeBody PC CC s ≠ .ret TGIF_OK s' := by
  have hne : TGIF_ERROR ≠ TGIF_OK := by decide
  rcases hin : TDGifDecompressInput s.Private with ⟨r, P, c⟩
  unfold decodeBody
  rw [hin]
  dsimp only
  split_ifs with hr hc hl
  · exact ⟨h1, by simp only [DResult.state]; omega, by simp [hne]⟩
  · exact ⟨h1, by simp only [DResult.state]; omega, by simp⟩
  · obtain ⟨u1, u2, -, -, -, -, -, -, u3⟩ := decodeUpdate_state
      { s with Private := P, Out := s.Out ++ [c % 256], i := s.i + 1 } c P.ClearCode
    exact ⟨by rw [u1, u2]; simp [h1], by rw [u1]; simp only; omega, fun s' => u3 _ _⟩
  · exact decodeTrace_count PC { s with Private := P } c P.ClearCode h1 h2

theorem decodeLoop_count (PC CC : Nat) :
    ∀ (k : Nat) (s : DState), s.i = s.Out.length → s.i ≤ PC →
      (decodeLoop PC CC k s).state.Out.length ≤ PC ∧
      ∀ s', decodeLoop PC CC k s = .ret TGIF_OK s' → s'.Out.length = PC := by
  intro k
  induction k with
  | zero =>
    intro s h1 h2
    unfold decodeLoop
    split_ifs with hlt
    · exact ⟨by simp only [DResult.state]; omega, by simp⟩
    · refine ⟨by simp only [DResult.state]; omega, ?_⟩
      intro s' hs'
      simp only [DResult.ret.injEq, true_and] at hs'
      subst hs'; omega
  | succ k ih =>
    intro s h1 h2
    unfold decodeLoop
    split_ifs with hlt
    · obtain ⟨b1, b2, b3⟩ := decodeBody_count PC CC s h1 hlt
      generalize decodeBody PC CC s = r at b1 b2 b3
      cases r with
      | next s1 => exact ih s1 b1 b2
      | ret r s1 =>
        refine ⟨by simp only [DResult.state] at b1 b2 ⊢; omega, ?_⟩
        intro s' hs'
        simp only [DResult.ret.injEq] at hs'
        exact absurd (by rw [hs'.1, hs'.2]) (b3 s')
      | fault s1 => exact ⟨by simp only [DResult.state] at b1 b2 ⊢; omega, by simp⟩
      | fuel s1 => exact ⟨by simp only [DResult.state] at b1 b2 ⊢; omega, by simp⟩
    · refine ⟨by simp only [DResult.state]; omega, ?_⟩
      intro s' hs'
      simp only [DResult.ret.injEq, true_and] at hs'
      subst hs'; omega

/-! ## `TDGifDecompress`: termination -/

theorem dec_bitSizeLoop_bounds (n : Nat) :
    ∀ (k i shv : Nat), i ≤ Dec.BitSizeLoop n k i shv ∧ Dec.BitSizeLoop n k i shv ≤ i + k := by
  intro k
  induction k with
  | zero => intro i shv; simp [Dec.BitSizeLoop]
  | succ k ih =>
    intro i shv
    unfold Dec.BitSizeLoop
    split_ifs
    · omega
    · have := ih (i + 1) (shv <<< 1 % 65536)
      omega

theorem dec_bitSize_le (n : Nat) : Dec.BitSize n ≤ 13 := by
  have := (dec_bitSizeLoop_bounds n 12 1 2).2
  unfold Dec.BitSize; omega

theorem dec_bitSize_ge (n : Nat) (h : 2 ≤ n) : 2 ≤ Dec.BitSize n := by
  unfold Dec.BitSize Dec.BitSizeLoop
  have h2 : ¬ 2 > n := by omega
  simp only [h2, if_false]
  exact (dec_bitSizeLoop_bounds n 11 2 _).1

theorem decodeInit_widths (Info : TGifInfo) : WidthsOk (decodeInit Info).Private := by
  unfold WidthsOk decodeInit
  dsimp only
  have hb := readByte_lt Info.Data 0
  have h1 : 2 ≤ (if TDGifReadByte Info.Data 0 = 0 then 256 else TDGifReadByte Info.Data 0) + 1 := by
    split_ifs <;> omega
  exact ⟨dec_bitSize_ge _ h1, dec_bitSize_le _, dec_bitSize_ge _ h1, dec_bitSize_le _,
    dec_bitSize_le _⟩

/-- The fill loop of the reader moves bits from the data to the accumulator. -/
theorem readBits_bits (w : Nat) (hw : w ≤ 13) :
    ∀ (k : Nat) (Q : TDGifPrivateType) (r : Nat) (Q' : TDGifPrivateType),
      w - Q.CrntShiftState ≤ k → readBits w k Q = (r, Q') → r ≠ TGIF_ERROR →
      bitsLeft Q' = bitsLeft Q ∧ w ≤ Q'.CrntShiftState ∧ Q'.Info.MaxSz = Q.Info.MaxSz ∧
      Q'.RunningBits = Q.RunningBits ∧ Q'.InitCodeBits = Q.InitCodeBits ∧
      Q'.MaxCodeBits = Q.MaxCodeBits := by
  intro k
  induction k with
  | zero =>
    intro Q r Q' hk h hr
    simp only [readBits, Prod.mk.injEq] at h
    obtain ⟨-, rfl⟩ := h
    exact ⟨rfl, by omega, rfl, rfl, rfl, rfl⟩
  | succ k ih =>
    intro Q r Q' hk h hr
    unfold readBits at h
    split_ifs at h with hlt
    · unfold TDGifInput at h
      split_ifs at h with hro
      · simp only [if_true, Prod.mk.injEq] at h
        exact absurd h.1.symm hr
      · have hne : TGIF_OK ≠ TGIF_ERROR := by decide
        simp only [hne, if_false] at h
        obtain ⟨e1, e2, e3, e4, e5, e6⟩ := ih _ r Q' (by
          show w - (Q.CrntShiftState + 8) % 256 ≤ k
          omega) h hr
        refine ⟨?_, e2, e3, e4, e5, e6⟩
        rw [e1]
        show 8 * (Q.Info.MaxSz - (Q.ReadOffset + 1)) + (Q.CrntShiftState + 8) % 256
          = 8 * (Q.Info.MaxSz - Q.ReadOffset) + Q.CrntShiftState
        omega
    · simp only [Prod.mk.injEq] at h
      obtain ⟨-, rfl⟩ := h
      exact ⟨rfl, by omega, rfl, rfl, rfl, rfl⟩

theorem unpackCode_bits (Q Q' : TDGifPrivateType) (w r c : Nat) (hw : w ≤ 13)
    (h : unpackCode Q w = (r, Q', c)) (hr : r ≠ TGIF_ERROR) :
    bitsLeft Q' + w = bitsLeft Q ∧ Q'.Info.MaxSz = Q.Info.MaxSz ∧
    Q'.RunningBits = Q.RunningBits ∧ Q'.InitCodeBits = Q.InitCodeBits ∧
    Q'.MaxCodeBits = Q.MaxCodeBits := by
  unfold unpackCode at h
  rcases hrb : readBits w (w - Q.CrntShiftState) Q with ⟨r1, Q1⟩
  rw [hrb] at h
  dsimp only at h
  by_cases hr1 : r1 = TGIF_ERROR
  · simp only [hr1, if_true, Prod.mk.injEq] at h
    exact absurd h.1.symm hr
  · obtain ⟨e1, e2, e3, e4, e5, e6⟩ := readBits_bits w hw _ Q r1 Q1 (le_refl _) hrb hr1
    simp only [hr1, if_false, shift_out, Prod.mk.injEq] at h
    obtain ⟨-, rfl, -⟩ := h
    refine ⟨?_, e3, e4, e5, e6⟩
    rw [← e1]
    show 8 * (Q1.Info.MaxSz - Q1.ReadOffset) + (Q1.CrntShiftState - w) + w
      = 8 * (Q1.Info.MaxSz - Q1.ReadOffset) + Q1.CrntShiftState
    omega

/-- A successful `TDGifDecompressInput` takes `RunningBits` bits. -/
theorem decompressInput_bits (P P' : TDGifPrivateType) (r c : Nat) (hP : WidthsOk P)
    (h : TDGifDecompressInput P = (r, P', c)) (hr : r ≠ TGIF_ERROR) :
    bitsLeft P' + P.RunningBits = bitsLeft P ∧ WidthsOk P' ∧
    P'.Info.MaxSz = P.Info.MaxSz := by
  obtain ⟨w1, w2, w3, w4, w5⟩ := hP
  unfold TDGifDecompressInput at h
  rcases hu : unpackCode P P.RunningBits with ⟨r1, Q, c1⟩
  rw [hu] at h
  dsimp only at h
  by_cases hr1 : r1 = TGIF_ERROR
  · simp only [hr1, if_true, Prod.mk.injEq] at h
    exact absurd h.1.symm hr
  · obtain ⟨e1, e3, e4, e5, e6⟩ := unpackCode_bits P Q P.RunningBits r1 c1 w2 hu hr1
    simp only [hr1, if_false] at h
    unfold WidthsOk
    split_ifs at h with h1 h2
    · simp only [Prod.mk.injEq] at h
      obtain ⟨-, rfl, -⟩ := h
      have : Q.RunningBits < Q.MaxCodeBits := h2.2
      exact ⟨e1, ⟨by dsimp only; omega, by dsimp only; omega, by dsimp only; omega,
        by dsimp only; omega, by dsimp only; omega⟩, e3⟩
    · simp only [Prod.mk.injEq] at h
      obtain ⟨-, rfl, -⟩ := h
      exact ⟨e1, ⟨by dsimp only; omega, by dsimp only; omega, by dsimp only; omega,
        by dsimp only; omega, by dsimp only; omega⟩, e3⟩
    · simp only [Prod.mk.injEq] at h
      obtain ⟨-, rfl, -⟩ := h
      exact ⟨e1, ⟨by omega, by omega, by omega, by omega, by omega⟩, e3⟩

theorem decodeUpdate_kind (s : DState) (c cc : Nat) :
    (∃ s', decodeUpdate s c cc = .next s') ∨ (∃ s', decodeUpdate s c cc = .fault s') := by
  generalize h : decodeUpdate s c cc = r
  unfold decodeUpdate at h
  dsimp only at h
  repeat' split at h
  all_goals (subst h; simp)

theorem decodeUpdate_next (s s' : DState) (c cc : Nat)
    (h : decodeUpdate s c cc = .next s') :
    s'.Private.Info = s.Private.Info ∧ s'.Private.ReadOffset = s.Private.ReadOffset ∧
    s'.Private.CrntShiftState = s.Private.CrntShiftState ∧
    s'.Private.RunningBits = s.Private.RunningBits ∧
    s'.Private.InitCodeBits = s.Private.InitCodeBits ∧
    s'.Private.MaxCodeBits = s.Private.MaxCodeBits := by
  obtain ⟨-, -, u3, u4, u5, u6, u7, u8, -⟩ := decodeUpdate_state s c cc
  rw [h] at u3 u4 u5 u6 u7 u8
  exact ⟨u3, u4, u5, u6, u7, u8⟩

theorem decodeTrace_next (PC : Nat) (s s' : DState) (c cc : Nat)
    (h : decodeTrace PC s c cc = .next s') :
    s'.Private.Info = s.Private.Info ∧ s'.Private.ReadOffset = s.Private.ReadOffset ∧
    s'.Private.CrntShiftState = s.Private.CrntShiftState ∧
    s'.Private.RunningBits = s.Private.RunningBits ∧
    s'.Private.InitCodeBits = s.Private.InitCodeBits ∧
    s'.Private.MaxCodeBits = s.Private.MaxCodeBits := by
  unfold decodeTrace at h
  dsimp only at h
  split at h
  · exact absurd h (by simp)
  · rename_i s1 cp hf
    obtain ⟨-, -, g3⟩ := traceFirst_state s s1 c cc cp hf
    split at h
    · exact absurd h (by simp)
    · split at h
      · exact absurd h (by simp)
      · split at h
        · exact absurd h (by simp)
        · have u := decodeUpdate_next _ _ _ _ h
          dsimp only at u
          rw [g3] at u
          exact u

theorem decodeTrace_kind (PC : Nat) (s : DState) (c cc : Nat) :
    ∀ s', decodeTrace PC s c cc ≠ .fuel s' := by
  intro s' h
  unfold decodeTrace at h
  dsimp only at h
  split at h
  · exact absurd h (by simp)
  · split at h
    · exact absurd h (by simp)
    · split at h
      · exact absurd h (by simp)
      · split at h
        · exact absurd h (by simp)
        · rcases decodeUpdate_kind _ c cc with ⟨t, ht'⟩ | ⟨t, ht'⟩ <;>
            (rw [ht'] at h; exact absurd h (by simp))

/-- A pass of the loop that goes on to the next one took at least two bits of
the data. -/
theorem decodeBody_bits (PC CC : Nat) (s s' : DState) (hP : WidthsOk s.Private)
    (h : decodeBody PC CC s = .next s') :
    bitsLeft s'.Private + 2 ≤ bitsLeft s.Private ∧ WidthsOk s'.Private ∧
    s'.Private.Info.MaxSz = s.Private.Info.MaxSz := by
  rcases hin : TDGifDecompressInput s.Private with ⟨r, P, c⟩
  unfold decodeBody at h
  rw [hin] at h
  dsimp only at h
  split_ifs at h with hr hc hl
  · obtain ⟨b1, ⟨w1, w2, w3, w4, w5⟩, b3⟩ := decompressInput_bits s.Private P r c hP hin hr
    simp only [DResult.next.injEq] at h
    subst h
    obtain ⟨v1, -, -, -, -⟩ := hP
    refine ⟨?_, ⟨w3, w4, w3, w4, w5⟩, b3⟩
    show bitsLeft P + 2 ≤ bitsLeft s.Private
    omega
  · obtain ⟨b1, b2, b3⟩ := decompressInput_bits s.Private P r c hP hin hr
    obtain ⟨u3, u4, u5, u6, u7, u8⟩ := decodeUpdate_next _ _ _ _ h
    dsimp only at u3 u4 u5 u6 u7 u8
    obtain ⟨v1, -, -, -, -⟩ := hP
    unfold WidthsOk at b2 ⊢
    unfold bitsLeft at b1 ⊢
    rw [u3, u4, u5, u6, u7, u8]
    exact ⟨by omega, b2, b3⟩
  · obtain ⟨b1, b2, b3⟩ := decompressInput_bits s.Private P r c hP hin hr
    obtain ⟨u3, u4, u5, u6, u7, u8⟩ := decodeTrace_next PC { s with Private := P } s' c _ h
    dsimp only at u3 u4 u5 u6 u7 u8
    obtain ⟨v1, -, -, -, -⟩ := hP
    unfold WidthsOk at b2 ⊢
    unfold bitsLeft at b1 ⊢
    rw [u3, u4, u5, u6, u7, u8]
    exact ⟨by omega, b2, b3⟩

theorem decodeBody_kind (PC CC : Nat) (s : DState) : ∀ s', decodeBody PC CC s ≠ .fuel s' := by
  intro s' h
  rcases hin : TDGifDecompressInput s.Private with ⟨r, P, c⟩
  unfold decodeBody at h
  rw [hin] at h
  dsimp only at h
  split_ifs at h with hr hc hl
  · rcases decodeUpdate_kind
      { s with Private := P, Out := s.Out ++ [c % 256], i := s.i + 1 } c P.ClearCode
      with ⟨t, ht⟩ | ⟨t, ht⟩ <;> (rw [ht] at h; exact absurd h (by simp))
  · exact decodeTrace_kind PC _ c _ s' h

/-- With two units of fuel for every bit left, the loop ends by itself. -/
theorem decodeLoop_ends (PC CC : Nat) :
    ∀ (k : Nat) (s : DState), WidthsOk s.Private → bitsLeft s.Private < 2 * k →
      (∃ r s', decodeLoop PC CC k s = .ret r s') ∨ (∃ s', decodeLoop PC CC k s = .fault s') := by
  intro k
  induction k with
  | zero => intro s _ h; omega
  | succ k ih =>
    intro s hP hb
    unfold decodeLoop
    split_ifs with hlt
    · rcases hbody : decodeBody PC CC s with s1 | ⟨r, s1⟩ | s1 | s1
      · obtain ⟨b1, b2, -⟩ := decodeBody_bits PC CC s s1 hP hbody
        exact ih s1 b2 (by omega)
      · exact Or.inl ⟨r, s1, rfl⟩
      · exact Or.inr ⟨s1, rfl⟩
      · exact absurd hbody (decodeBody_kind PC CC s s1)
    · exact Or.inl ⟨_, _, rfl⟩

/-- The states the loop reaches keep the widths in range. -/
theorem decodeLoop_reach (PC CC : Nat) :
    ∀ (n : Nat) (s0 s : DState), WidthsOk s0.Private → decodeLoop PC CC n s0 = .fuel s →
      WidthsOk s.Private ∧ bitsLeft s.Private + 2 * n ≤ bitsLeft s0.Private := by
  intro n
  induction n with
  | zero =>
    intro s0 s hP h
    unfold decodeLoop at h
    split_ifs at h
    simp only [DResult.fuel.injEq] at h
    subst h
    exact ⟨hP, by omega⟩
  | succ n ih =>
    intro s0 s hP h
    unfold decodeLoop at h
    split_ifs at h with hlt
    rcases hbody : decodeBody PC CC s0 with s1 | ⟨r, s1⟩ | s1 | s1
    · rw [hbody] at h
      obtain ⟨b1, b2, -⟩ := decodeBody_bits PC CC s0 s1 hP hbody
      obtain ⟨c1, c2⟩ := ih s1 s b2 h
      exact ⟨c1, by omega⟩
    · rw [hbody] at h; exact absurd h (by simp)
    · rw [hbody] at h; exact absurd h (by simp)
    · exact absurd hbody (decodeBody_kind PC CC s0 s1)

theorem traceLoop_passes (P : TDGifPrivateType) (Suffix : Nat → Nat) (cc : Nat) :
    ∀ (k : Nat) (Stack : Nat → Nat) (sp cp : Nat) (Stack' : Nat → Nat) (sp' cp' : Nat),
      traceLoop P Suffix cc k Stack sp cp = some (Stack', sp', cp') →
      sp ≤ sp' ∧ sp' ≤ sp + k := by
  intro k
  induction k with
  | zero =>
    intro Stack sp cp Stack' sp' cp' h
    simp only [traceLoop, Option.some.injEq, Prod.mk.injEq] at h
    omega
  | succ k ih =>
    intro Stack sp cp Stack' sp' cp' h
    unfold traceLoop at h
    split_ifs at h
    · split at h
      · have := ih _ _ _ _ _ _ h
        omega
      · exact absurd h (by simp)
    · simp only [Option.some.injEq, Prod.mk.injEq] at h
      omega

theorem sampleCycle_getInfo :
    TDGifGetInfo (bufferOf sampleCycle) (some zeroInfo) 1023 1023 9
      = (TGIF_OK, some sampleCycleInfo) := by
  rfl

set_option maxRecDepth 100000 in
/-- C10 as stated fails: on the file `sampleCycle`, accepted by
`TDGifGetInfo`, the fourth code names a dictionary entry that is its own
prefix, and the trace loop of that pass takes `StackPtr` from 0 to 64 with
`DictSize = 64`: 64 passes, not fewer than `DictSize`. -/
theorem C10_trace_loop_runs_DictSize_passes :
    TDGifGetInfo (bufferOf sampleCycle) (some zeroInfo) 1023 1023 9
      = (TGIF_OK, some sampleCycleInfo) ∧
    tracePasses (decodeLoop 8 1 3 (decodeInit sampleCycleInfo)).state = some (64, 0, 64) ∧
    ¬ (64 - 0 < 64) :=
  ⟨sampleCycle_getInfo, by decide, by decide⟩

/-! ## Encoder hash table: the probes end -/

theorem key_mask_mod (h : Nat) : h &&& HT_KEY_MASK = h % 8192 := by
  have := Nat.and_pow_two_sub_one_eq_mod h 13
  simpa [HT_KEY_MASK] using this

theorem keyItem_lt (Key : Nat) : KeyItem Key < 8192 := by
  unfold KeyItem; rw [key_mask_mod]; omega

theorem insertProbe_none (HTable : TGifHashTableType) :
    ∀ (fuel h0 : Nat), h0 < 8192 → insertProbe HTable fuel h0 = none →
      ∀ j, j < fuel → Occupied HTable ((h0 + j) % 8192) := by
  intro fuel
  induction fuel with
  | zero => intro h0 _ _ j hj; omega
  | succ fuel ih =>
    intro h0 hh hnone j hj
    unfold insertProbe at hnone
    split_ifs at hnone with hocc
    rw [key_mask_mod] at hnone
    cases j with
    | zero => rw [Nat.add_zero, Nat.mod_eq_of_lt hh]; exact hocc
    | succ j =>
      have := ih ((h0 + 1) % 8192) (Nat.mod_lt _ (by decide)) hnone j (by omega)
      rw [Nat.mod_add_mod] at this
      rw [show h0 + (j + 1) = h0 + 1 + j by omega]
      exact this

theorem existsProbe_none (HTable : TGifHashTableType) (Key : Nat) :
    ∀ (fuel h0 : Nat), h0 < 8192 → existsProbe HTable Key fuel h0 = none →
      ∀ j, j < fuel → Occupied HTable ((h0 + j) % 8192) := by
  intro fuel
  induction fuel with
  | zero => intro h0 _ _ j hj; omega
  | succ fuel ih =>
    intro h0 hh hnone j hj
    unfold existsProbe at hnone
    split_ifs at hnone with hocc hkey
    rw [key_mask_mod] at hnone
    cases j with
    | zero => rw [Nat.add_zero, Nat.mod_eq_of_lt hh]; exact hocc
    | succ j =>
      have := ih ((h0 + 1) % 8192) (Nat.mod_lt _ (by decide)) hnone j (by omega)
      rw [Nat.mod_add_mod] at this
      rw [show h0 + (j + 1) = h0 + 1 + j by omega]
      exact this

/-- A table whose occupied cells fit in a list shorter than the table has a
free cell on every probe path. -/
theorem probe_full_absurd (HTable : TGifHashTableType) (L : List Nat) (h0 : Nat)
    (hL : L.length < 8192) (hcover : ∀ i, Occupied HTable i → i ∈ L)
    (hall : ∀ j, j < 8192 → Occupied HTable ((h0 + j) % 8192)) : False := by
  have hsub : Finset.range 8192 ⊆ L.toFinset := by
    intro x hx
    rw [Finset.mem_range] at hx
    rw [List.mem_toFinset]
    apply hcover
    have := hall ((x + 8192 - h0 % 8192) % 8192) (Nat.mod_lt _ (by decide))
    have e : (h0 + (x + 8192 - h0 % 8192) % 8192) % 8192 = x := by omega
    rw [e] at this
    exact this
  have h1 := Finset.card_le_card hsub
  have h2 := List.toFinset_card_le L
  rw [Finset.card_range] at h1
  omega

theorem insertProbe_some (HTable : TGifHashTableType) (L : List Nat) (Key : Nat)
    (hL : L.length < 8192) (hcover : ∀ i, Occupied HTable i → i ∈ L) :
    ∃ j, insertProbe HTable HT_SIZE (KeyItem Key) = some j := by
  cases h : insertProbe HTable HT_SIZE (KeyItem Key) with
  | some j => exact ⟨j, rfl⟩
  | none =>
    exact (probe_full_absurd HTable L (KeyItem Key) hL hcover
      (insertProbe_none HTable 8192 _ (keyItem_lt Key) h)).elim

theorem existsProbe_some (HTable : TGifHashTableType) (L : List Nat) (Key : Nat)
    (hL : L.length < 8192) (hcover : ∀ i, Occupied HTable i → i ∈ L) :
    ∃ v, _ExistsHashTable HTable Key = some v := by
  unfold _ExistsHashTable
  cases h : existsProbe HTable Key HT_SIZE (KeyItem Key) with
  | some v => exact ⟨v, rfl⟩
  | none =>
    exact (probe_full_absurd HTable L (KeyItem Key) hL hcover
      (existsProbe_none HTable Key 8192 _ (keyItem_lt Key) h)).elim

/-- What `_ExistsHashTable` returns is `-1` or the code field of an occupied
cell. -/
theorem existsProbe_value (HTable : TGifHashTableType) (Key : Nat) :
    ∀ (fuel h0 : Nat) (v : Int), existsProbe HTable Key fuel h0 = some v →
      v = -1 ∨ ∃ i, Occupied HTable i ∧ v = (HT_GET_CODE (HTable i) : Nat) := by
  intro fuel
  induction fuel with
  | zero => intro h0 v h; simp [existsProbe] at h
  | succ fuel ih =>
    intro h0 v h
    unfold existsProbe at h
    split_ifs at h with hocc hkey
    · simp only [Option.some.injEq] at h
      exact Or.inr ⟨h0, hocc, h.symm⟩
    · exact ih _ v h
    · simp only [Option.some.injEq] at h
      exact Or.inl h.symm

theorem insertProbe_free (HTable : TGifHashTableType) :
    ∀ (fuel h0 j : Nat), insertProbe HTable fuel h0 = some j → ¬ Occupied HTable j := by
  intro fuel
  induction fuel with
  | zero => intro h0 j h; simp [insertProbe] at h
  | succ fuel ih =>
    intro h0 j h
    unfold insertProbe at h
    split_ifs at h with hocc
    · exact ih _ j h
    · simp only [Option.some.injEq] at h
      subst h
      exact hocc

theorem clear_not_occupied (i : Nat) : ¬ Occupied _ClearHashTable i := by
  unfold Occupied _ClearHashTable HT_GET_KEY
  decide

/-- The code field of the entry `_InsertHashTable` stores. -/
theorem entry_code (Key Code : Nat) :
    HT_GET_CODE (HT_PUT_KEY Key ||| HT_PUT_CODE Code) = Code % 4096 := by
  unfold HT_GET_CODE HT_PUT_KEY HT_PUT_CODE
  have e1 : Code &&& 0x0FFF = Code % 4096 := by
    have := Nat.and_pow_two_sub_one_eq_mod Code 12
    simpa using this
  have e2 : (Key <<< 12) % 2 ^ 32 = 2 ^ 12 * (Key % 2 ^ 20) := by
    rw [Nat.shiftLeft_eq, Nat.mul_comm, show (2 : Nat) ^ 32 = 2 ^ 12 * 2 ^ 20 by decide,
      Nat.mul_mod_mul_left]
  have e3 : ∀ x, x &&& 0x0FFF = x % 4096 := by
    intro x
    have := Nat.and_pow_two_sub_one_eq_mod x 12
    simpa using this
  rw [e1, e2, e3, ← Nat.mul_add_lt_is_or (by omega : Code % 4096 < 2 ^ 12)]
  omega

/-! ## Encoder: what the output routines leave alone -/

theorem bufferedOutput_fields (P : TGifFilePrivateType) (c : Nat) :
    codecFields (TEGifBufferedOutput P c) = codecFields P := by
  unfold TEGifBufferedOutput
  split_ifs <;> rfl

theorem emitLowByte_fields (P : TGifFilePrivateType) :
    codecFields (emitLowByte P) = codecFields P := by
  unfold emitLowByte
  exact bufferedOutput_fields P _

theorem dumpBytes_fields : ∀ (k : Nat) (P : TGifFilePrivateType),
    codecFields (dumpBytes k P) = codecFields P := by
  intro k
  induction k with
  | zero => intro P; rfl
  | succ k ih =>
    intro P
    unfold dumpBytes
    split_ifs
    · rw [ih, emitLowByte_fields]
    · rfl

theorem flushBytes_fields : ∀ (k : Nat) (P : TGifFilePrivateType),
    codecFields (flushBytes k P) = codecFields P := by
  intro k
  induction k with
  | zero => intro P; rfl
  | succ k ih =>
    intro P
    unfold flushBytes
    split_ifs
    · rw [ih, emitLowByte_fields]
    · rfl

theorem flushCode_fields (P : TGifFilePrivateType) :
    codecFields (flushCode P) = codecFields P := by
  unfold flushCode
  dsimp only
  rw [bufferedOutput_fields]
  exact flushBytes_fields _ P

theorem packCode_fields (P : TGifFilePrivateType) (c w : Nat) :
    codecFields (packCode P c w) = codecFields P := by
  rw [packCode_eq, dumpBytes_fields]
  rfl

/-- `TEGifCompressOutput` logs the code (unless it is the flush mark) and may
raise the width; the dictionary fields stay. -/
theorem compressOutput_fields (P : TGifFilePrivateType) (c : Nat) :
    (TEGifCompressOutput P c).ClearCode = P.ClearCode ∧
    (TEGifCompressOutput P c).RunningCode = P.RunningCode ∧
    (TEGifCompressOutput P c).MaxCodePoint = P.MaxCodePoint ∧
    (TEGifCompressOutput P c).HashTable = P.HashTable ∧
    (TEGifCompressOutput P c).InitCodeBits = P.InitCodeBits ∧
    (TEGifCompressOutput P c).PixelCount = P.PixelCount ∧
    (TEGifCompressOutput P c).CrntCode = P.CrntCode ∧
    (TEGifCompressOutput P c).FileState = P.FileState ∧
    (TEGifCompressOutput P c).ColorCount = P.ColorCount ∧
    (TEGifCompressOutput P c).Log
      = if c = FLUSH_OUTPUT then P.Log else P.Log ++ [(c, P.RunningBits)] := by
  unfold TEGifCompressOutput
  by_cases hc : c = FLUSH_OUTPUT
  · have h := flushCode_fields P
    simp only [codecFields, Prod.mk.injEq] at h
    obtain ⟨h1, h2, h3, h4, h5, h6, h7, h8, h9, h10, h11, h12⟩ := h
    simp only [hc, if_true]
    split_ifs <;> exact ⟨h4, h5, h8, h11, h3, h10, h9, h1, h2, h12⟩
  · have h := packCode_fields { P with Log := P.Log ++ [(c, P.RunningBits)] } c P.RunningBits
    simp only [codecFields, Prod.mk.injEq] at h
    obtain ⟨h1, h2, h3, h4, h5, h6, h7, h8, h9, h10, h11, h12⟩ := h
    simp only [hc, if_false]
    split_ifs <;> exact ⟨h4, h5, h8, h11, h3, h10, h9, h1, h2, h12⟩

/-! ## Encoder: the invariant over a line -/

theorem compressPixel_inv (CC M : Nat) (G : TGifFileType) (c Pixel : Nat)
    (hI : EncInv CC M G c) (hp : Pixel < CC) :
    ∃ G' c', compressPixel G c Pixel = some (G', c') ∧ EncInv CC M G' c' := by
  obtain ⟨i1, i2, i3, i4, i5, i6, i7, ⟨L, hL, hcover⟩, i9⟩ := hI
  have hLlt : L.length < 8192 := by unfold LZ_MAX_CODE at i5; omega
  obtain ⟨v, hv⟩ := existsProbe_some G.Private.HashTable L ((c <<< 8) + Pixel) hLlt hcover
  unfold compressPixel
  dsimp only
  rw [hv]
  dsimp only
  by_cases hv0 : v ≥ 0
  · simp only [hv0, if_true]
    refine ⟨G, v.toNat, rfl, i1, i2, i3, i4, i5, ?_, i7, ⟨L, hL, hcover⟩, i9⟩
    rcases existsProbe_value _ _ _ _ _ hv with h | ⟨i, hi, h⟩
    · omega
    · rw [h]; simpa using i7 i hi
  · simp only [hv0, if_false]
    obtain ⟨o1, o2, o3, o4, o5, o6, o7, o8, o9, o10⟩ := compressOutput_fields G.Private c
    have hcf : c ≠ FLUSH_OUTPUT := by unfold FLUSH_OUTPUT; unfold LZ_MAX_CODE at i5 ⊢; omega
    simp only [hcf, if_false] at o10
    generalize TEGifCompressOutput G.Private c = P1 at o1 o2 o3 o4 o5 o6 o7 o8 o9 o10 ⊢
    have hlog1 : ∀ p ∈ P1.Log, p.1 < M := by
      intro p hp'
      rw [o10] at hp'
      rcases List.mem_append.1 hp' with h | h
      · exact i9 p h
      · rw [List.mem_singleton.1 h]; show c < M; omega
    by_cases hfull : P1.RunningCode ≥ P1.MaxCodePoint
    · simp only [hfull, if_true]
      obtain ⟨q1, q2, q3, q4, q5, q6, q7, q8, q9, q10⟩ := compressOutput_fields P1 P1.ClearCode
      have hcf2 : P1.ClearCode ≠ FLUSH_OUTPUT := by
        unfold FLUSH_OUTPUT; unfold LZ_MAX_CODE at i5 ⊢; omega
      simp only [hcf2, if_false] at q10
      generalize TEGifCompressOutput P1 P1.ClearCode = P2 at q1 q2 q3 q4 q5 q6 q7 q8 q9 q10 ⊢
      refine ⟨_, Pixel, rfl, ?_, ?_, ?_, ?_, i5, ?_, ?_, ⟨[], ?_, ?_⟩, ?_⟩
      · show P2.ClearCode = CC
        rw [q1, o1, i1]
      · show P2.MaxCodePoint = M
        rw [q3, o3, i2]
      · show CC + 1 ≤ P2.ClearCode + 1
        rw [q1, o1, i1]
      · show P2.ClearCode + 1 ≤ M
        rw [q1, o1, i1]; omega
      · show Pixel < P2.ClearCode + 1
        rw [q1, o1, i1]; omega
      · intro i hi
        exact absurd hi (clear_not_occupied i)
      · show ([] : List Nat).length + CC + 1 ≤ P2.ClearCode + 1
        rw [q1, o1, i1]; simp
      · intro i hi
        exact absurd hi (clear_not_occupied i)
      · intro p hp'
        show p.1 < M
        have hp2 : p ∈ P2.Log := hp'
        rw [q10] at hp2
        rcases List.mem_append.1 hp2 with h | h
        · exact hlog1 p h
        · rw [List.mem_singleton.1 h]; show P1.ClearCode < M; rw [o1, i1]; omega
    · simp only [hfull, if_false]
      have hcover1 : ∀ i, Occupied P1.HashTable i → i ∈ L := by rw [o4]; exact hcover
      obtain ⟨j, hj⟩ := insertProbe_some P1.HashTable L ((c <<< 8) + Pixel) hLlt hcover1
      have hfree := insertProbe_free _ _ _ _ hj
      unfold _InsertHashTable
      rw [hj]
      dsimp only
      refine ⟨_, Pixel, rfl, ?_, ?_, ?_, ?_, i5, ?_, ?_, ⟨j :: L, ?_, ?_⟩, ?_⟩
      · show P1.ClearCode = CC
        rw [o1, i1]
      · show P1.MaxCodePoint = M
        rw [o3, i2]
      · show CC + 1 ≤ P1.RunningCode + 1
        rw [o2]; omega
      · show P1.RunningCode + 1 ≤ M
        rw [o3, i2] at hfull; omega
      · show Pixel < P1.RunningCode + 1
        rw [o2]; omega
      · intro i hi
        show HT_GET_CODE (if i = j then _ else P1.HashTable i) < P1.RunningCode + 1
        by_cases hij : i = j
        · simp only [hij, if_true, entry_code]
          have := Nat.mod_le P1.RunningCode 4096
          omega
        · simp only [hij, if_false]
          have hi' : Occupied P1.HashTable i := by
            unfold Occupied at hi ⊢
            simpa [hij] using hi
          rw [o4] at hi' ⊢
          have := i7 i hi'
          rw [o2]; omega
      · show (j :: L).length + CC + 1 ≤ P1.RunningCode + 1
        rw [o2, List.length_cons]; omega
      · intro i hi
        by_cases hij : i = j
        · rw [hij]; exact List.mem_cons_self _ _
        · have hi' : Occupied P1.HashTable i := by
            unfold Occupied at hi ⊢
            simpa [hij] using hi
          exact List.mem_cons_of_mem _ (hcover1 i hi')
      · exact hlog1

theorem compressLoop_inv (CC M : Nat) :
    ∀ (l : List Nat) (G : TGifFileType) (c : Nat), EncInv CC M G c → (∀ p ∈ l, p < CC) →
      ∃ G' c', compressLoop G c l = some (G', c') ∧ EncInv CC M G' c' := by
  intro l
  induction l with
  | nil => intro G c hI _; exact ⟨G, c, rfl, hI⟩
  | cons p l ih =>
    intro G c hI hl
    obtain ⟨G1, c1, e1, hI1⟩ := compressPixel_inv CC M G c p hI (hl p (List.mem_cons_self _ _))
    obtain ⟨G2, c2, e2, hI2⟩ := ih G1 c1 hI1 (fun q hq => hl q (List.mem_cons_of_mem _ hq))
    refine ⟨G2, c2, ?_, hI2⟩
    simp only [compressLoop, e1, e2]

/-- The handle after `TEGifPutScreenDesc` on a new handle. -/
theorem putScreenDesc_state (W H S : Nat) (ColorMap : TColorMapObject)
    (hL : S &&& 0xFF00 ≠ 0) :
    ∃ G, TEGifPutScreenDesc TEGifOpenFileName W H (some ColorMap) S = (TGIF_OK, G) ∧
      G.Private.ClearCode = ColorMap.ColorCount ∧
      G.Private.RunningCode = ColorMap.ColorCount + 1 ∧
      G.Private.MaxCodePoint =
        (if ColorMap.ColorCount + 1 + (S &&& 0xFF00) / 4 > LZ_MAX_CODE then LZ_MAX_CODE
         else ColorMap.ColorCount + 1 + (S &&& 0xFF00) / 4) ∧
      G.Private.HashTable = _ClearHashTable ∧ G.Private.Log = [] ∧
      G.Private.CrntCode = FIRST_CODE ∧ G.Private.PixelCount = W * H ∧
      G.Error = 0 ∧ G.MaxCodeUsed = 0 :=
  ⟨_, putScreenDesc_ok TEGifOpenFileName W H S ColorMap (by decide) hL,
    rfl, rfl, rfl, rfl, rfl, rfl, rfl, rfl, rfl⟩

theorem encInv_start (CC M : Nat) (G : TGifFileType) (p : Nat)
    (h1 : G.Private.ClearCode = CC) (h2 : G.Private.RunningCode = CC + 1)
    (h3 : G.Private.MaxCodePoint = M) (h4 : G.Private.HashTable = _ClearHashTable)
    (h5 : G.Private.Log = []) (hM : CC + 1 ≤ M ∧ M ≤ LZ_MAX_CODE) (hp : p < CC) :
    EncInv CC M G p := by
  refine ⟨h1, h3, by omega, by omega, hM.2, by omega, ?_, ⟨[], by simp [h2], ?_⟩, ?_⟩
  · intro i hi; rw [h4] at hi; exact absurd hi (clear_not_occupied i)
  · intro i hi; rw [h4] at hi; exact absurd hi (clear_not_occupied i)
  · intro q hq; rw [h5] at hq; simp at hq

/-- `EncInv` does not look at the pixel counter. -/
theorem encInv_count (CC M : Nat) (G : TGifFileType) (c n : Nat) (h : EncInv CC M G c) :
    EncInv CC M { G with Private := { G.Private with PixelCount := n } } c := h

theorem compressLine_first (G : TGifFileType) (p : Nat) (rest : List Nat)
    (h : G.Private.CrntCode = FIRST_CODE) :
    TEGifCompressLine G (p :: rest)
      = (compressLoop G p rest).map (fun x => compressFinish x.1 x.2) := by
  unfold TEGifCompressLine
  simp only [h, if_true]
  cases compressLoop G p rest <;> rfl

theorem compressLine_next (G : TGifFileType) (l : List Nat)
    (h : G.Private.CrntCode ≠ FIRST_CODE) :
    TEGifCompressLine G l
      = (compressLoop G G.Private.CrntCode l).map (fun x => compressFinish x.1 x.2) := by
  unfold TEGifCompressLine
  simp only [h, if_false]
  cases compressLoop G G.Private.CrntCode l <;> rfl

theorem putLine_fits (G : TGifFileType) (l : List Nat) (h : l.length ≤ G.Private.PixelCount) :
    TEGifPutLine G l = TEGifCompressLine
      { G with Private := { G.Private with PixelCount := G.Private.PixelCount - l.length } }
      l := by
  unfold TEGifPutLine
  have : ¬ G.Private.PixelCount < l.length := by omega
  simp only [this, if_false]

theorem compressFinish_log (G : TGifFileType) (c : Nat) (hc : c ≠ FLUSH_OUTPUT) :
    (compressFinish G c).1 = TGIF_OK ∧
    ∀ q ∈ (compressFinish G c).2.Private.Log, q ∈ G.Private.Log ∨ q.1 = c := by
  unfold compressFinish
  dsimp only
  split_ifs with hz hm
  · refine ⟨rfl, ?_⟩
    intro q hq
    obtain ⟨-, -, -, -, -, -, -, -, -, o10⟩ := compressOutput_fields
      { G.Private with CrntCode := c } c
    obtain ⟨-, -, -, -, -, -, -, -, -, q10⟩ := compressOutput_fields
      (TEGifCompressOutput { G.Private with CrntCode := c } c) FLUSH_OUTPUT
    simp only [hc, if_false] at o10
    simp only [if_true] at q10
    have hq' : q ∈ (TEGifCompressOutput
        (TEGifCompressOutput { G.Private with CrntCode := c } c) FLUSH_OUTPUT).Log := hq
    rw [q10, o10] at hq'
    rcases List.mem_append.1 hq' with h | h
    · exact Or.inl h
    · rw [List.mem_singleton.1 h]; exact Or.inr rfl
  · refine ⟨rfl, ?_⟩
    intro q hq
    obtain ⟨-, -, -, -, -, -, -, -, -, o10⟩ := compressOutput_fields
      { G.Private with CrntCode := c } c
    obtain ⟨-, -, -, -, -, -, -, -, -, q10⟩ := compressOutput_fields
      (TEGifCompressOutput { G.Private with CrntCode := c } c) FLUSH_OUTPUT
    simp only [hc, if_false] at o10
    simp only [if_true] at q10
    have hq' : q ∈ (TEGifCompressOutput
        (TEGifCompressOutput { G.Private with CrntCode := c } c) FLUSH_OUTPUT).Log := hq
    rw [q10, o10] at hq'
    rcases List.mem_append.1 hq' with h | h
    · exact Or.inl h
    · rw [List.mem_singleton.1 h]; exact Or.inr rfl
  · exact ⟨rfl, fun q hq => Or.inl hq⟩

/-- The whole of `TEGifPutLine` for a first line that does not exceed the
image. -/
theorem putLine_first (CC M : Nat) (G : TGifFileType) (p : Nat) (rest : List Nat)
    (hI : EncInv CC M G p) (hfirst : G.Private.CrntCode = FIRST_CODE)
    (hcount : (p :: rest).length ≤ G.Private.PixelCount) (hpix : ∀ q ∈ rest, q < CC) :
    ∃ G', TEGifPutLine G (p :: rest) = some (TGIF_OK, G') ∧ ∀ q ∈ G'.Private.Log, q.1 < M := by
  obtain ⟨G1, c1, e1, hI1⟩ := compressLoop_inv CC M rest
    { G with Private := { G.Private with PixelCount := G.Private.PixelCount - (p :: rest).length } }
    p (encInv_count CC M G p _ hI) hpix
  obtain ⟨i1, i2, i3, i4, i5, i6, i7, i8, i9⟩ := hI1
  have hcf : c1 ≠ FLUSH_OUTPUT := by
    unfold FLUSH_OUTPUT; unfold LZ_MAX_CODE at i5 ⊢; omega
  obtain ⟨f1, f2⟩ := compressFinish_log G1 c1 hcf
  rw [putLine_fits G _ hcount, compressLine_first
    { G with Private := { G.Private with PixelCount := G.Private.PixelCount - (p :: rest).length } }
    p rest hfirst, e1]
  refine ⟨(compressFinish G1 c1).2, ?_, ?_⟩
  · show some (compressFinish G1 c1) = _
    rw [← f1]
  · intro q hq
    rcases f2 q hq with h | h
    · exact i9 q h
    · rw [h]; omega

theorem sram_mask_valid (S : Nat) (hS : S ≤ 4096) (hm : S % 256 = 0) : S &&& 0xFF00 = S := by
  rw [sram_mask]; omega

/-- The dictionary sizes the decoder derives from a header with SRAM limit
`S` and a preamble byte for `CC` colours. -/
theorem decodeInit_dict (J : TGifInfo) (CC S : Nat) (hC : 1 ≤ CC ∧ CC ≤ 256)
    (hS : 256 ≤ S ∧ S ≤ 4096) (h1 : J.SRAMLimit = S)
    (h2 : TDGifReadByte J.Data 0 = CC % 256) :
    (decodeInit J).Private.ClearCode = CC ∧ (decodeInit J).Private.DictBase = CC + 1 ∧
    (decodeInit J).Private.DictSize = min (S / 4) (1023 - CC) ∧
    (decodeInit J).Private.MaxCodePoint = min 1023 (CC + S / 4) := by
  have hcc : (if TDGifReadByte J.Data 0 = 0 then 256 else TDGifReadByte J.Data 0) = CC := by
    rw [h2]; split_ifs <;> omega
  unfold decodeInit
  dsimp only
  rw [hcc, h1]
  unfold LZ_MAX_CODE
  refine ⟨rfl, rfl, ?_, ?_⟩
  · split_ifs <;> omega
  · split_ifs <;> omega

/-- C2: for every valid image and every SRAM limit (a multiple of 256 in
256..4096) both encoder calls succeed and every code the encoder writes is
at most `min(1023, ColorCount + SRAMLimit/4)`; that number is the
`MaxCodePoint = DictBase + DictSize - 1` the decoder derives from the same
header, so a written code at or above `DictBase` indexes inside the decoder's
`DictSize` cells. -/
theorem C2_emitted_codes_bounded (W H S : Nat) (ColorMap : TColorMapObject)
    (Pixels : List Nat)
    (hW : 1 ≤ W ∧ W ≤ 1023) (hH : 1 ≤ H ∧ H ≤ 1023)
    (hC : 1 ≤ ColorMap.ColorCount ∧ ColorMap.ColorCount ≤ 256)
    (hS : 256 ≤ S ∧ S ≤ 4096 ∧ S % 256 = 0)
    (hlen : Pixels.length = W * H) (hpix : ∀ p ∈ Pixels, p < ColorMap.ColorCount) :
    ∃ G, convert W H ColorMap S Pixels = some (TGIF_OK, G) ∧
      (∀ p ∈ G.Private.Log, p.1 ≤ min 1023 (ColorMap.ColorCount + S / 4)) ∧
      ∀ J : TGifInfo, J.SRAMLimit = S →
        TDGifReadByte J.Data 0 = ColorMap.ColorCount % 256 →
        (decodeInit J).Private.MaxCodePoint = min 1023 (ColorMap.ColorCount + S / 4) ∧
        (decodeInit J).Private.MaxCodePoint + 1
          = (decodeInit J).Private.DictBase + (decodeInit J).Private.DictSize ∧
        ∀ p ∈ G.Private.Log, (decodeInit J).Private.DictBase ≤ p.1 →
          p.1 - (decodeInit J).Private.DictBase < (decodeInit J).Private.DictSize := by
  have hmask := sram_mask_valid S hS.2.1 hS.2.2
  have hL : S &&& 0xFF00 ≠ 0 := by rw [hmask]; omega
  obtain ⟨G0, e0, g1, g2, g3, g4, g5, g6, g7, -, -⟩ := putScreenDesc_state W H S ColorMap hL
  rw [hmask] at g3
  have hpos : 0 < W * H := Nat.mul_pos (by omega) (by omega)
  obtain ⟨p, rest, rfl⟩ : ∃ p rest, Pixels = p :: rest := by
    cases Pixels with
    | nil => simp at hlen; omega
    | cons p rest => exact ⟨p, rest, rfl⟩
  have hM : ColorMap.ColorCount + 1 ≤
        (if ColorMap.ColorCount + 1 + S / 4 > LZ_MAX_CODE then LZ_MAX_CODE
         else ColorMap.ColorCount + 1 + S / 4) ∧
      (if ColorMap.ColorCount + 1 + S / 4 > LZ_MAX_CODE then LZ_MAX_CODE
         else ColorMap.ColorCount + 1 + S / 4) ≤ LZ_MAX_CODE := by
    unfold LZ_MAX_CODE; split_ifs <;> omega
  have hI := encInv_start ColorMap.ColorCount _ G0 p g1 g2 g3 g4 g5 hM
    (hpix p (List.mem_cons_self _ _))
  obtain ⟨G, e1, hlog⟩ := putLine_first _ _ G0 p rest hI g6 (by rw [g7, hlen])
    (fun q hq => hpix q (List.mem_cons_of_mem _ hq))
  have hne : TGIF_OK ≠ TGIF_ERROR := by decide
  have hbound : ∀ q ∈ G.Private.Log, q.1 ≤ min 1023 (ColorMap.ColorCount + S / 4) := by
    intro q hq
    have := hlog q hq
    unfold LZ_MAX_CODE at this
    split_ifs at this <;> omega
  refine ⟨G, ?_, hbound, ?_⟩
  · unfold convert
    rw [e0]
    simp only [hne, if_false, e1]
  · intro J hJ1 hJ2
    obtain ⟨d1, d2, d3, d4⟩ := decodeInit_dict J ColorMap.ColorCount S hC ⟨hS.1, hS.2.1⟩ hJ1 hJ2
    rw [d2, d3, d4]
    refine ⟨rfl, by omega, ?_⟩
    intro q hq hge
    have := hbound q hq
    omega

/-- C2 at a 2x1 image with two colours, pixels 0 1, SRAM limit 256. -/
theorem C2_emitted_codes_bounded_witness :
    ∃ G, convert 2 1 ⟨2, fun _ => 0⟩ 256 [0, 1] = some (TGIF_OK, G) ∧
      (∀ p ∈ G.Private.Log, p.1 ≤ min 1023 (2 + 256 / 4)) ∧
      ∀ J : TGifInfo, J.SRAMLimit = 256 →
        TDGifReadByte J.Data 0 = 2 % 256 →
        (decodeInit J).Private.MaxCodePoint = min 1023 (2 + 256 / 4) ∧
        (decodeInit J).Private.MaxCodePoint + 1
          = (decodeInit J).Private.DictBase + (decodeInit J).Private.DictSize ∧
        ∀ p ∈ G.Private.Log, (decodeInit J).Private.DictBase ≤ p.1 →
          p.1 - (decodeInit J).Private.DictBase < (decodeInit J).Private.DictSize :=
  C2_emitted_codes_bounded 2 1 256 ⟨2, fun _ => 0⟩ [0, 1] (by decide) (by decide)
    (by decide) (by decide) (by decide) (by decide)

/-! ## `TEGifPutLine`: the split into lines does not matter -/

theorem bufferedOutput_reCount (P : TGifFilePrivateType) (c n x : Nat) :
    TEGifBufferedOutput (reCountP P n x) c = reCountP (TEGifBufferedOutput P c) n x := by
  unfold TEGifBufferedOutput reCountP InternalWrite
  dsimp only
  split_ifs <;> rfl

theorem emitLowByte_reCount (P : TGifFilePrivateType) (n x : Nat) :
    emitLowByte (reCountP P n x) = reCountP (emitLowByte P) n x := by
  unfold emitLowByte
  dsimp only
  rw [show (reCountP P n x).CrntShiftDWord = P.CrntShiftDWord from rfl, bufferedOutput_reCount]
  rfl

theorem dumpBytes_reCount (n x : Nat) : ∀ (k : Nat) (P : TGifFilePrivateType),
    dumpBytes k (reCountP P n x) = reCountP (dumpBytes k P) n x := by
  intro k
  induction k with
  | zero => intro P; rfl
  | succ k ih =>
    intro P
    unfold dumpBytes
    rw [show (reCountP P n x).CrntShiftState = P.CrntShiftState from rfl]
    split_ifs
    · rw [emitLowByte_reCount, ih]
    · rfl

theorem flushBytes_reCount (n x : Nat) : ∀ (k : Nat) (P : TGifFilePrivateType),
    flushBytes k (reCountP P n x) = reCountP (flushBytes k P) n x := by
  intro k
  induction k with
  | zero => intro P; rfl
  | succ k ih =>
    intro P
    unfold flushBytes
    rw [show (reCountP P n x).CrntShiftState = P.CrntShiftState from rfl]
    split_ifs
    · rw [emitLowByte_reCount, ih]
    · rfl

theorem flushCode_reCount (P : TGifFilePrivateType) (n x : Nat) :
    flushCode (reCountP P n x) = reCountP (flushCode P) n x := by
  unfold flushCode
  dsimp only
  rw [show (reCountP P n x).CrntShiftState = P.CrntShiftState from rfl, flushBytes_reCount]
  exact bufferedOutput_reCount { flushBytes P.CrntShiftState P with CrntShiftState := 0 } _ n x

theorem packCode_reCount (P : TGifFilePrivateType) (c w n x : Nat) :
    packCode (reCountP P n x) c w = reCountP (packCode P c w) n x := by
  rw [packCode_eq, packCode_eq]
  exact dumpBytes_reCount n x (P.CrntShiftState + w)
    { P with CrntShiftDWord := P.CrntShiftDWord ||| (c <<< P.CrntShiftState),
             CrntShiftState := P.CrntShiftState + w }

theorem compressOutput_reCount (P : TGifFilePrivateType) (c n x : Nat) :
    TEGifCompressOutput (reCountP P n x) c = reCountP (TEGifCompressOutput P c) n x := by
  unfold TEGifCompressOutput
  by_cases hc : c = FLUSH_OUTPUT
  · simp only [hc, if_true]
    rw [flushCode_reCount]
    show (if (flushCode P).RunningCode ≥ (flushCode P).MaxCode1 ∧ FLUSH_OUTPUT ≤ LZ_MAX_CODE
      then _ else _) = _
    split_ifs <;> rfl
  · simp only [hc, if_false]
    have e := packCode_reCount { P with Log := P.Log ++ [(c, P.RunningBits)] } c P.RunningBits n x
    have e' : packCode { reCountP P n x with
        Log := (reCountP P n x).Log ++ [(c, (reCountP P n x).RunningBits)] } c
        (reCountP P n x).RunningBits
        = reCountP (packCode { P with Log := P.Log ++ [(c, P.RunningBits)] } c P.RunningBits)
          n x := e
    rw [e']
    show (if (packCode { P with Log := P.Log ++ [(c, P.RunningBits)] } c P.RunningBits).RunningCode
        ≥ (packCode { P with Log := P.Log ++ [(c, P.RunningBits)] } c P.RunningBits).MaxCode1
        ∧ c ≤ LZ_MAX_CODE then _ else _) = _
    split_ifs <;> rfl

theorem compressPixel_reCount (G : TGifFileType) (c p n x : Nat) :
    compressPixel (reCount G n x) c p
      = (compressPixel G c p).map (fun y => (reCount y.1 n x, y.2)) := by
  unfold compressPixel
  dsimp only
  rw [show (reCount G n x).Private.HashTable = G.Private.HashTable from rfl]
  cases _ExistsHashTable G.Private.HashTable ((c <<< 8) + p) with
  | none => rfl
  | some v =>
    dsimp only
    by_cases hv : v ≥ 0
    · simp only [hv, if_true]; rfl
    · simp only [hv, if_false]
      rw [show (reCount G n x).Private = reCountP G.Private n x from rfl,
        compressOutput_reCount]
      generalize TEGifCompressOutput G.Private c = P1
      rw [show (reCountP P1 n x).RunningCode = P1.RunningCode from rfl,
        show (reCountP P1 n x).MaxCodePoint = P1.MaxCodePoint from rfl,
        show (reCountP P1 n x).ClearCode = P1.ClearCode from rfl,
        show (reCountP P1 n x).HashTable = P1.HashTable from rfl]
      by_cases hfull : P1.RunningCode ≥ P1.MaxCodePoint
      · simp only [hfull, if_true]
        rw [compressOutput_reCount]
        rfl
      · simp only [hfull, if_false]
        cases _InsertHashTable P1.HashTable ((c <<< 8) + p) P1.RunningCode with
        | none => rfl
        | some HT => rfl

theorem compressLoop_reCount (n x : Nat) :
    ∀ (l : List Nat) (G : TGifFileType) (c : Nat),
      compressLoop (reCount G n x) c l
        = (compressLoop G c l).map (fun y => (reCount y.1 n x, y.2)) := by
  intro l
  induction l with
  | nil => intro G c; rfl
  | cons p l ih =>
    intro G c
    unfold compressLoop
    rw [compressPixel_reCount]
    cases compressPixel G c p with
    | none => rfl
    | some y =>
      obtain ⟨G1, c1⟩ := y
      exact ih G1 c1

theorem compressLoop_append :
    ∀ (l1 l2 : List Nat) (G : TGifFileType) (c : Nat),
      compressLoop G c (l1 ++ l2)
        = (compressLoop G c l1).bind (fun y => compressLoop y.1 y.2 l2) := by
  intro l1
  induction l1 with
  | nil => intro l2 G c; rfl
  | cons p l1 ih =>
    intro l2 G c
    show compressLoop G c (p :: (l1 ++ l2)) = (compressLoop G c (p :: l1)).bind _
    simp only [compressLoop]
    cases compressPixel G c p with
    | none => rfl
    | some y =>
      obtain ⟨G1, c1⟩ := y
      exact ih l2 G1 c1

theorem compressFinish_reCount (G : TGifFileType) (n x y c : Nat) :
    compressFinish (reCount G n x) c = compressFinish (reCount G n y) c := rfl

theorem compressFinish_open (G : TGifFileType) (n x c : Nat) (hn : n ≠ 0) :
    compressFinish (reCount G n x) c = (TGIF_OK, reCount G n c) := by
  unfold compressFinish
  dsimp only
  rw [show (reCount G n x).Private.PixelCount = n from rfl]
  simp only [hn, if_false]
  rfl

/-- Two calls of `TEGifPutLine`, the first with the first pixel of the image,
do what one call with both lines does. -/
theorem putLine_merge (CC M : Nat) (G : TGifFileType) (p : Nat) (r1 l2 : List Nat)
    (hI : EncInv CC M G p) (hfirst : G.Private.CrntCode = FIRST_CODE)
    (hl2 : l2 ≠ []) (hfit : (p :: r1).length + l2.length ≤ G.Private.PixelCount)
    (hpix : ∀ q ∈ r1, q < CC) :
    ∃ G1, TEGifPutLine G (p :: r1) = some (TGIF_OK, G1) ∧
      TEGifPutLine G1 l2 = TEGifPutLine G (p :: r1 ++ l2) := by
  obtain ⟨Ga, c1, ea, hIa⟩ := compressLoop_inv CC M r1 G p hI hpix
  obtain ⟨-, -, -, i4, i5, i6, -, -, -⟩ := hIa
  have hc1 : c1 ≠ FIRST_CODE := by
    unfold FIRST_CODE; unfold LZ_MAX_CODE at i5 ⊢; omega
  have hl2pos : 0 < l2.length := List.length_pos.2 hl2
  have hn1 : G.Private.PixelCount - (p :: r1).length ≠ 0 := by omega
  have e1 : TEGifPutLine G (p :: r1)
      = some (TGIF_OK, reCount Ga (G.Private.PixelCount - (p :: r1).length) c1) := by
    rw [putLine_fits G _ (by omega)]
    show TEGifCompressLine
      (reCount G (G.Private.PixelCount - (p :: r1).length) G.Private.CrntCode) (p :: r1) = _
    rw [compressLine_first
      (reCount G (G.Private.PixelCount - (p :: r1).length) G.Private.CrntCode) p r1 hfirst,
      compressLoop_reCount, ea]
    show some (compressFinish (reCount Ga _ _) c1) = _
    rw [compressFinish_open _ _ _ _ hn1]
  refine ⟨_, e1, ?_⟩
  have hfit2 : l2.length ≤ (reCount Ga (G.Private.PixelCount - (p :: r1).length)
      c1).Private.PixelCount := by
    show l2.length ≤ G.Private.PixelCount - (p :: r1).length
    omega
  rw [putLine_fits _ _ hfit2, putLine_fits G _ (by
    rw [List.length_append]; omega)]
  show TEGifCompressLine
      (reCount Ga (G.Private.PixelCount - (p :: r1).length - l2.length) c1) l2
    = TEGifCompressLine
      (reCount G (G.Private.PixelCount - (p :: r1 ++ l2).length) G.Private.CrntCode)
      (p :: (r1 ++ l2))
  rw [compressLine_next
      (reCount Ga (G.Private.PixelCount - (p :: r1).length - l2.length) c1) l2 hc1,
    compressLine_first
      (reCount G (G.Private.PixelCount - (p :: r1 ++ l2).length) G.Private.CrntCode)
      p (r1 ++ l2) hfirst,
    compressLoop_reCount, compressLoop_reCount, compressLoop_append, ea]
  show Option.map _ (Option.map _ (compressLoop Ga c1 l2))
    = Option.map _ (Option.map _ (compressLoop Ga c1 l2))
  have hlen : G.Private.PixelCount - (p :: r1).length - l2.length
      = G.Private.PixelCount - (p :: r1 ++ l2).length := by
    rw [List.length_append]; omega
  rw [hlen]
  cases compressLoop Ga c1 l2 with
  | none => rfl
  | some y => exact congrArg some (compressFinish_reCount y.1 _ _ _ y.2)

theorem putLines_joined (CC M : Nat) (G : TGifFileType)
    (hfirst : G.Private.CrntCode = FIRST_CODE) :
    ∀ (rest : List (List Nat)) (p : Nat) (r1 : List Nat), EncInv CC M G p →
      (∀ l ∈ rest, l ≠ []) → (p :: r1).length + rest.flatten.length ≤ G.Private.PixelCount →
      (∀ q ∈ r1, q < CC) → (∀ q ∈ rest.flatten, q < CC) →
      ∃ G', TEGifPutLine G (p :: r1 ++ rest.flatten) = some (TGIF_OK, G') ∧
        putLines G ((p :: r1) :: rest) = some (TGIF_OK, G') := by
  have hne : TGIF_OK ≠ TGIF_ERROR := by decide
  intro rest
  induction rest with
  | nil =>
    intro p r1 hI _ hfit hp1 _
    simp only [List.flatten_nil, List.length_nil, Nat.add_zero, List.append_nil] at hfit ⊢
    obtain ⟨G', e, -⟩ := putLine_first CC M G p r1 hI hfirst hfit hp1
    refine ⟨G', e, ?_⟩
    simp only [putLines, e, hne, if_false]
  | cons l2 rest ih =>
    intro p r1 hI hrest hfit hp1 hp2
    simp only [List.flatten_cons, List.length_append] at hfit hp2
    obtain ⟨G1, e1, e2⟩ := putLine_merge CC M G p r1 l2 hI hfirst
      (hrest l2 (List.mem_cons_self _ _)) (by omega) hp1
    obtain ⟨G', g1, g2⟩ := ih p (r1 ++ l2) hI
      (fun l hl => hrest l (List.mem_cons_of_mem _ hl))
      (by simp only [List.length_cons, List.length_append] at hfit ⊢; omega)
      (by
        intro q hq
        rcases List.mem_append.1 hq with h | h
        · exact hp1 q h
        · exact hp2 q (List.mem_append.2 (Or.inl h)))
      (fun q hq => hp2 q (List.mem_append.2 (Or.inr hq)))
    refine ⟨G', ?_, ?_⟩
    · rw [List.flatten_cons, ← g1]
      simp only [List.cons_append, List.append_assoc]
    · have g2' : putLines G ((p :: r1 ++ l2) :: rest) = some (TGIF_OK, G') := g2
      rw [← g2']
      show putLines G ((p :: r1) :: l2 :: rest) = putLines G ((p :: r1 ++ l2) :: rest)
      simp only [putLines, e1, hne, if_false, e2]

/-- C8: for every valid image and every way of splitting its `W*H` pixels into
consecutive non-empty chunks, calling `TEGifPutLine` once per chunk leaves the
same handle (the same bytes written, the same `MaxCodeUsed`) as one call with
all the pixels; every call returns `TGIF_OK`. -/
theorem C8_chunking_independence (W H S : Nat) (ColorMap : TColorMapObject)
    (Pixels : List Nat) (chunks : List (List Nat))
    (hW : 1 ≤ W ∧ W ≤ 1023) (hH : 1 ≤ H ∧ H ≤ 1023)
    (hC : 1 ≤ ColorMap.ColorCount ∧ ColorMap.ColorCount ≤ 256)
    (hS : 256 ≤ S ∧ S ≤ 4096 ∧ S % 256 = 0)
    (hlen : Pixels.length = W * H) (hpix : ∀ p ∈ Pixels, p < ColorMap.ColorCount)
    (hchunks : ∀ l ∈ chunks, l ≠ []) (hjoin : chunks.flatten = Pixels) :
    ∃ G0 G, TEGifPutScreenDesc TEGifOpenFileName W H (some ColorMap) S = (TGIF_OK, G0) ∧
      TEGifPutLine G0 Pixels = some (TGIF_OK, G) ∧
      putLines G0 chunks = some (TGIF_OK, G) := by
  have hmask := sram_mask_valid S hS.2.1 hS.2.2
  have hL : S &&& 0xFF00 ≠ 0 := by rw [hmask]; omega
  obtain ⟨G0, e0, g1, g2, g3, g4, g5, g6, g7, -, -⟩ := putScreenDesc_state W H S ColorMap hL
  rw [hmask] at g3
  have hpos : 0 < W * H := Nat.mul_pos (by omega) (by omega)
  subst hjoin
  obtain ⟨l1, rest, rfl⟩ : ∃ l1 rest, chunks = l1 :: rest := by
    cases chunks with
    | nil => simp at hlen; omega
    | cons l1 rest => exact ⟨l1, rest, rfl⟩
  obtain ⟨p, r1, rfl⟩ : ∃ p r1, l1 = p :: r1 := by
    cases l1 with
    | nil => exact absurd rfl (hchunks [] (List.mem_cons_self _ _))
    | cons p r1 => exact ⟨p, r1, rfl⟩
  have hM : ColorMap.ColorCount + 1 ≤
        (if ColorMap.ColorCount + 1 + S / 4 > LZ_MAX_CODE then LZ_MAX_CODE
         else ColorMap.ColorCount + 1 + S / 4) ∧
      (if ColorMap.ColorCount + 1 + S / 4 > LZ_MAX_CODE then LZ_MAX_CODE
         else ColorMap.ColorCount + 1 + S / 4) ≤ LZ_MAX_CODE := by
    unfold LZ_MAX_CODE; split_ifs <;> omega
  simp only [List.flatten_cons] at hlen hpix ⊢
  have hI := encInv_start ColorMap.ColorCount _ G0 p g1 g2 g3 g4 g5 hM
    (hpix p (by simp))
  obtain ⟨G, f1, f2⟩ := putLines_joined _ _ G0 g6 rest p r1 hI
    (fun l hl => hchunks l (List.mem_cons_of_mem _ hl))
    (by rw [g7, ← hlen, List.length_append])
    (fun q hq => hpix q (by simp [hq]))
    (fun q hq => hpix q (List.mem_append.2 (Or.inr hq)))
  exact ⟨G0, G, e0, f1, f2⟩

/-- C8 at a 2x2 image with two colours, given as the lines 0 1 and 1 1. -/
theorem C8_chunking_independence_witness :
    ∃ G0 G, TEGifPutScreenDesc TEGifOpenFileName 2 2 (some ⟨2, fun _ => 0⟩) 256
        = (TGIF_OK, G0) ∧
      TEGifPutLine G0 [0, 1, 1, 1] = some (TGIF_OK, G) ∧
      putLines G0 [[0, 1], [1, 1]] = some (TGIF_OK, G) :=
  C8_chunking_independence 2 2 256 ⟨2, fun _ => 0⟩ [0, 1, 1, 1] [[0, 1], [1, 1]]
    (by decide) (by decide) (by decide) (by decide) (by decide) (by decide) (by decide)
    (by decide)

/-! ## Encoder: error returns -/

theorem compressPixel_frame (G G' : TGifFileType) (c p c' : Nat)
    (h : compressPixel G c p = some (G', c')) :
    G'.Error = G.Error ∧ G'.Private.FileState = G.Private.FileState := by
  unfold compressPixel at h
  dsimp only at h
  obtain ⟨-, -, -, -, -, -, -, o8, -, -⟩ := compressOutput_fields G.Private c
  obtain ⟨-, -, -, -, -, -, -, q8, -, -⟩ := compressOutput_fields
    (TEGifCompressOutput G.Private c) (TEGifCompressOutput G.Private c).ClearCode
  repeat' split at h
  all_goals
    cases h
    try first
      | exact ⟨rfl, rfl⟩
      | exact ⟨rfl, o8⟩
      | exact ⟨rfl, q8.trans o8⟩

theorem compressLoop_frame : ∀ (l : List Nat) (G G' : TGifFileType) (c c' : Nat),
    compressLoop G c l = some (G', c') →
    G'.Error = G.Error ∧ G'.Private.FileState = G.Private.FileState := by
  intro l
  induction l with
  | nil =>
    intro G G' c c' h
    simp only [compressLoop, Option.some.injEq, Prod.mk.injEq] at h
    rw [← h.1]; exact ⟨rfl, rfl⟩
  | cons p l ih =>
    intro G G' c c' h
    simp only [compressLoop] at h
    cases e : compressPixel G c p with
    | none => rw [e] at h; simp at h
    | some r =>
      obtain ⟨G1, c1⟩ := r
      rw [e] at h
      obtain ⟨a1, a2⟩ := compressPixel_frame G G1 c p c1 e
      obtain ⟨b1, b2⟩ := ih G1 G' c1 c' h
      exact ⟨b1.trans a1, b2.trans a2⟩

theorem compressFinish_frame (G : TGifFileType) (c : Nat) :
    (compressFinish G c).1 = TGIF_OK ∧ (compressFinish G c).2.Error = G.Error ∧
    (compressFinish G c).2.Private.FileState = G.Private.FileState := by
  unfold compressFinish
  dsimp only
  obtain ⟨-, -, -, -, -, -, -, o8, -, -⟩ := compressOutput_fields
    { G.Private with CrntCode := c } c
  obtain ⟨-, -, -, -, -, -, -, q8, -, -⟩ := compressOutput_fields
    (TEGifCompressOutput { G.Private with CrntCode := c } c) FLUSH_OUTPUT
  split_ifs
  · exact ⟨rfl, rfl, q8.trans o8⟩
  · exact ⟨rfl, rfl, q8.trans o8⟩
  · exact ⟨rfl, rfl, rfl⟩

theorem compressLine_frame (G G' : TGifFileType) (l : List Nat) (r : Nat)
    (h : TEGifCompressLine G l = some (r, G')) :
    r = TGIF_OK ∧ G'.Error = G.Error ∧ G'.Private.FileState = G.Private.FileState := by
  unfold TEGifCompressLine at h
  dsimp only at h
  repeat' split at h
  all_goals first
    | cases h
    | (rename_i G1 c1 e1
       simp only [Option.some.injEq] at h
       obtain ⟨a1, a2⟩ := compressLoop_frame _ _ _ _ _ e1
       obtain ⟨f1, f2, f3⟩ := compressFinish_frame G1 c1
       rw [h] at f1 f2 f3
       exact ⟨f1, f2.trans a1, f3.trans a2⟩)

/-- C12: a `TEGifPutLine` call with more pixels than are still expected
(`LineLen > PixelCount`) returns `TGIF_ERROR` with `Error = DATA_TOO_BIG` and
leaves the whole private state as it was: no byte written, `PixelCount`,
`CrntCode`, `RunningCode`, `RunningBits`, `MaxCode1`, the hash table and the
bit accumulator unchanged.  A call with `LineLen <= PixelCount` that returns
returns `TGIF_OK` and does not touch `Error`. -/
theorem C12_putLine_overflow (G : TGifFileType) (Line : List Nat) :
    (G.Private.PixelCount < Line.length →
      ∃ G', TEGifPutLine G Line = some (TGIF_ERROR, G') ∧
        G'.Error = E_TGIF_ERR_DATA_TOO_BIG ∧ G'.Private = G.Private ∧
        G'.MaxCodeUsed = G.MaxCodeUsed) ∧
    (Line.length ≤ G.Private.PixelCount →
      ∀ r G', TEGifPutLine G Line = some (r, G') → r = TGIF_OK ∧ G'.Error = G.Error) := by
  constructor
  · intro h
    refine ⟨{ G with Error := E_TGIF_ERR_DATA_TOO_BIG }, ?_, rfl, rfl, rfl⟩
    unfold TEGifPutLine
    simp only [h, if_true]
  · intro h r G' e
    rw [putLine_fits G Line h] at e
    obtain ⟨a, b, -⟩ := compressLine_frame _ _ _ _ e
    exact ⟨a, b⟩

theorem putLine_frame (G G' : TGifFileType) (l : List Nat) (r : Nat)
    (h : TEGifPutLine G l = some (r, G')) :
    G'.Private.FileState = G.Private.FileState := by
  unfold TEGifPutLine at h
  split at h
  · cases h; rfl
  · exact (compressLine_frame _ _ _ _ h).2.2

theorem or_screen_bit (x : Nat) : (x ||| FILE_STATE_SCREEN) &&& FILE_STATE_SCREEN ≠ 0 := by
  intro h
  have h1 := congrArg (fun n => n.testBit 1) h
  have hb : Nat.testBit 2 1 = true := by decide
  simp [FILE_STATE_SCREEN, Nat.testBit_and, Nat.testBit_or, hb] at h1

/-- A `TEGifPutScreenDesc` call on a handle that has its screen descriptor. -/
theorem putScreenDesc_twice (G : TGifFileType) (W H S : Nat) (CM : Option TColorMapObject)
    (h : G.Private.FileState &&& FILE_STATE_SCREEN ≠ 0) :
    TEGifPutScreenDesc G W H CM S = (TGIF_ERROR, { G with Error := E_TGIF_ERR_HAS_SCRN_DSCR }) := by
  unfold TEGifPutScreenDesc
  simp only [h, ne_eq, not_false_eq_true, if_true]

theorem putScreenDesc_marks (G G1 : TGifFileType) (W H S : Nat) (CM : Option TColorMapObject)
    (h : TEGifPutScreenDesc G W H CM S = (TGIF_OK, G1)) :
    G1.Private.FileState &&& FILE_STATE_SCREEN ≠ 0 := by
  have hne : TGIF_ERROR ≠ TGIF_OK := by decide
  unfold TEGifPutScreenDesc at h
  dsimp only at h
  repeat' split at h
  all_goals
    simp only [Prod.mk.injEq] at h
    first
      | exact absurd h.1 hne
      | (rw [← h.2]; exact or_screen_bit _)

theorem encCall_marked (G G' : TGifFileType) (c : EncCall)
    (h : G.Private.FileState &&& FILE_STATE_SCREEN ≠ 0) (e : encCall G c = some G') :
    G'.Private.FileState &&& FILE_STATE_SCREEN ≠ 0 := by
  cases c with
  | screenDesc W H CM S =>
    simp only [encCall, putScreenDesc_twice G W H S CM h, Option.some.injEq] at e
    rw [← e]; exact h
  | line l =>
    simp only [encCall] at e
    cases e1 : TEGifPutLine G l with
    | none => rw [e1] at e; simp at e
    | some r =>
      obtain ⟨r, G1⟩ := r
      rw [e1] at e
      simp only [Option.map_some', Option.some.injEq] at e
      rw [← e, putLine_frame G G1 l r e1]; exact h

theorem encCalls_marked : ∀ (cs : List EncCall) (G G' : TGifFileType),
    G.Private.FileState &&& FILE_STATE_SCREEN ≠ 0 → encCalls G cs = some G' →
    G'.Private.FileState &&& FILE_STATE_SCREEN ≠ 0 := by
  intro cs
  induction cs with
  | nil =>
    intro G G' h e
    simp only [encCalls, Option.some.injEq] at e
    rw [← e]; exact h
  | cons c cs ih =>
    intro G G' h e
    simp only [encCalls] at e
    cases e1 : encCall G c with
    | none => rw [e1] at e; simp at e
    | some G1 =>
      rw [e1] at e
      exact ih G1 G' (encCall_marked G G1 c h e1) e

/-- C13: once a `TEGifPutScreenDesc` call has returned `TGIF_OK` on a handle,
then after any further calls of `TEGifPutScreenDesc` and `TEGifPutLine` on it,
every `TEGifPutScreenDesc` call returns `TGIF_ERROR` with
`Error = HAS_SCRN_DSCR` and leaves the whole private state as it was: no byte
written, the compressor state unchanged. -/
theorem C13_double_screen_desc (G G1 G2 : TGifFileType) (W H S : Nat)
    (CM : Option TColorMapObject) (calls : List EncCall) (W' H' S' : Nat)
    (CM' : Option TColorMapObject)
    (h1 : TEGifPutScreenDesc G W H CM S = (TGIF_OK, G1))
    (h2 : encCalls G1 calls = some G2) :
    ∃ G3, TEGifPutScreenDesc G2 W' H' CM' S' = (TGIF_ERROR, G3) ∧
      G3.Error = E_TGIF_ERR_HAS_SCRN_DSCR ∧ G3.Private = G2.Private ∧
      G3.MaxCodeUsed = G2.MaxCodeUsed :=
  ⟨_, putScreenDesc_twice G2 W' H' S' CM'
    (encCalls_marked calls G1 G2 (putScreenDesc_marks G G1 W H S CM h1) h2), rfl, rfl, rfl⟩

/-- C13 on a new handle: the screen descriptor of a 2x1 image, one line with
the pixel 0, then a second `TEGifPutScreenDesc`. -/
theorem C13_double_screen_desc_witness :
    ∃ G3, TEGifPutScreenDesc handle2x1Line 3 3 (some palette2) 512 = (TGIF_ERROR, G3) ∧
      G3.Error = E_TGIF_ERR_HAS_SCRN_DSCR ∧ G3.Private = handle2x1Line.Private ∧
      G3.MaxCodeUsed = handle2x1Line.MaxCodeUsed :=
  C13_double_screen_desc TEGifOpenFileName handle2x1 handle2x1Line 2 1 256 (some palette2)
    [EncCall.line [0]] 3 3 512 (some palette2) rfl rfl

/-- C14: `TEGifPutScreenDesc` with an SRAM limit below 256 (zero after the
mask `~0xFF`) returns `TGIF_ERROR` and leaves the private state as it was: no
byte written, `FileState` unchanged.  On a handle without a screen descriptor
the handle is left as it was altogether, and a later call with an SRAM limit
that is not zero after the mask returns `TGIF_OK`. -/
theorem C14_zero_sram_limit (G : TGifFileType) (W H S : Nat) (CM : Option TColorMapObject)
    (hS : S < 256) :
    (∃ G', TEGifPutScreenDesc G W H CM S = (TGIF_ERROR, G') ∧ G'.Private = G.Private) ∧
    (G.Private.FileState &&& FILE_STATE_SCREEN = 0 →
      TEGifPutScreenDesc G W H CM S = (TGIF_ERROR, G) ∧
      ∀ (W' H' S' : Nat) (CM' : TColorMapObject), S' &&& 0xFF00 ≠ 0 →
        ∃ G'', TEGifPutScreenDesc (TEGifPutScreenDesc G W H CM S).2 W' H' (some CM') S'
          = (TGIF_OK, G'') ∧ G''.Private.FileState &&& FILE_STATE_SCREEN ≠ 0) := by
  have hz : S &&& 0xFF00 = 0 := by rw [sram_mask]; omega
  have key : G.Private.FileState &&& FILE_STATE_SCREEN = 0 →
      TEGifPutScreenDesc G W H CM S = (TGIF_ERROR, G) := by
    intro h0
    unfold TEGifPutScreenDesc
    dsimp only
    simp only [h0, ne_eq, not_true_eq_false, if_false, hz, if_true]
    cases CM <;> rfl
  constructor
  · by_cases h0 : G.Private.FileState &&& FILE_STATE_SCREEN = 0
    · exact ⟨G, key h0, rfl⟩
    · exact ⟨_, putScreenDesc_twice G W H S CM h0, rfl⟩
  · intro h0
    refine ⟨key h0, ?_⟩
    intro W' H' S' CM' hS'
    rw [key h0]
    have e := putScreenDesc_ok G W' H' S' CM' h0 hS'
    exact ⟨_, e, putScreenDesc_marks _ _ _ _ _ _ e⟩

/-- C14 on a new handle with SRAM limit 100. -/
theorem C14_zero_sram_limit_witness :
    (∃ G', TEGifPutScreenDesc TEGifOpenFileName 2 1 (some palette2) 100 = (TGIF_ERROR, G') ∧
      G'.Private = TEGifOpenFileName.Private) ∧
    (TEGifOpenFileName.Private.FileState &&& FILE_STATE_SCREEN = 0 →
      TEGifPutScreenDesc TEGifOpenFileName 2 1 (some palette2) 100
        = (TGIF_ERROR, TEGifOpenFileName) ∧
      ∀ (W' H' S' : Nat) (CM' : TColorMapObject), S' &&& 0xFF00 ≠ 0 →
        ∃ G'', TEGifPutScreenDesc
            (TEGifPutScreenDesc TEGifOpenFileName 2 1 (some palette2) 100).2 W' H' (some CM') S'
          = (TGIF_OK, G'') ∧ G''.Private.FileState &&& FILE_STATE_SCREEN ≠ 0) :=
  C14_zero_sram_limit TEGifOpenFileName 2 1 100 (some palette2) (by decide)

/-- C15 fails for a colour map with `ColorCount = 0`: on a new handle, with
SRAM limit 256, `TEGifPutScreenDesc` returns `TGIF_OK` and writes the five
bytes `10 01 01 00 00`. -/
theorem C15_empty_palette_accepted :
    (TEGifPutScreenDesc TEGifOpenFileName 1 1 (some palette0) 256).1 = TGIF_OK ∧
    (TEGifPutScreenDesc TEGifOpenFileName 1 1 (some palette0) 256).2.Private.File
      = [0x10, 0x01, 0x01, 0x00, 0x00] := by
  decide

/-- C15, amended: `TEGifPutScreenDesc` called without a palette (a null
`ColorMap` pointer) returns `TGIF_ERROR` and leaves the private state as it
was: no byte is written. -/
theorem C15_null_palette (G : TGifFileType) (W H S : Nat) :
    ∃ G', TEGifPutScreenDesc G W H none S = (TGIF_ERROR, G') ∧ G'.Private = G.Private := by
  unfold TEGifPutScreenDesc
  dsimp only
  split_ifs
  · exact ⟨_, rfl, rfl⟩
  · exact ⟨_, rfl, rfl⟩

/-- C16 fails in `TEGifPutScreenDesc`: on a new handle, for a 1x1 image with
one colour and SRAM limit 100 (zero after the mask `~0xFF`) the call returns
`TGIF_ERROR` and `Error` is still 0. -/
theorem C16_error_not_set :
    (TEGifPutScreenDesc TEGifOpenFileName 1 1 (some palette1) 100).1 = TGIF_ERROR ∧
    (TEGifPutScreenDesc TEGifOpenFileName 1 1 (some palette1) 100).2.Error = 0 := by
  decide

/-- C17 fails: the file of the 1x1 image with palette `0xF800`, pixel 0 and
SRAM limit 256 is not the nine bytes `10 01 01 01 00 F8 01 00 02`. -/
theorem C17_not_nine_bytes :
    convertFile 1 1 palette1 256 [0]
      ≠ some [0x10, 0x01, 0x01, 0x01, 0x00, 0xF8, 0x01, 0x00, 0x02] := by
  decide

/-- C17, amended: encoding `W = 1`, `H = 1`, palette `0xF800`, pixel 0, SRAM
limit 256 gives exactly the eight bytes `10 01 01 01 00 F8 01 00`: header,
palette, `CodeCount = 1`, then one byte with the only code written, the
literal 0 in 2 bits. -/
theorem C17_scenario_1x1 :
    convertFile 1 1 palette1 256 [0]
      = some [0x10, 0x01, 0x01, 0x01, 0x00, 0xF8, 0x01, 0x00] ∧
    convertCodes 1 1 palette1 256 [0] = some [(0, 2)] := by
  decide

/-- C18 fails: on the 24 bytes `00 0A 14 00` and 20 zero bytes with
`maxSz = 24` and bounds 1023, `TDGifGetInfo` does not return `TGIF_OK`, and
the colour count it reports is 256. -/
theorem C18_header_only_rejected :
    (TDGifGetInfo (bufferOf sampleHeaderOnly) (some zeroInfo) 1023 1023 24).1 ≠ TGIF_OK ∧
    (TDGifGetInfo (bufferOf sampleHeaderOnly) (some zeroInfo) 1023 1023 24).2.map
      (fun J => J.ColorCount) = some 256 := by
  decide

/-- C18, amended: on a buffer that starts with the bytes `00 0A 14 00`, with
`maxSz = 24` and `MaxW`, `MaxH` at least 20, `TDGifGetInfo` returns
`TGIF_ERROR` with `Error = MAXSZ`: byte 3 is 0, which stands for 256 colours,
and their table does not fit in 24 bytes.  `Info` reports `Width = 10`,
`Height = 20`, `ColorCount = 256`, `SRAMLimit = 4096`. -/
theorem C18_header_only_parse (b : Nat → Nat) (I : TGifInfo) (MaxW MaxH : Nat)
    (h0 : b 0 = 0x00) (h1 : b 1 = 0x0A) (h2 : b 2 = 0x14) (h3 : b 3 = 0x00)
    (hW : 20 ≤ MaxW) (hH : 20 ≤ MaxH) :
    ∃ J, TDGifGetInfo b (some I) MaxW MaxH 24 = (TGIF_ERROR, some J) ∧
      J.Error = D_TGIF_ERR_MAXSZ ∧ J.Width = 10 ∧ J.Height = 20 ∧ J.ColorCount = 256 ∧
      J.SRAMLimit = 4096 := by
  have hw : ¬ (10 > MaxW ∨ 20 > MaxH) := by omega
  unfold TDGifGetInfo TDGifReadByte
  simp only [h0, h1, h2, h3]
  norm_num [hw]

/-- C18 on the buffer `sampleHeaderOnly` with bounds 1023. -/
theorem C18_header_only_parse_witness :
    ∃ J, TDGifGetInfo (bufferOf sampleHeaderOnly) (some zeroInfo) 1023 1023 24
        = (TGIF_ERROR, some J) ∧
      J.Error = D_TGIF_ERR_MAXSZ ∧ J.Width = 10 ∧ J.Height = 20 ∧ J.ColorCount = 256 ∧
      J.SRAMLimit = 4096 :=
  C18_header_only_parse (bufferOf sampleHeaderOnly) zeroInfo 1023 1023 (by decide) (by decide)
    (by decide) (by decide) (by decide) (by decide)

/-! ## `MaxCodeUsed` -/

theorem compressPixel_used (CC M : Nat) (G G' : TGifFileType) (c p c' : Nat)
    (hI : EncInv CC M G c) (hU : UsedInv M G)
    (h : compressPixel G c p = some (G', c')) : UsedInv M G' := by
  obtain ⟨i1, i2, i3, i4, i5, i6, -, -, i9⟩ := hI
  have hcf : c ≠ FLUSH_OUTPUT := by unfold FLUSH_OUTPUT; unfold LZ_MAX_CODE at i5 ⊢; omega
  obtain ⟨o1, o2, o3, -, -, -, -, -, -, o10⟩ := compressOutput_fields G.Private c
  simp only [hcf, if_false] at o10
  unfold compressPixel at h
  dsimp only at h
  repeat' split at h
  all_goals
    cases h
    try first
      | exact hU
      | (right; show (TEGifCompressOutput G.Private c).MaxCodePoint = M; rw [o3, i2])
      | (rcases hU with hU | hU
         · left
           intro q hq
           have hq' : q ∈ (TEGifCompressOutput G.Private c).Log := hq
           show q.1 < (TEGifCompressOutput G.Private c).RunningCode + 1
           rw [o10] at hq'
           rw [o2]
           rcases List.mem_append.1 hq' with hq' | hq'
           · exact Nat.lt_succ_of_lt (hU q hq')
           · rw [List.mem_singleton.1 hq']; exact Nat.lt_succ_of_lt i6
         · right; exact hU)

theorem compressLoop_used (CC M : Nat) : ∀ (l : List Nat) (G G' : TGifFileType) (c c' : Nat),
    EncInv CC M G c → UsedInv M G → (∀ p ∈ l, p < CC) →
    compressLoop G c l = some (G', c') → UsedInv M G' := by
  intro l
  induction l with
  | nil =>
    intro G G' c c' _ hU _ h
    simp only [compressLoop, Option.some.injEq, Prod.mk.injEq] at h
    rw [← h.1]; exact hU
  | cons p l ih =>
    intro G G' c c' hI hU hl h
    obtain ⟨G1, c1, e1, hI1⟩ := compressPixel_inv CC M G c p hI (hl p (List.mem_cons_self _ _))
    simp only [compressLoop, e1] at h
    exact ih G1 G' c1 c' hI1 (compressPixel_used CC M G G1 c p c1 hI hU e1)
      (fun q hq => hl q (List.mem_cons_of_mem _ hq)) h

/-- The end of `TEGifCompressLine` on the last line of the image. -/
theorem compressFinish_used (CC M : Nat) (G : TGifFileType) (c : Nat)
    (hI : EncInv CC M G c) (hU : UsedInv M G) (hM : G.MaxCodeUsed ≤ M)
    (hz : G.Private.PixelCount = 0) :
    (∀ q ∈ (compressFinish G c).2.Private.Log, q.1 ≤ (compressFinish G c).2.MaxCodeUsed) ∧
    (compressFinish G c).2.MaxCodeUsed ≤ M ∧ (compressFinish G c).2.Private.PixelCount = 0 := by
  obtain ⟨i1, i2, i3, i4, i5, i6, -, -, i9⟩ := hI
  have hcf : c ≠ FLUSH_OUTPUT := by unfold FLUSH_OUTPUT; unfold LZ_MAX_CODE at i5 ⊢; omega
  obtain ⟨-, -, -, -, -, o6, -, -, -, o10⟩ := compressOutput_fields
    { G.Private with CrntCode := c } c
  obtain ⟨-, -, -, -, -, q6, -, -, -, q10⟩ := compressOutput_fields
    (TEGifCompressOutput { G.Private with CrntCode := c } c) FLUSH_OUTPUT
  have hpc : (TEGifCompressOutput
      (TEGifCompressOutput { G.Private with CrntCode := c } c) FLUSH_OUTPUT).PixelCount = 0 := by
    rw [q6, o6]; exact hz
  simp only [hcf, if_false] at o10
  simp only [if_true] at q10
  have hlog : ∀ q ∈ (TEGifCompressOutput
      (TEGifCompressOutput { G.Private with CrntCode := c } c) FLUSH_OUTPUT).Log,
      q ∈ G.Private.Log ∨ q.1 = c := by
    intro q hq
    rw [q10, o10] at hq
    rcases List.mem_append.1 hq with h | h
    · exact Or.inl h
    · rw [List.mem_singleton.1 h]; exact Or.inr rfl
  unfold compressFinish
  dsimp only
  rw [if_pos hz]
  split_ifs with hm
  · refine ⟨?_, ?_, hpc⟩
    · intro q hq
      show q.1 ≤ G.Private.RunningCode - 1
      rcases hlog q hq with h | h
      · rcases hU with hU | hU
        · have := hU q h; omega
        · have := i9 q h; omega
      · omega
    · show G.Private.RunningCode - 1 ≤ M
      omega
  · refine ⟨?_, hM, hpc⟩
    intro q hq
    show q.1 ≤ G.MaxCodeUsed
    rcases hlog q hq with h | h
    · rcases hU with hU | hU
      · have := hU q h; omega
      · have := i9 q h; omega
    · omega

theorem compressPixel_count (G G' : TGifFileType) (c p c' : Nat)
    (h : compressPixel G c p = some (G', c')) :
    G'.Private.PixelCount = G.Private.PixelCount ∧
    G'.Private.MaxCodePoint = G.Private.MaxCodePoint ∧
    (G'.MaxCodeUsed = G.MaxCodeUsed ∨ G'.MaxCodeUsed = G.Private.MaxCodePoint) := by
  unfold compressPixel at h
  dsimp only at h
  obtain ⟨-, -, o3, -, -, o6, -, -, -, -⟩ := compressOutput_fields G.Private c
  obtain ⟨-, -, q3, -, -, q6, -, -, -, -⟩ := compressOutput_fields
    (TEGifCompressOutput G.Private c) (TEGifCompressOutput G.Private c).ClearCode
  repeat' split at h
  all_goals
    cases h
    try first
      | exact ⟨rfl, rfl, Or.inl rfl⟩
      | exact ⟨o6, o3, Or.inl rfl⟩
      | exact ⟨q6.trans o6, q3.trans o3, Or.inr o3⟩

theorem compressLoop_count : ∀ (l : List Nat) (G G' : TGifFileType) (c c' : Nat),
    compressLoop G c l = some (G', c') → G.MaxCodeUsed ≤ G.Private.MaxCodePoint →
    G'.Private.PixelCount = G.Private.PixelCount ∧
    G'.Private.MaxCodePoint = G.Private.MaxCodePoint ∧
    G'.MaxCodeUsed ≤ G.Private.MaxCodePoint := by
  intro l
  induction l with
  | nil =>
    intro G G' c c' h hM
    simp only [compressLoop, Option.some.injEq, Prod.mk.injEq] at h
    rw [← h.1]; exact ⟨rfl, rfl, hM⟩
  | cons p l ih =>
    intro G G' c c' h hM
    simp only [compressLoop] at h
    cases e : compressPixel G c p with
    | none => rw [e] at h; simp at h
    | some r =>
      obtain ⟨G1, c1⟩ := r
      rw [e] at h
      obtain ⟨a1, a2, a3⟩ := compressPixel_count G G1 c p c1 e
      have hM1 : G1.MaxCodeUsed ≤ G1.Private.MaxCodePoint := by
        rw [a2]; rcases a3 with a3 | a3
        · rw [a3]; exact hM
        · rw [a3]
      obtain ⟨b1, b2, b3⟩ := ih G1 G' c1 c' h hM1
      exact ⟨b1.trans a1, b2.trans a2, a2 ▸ b3⟩

/-- The whole of `TEGifPutLine` for a line that holds the whole image. -/
theorem putLine_used (CC M : Nat) (G G' : TGifFileType) (p r : Nat) (rest : List Nat)
    (hI : EncInv CC M G p) (hfirst : G.Private.CrntCode = FIRST_CODE)
    (hcount : (p :: rest).length = G.Private.PixelCount) (hpix : ∀ q ∈ rest, q < CC)
    (hlog : G.Private.Log = []) (hu : G.MaxCodeUsed = 0)
    (h : TEGifPutLine G (p :: rest) = some (r, G')) :
    (∀ q ∈ G'.Private.Log, q.1 ≤ G'.MaxCodeUsed) ∧ G'.MaxCodeUsed ≤ M ∧
    G'.Private.PixelCount = 0 := by
  have hU : UsedInv M
      { G with Private := { G.Private with PixelCount := G.Private.PixelCount - (p :: rest).length } } := by
    left; intro q hq
    have hq' : q ∈ G.Private.Log := hq
    rw [hlog] at hq'; simp at hq'
  obtain ⟨G1, c1, e1, hI1⟩ := compressLoop_inv CC M rest
    { G with Private := { G.Private with PixelCount := G.Private.PixelCount - (p :: rest).length } }
    p (encInv_count CC M G p _ hI) hpix
  have hU1 := compressLoop_used CC M rest _ G1 p c1 (encInv_count CC M G p _ hI) hU hpix e1
  obtain ⟨k1, k2, k3⟩ := compressLoop_count rest _ G1 p c1 e1
    (by show G.MaxCodeUsed ≤ G.Private.MaxCodePoint; rw [hu]; exact Nat.zero_le _)
  have hz : G1.Private.PixelCount = 0 := by
    rw [k1]; show G.Private.PixelCount - (p :: rest).length = 0; omega
  have hM1 : G1.MaxCodeUsed ≤ M := by
    have : G.Private.MaxCodePoint = M := hI.2.1
    rw [← this]; exact k3
  rw [putLine_fits G _ (Nat.le_of_eq hcount), compressLine_first
    { G with Private := { G.Private with PixelCount := G.Private.PixelCount - (p :: rest).length } }
    p rest hfirst, e1] at h
  simp only [Option.map_some', Option.some.injEq] at h
  have hf := compressFinish_used CC M G1 c1 hI1 hU1 hM1 hz
  rw [h] at hf
  exact hf

/-- C20 fails on the 1x1 image with one colour, pixel 0, SRAM limit 256: the
only code written is 0 and `MaxCodeUsed` is 1. -/
theorem C20_max_code_used_larger :
    (convert 1 1 palette1 256 [0]).map
      (fun x => (x.1, x.2.MaxCodeUsed, x.2.Private.Log.map Prod.fst))
      = some (TGIF_OK, 1, [0]) := by
  decide

/-- C20, amended: for every valid image, every valid SRAM limit and every
split of the pixels into non-empty lines, after the `TEGifPutLine` call that
completes the image `MaxCodeUsed` is at least every code value the encoder
wrote to the code stream, and at most the encoder's `MaxCodePoint`,
`min(1023, ColorCount + 1 + SRAMLimit/4)`. -/
theorem C20_max_code_used (W H S : Nat) (ColorMap : TColorMapObject)
    (Pixels : List Nat) (chunks : List (List Nat))
    (hW : 1 ≤ W ∧ W ≤ 1023) (hH : 1 ≤ H ∧ H ≤ 1023)
    (hC : 1 ≤ ColorMap.ColorCount ∧ ColorMap.ColorCount ≤ 256)
    (hS : 256 ≤ S ∧ S ≤ 4096 ∧ S % 256 = 0)
    (hlen : Pixels.length = W * H) (hpix : ∀ p ∈ Pixels, p < ColorMap.ColorCount)
    (hchunks : ∀ l ∈ chunks, l ≠ []) (hjoin : chunks.flatten = Pixels) :
    ∃ G0 G, TEGifPutScreenDesc TEGifOpenFileName W H (some ColorMap) S = (TGIF_OK, G0) ∧
      putLines G0 chunks = some (TGIF_OK, G) ∧ G.Private.PixelCount = 0 ∧
      (∀ q ∈ G.Private.Log, q.1 ≤ G.MaxCodeUsed) ∧
      G.MaxCodeUsed ≤ min 1023 (ColorMap.ColorCount + 1 + S / 4) := by
  have hmask := sram_mask_valid S hS.2.1 hS.2.2
  have hL : S &&& 0xFF00 ≠ 0 := by rw [hmask]; omega
  obtain ⟨G0, e0, g1, g2, g3, g4, g5, g6, g7, -, g9⟩ := putScreenDesc_state W H S ColorMap hL
  rw [hmask] at g3
  have hpos : 0 < W * H := Nat.mul_pos (by omega) (by omega)
  subst hjoin
  obtain ⟨l1, rest, rfl⟩ : ∃ l1 rest, chunks = l1 :: rest := by
    cases chunks with
    | nil => simp at hlen; omega
    | cons l1 rest => exact ⟨l1, rest, rfl⟩
  obtain ⟨p, r1, rfl⟩ : ∃ p r1, l1 = p :: r1 := by
    cases l1 with
    | nil => exact absurd rfl (hchunks [] (List.mem_cons_self _ _))
    | cons p r1 => exact ⟨p, r1, rfl⟩
  have hM : ColorMap.ColorCount + 1 ≤
        (if ColorMap.ColorCount + 1 + S / 4 > LZ_MAX_CODE then LZ_MAX_CODE
         else ColorMap.ColorCount + 1 + S / 4) ∧
      (if ColorMap.ColorCount + 1 + S / 4 > LZ_MAX_CODE then LZ_MAX_CODE
         else ColorMap.ColorCount + 1 + S / 4) ≤ LZ_MAX_CODE := by
    unfold LZ_MAX_CODE; split_ifs <;> omega
  simp only [List.flatten_cons] at hlen hpix ⊢
  have hI := encInv_start ColorMap.ColorCount _ G0 p g1 g2 g3 g4 g5 hM
    (hpix p (by simp))
  obtain ⟨G, f1, f2⟩ := putLines_joined _ _ G0 g6 rest p r1 hI
    (fun l hl => hchunks l (List.mem_cons_of_mem _ hl))
    (by rw [g7, ← hlen, List.length_append])
    (fun q hq => hpix q (by simp [hq]))
    (fun q hq => hpix q (List.mem_append.2 (Or.inr hq)))
  have f1' : TEGifPutLine G0 (p :: (r1 ++ rest.flatten)) = some (TGIF_OK, G) := f1
  obtain ⟨u1, u2, u3⟩ := putLine_used _ _ G0 G p TGIF_OK (r1 ++ rest.flatten) hI g6
    (by rw [g7, ← hlen]; rfl)
    (fun q hq => hpix q (by
      rcases List.mem_append.1 hq with h | h
      · simp [h]
      · exact List.mem_append.2 (Or.inr h)))
    g5 g9 f1'
  refine ⟨G0, G, e0, f2, u3, u1, ?_⟩
  · refine Nat.le_trans u2 ?_
    unfold LZ_MAX_CODE
    split_ifs <;> omega

/-- C20 at a 2x2 image with two colours, given as the lines 0 1 and 1 1. -/
theorem C20_max_code_used_witness :
    ∃ G0 G, TEGifPutScreenDesc TEGifOpenFileName 2 2 (some palette2) 256 = (TGIF_OK, G0) ∧
      putLines G0 [[0, 1], [1, 1]] = some (TGIF_OK, G) ∧ G.Private.PixelCount = 0 ∧
      (∀ q ∈ G.Private.Log, q.1 ≤ G.MaxCodeUsed) ∧
      G.MaxCodeUsed ≤ min 1023 (palette2.ColorCount + 1 + 256 / 4) :=
  C20_max_code_used 2 2 256 palette2 [0, 1, 1, 1] [[0, 1], [1, 1]]
    (by decide) (by decide) (by decide) (by decide) (by decide) (by decide) (by decide)
    (by decide)

/-! ## The dictionary as a list -/

theorem dictPrefix_lt (CC : Nat) (D : List (Nat × Nat)) (c : Nat) (h : DictOk CC D)
    (hc : c > CC) : dictPrefix CC D c < c := by
  unfold dictPrefix
  by_cases hj : c - (CC + 1) < D.length
  · have := h _ hj
    omega
  · rw [List.getD_eq_default _ _ (by omega)]
    show 0 < c
    omega

theorem codeChain_fuel (CC : Nat) (D : List (Nat × Nat)) (h : DictOk CC D) :
    ∀ (f f' c : Nat), c < f → c < f' → codeChain CC D f c = codeChain CC D f' c := by
  intro f
  induction f with
  | zero => intro f' c hf; omega
  | succ f ih =>
    intro f' c hf hf'
    cases f' with
    | zero => omega
    | succ f' =>
      simp only [codeChain]
      split_ifs with hc
      · have := dictPrefix_lt CC D c h hc
        rw [ih f' _ (by omega) (by omega)]
      · rfl

theorem codeRoot_fuel (CC : Nat) (D : List (Nat × Nat)) (h : DictOk CC D) :
    ∀ (f f' c : Nat), c < f → c < f' → codeRoot CC D f c = codeRoot CC D f' c := by
  intro f
  induction f with
  | zero => intro f' c hf; omega
  | succ f ih =>
    intro f' c hf hf'
    cases f' with
    | zero => omega
    | succ f' =>
      simp only [codeRoot]
      split_ifs with hc
      · have := dictPrefix_lt CC D c h hc
        exact ih f' _ (by omega) (by omega)
      · rfl

theorem codeRoot_succ (CC : Nat) (D : List (Nat × Nat)) (f c : Nat) :
    codeRoot CC D (f + 1) c = if c > CC then codeRoot CC D f (dictPrefix CC D c) else c := rfl

theorem codeChain_succ (CC : Nat) (D : List (Nat × Nat)) (f c : Nat) :
    codeChain CC D (f + 1) c
      = if c > CC then dictSuffix CC D c :: codeChain CC D f (dictPrefix CC D c) else [] := rfl

/-- The string of a pixel is the pixel. -/
theorem codeString_pixel (CC : Nat) (D : List (Nat × Nat)) (c : Nat) (hc : c ≤ CC) :
    codeString CC D c = [c] ∧ codeFirst CC D c = c := by
  have hn : ¬ c > CC := by omega
  simp [codeString, codeFirst, codeRoot, codeChain, hn]

/-- The string of a dictionary code is the string of its prefix and then its
suffix; both strings start the same. -/
theorem codeString_entry (CC : Nat) (D : List (Nat × Nat)) (c : Nat) (h : DictOk CC D)
    (hc : c > CC) :
    codeString CC D c = codeString CC D (dictPrefix CC D c) ++ [dictSuffix CC D c] ∧
    codeFirst CC D c = codeFirst CC D (dictPrefix CC D c) := by
  have hlt := dictPrefix_lt CC D c h hc
  have e1 : codeRoot CC D (c + 1) c = codeRoot CC D (dictPrefix CC D c + 1) (dictPrefix CC D c) := by
    rw [codeRoot_succ, if_pos hc]
    exact codeRoot_fuel CC D h _ _ _ (by omega) (by omega)
  have e2 : codeChain CC D (c + 1) c
      = dictSuffix CC D c :: codeChain CC D (dictPrefix CC D c + 1) (dictPrefix CC D c) := by
    rw [codeChain_succ, if_pos hc,
      codeChain_fuel CC D h c (dictPrefix CC D c + 1) _ (by omega) (by omega)]
  refine ⟨?_, e1⟩
  unfold codeString codeFirst
  rw [e1, e2, List.reverse_cons, List.cons_append]

theorem codeChain_length (CC : Nat) (D : List (Nat × Nat)) (h : DictOk CC D) :
    ∀ (f c : Nat), (codeChain CC D f c).length ≤ c - CC := by
  intro f
  induction f with
  | zero => intro c; simp [codeChain]
  | succ f ih =>
    intro c
    simp only [codeChain]
    split_ifs with hc
    · have := dictPrefix_lt CC D c h hc
      have := ih (dictPrefix CC D c)
      simp only [List.length_cons]
      omega
    · simp

theorem codeString_length (CC : Nat) (D : List (Nat × Nat)) (h : DictOk CC D) (c : Nat) :
    1 ≤ (codeString CC D c).length ∧ (codeString CC D c).length ≤ c - CC + 1 := by
  have := codeChain_length CC D h (c + 1) c
  simp only [codeString, List.length_cons, List.length_reverse]
  omega

/-- Entries added at the end leave the codes that are there alone. -/
theorem codeChain_append (CC : Nat) (D E : List (Nat × Nat)) (h : DictOk CC D) :
    ∀ (f c : Nat), c < CC + 1 + D.length →
      codeChain CC (D ++ E) f c = codeChain CC D f c ∧
      codeRoot CC (D ++ E) f c = codeRoot CC D f c := by
  intro f
  induction f with
  | zero => intro c _; exact ⟨rfl, rfl⟩
  | succ f ih =>
    intro c hc
    simp only [codeChain, codeRoot]
    split_ifs with hcc
    · have hj : c - (CC + 1) < D.length := by omega
      have e1 : dictPrefix CC (D ++ E) c = dictPrefix CC D c := by
        unfold dictPrefix; rw [List.getD_append _ _ _ _ hj]
      have e2 : dictSuffix CC (D ++ E) c = dictSuffix CC D c := by
        unfold dictSuffix; rw [List.getD_append _ _ _ _ hj]
      have := dictPrefix_lt CC D c h hcc
      obtain ⟨i1, i2⟩ := ih (dictPrefix CC D c) (by omega)
      rw [e1, e2, i1, i2]
      exact ⟨rfl, rfl⟩
    · exact ⟨rfl, rfl⟩

theorem codeString_append (CC : Nat) (D E : List (Nat × Nat)) (h : DictOk CC D) (c : Nat)
    (hc : c < CC + 1 + D.length) :
    codeString CC (D ++ E) c = codeString CC D c ∧ codeFirst CC (D ++ E) c = codeFirst CC D c := by
  obtain ⟨i1, i2⟩ := codeChain_append CC D E h (c + 1) c hc
  unfold codeString codeFirst
  rw [i1, i2]
  exact ⟨rfl, rfl⟩

/-! ## The width schedule -/

set_option maxRecDepth 1000000 in
theorem bitSize_small : ∀ n < 258, 2 ≤ n →
    n < 2 ^ Enc.BitSize n ∧ 2 ≤ Enc.BitSize n ∧ Enc.BitSize n ≤ 9 ∧
    Dec.BitSize n = Enc.BitSize n := by
  decide

set_option maxRecDepth 1000000 in
theorem dec_bitSize_cover : ∀ m < 1024, m < 2 ^ Dec.BitSize m := by
  decide

theorem widthAt_succ (CC k : Nat) :
    widthAt CC (k + 1)
      = if CC + 1 + k ≥ 2 ^ widthAt CC k then widthAt CC k + 1 else widthAt CC k := rfl

theorem widthAt_cover (CC : Nat) (hC : 1 ≤ CC ∧ CC ≤ 256) :
    ∀ k, CC + 1 + k ≤ 2 ^ widthAt CC k := by
  intro k
  induction k with
  | zero =>
    have := (bitSize_small (CC + 1) (by omega) (by omega)).1
    show CC + 1 + 0 ≤ 2 ^ Enc.BitSize (CC + 1)
    omega
  | succ k ih =>
    rw [widthAt_succ]
    split_ifs with h
    · rw [Nat.pow_succ]; omega
    · omega

theorem widthAt_ge (CC : Nat) : ∀ k, widthAt CC 0 ≤ widthAt CC k := by
  intro k
  induction k with
  | zero => exact Nat.le_refl _
  | succ k ih =>
    rw [widthAt_succ]
    split_ifs <;> omega

theorem widthAt_le (CC : Nat) (hC : 1 ≤ CC ∧ CC ≤ 256) :
    ∀ k, CC + k ≤ 1023 → widthAt CC k ≤ 10 := by
  intro k
  induction k with
  | zero =>
    intro _
    have := (bitSize_small (CC + 1) (by omega) (by omega)).2.2.1
    show Enc.BitSize (CC + 1) ≤ 10
    omega
  | succ k ih =>
    intro hk
    have h1 := ih (by omega)
    rw [widthAt_succ]
    split_ifs with h
    · by_contra hcon
      have e : widthAt CC k = 10 := by omega
      rw [e] at h
      norm_num at h
      omega
    · exact h1

/-! ## The encoder's bit stream holds the codes of its log -/

theorem totalBits_append (l : List (Nat × Nat)) (c w : Nat) :
    totalBits (l ++ [(c, w)]) = totalBits l + w := by
  induction l with
  | nil => simp [totalBits]
  | cons p l ih =>
    obtain ⟨a, b⟩ := p
    show b + totalBits (l ++ [(c, w)]) = b + totalBits l + w
    rw [ih]; omega

theorem bitsValue_append (l : List (Nat × Nat)) (c w : Nat) :
    bitsValue (l ++ [(c, w)]) = bitsValue l + 2 ^ totalBits l * c := by
  induction l with
  | nil => simp [bitsValue, totalBits]
  | cons p l ih =>
    obtain ⟨a, b⟩ := p
    show a + 2 ^ b * bitsValue (l ++ [(c, w)]) = a + 2 ^ b * bitsValue l + 2 ^ (b + totalBits l) * c
    rw [ih, Nat.pow_add]; ring

theorem compressOutput_width (P : TGifFilePrivateType) (c : Nat) (hc : c ≤ LZ_MAX_CODE) :
    (TEGifCompressOutput P c).RunningBits
      = (if P.RunningCode ≥ P.MaxCode1 then P.RunningBits + 1 else P.RunningBits) ∧
    (TEGifCompressOutput P c).MaxCode1
      = (if P.RunningCode ≥ P.MaxCode1 then 2 ^ (P.RunningBits + 1) else P.MaxCode1) := by
  have hcf : c ≠ FLUSH_OUTPUT := by unfold FLUSH_OUTPUT; omega
  have h := packCode_fields { P with Log := P.Log ++ [(c, P.RunningBits)] } c P.RunningBits
  simp only [codecFields, Prod.mk.injEq] at h
  obtain ⟨-, -, -, -, h5, h6, h7, -, -, -, -, -⟩ := h
  unfold TEGifCompressOutput
  simp only [hcf, if_false, hc, and_true, h5, h6, h7]
  split_ifs
  · exact ⟨rfl, Nat.one_shiftLeft _⟩
  · exact ⟨h6, h7⟩

theorem compressOutput_stream (hdr : List Nat) (P : TGifFilePrivateType) (c : Nat)
    (hc : c ≤ LZ_MAX_CODE) (hcw : c < 2 ^ P.RunningBits) (hS : StreamInv hdr P) :
    StreamInv hdr (TEGifCompressOutput P c) := by
  have hcf : c ≠ FLUSH_OUTPUT := by unfold FLUSH_OUTPUT; omega
  obtain ⟨bs, s1, s2, s3, s4, s5, s6⟩ := hS
  obtain ⟨bs', e1, eb, e2, e3, e4, e5⟩ := packCode_spec hdr
    { P with Log := P.Log ++ [(c, P.RunningBits)] } bs c P.RunningBits hcw s1 s4 s2
  have h := packCode_fields { P with Log := P.Log ++ [(c, P.RunningBits)] } c P.RunningBits
  simp only [codecFields, Prod.mk.injEq] at h
  obtain ⟨-, -, -, -, -, -, -, -, -, -, -, h12⟩ := h
  have hlog : (packCode { P with Log := P.Log ++ [(c, P.RunningBits)] } c P.RunningBits).Log
      = P.Log ++ [(c, P.RunningBits)] := h12
  have key : StreamInv hdr
      (packCode { P with Log := P.Log ++ [(c, P.RunningBits)] } c P.RunningBits) := by
    refine ⟨bs', e1, eb, e2, e3, ?_, ?_⟩
    · rw [hlog, totalBits_append, e4]
      show 8 * bs.length + P.CrntShiftState + P.RunningBits = _
      omega
    · rw [hlog, bitsValue_append, e5, ← s5, s6]
  unfold TEGifCompressOutput
  simp only [hcf, if_false]
  split_ifs
  · exact key
  · exact key

/-! ## Codes and dictionary of the encoder, as lists -/

theorem codesOk_dict (CC : Nat) (D : List (Nat × Nat)) (cs : List Nat) (c : Nat)
    (h : CodesOk CC D cs c) : DictOk CC D :=
  fun j hj => (h.ent j hj).2.1

theorem codesOk_lt (CC : Nat) (D : List (Nat × Nat)) (cs : List Nat) (c : Nat)
    (h : CodesOk CC D cs c) : ∀ x ∈ cs ++ [c], x < CC + 1 + D.length := by
  intro x hx
  rcases List.mem_append.1 hx with hx | hx
  · obtain ⟨j, hj, e⟩ := List.getElem_of_mem hx
    have hj' : j < D.length := by rw [← h.len]; exact hj
    obtain ⟨a1, a2, -⟩ := h.ent j hj'
    have e' : cs.getD j 0 = x := by
      rw [List.getD_eq_getElem _ _ hj]; exact e
    omega
  · rw [List.mem_singleton.1 hx]; exact h.cur.1

/-- The current code becomes the code of an entry that is made of it and the
next pixel. -/
theorem codesOk_found (CC : Nat) (D : List (Nat × Nat)) (cs : List Nat) (c j p : Nat)
    (h : CodesOk CC D cs c) (hj : j < D.length) (he : D.getD j (0, 0) = (c, p)) :
    CodesOk CC D cs (CC + 1 + j) ∧
    codeString CC D (CC + 1 + j) = codeString CC D c ++ [p] := by
  have hD := codesOk_dict CC D cs c h
  have hpre : dictPrefix CC D (CC + 1 + j) = c := by
    unfold dictPrefix
    rw [show CC + 1 + j - (CC + 1) = j by omega, he]
  have hsuf : dictSuffix CC D (CC + 1 + j) = p := by
    unfold dictSuffix
    rw [show CC + 1 + j - (CC + 1) = j by omega, he]
  obtain ⟨s1, s2⟩ := codeString_entry CC D (CC + 1 + j) hD (by omega)
  rw [hpre] at s1 s2
  rw [hsuf] at s1
  refine ⟨⟨h.len, ⟨by omega, by omega⟩, ?_⟩, s1⟩
  intro i hi
  obtain ⟨a1, a2, a3, a4, a5⟩ := h.ent i hi
  refine ⟨a1, a2, a3, a4, ?_⟩
  rw [a5]
  by_cases hlast : i + 1 < cs.length
  · rw [List.getD_append _ _ _ _ hlast, List.getD_append _ _ _ _ hlast]
  · have hlen := h.len
    rw [List.getD_append_right _ _ _ _ (by omega), List.getD_append_right _ _ _ _ (by omega),
      show i + 1 - cs.length = 0 by omega]
    exact s2.symm

/-- The current code is written and a new entry is made of it and the next
pixel, which becomes the current code. -/
theorem codesOk_new (CC : Nat) (D : List (Nat × Nat)) (cs : List Nat) (c p : Nat)
    (h : CodesOk CC D cs c) (hp : p < CC) :
    CodesOk CC (D ++ [(c, p)]) (cs ++ [c]) p ∧
    codesString CC (D ++ [(c, p)]) (cs ++ [c]) = codesString CC D cs ++ codeString CC D c ∧
    codeString CC (D ++ [(c, p)]) p = [p] := by
  have hD := codesOk_dict CC D cs c h
  have hlt := codesOk_lt CC D cs c h
  have hlen := h.len
  refine ⟨⟨?_, ?_, ?_⟩, ?_, (codeString_pixel CC _ p (by omega)).1⟩
  · simp [hlen]
  · simp only [List.length_append, List.length_singleton]
    exact ⟨by omega, by omega⟩
  · intro j hj
    simp only [List.length_append, List.length_singleton] at hj
    by_cases hjD : j < D.length
    · obtain ⟨a1, a2, a3, a4, a5⟩ := h.ent j hjD
      rw [List.getD_append _ _ _ _ hjD, List.getD_append _ _ _ _ (by omega : j < cs.length)]
      refine ⟨a1, a2, a3, a4, ?_⟩
      rw [a5, List.getD_append _ _ _ _
        (by simp only [List.length_append, List.length_singleton]; omega :
          j + 1 < (cs ++ [c]).length)]
      have hx : (cs ++ [c]).getD (j + 1) 0 ∈ cs ++ [c] := by
        rw [List.getD_eq_getElem _ _
          (by simp only [List.length_append, List.length_singleton]; omega)]
        exact List.getElem_mem _
      exact (codeString_append CC D [(c, p)] hD _ (hlt _ hx)).2.symm
    · have e : j = D.length := by omega
      subst e
      rw [List.getD_append_right _ _ _ _ (Nat.le_refl _), Nat.sub_self,
        List.getD_append_right _ _ _ _ (by omega : cs.length ≤ D.length),
        show D.length - cs.length = 0 by omega,
        List.getD_append_right _ _ _ _
          (by simp only [List.length_append, List.length_singleton]; omega :
            (cs ++ [c]).length ≤ D.length + 1),
        show D.length + 1 - (cs ++ [c]).length = 0 by
          simp only [List.length_append, List.length_singleton]; omega]
      refine ⟨rfl, h.cur.1, h.cur.2, hp, ?_⟩
      exact (codeString_pixel CC _ p (by omega)).2.symm
  · unfold codesString
    rw [List.map_append, List.flatten_append]
    have e1 : (cs.map (codeString CC (D ++ [(c, p)]))) = cs.map (codeString CC D) := by
      apply List.map_congr_left
      intro x hx
      exact (codeString_append CC D [(c, p)] hD x
        (hlt x (List.mem_append.2 (Or.inl hx)))).1
    rw [e1]
    simp only [List.map_cons, List.map_nil, List.flatten_cons, List.flatten_nil,
      List.append_nil]
    rw [(codeString_append CC D [(c, p)] hD c (h.cur.1)).1]

/-! ## The encoder over the pixels, while the dictionary has room -/

/-- What `_ExistsHashTable` returns is `-1` or the code field of an occupied
cell whose key field is the key looked for. -/
theorem existsProbe_found (HTable : TGifHashTableType) (Key : Nat) :
    ∀ (fuel h0 : Nat) (v : Int), existsProbe HTable Key fuel h0 = some v →
      v = -1 ∨ ∃ i, Occupied HTable i ∧ Key = HT_GET_KEY (HTable i) ∧
        v = (HT_GET_CODE (HTable i) : Nat) := by
  intro fuel
  induction fuel with
  | zero => intro h0 v h; simp [existsProbe] at h
  | succ fuel ih =>
    intro h0 v h
    unfold existsProbe at h
    split_ifs at h with hocc hkey
    · simp only [Option.some.injEq] at h
      exact Or.inr ⟨h0, hocc, hkey, h.symm⟩
    · exact ih _ v h
    · simp only [Option.some.injEq] at h
      exact Or.inl h.symm

/-- The key field of the entry `_InsertHashTable` stores. -/
theorem entry_key (Key Code : Nat) (hK : Key < 2 ^ 20) :
    HT_GET_KEY (HT_PUT_KEY Key ||| HT_PUT_CODE Code) = Key := by
  unfold HT_GET_KEY HT_PUT_KEY HT_PUT_CODE
  have e1 : Code &&& 0x0FFF = Code % 4096 := by
    have := Nat.and_pow_two_sub_one_eq_mod Code 12
    simpa using this
  have e2 : (Key <<< 12) % 2 ^ 32 = 2 ^ 12 * Key := by
    rw [Nat.shiftLeft_eq, Nat.mul_comm]
    apply Nat.mod_eq_of_lt
    have : (2 : Nat) ^ 32 = 2 ^ 12 * 2 ^ 20 := by decide
    rw [this]
    exact Nat.mul_lt_mul_of_pos_left hK (by decide)
  rw [e1, e2, ← Nat.mul_add_lt_is_or (by omega : Code % 4096 < 2 ^ 12),
    Nat.shiftRight_eq_div_pow]
  omega

/-- The two ways a pass of the loop of `TEGifCompressLine` ends while
`RunningCode` is below `MaxCodePoint`: the key is in the table and its code
becomes the current code, or the current code is written and the key goes
into a free cell under the code `RunningCode`. -/
theorem compressPixel_cases (G G' : TGifFileType) (c p c' : Nat)
    (h : compressPixel G c p = some (G', c'))
    (hroom : G.Private.RunningCode < G.Private.MaxCodePoint) :
    (∃ i, Occupied G.Private.HashTable i ∧
        (c <<< 8) + p = HT_GET_KEY (G.Private.HashTable i) ∧
        c' = HT_GET_CODE (G.Private.HashTable i) ∧ G' = G) ∨
    (∃ j, ¬ Occupied G.Private.HashTable j ∧ c' = p ∧
        G' = { G with Private :=
          { TEGifCompressOutput G.Private c with
            HashTable := fun i =>
              if i = j then HT_PUT_KEY ((c <<< 8) + p) ||| HT_PUT_CODE G.Private.RunningCode
              else G.Private.HashTable i
            RunningCode := G.Private.RunningCode + 1 } }) := by
  obtain ⟨-, o2, o3, o4, -, -, -, -, -, -⟩ := compressOutput_fields G.Private c
  unfold compressPixel at h
  dsimp only at h
  cases hv : _ExistsHashTable G.Private.HashTable ((c <<< 8) + p) with
  | none => rw [hv] at h; simp at h
  | some v =>
    rw [hv] at h
    dsimp only at h
    by_cases hv0 : v ≥ 0
    · rw [if_pos hv0] at h
      simp only [Option.some.injEq, Prod.mk.injEq] at h
      left
      rcases existsProbe_found _ _ _ _ _ hv with e | ⟨i, hi, hk, e⟩
      · omega
      · refine ⟨i, hi, hk, ?_, h.1.symm⟩
        rw [← h.2, e]; rfl
    · rw [if_neg hv0] at h
      have hnf : ¬ (TEGifCompressOutput G.Private c).RunningCode
          ≥ (TEGifCompressOutput G.Private c).MaxCodePoint := by
        rw [o2, o3]; omega
      rw [if_neg hnf] at h
      unfold _InsertHashTable at h
      cases hj : insertProbe (TEGifCompressOutput G.Private c).HashTable HT_SIZE
          (KeyItem ((c <<< 8) + p)) with
      | none => rw [hj] at h; simp at h
      | some j =>
        rw [hj] at h
        simp only [Option.some.injEq, Prod.mk.injEq] at h
        right
        have hfree := insertProbe_free _ _ _ _ hj
        rw [o4] at hfree
        refine ⟨j, hfree, h.2.symm, ?_⟩
        rw [← h.1, o2, o4]

theorem shiftLeft_8 (a : Nat) : a <<< 8 = a * 256 := by
  rw [Nat.shiftLeft_eq]

/-- One pass of the loop of `TEGifCompressLine` keeps the encoder in step with
the dictionary list, the list of codes and the bit stream. -/
theorem compressPixel_lzw (CC M : Nat) (hdr : List Nat) (D : List (Nat × Nat))
    (cs : List Nat) (G G' : TGifFileType) (c p c' : Nat) (hC : 1 ≤ CC ∧ CC ≤ 256)
    (hI : EncInv CC M G c) (hL : LzwInv CC D cs G) (hO : CodesOk CC D cs c)
    (hS : StreamInv hdr G.Private) (hp : p < CC) (hroom : CC + 1 + D.length < M)
    (h : compressPixel G c p = some (G', c')) :
    ∃ D' cs', LzwInv CC D' cs' G' ∧ CodesOk CC D' cs' c' ∧ StreamInv hdr G'.Private ∧
      codesString CC D' cs' ++ codeString CC D' c'
        = codesString CC D cs ++ codeString CC D c ++ [p] ∧
      D'.length ≤ D.length + 1 := by
  obtain ⟨i1, i2, -, i4, i5, -, -, -, -⟩ := hI
  unfold LZ_MAX_CODE at i5
  have hrc := hL.rc
  rcases compressPixel_cases G G' c p c' h (by rw [i2, hrc]; exact hroom) with
    ⟨i, hi, hk, hc', hG⟩ | ⟨j0, hfree, hc', hG⟩
  · -- the key is in the table
    obtain ⟨j, hj, he⟩ := hL.ht i hi
    obtain ⟨a1, a2, a3, a4, a5⟩ := hO.ent j hj
    have hkey : ((D.getD j (0, 0)).1 <<< 8) + (D.getD j (0, 0)).2 < 2 ^ 20 := by
      rw [shiftLeft_8]; omega
    rw [he, entry_key _ _ hkey, shiftLeft_8, shiftLeft_8] at hk
    rw [he, entry_code, Nat.mod_eq_of_lt (by omega)] at hc'
    have hent : D.getD j (0, 0) = (c, p) := by
      apply Prod.ext
      · show (D.getD j (0, 0)).1 = c; omega
      · show (D.getD j (0, 0)).2 = p; omega
    obtain ⟨f1, f2⟩ := codesOk_found CC D cs c j p hO hj hent
    rw [hG, hc']
    refine ⟨D, cs, hL, f1, hS, ?_, by omega⟩
    rw [f2, List.append_assoc]
  · -- the current code is written and a new entry is made
    obtain ⟨o1, o2, o3, o4, o5, o6, o7, o8, o9, o10⟩ := compressOutput_fields G.Private c
    have hcl : c ≤ LZ_MAX_CODE := by unfold LZ_MAX_CODE; have := hO.cur.1; omega
    have hcf : c ≠ FLUSH_OUTPUT := by unfold FLUSH_OUTPUT LZ_MAX_CODE; have := hO.cur.1; omega
    simp only [hcf, if_false] at o10
    obtain ⟨w1, w2⟩ := compressOutput_width G.Private c hcl
    have hcov := widthAt_cover CC hC D.length
    have hcw : c < 2 ^ G.Private.RunningBits := by
      rw [hL.bits]; have := hO.cur.1; omega
    have hS1 := compressOutput_stream hdr G.Private c hcl hcw hS
    obtain ⟨g1, g2, g3⟩ := codesOk_new CC D cs c p hO hp
    have hc'' : p = c' := hc'.symm
    subst hG hc''
    refine ⟨D ++ [(c, p)], cs ++ [c], ⟨?_, ?_, ?_, ?_, ?_, ?_⟩, g1, hS1, ?_, ?_⟩
    · show G.Private.RunningCode + 1 = CC + 1 + (D ++ [(c, p)]).length
      rw [hrc, List.length_append, List.length_singleton]; omega
    · show (TEGifCompressOutput G.Private c).Log.map Prod.fst = cs ++ [c]
      rw [o10, List.map_append, hL.log]; rfl
    · intro i hi
      show ∃ j < (D ++ [(c, p)]).length,
        (if i = j0 then HT_PUT_KEY ((c <<< 8) + p) ||| HT_PUT_CODE G.Private.RunningCode
          else G.Private.HashTable i)
        = HT_PUT_KEY ((((D ++ [(c, p)]).getD j (0, 0)).1 <<< 8)
            + ((D ++ [(c, p)]).getD j (0, 0)).2) ||| HT_PUT_CODE (CC + 1 + j)
      by_cases hij : i = j0
      · refine ⟨D.length, by simp, ?_⟩
        rw [List.getD_append_right _ _ _ _ (Nat.le_refl _), Nat.sub_self, if_pos hij, hrc]
        rfl
      · have hi' : Occupied G.Private.HashTable i := by
          have hi2 : Occupied (fun i =>
              if i = j0 then HT_PUT_KEY ((c <<< 8) + p) ||| HT_PUT_CODE G.Private.RunningCode
              else G.Private.HashTable i) i := hi
          unfold Occupied at hi2 ⊢
          simpa [hij] using hi2
        obtain ⟨j, hj, he⟩ := hL.ht i hi'
        refine ⟨j, by rw [List.length_append]; omega, ?_⟩
        rw [List.getD_append _ _ _ _ hj, if_neg hij]
        exact he
    · show (TEGifCompressOutput G.Private c).RunningBits = widthAt CC (D ++ [(c, p)]).length
      rw [w1, List.length_append, List.length_singleton, widthAt_succ, hL.max1, hL.bits, hrc]
    · show (TEGifCompressOutput G.Private c).MaxCode1
        = 2 ^ (TEGifCompressOutput G.Private c).RunningBits
      rw [w1, w2]
      split_ifs
      · rfl
      · exact hL.max1
    · show (TEGifCompressOutput G.Private c).Log.map Prod.snd
        = (List.range (D ++ [(c, p)]).length).map (widthAt CC)
      rw [o10, List.map_append, hL.widths, List.length_append, List.length_singleton,
        List.range_succ, List.map_append, hL.bits]
      rfl
    · rw [g2, g3]
    · rw [List.length_append, List.length_singleton]

theorem codeString_ne_nil (CC : Nat) (D : List (Nat × Nat)) (c : Nat) :
    1 ≤ (codeString CC D c).length := by
  simp [codeString]

/-- The loop of `TEGifCompressLine` keeps the encoder in step with the
dictionary list and the bit stream as long as `CC + (number of pixels)` stays
within `MaxCodePoint`; the strings of the codes written and of the current
code make up the pixels read. -/
theorem compressLoop_lzw (CC M : Nat) (hdr : List Nat) (hC : 1 ≤ CC ∧ CC ≤ 256) :
    ∀ (l : List Nat) (D : List (Nat × Nat)) (cs : List Nat) (G : TGifFileType) (c : Nat)
      (done : List Nat),
      EncInv CC M G c → LzwInv CC D cs G → CodesOk CC D cs c → StreamInv hdr G.Private →
      (∀ p ∈ l, p < CC) → codesString CC D cs ++ codeString CC D c = done →
      D.length < done.length → CC + done.length + l.length ≤ M →
      ∃ G' c' D' cs', compressLoop G c l = some (G', c') ∧ EncInv CC M G' c' ∧
        LzwInv CC D' cs' G' ∧ CodesOk CC D' cs' c' ∧ StreamInv hdr G'.Private ∧
        codesString CC D' cs' ++ codeString CC D' c' = done ++ l ∧
        D'.length < (done ++ l).length := by
  intro l
  induction l with
  | nil =>
    intro D cs G c done hI hL hO hS _ hd hlen _
    exact ⟨G, c, D, cs, rfl, hI, hL, hO, hS, by rw [List.append_nil]; exact hd,
      by rw [List.append_nil]; exact hlen⟩
  | cons p l ih =>
    intro D cs G c done hI hL hO hS hl hd hlen hM
    have hp := hl p (List.mem_cons_self _ _)
    obtain ⟨G1, c1, e1, hI1⟩ := compressPixel_inv CC M G c p hI hp
    simp only [List.length_cons] at hM
    obtain ⟨D1, cs1, hL1, hO1, hS1, hd1, hlen1⟩ := compressPixel_lzw CC M hdr D cs G G1 c p c1
      hC hI hL hO hS hp (by omega) e1
    rw [hd] at hd1
    obtain ⟨G2, c2, D2, cs2, e2, hI2, hL2, hO2, hS2, hd2, hlen2⟩ :=
      ih D1 cs1 G1 c1 (done ++ [p]) hI1 hL1 hO1 hS1
        (fun q hq => hl q (List.mem_cons_of_mem _ hq)) hd1
        (by rw [List.length_append, List.length_singleton]; omega)
        (by rw [List.length_append, List.length_singleton]; omega)
    refine ⟨G2, c2, D2, cs2, ?_, hI2, hL2, hO2, hS2, ?_, ?_⟩
    · simp only [compressLoop, e1, e2]
    · rw [hd2, List.append_assoc]; rfl
    · rw [List.append_assoc] at hlen2; exact hlen2

/-- The end of `TEGifCompressLine` on the last line: the current code is
written and the stream is flushed into the file. -/
theorem compressFinish_lzw (CC M : Nat) (hdr : List Nat) (D : List (Nat × Nat))
    (cs : List Nat) (G : TGifFileType) (c : Nat) (hC : 1 ≤ CC ∧ CC ≤ 256)
    (hI : EncInv CC M G c) (hL : LzwInv CC D cs G)
    (hS : StreamInv hdr G.Private) (hz : G.Private.PixelCount = 0) :
    ∃ bs, (compressFinish G c).2.Private.File = hdr ++ bs ∧ (∀ b ∈ bs, b < 256) ∧
      leValue bs = bitsValue (compressFinish G c).2.Private.Log ∧
      totalBits (compressFinish G c).2.Private.Log ≤ 8 * bs.length ∧
      8 * bs.length < totalBits (compressFinish G c).2.Private.Log + 8 ∧
      (compressFinish G c).2.Private.Log.map Prod.fst = cs ++ [c] ∧
      (compressFinish G c).2.Private.Log.map Prod.snd
        = (List.range (D.length + 1)).map (widthAt CC) := by
  obtain ⟨-, -, -, i4, i5, i6, -, -, -⟩ := hI
  have hcl : c ≤ LZ_MAX_CODE := by omega
  have hcf : c ≠ FLUSH_OUTPUT := by unfold FLUSH_OUTPUT; omega
  have hcov := widthAt_cover CC hC D.length
  have hrc := hL.rc
  have hcw : c < 2 ^ G.Private.RunningBits := by rw [hL.bits]; omega
  have hS0 : StreamInv hdr { G.Private with CrntCode := c } := hS
  have hS1 := compressOutput_stream hdr { G.Private with CrntCode := c } c hcl hcw hS0
  obtain ⟨-, -, -, -, -, -, -, -, -, o10⟩ := compressOutput_fields
    { G.Private with CrntCode := c } c
  obtain ⟨-, -, -, -, -, -, -, -, -, q10⟩ := compressOutput_fields
    (TEGifCompressOutput { G.Private with CrntCode := c } c) FLUSH_OUTPUT
  simp only [hcf, if_false] at o10
  simp only [if_true] at q10
  have hflush : TEGifCompressOutput (TEGifCompressOutput { G.Private with CrntCode := c } c)
      FLUSH_OUTPUT = flushCode (TEGifCompressOutput { G.Private with CrntCode := c } c) := by
    have hn : ¬ FLUSH_OUTPUT ≤ LZ_MAX_CODE := by decide
    unfold TEGifCompressOutput
    simp only [if_true, hn, and_false, if_false]
  have key : ∃ bs,
      (TEGifCompressOutput (TEGifCompressOutput { G.Private with CrntCode := c } c)
        FLUSH_OUTPUT).File = hdr ++ bs ∧ (∀ b ∈ bs, b < 256) ∧
      leValue bs = bitsValue (TEGifCompressOutput
        (TEGifCompressOutput { G.Private with CrntCode := c } c) FLUSH_OUTPUT).Log ∧
      totalBits (TEGifCompressOutput
        (TEGifCompressOutput { G.Private with CrntCode := c } c) FLUSH_OUTPUT).Log
          ≤ 8 * bs.length ∧
      8 * bs.length < totalBits (TEGifCompressOutput
        (TEGifCompressOutput { G.Private with CrntCode := c } c) FLUSH_OUTPUT).Log + 8 ∧
      (TEGifCompressOutput (TEGifCompressOutput { G.Private with CrntCode := c } c)
        FLUSH_OUTPUT).Log.map Prod.fst = cs ++ [c] ∧
      (TEGifCompressOutput (TEGifCompressOutput { G.Private with CrntCode := c } c)
        FLUSH_OUTPUT).Log.map Prod.snd = (List.range (D.length + 1)).map (widthAt CC) := by
    rw [q10]
    obtain ⟨bs, s1, s2, s3, s4, s5, s6⟩ := hS1
    rw [hflush]
    obtain ⟨bs', e1, eb, e2, e3, e4⟩ := flushCode_spec hdr _ bs s1 s3 s4 s2
    refine ⟨bs', e1, eb, ?_, ?_, ?_, ?_, ?_⟩
    · rw [e4, s6]
    · rw [← s5]; exact e2
    · rw [← s5]; exact e3
    · rw [o10, List.map_append]
      show G.Private.Log.map Prod.fst ++ [c] = cs ++ [c]
      rw [hL.log]
    · rw [o10, List.map_append, List.range_succ, List.map_append]
      show G.Private.Log.map Prod.snd ++ [G.Private.RunningBits] = _
      rw [hL.widths, hL.bits]
      rfl
  unfold compressFinish
  dsimp only
  rw [if_pos hz]
  split_ifs
  · exact key
  · exact key

/-- The handle after `TEGifPutScreenDesc` on a new handle: the fields the
coder starts from. -/
theorem putScreenDesc_start (W H S : Nat) (ColorMap : TColorMapObject)
    (hL : S &&& 0xFF00 ≠ 0) :
    ∃ G, TEGifPutScreenDesc TEGifOpenFileName W H (some ColorMap) S = (TGIF_OK, G) ∧
      G.Private.RunningBits = Enc.BitSize (ColorMap.ColorCount + 1) ∧
      G.Private.MaxCode1 = 1 <<< Enc.BitSize (ColorMap.ColorCount + 1) ∧
      G.Private.File = screenDescBytes W H S ColorMap ∧ G.Private.Buf = [] ∧
      G.Private.CrntShiftState = 0 ∧ G.Private.CrntShiftDWord = 0 := by
  refine ⟨_, putScreenDesc_ok TEGifOpenFileName W H S ColorMap (by decide) hL,
    rfl, rfl, ?_, rfl, rfl, rfl⟩
  simp [TEGifSetupCompress, InternalWrite, TEGifOpenFileName, screenDescBytes]

theorem codesString_snoc (CC : Nat) (D : List (Nat × Nat)) (cs : List Nat) (c : Nat) :
    codesString CC D (cs ++ [c]) = codesString CC D cs ++ codeString CC D c := by
  unfold codesString
  rw [List.map_append, List.flatten_append]
  simp

/-- The encoder on a valid image with no more pixels than the dictionary has
entries: both calls succeed, no CLEAR is written, the file is the header and
the bytes of the codes written, and the strings of the codes make up the
pixels. -/
theorem encode_small (W H S : Nat) (ColorMap : TColorMapObject) (Pixels : List Nat)
    (hW : 1 ≤ W ∧ W ≤ 1023) (hH : 1 ≤ H ∧ H ≤ 1023)
    (hC : 1 ≤ ColorMap.ColorCount ∧ ColorMap.ColorCount ≤ 256)
    (hS : 256 ≤ S ∧ S ≤ 4096 ∧ S % 256 = 0)
    (hlen : Pixels.length = W * H) (hpix : ∀ p ∈ Pixels, p < ColorMap.ColorCount)
    (hsmall : W * H ≤ S / 4 ∧ ColorMap.ColorCount + W * H ≤ 1023) :
    ∃ G D cs c bs, convert W H ColorMap S Pixels = some (TGIF_OK, G) ∧
      G.Private.File = screenDescBytes W H S ColorMap ++ bs ∧ (∀ b ∈ bs, b < 256) ∧
      leValue bs = bitsValue G.Private.Log ∧
      totalBits G.Private.Log ≤ 8 * bs.length ∧
      8 * bs.length < totalBits G.Private.Log + 8 ∧
      G.Private.Log.map Prod.fst = cs ++ [c] ∧
      G.Private.Log.map Prod.snd
        = (List.range (D.length + 1)).map (widthAt ColorMap.ColorCount) ∧
      CodesOk ColorMap.ColorCount D cs c ∧
      codesString ColorMap.ColorCount D (cs ++ [c]) = Pixels := by
  have hmask := sram_mask_valid S hS.2.1 hS.2.2
  have hL : S &&& 0xFF00 ≠ 0 := by rw [hmask]; omega
  obtain ⟨G0, e0, g1, g2, g3, g4, g5, g6, g7, -, g9⟩ := putScreenDesc_state W H S ColorMap hL
  obtain ⟨G0', e0', k1, k2, k3, k4, k5, k6⟩ := putScreenDesc_start W H S ColorMap hL
  rw [e0] at e0'
  have hGG : G0' = G0 := by
    simp only [Prod.mk.injEq, true_and] at e0'; exact e0'.symm
  subst hGG
  rw [hmask] at g3
  have hpos : 0 < W * H := Nat.mul_pos (by omega) (by omega)
  obtain ⟨p, rest, rfl⟩ : ∃ p rest, Pixels = p :: rest := by
    cases Pixels with
    | nil => simp at hlen; omega
    | cons p rest => exact ⟨p, rest, rfl⟩
  have hM : ColorMap.ColorCount + 1 ≤
        (if ColorMap.ColorCount + 1 + S / 4 > LZ_MAX_CODE then LZ_MAX_CODE
         else ColorMap.ColorCount + 1 + S / 4) ∧
      (if ColorMap.ColorCount + 1 + S / 4 > LZ_MAX_CODE then LZ_MAX_CODE
         else ColorMap.ColorCount + 1 + S / 4) ≤ LZ_MAX_CODE := by
    unfold LZ_MAX_CODE; split_ifs <;> omega
  have hp0 := hpix p (List.mem_cons_self _ _)
  have hI := encInv_start ColorMap.ColorCount _ G0' p g1 g2 g3 g4 g5 hM hp0
  have hne : TGIF_OK ≠ TGIF_ERROR := by decide
  -- the state at the first pixel
  have hL0 : LzwInv ColorMap.ColorCount [] []
      { G0' with Private := { G0'.Private with
          PixelCount := G0'.Private.PixelCount - (p :: rest).length } } := by
    refine ⟨g2, ?_, ?_, k1, ?_, ?_⟩
    · show G0'.Private.Log.map Prod.fst = []
      rw [g5]; rfl
    · intro i hi
      have hi' : Occupied G0'.Private.HashTable i := hi
      rw [g4] at hi'
      exact absurd hi' (clear_not_occupied i)
    · show G0'.Private.MaxCode1 = 2 ^ G0'.Private.RunningBits
      rw [k2, k1, Nat.one_shiftLeft]
    · show G0'.Private.Log.map Prod.snd = _
      rw [g5]; rfl
  have hO0 : CodesOk ColorMap.ColorCount [] [] p :=
    ⟨rfl, ⟨by simp; omega, by omega⟩, fun j hj => by simp at hj⟩
  have hS0 : StreamInv (screenDescBytes W H S ColorMap)
      ({ G0' with Private := { G0'.Private with
          PixelCount := G0'.Private.PixelCount - (p :: rest).length } }).Private := by
    refine ⟨[], ?_, by simp, ?_, ?_, ?_, ?_⟩
    · show G0'.Private.File ++ G0'.Private.Buf = _
      rw [k3, k4]
    · show G0'.Private.CrntShiftState < 8
      rw [k5]; decide
    · show G0'.Private.CrntShiftDWord < 2 ^ G0'.Private.CrntShiftState
      rw [k5, k6]; decide
    · show 8 * ([] : List Nat).length + G0'.Private.CrntShiftState = totalBits G0'.Private.Log
      rw [k5, g5]; rfl
    · show leValue [] + 2 ^ (8 * ([] : List Nat).length) * G0'.Private.CrntShiftDWord
        = bitsValue G0'.Private.Log
      rw [k6, g5]; rfl
  have hstr0 : codesString ColorMap.ColorCount [] [] ++ codeString ColorMap.ColorCount [] p
      = [p] := by
    rw [(codeString_pixel _ _ p (by omega)).1]; rfl
  simp only [List.length_cons] at hlen
  obtain ⟨G1, c1, D1, cs1, e1, hI1, hL1, hO1, hS1, hd1, -⟩ :=
    compressLoop_lzw ColorMap.ColorCount _ (screenDescBytes W H S ColorMap) hC rest [] []
      _ p [p] (encInv_count _ _ G0' p _ hI) hL0 hO0 hS0
      (fun q hq => hpix q (List.mem_cons_of_mem _ hq)) hstr0 (by simp)
      (by
        simp only [List.length_singleton]
        unfold LZ_MAX_CODE
        split_ifs <;> omega)
  obtain ⟨n1, -, -⟩ := compressLoop_count rest _ G1 p c1 e1
    (by show G0'.MaxCodeUsed ≤ G0'.Private.MaxCodePoint
        rw [g9]; exact Nat.zero_le _)
  have hz : G1.Private.PixelCount = 0 := by
    rw [n1]
    show G0'.Private.PixelCount - (p :: rest).length = 0
    rw [g7, List.length_cons]; omega
  obtain ⟨bs, f1, f2, f3, f4, f5, f6, f7⟩ := compressFinish_lzw ColorMap.ColorCount _
    (screenDescBytes W H S ColorMap) D1 cs1 G1 c1 hC hI1 hL1 hS1 hz
  have hok := (compressFinish_frame G1 c1).1
  refine ⟨(compressFinish G1 c1).2, D1, cs1, c1, bs, ?_, f1, f2, f3, f4, f5, f6, f7, hO1, ?_⟩
  · unfold convert
    rw [e0]
    simp only [hne, if_false]
    rw [putLine_fits G0' _ (by rw [g7, List.length_cons]; omega),
      compressLine_first
        { G0' with Private := { G0'.Private with
            PixelCount := G0'.Private.PixelCount - (p :: rest).length } } p rest g6, e1]
    show some (compressFinish G1 c1) = _
    rw [← hok]
  · rw [codesString_snoc, hd1]
    rfl

/-! ## The reader of the decoder over a stream of known value -/

theorem readBits_frame (w : Nat) : ∀ (k : Nat) (Q : TDGifPrivateType),
    dictFields (readBits w k Q).2 = dictFields Q := by
  intro k
  induction k with
  | zero => intro Q; rfl
  | succ k ih =>
    intro Q
    unfold readBits
    split_ifs with h1
    · unfold TDGifInput
      split_ifs with h2
      · simp only [if_true]; rfl
      · have hne : TGIF_OK ≠ TGIF_ERROR := by decide
        simp only [hne, if_false]
        rw [ih]; rfl
    · rfl

theorem unpackCode_frame (Q : TDGifPrivateType) (w : Nat) :
    dictFields (unpackCode Q w).2.1 = dictFields Q := by
  have h := readBits_frame w (w - Q.CrntShiftState) Q
  unfold unpackCode
  cases e : readBits w (w - Q.CrntShiftState) Q with
  | mk r Q1 =>
    rw [e] at h
    dsimp only
    split_ifs <;> exact h

theorem readBits_info (w : Nat) : ∀ (k : Nat) (Q : TDGifPrivateType),
    (readBits w k Q).1 ≠ TGIF_ERROR → (readBits w k Q).2.Info = Q.Info := by
  intro k
  induction k with
  | zero => intro Q _; rfl
  | succ k ih =>
    intro Q
    unfold readBits
    split_ifs with h1
    · unfold TDGifInput
      split_ifs with h2
      · simp only [if_true]
        intro h; exact absurd rfl h
      · have hne : TGIF_OK ≠ TGIF_ERROR := by decide
        simp only [hne, if_false]
        intro h
        rw [ih _ h]
    · intro _; rfl

/-- A read past the declared size: the loop of `TDGifDecompressInput` runs
out of bytes and `TDGifInput` reports `MAXSZ`. -/
theorem readBits_short (w : Nat) (hw : w ≤ 16) :
    ∀ (k : Nat) (Q : TDGifPrivateType) (rem : List Nat),
      Feeds Q rem → Q.ReadOffset + rem.length = Q.Info.MaxSz →
      Q.CrntShiftState + 8 * rem.length < w → rem.length < k →
      (readBits w k Q).1 = TGIF_ERROR ∧ (readBits w k Q).2.Info.Error = D_TGIF_ERR_MAXSZ := by
  intro k
  induction k with
  | zero => intro Q rem _ _ _ hk; omega
  | succ k ih =>
    intro Q rem hf hoff hlt hk
    have hs : Q.CrntShiftState < w := by omega
    cases rem with
    | nil =>
      simp only [List.length_nil, Nat.add_zero] at hoff
      have hge : Q.ReadOffset ≥ Q.Info.MaxSz := by omega
      simp [readBits, hs, TDGifInput, hge]
    | cons b rem =>
      obtain ⟨hin, hf', hb⟩ := input_feeds Q b rem hf
      have hne : TGIF_OK ≠ TGIF_ERROR := by decide
      simp only [List.length_cons] at hoff hlt hk
      simp only [readBits, hs, if_true, hin, hne, if_false]
      apply ih _ rem
      · exact hf'
      · show Q.ReadOffset + 1 + rem.length = Q.Info.MaxSz
        omega
      · show (Q.CrntShiftState + 8) % 256 + 8 * rem.length < w
        omega
      · omega

theorem unpackCode_short (V T a : Nat) (Q : TDGifPrivateType) (w : Nat) (hw : w ≤ 16)
    (hR : ReadInv V T a Q) (hlt : T < a + w) :
    (unpackCode Q w).1 = TGIF_ERROR ∧ (unpackCode Q w).2.1.Info.Error = D_TGIF_ERR_MAXSZ := by
  obtain ⟨rem, r1, r2, r3, r4, r5, r6⟩ := hR
  obtain ⟨e1, e2⟩ := readBits_short w hw (w - Q.CrntShiftState) Q rem r1 r2 (by omega) (by omega)
  unfold unpackCode
  cases e : readBits w (w - Q.CrntShiftState) Q with
  | mk r Q1 =>
    rw [e] at e1 e2
    simp only at e1 e2
    dsimp only
    rw [if_pos e1]
    exact ⟨rfl, e2⟩

/-- Reading one code of `w` bits from a stream of known value. -/
theorem unpackCode_value (V T a : Nat) (Q : TDGifPrivateType) (w : Nat) (hw : w ≤ 10)
    (hR : ReadInv V T a Q) (hav : a + w ≤ T) :
    ∃ Q', unpackCode Q w = (TGIF_OK, Q', (V / 2 ^ a) % 2 ^ w) ∧ ReadInv V T (a + w) Q' ∧
      Q'.Info = Q.Info := by
  obtain ⟨rem, r1, r2, r3, r4, r5, r6⟩ := hR
  obtain ⟨Q', rem', e1, e2, e3, e4, e5, e6⟩ := unpackCode_spec Q rem w hw (by omega) r3 r4 r1
  have hne : TGIF_OK ≠ TGIF_ERROR := by decide
  obtain ⟨b1, b2, -⟩ := unpackCode_bits Q Q' w TGIF_OK _ (by omega) e1 hne
  rw [r6] at e1 e6
  have hfeed := e2.2
  refine ⟨Q', e1, ⟨rem', e2, ?_, e3, e4, by omega, ?_⟩, ?_⟩
  · unfold bitsLeft at b1
    omega
  · rw [e6, Nat.pow_add, Nat.div_div_eq_div_mul]
  · have hi := readBits_info w (w - Q.CrntShiftState) Q
    unfold unpackCode at e1
    cases e : readBits w (w - Q.CrntShiftState) Q with
    | mk r Q1 =>
      rw [e] at e1 hi
      dsimp only at e1 hi
      split_ifs at e1 with hr
      · simp only [Prod.mk.injEq] at e1
        exact absurd e1.1.symm hne
      all_goals
        simp only [Prod.mk.injEq] at e1
        rw [← e1.2.1]
        exact hi hr

theorem pow_lt_bits (w m b : Nat) (h1 : 2 ^ w ≤ m) (h2 : m < 2 ^ b) : w < b := by
  by_contra hcon
  have := Nat.pow_le_pow_right (by decide : 0 < 2) (Nat.le_of_not_lt hcon)
  omega

/-- The function `TDGifDecompressInput` on the `k`-th code of a stream that
follows the width schedule, while the dictionary has room. -/
theorem decompressInput_code (CC Dsz k V T a : Nat) (P : TDGifPrivateType)
    (hC : 1 ≤ CC ∧ CC ≤ 256) (hD : CC + Dsz ≤ 1023) (hk : k + 1 ≤ Dsz)
    (h1 : P.RunningBits = widthAt CC k) (h2 : P.RunningCode = CC + 1 + k)
    (h3 : P.MaxCode1 = 2 ^ widthAt CC k) (h4 : P.MaxCodePoint = CC + Dsz)
    (h5 : P.MaxCodeBits = Dec.BitSize (CC + Dsz))
    (hR : ReadInv V T a P) (hav : a + widthAt CC k ≤ T) :
    ∃ P', TDGifDecompressInput P = (TGIF_OK, P', (V / 2 ^ a) % 2 ^ widthAt CC k) ∧
      ReadInv V T (a + widthAt CC k) P' ∧ P'.Info = P.Info ∧ P'.Prefix = P.Prefix ∧
      P'.ClearCode = P.ClearCode ∧ P'.DictBase = P.DictBase ∧ P'.DictSize = P.DictSize ∧
      P'.MaxCodePoint = P.MaxCodePoint ∧ P'.MaxCodeBits = P.MaxCodeBits ∧
      P'.InitCodeBits = P.InitCodeBits ∧
      P'.RunningCode = CC + 2 + k ∧ P'.RunningBits = widthAt CC (k + 1) ∧
      P'.MaxCode1 = 2 ^ widthAt CC (k + 1) := by
  have hw10 := widthAt_le CC hC k (by omega)
  obtain ⟨Q', e1, e2, e3⟩ := unpackCode_value V T a P (widthAt CC k) hw10 hR hav
  have hfr := unpackCode_frame P (widthAt CC k)
  rw [e1] at hfr
  simp only [dictFields, Prod.mk.injEq] at hfr
  obtain ⟨f1, f2, f3, f4, f5, f6, f7, f8, f9, f10⟩ := hfr
  have hne : TGIF_OK ≠ TGIF_ERROR := by decide
  have hcov := widthAt_cover CC hC k
  have hroom : Q'.RunningCode < Q'.MaxCodePoint + 2 := by rw [f3, f5, h2, h4]; omega
  unfold TDGifDecompressInput
  rw [h1, e1]
  simp only [hne, if_false, hroom, if_true]
  by_cases hesc : CC + 1 + k ≥ 2 ^ widthAt CC k
  · have hb : widthAt CC k < Dec.BitSize (CC + Dsz) :=
      pow_lt_bits _ (CC + Dsz) _ (by omega) (dec_bitSize_cover _ (by omega))
    have hw9 : widthAt CC k < 10 := pow_lt_bits _ 1023 10 (by omega) (by decide)
    have hcond : Q'.RunningCode + 1 > Q'.MaxCode1 ∧ Q'.RunningBits < Q'.MaxCodeBits := by
      rw [f3, f4, f8, f10, h1, h2, h3, h5]; exact ⟨by omega, hb⟩
    rw [if_pos hcond]
    refine ⟨_, rfl, e2, e3, f1, f2, f6, f7, f5, f10, f9, ?_, ?_, ?_⟩
    · show Q'.RunningCode + 1 = CC + 2 + k
      rw [f3, h2]; omega
    · show Q'.RunningBits + 1 = widthAt CC (k + 1)
      rw [f8, h1, widthAt_succ, if_pos hesc]
    · show (Q'.MaxCode1 <<< 1) % 65536 = 2 ^ widthAt CC (k + 1)
      rw [f4, h3, widthAt_succ, if_pos hesc, Nat.shiftLeft_eq, ← Nat.pow_succ]
      apply Nat.mod_eq_of_lt
      have : 2 ^ (widthAt CC k + 1) ≤ 2 ^ 10 :=
        Nat.pow_le_pow_right (by decide) (by omega)
      omega
  · have hcond : ¬ (Q'.RunningCode + 1 > Q'.MaxCode1 ∧ Q'.RunningBits < Q'.MaxCodeBits) := by
      rw [f3, f4, h2, h3]; omega
    rw [if_neg hcond]
    refine ⟨_, rfl, e2, e3, f1, f2, f6, f7, f5, f10, f9, ?_, ?_, ?_⟩
    · show Q'.RunningCode + 1 = CC + 2 + k
      rw [f3, h2]; omega
    · show Q'.RunningBits = widthAt CC (k + 1)
      rw [f8, h1, widthAt_succ, if_neg hesc]
    · show Q'.MaxCode1 = 2 ^ widthAt CC (k + 1)
      rw [f4, h3, widthAt_succ, if_neg hesc]

/-- The function `TDGifDecompressInput` when the stream ends inside the next
code. -/
theorem decompressInput_short (V T a : Nat) (P : TDGifPrivateType) (hw : P.RunningBits ≤ 16)
    (hR : ReadInv V T a P) (hlt : T < a + P.RunningBits) :
    ∃ P' c, TDGifDecompressInput P = (TGIF_ERROR, P', c) ∧
      P'.Info.Error = D_TGIF_ERR_MAXSZ := by
  obtain ⟨e1, e2⟩ := unpackCode_short V T a P P.RunningBits hw hR hlt
  unfold TDGifDecompressInput
  cases e : unpackCode P P.RunningBits with
  | mk r x =>
    obtain ⟨P1, c⟩ := x
    rw [e] at e1 e2
    simp only at e1 e2
    dsimp only
    rw [if_pos e1]
    exact ⟨P1, c, rfl, e2⟩

/-! ## The decoder's arrays against the dictionary list -/

theorem streamOk_of_codesOk (CC : Nat) (D : List (Nat × Nat)) (cs : List Nat) (c : Nat)
    (h : CodesOk CC D cs c) : StreamOk CC D (cs ++ [c]) := by
  have hlen := h.len
  refine ⟨by simp [hlen], ?_, ?_⟩
  · intro k hk
    simp only [List.length_append, List.length_singleton] at hk
    by_cases hkD : k < D.length
    · obtain ⟨a1, a2, a3, -⟩ := h.ent k hkD
      rw [List.getD_append _ _ _ _ (by omega), ← a1]
      exact ⟨by omega, a3⟩
    · rw [List.getD_append_right _ _ _ _ (by omega), show k - cs.length = 0 by omega]
      have := h.cur
      exact ⟨by show c ≤ CC + k; omega, this.2⟩
  · intro j hj
    obtain ⟨a1, -, -, a4, a5⟩ := h.ent j hj
    refine ⟨?_, a4⟩
    apply Prod.ext
    · show (D.getD j (0, 0)).1 = (cs ++ [c]).getD j 0
      rw [List.getD_append _ _ _ _ (by omega)]; exact a1
    · exact a5

theorem streamOk_dict (CC : Nat) (D : List (Nat × Nat)) (cs : List Nat)
    (h : StreamOk CC D cs) : DictOk CC D := by
  intro j hj
  obtain ⟨e, -⟩ := h.ent j hj
  have := (h.code j (by rw [h.len]; omega)).1
  rw [e]
  show cs.getD j 0 < CC + 1 + j
  omega

theorem dictPrefix_entry (CC : Nat) (D : List (Nat × Nat)) (cs : List Nat)
    (h : StreamOk CC D cs) (c : Nat) (hc : c > CC) (hlt : c ≤ CC + D.length) :
    dictPrefix CC D c = cs.getD (c - (CC + 1)) 0 ∧ dictPrefix CC D c ≠ CC ∧
    dictPrefix CC D c < c ∧ dictSuffix CC D c < CC := by
  have hj : c - (CC + 1) < D.length := by omega
  obtain ⟨e, e2⟩ := h.ent _ hj
  obtain ⟨c1, c2⟩ := h.code (c - (CC + 1)) (by rw [h.len]; omega)
  unfold dictPrefix dictSuffix
  rw [e] at e2 ⊢
  exact ⟨rfl, c2, by show cs.getD _ 0 < c; omega, e2⟩

theorem codeRoot_lt (CC : Nat) (D : List (Nat × Nat)) (cs : List Nat)
    (h : StreamOk CC D cs) :
    ∀ (f c : Nat), c < f → c ≠ CC → c ≤ CC + D.length → codeRoot CC D f c < CC := by
  intro f
  induction f with
  | zero => intro c hc; omega
  | succ f ih =>
    intro c hf hne hlt
    rw [codeRoot_succ]
    split_ifs with hc
    · obtain ⟨-, p2, p3, -⟩ := dictPrefix_entry CC D cs h c hc hlt
      exact ih _ (by omega) p2 (by omega)
    · omega

theorem codeChain_lt (CC : Nat) (D : List (Nat × Nat)) (cs : List Nat)
    (h : StreamOk CC D cs) :
    ∀ (f c : Nat), c ≤ CC + D.length → ∀ x ∈ codeChain CC D f c, x < CC := by
  intro f
  induction f with
  | zero => intro c _ x hx; simp [codeChain] at hx
  | succ f ih =>
    intro c hlt x hx
    rw [codeChain_succ] at hx
    split_ifs at hx with hc
    · obtain ⟨-, p2, p3, p4⟩ := dictPrefix_entry CC D cs h c hc hlt
      rcases List.mem_cons.1 hx with e | e
      · rw [e]; exact p4
      · exact ih _ (by omega) x e
    · simp at hx

theorem cell_some (n a b : Nat) (h1 : b ≤ a) (h2 : a - b < n) : cell n a b = some (a - b) := by
  unfold cell
  rw [if_pos ⟨h1, h2⟩]

/-- The loop of `TDGifGetPrefixChar` on a code whose prefixes are all in the
part of `Prefix` that agrees with the dictionary list. -/
theorem prefixCharLoop_root (CC Dsz m : Nat) (D : List (Nat × Nat)) (P : TDGifPrivateType)
    (hb : P.DictBase = CC + 1) (hs : P.DictSize = Dsz) (hmp : P.MaxCodePoint = CC + Dsz)
    (hm : m ≤ Dsz) (hD : DictOk CC D)
    (hpre : ∀ j < m, P.Prefix j = (D.getD j (0, 0)).1) :
    ∀ (f c : Nat), c ≤ CC + m → prefixCharLoop P CC f c = some (codeRoot CC D f c) := by
  intro f
  induction f with
  | zero => intro c _; rfl
  | succ f ih =>
    intro c hc
    rw [codeRoot_succ]
    unfold prefixCharLoop
    split_ifs with h1 h2
    · omega
    · rw [hs, hb, cell_some Dsz c (CC + 1) (by omega) (by omega)]
      dsimp only
      rw [hpre _ (by omega)]
      have := dictPrefix_lt CC D c hD h1
      exact ih _ (by unfold dictPrefix at this; omega)
    · rfl

/-- The trace loop of `TDGifDecompress` on a code whose prefixes are all in
the part of the arrays that agrees with the dictionary list: the suffixes of
the chain go on the stack and the loop ends on the first pixel. -/
theorem traceLoop_chain (CC Dsz m : Nat) (D : List (Nat × Nat)) (P : TDGifPrivateType)
    (Suffix : Nat → Nat)
    (hb : P.DictBase = CC + 1) (hs : P.DictSize = Dsz) (hmp : P.MaxCodePoint = CC + Dsz)
    (hm : m ≤ Dsz) (hD : DictOk CC D)
    (hpre : ∀ j < m, P.Prefix j = (D.getD j (0, 0)).1)
    (hsuf : ∀ j < m, Suffix j = (D.getD j (0, 0)).2) :
    ∀ (f k : Nat) (Stack : Nat → Nat) (sp c : Nat), c ≤ CC + m → c < f →
      (codeChain CC D f c).length ≤ k → sp + (codeChain CC D f c).length ≤ Dsz →
      ∃ Stack', traceLoop P Suffix CC k Stack sp c
          = some (Stack', sp + (codeChain CC D f c).length, codeRoot CC D f c) ∧
        (∀ t < (codeChain CC D f c).length, Stack' (sp + t) = (codeChain CC D f c).getD t 0) ∧
        ∀ x < sp, Stack' x = Stack x := by
  intro f
  induction f with
  | zero => intro k Stack sp c _ hf; omega
  | succ f ih =>
    intro k Stack sp c hc hf hk hsp
    rw [codeChain_succ] at hk hsp ⊢
    rw [codeRoot_succ]
    by_cases h1 : c > CC
    · rw [if_pos h1] at hk hsp ⊢
      rw [if_pos h1]
      simp only [List.length_cons] at hk hsp ⊢
      obtain ⟨k', rfl⟩ : ∃ k', k = k' + 1 := ⟨k - 1, by omega⟩
      have hcond : c > CC ∧ c ≤ P.MaxCodePoint := ⟨h1, by rw [hmp]; omega⟩
      have hlt := dictPrefix_lt CC D c hD h1
      have hj : c - (CC + 1) < m := by omega
      obtain ⟨S', e1, e2, e3⟩ := ih k'
        (fun x => if x = sp then Suffix (c - (CC + 1)) else Stack x) (sp + 1)
        (dictPrefix CC D c) (by omega) (by omega) (by omega) (by omega)
      refine ⟨S', ?_, ?_, ?_⟩
      · unfold traceLoop
        rw [if_pos hcond, hs, hb, cell_some Dsz sp 0 (by omega) (by omega),
          cell_some Dsz c (CC + 1) (by omega) (by omega)]
        dsimp only
        rw [hpre _ hj, Nat.sub_zero]
        rw [show sp + ((codeChain CC D f (dictPrefix CC D c)).length + 1)
          = sp + 1 + (codeChain CC D f (dictPrefix CC D c)).length by omega]
        exact e1
      · intro t ht
        cases t with
        | zero =>
          rw [Nat.add_zero, e3 sp (by omega)]
          simp only [if_true, List.getD_cons_zero]
          rw [hsuf _ hj]; rfl
        | succ t =>
          rw [List.getD_cons_succ, ← e2 t (by omega)]
          congr 1; omega
      · intro x hx
        rw [e3 x (by omega)]
        have : x ≠ sp := by omega
        simp only [this, if_false]
    · rw [if_neg h1] at hk hsp ⊢
      rw [if_neg h1]
      refine ⟨Stack, ?_, by intro t ht; simp at ht, fun _ _ => rfl⟩
      have hcond : ¬ (c > CC ∧ c ≤ P.MaxCodePoint) := by omega
      cases k with
      | zero => rfl
      | succ k =>
        unfold traceLoop
        rw [if_neg hcond]
        rfl

/-- The loop that pops the stack, when the stack holds the list `l` and the
image has room for all of it. -/
theorem popLoop_list (PC Dsz : Nat) (Stack : Nat → Nat) :
    ∀ (l : List Nat) (i : Nat) (Out : List Nat),
      (∀ t < l.length, Stack t = l.getD t 0) → (∀ x ∈ l, x < 256) →
      i + l.length ≤ PC → l.length ≤ Dsz →
      popLoop PC Dsz Stack l.length i Out = some (0, i + l.length, Out ++ l.reverse) := by
  intro l
  induction l using List.reverseRecOn with
  | nil => intro i Out _ _ _ _; simp [popLoop]
  | append_singleton l x ih =>
    intro i Out hst hb hi hd
    simp only [List.length_append, List.length_singleton] at hi hd ⊢
    have hx : Stack l.length = x := by
      rw [hst l.length (by simp)]
      rw [List.getD_append_right _ _ _ _ (Nat.le_refl _), Nat.sub_self]
      rfl
    have hxb : x < 256 := hb x (by simp)
    unfold popLoop
    rw [if_pos (by omega), cell_some Dsz l.length 0 (by omega) (by omega)]
    dsimp only
    rw [Nat.sub_zero, hx, Nat.mod_eq_of_lt hxb, ih (i + 1) (Out ++ [x])
      (fun t ht => by
        rw [hst t (by simp; omega), List.getD_append _ _ _ _ ht])
      (fun y hy => hb y (by simp [hy])) (by omega) (by omega)]
    simp only [List.reverse_append, List.reverse_singleton, List.singleton_append,
      List.append_assoc, Option.some.injEq, Prod.mk.injEq, true_and]
    exact ⟨by omega, trivial⟩

theorem getPrefixChar_first (CC Dsz m : Nat) (D : List (Nat × Nat)) (P : TDGifPrivateType)
    (hb : P.DictBase = CC + 1) (hs : P.DictSize = Dsz) (hmp : P.MaxCodePoint = CC + Dsz)
    (hm : m ≤ Dsz) (hD : DictOk CC D)
    (hpre : ∀ j < m, P.Prefix j = (D.getD j (0, 0)).1) (c : Nat) (hc : c ≤ CC + m)
    (hc2 : c ≤ 1023) :
    TDGifGetPrefixChar P c CC = some (codeFirst CC D c) := by
  unfold TDGifGetPrefixChar codeFirst
  rw [prefixCharLoop_root CC Dsz m D P hb hs hmp hm hD hpre _ c hc,
    codeRoot_fuel CC D hD (LZ_MAX_CODE + 1) (c + 1) c (by unfold LZ_MAX_CODE; omega) (by omega)]

/-- The dictionary update at the end of the pass for the `k`-th code: entry
`k - 1` goes into `Prefix` and `Suffix`. -/
theorem decodeUpdate_step (CC Dsz : Nat) (D : List (Nat × Nat)) (cs : List Nat)
    (h : StreamOk CC D cs) (k : Nat) (hk : k < cs.length) (hN : cs.length ≤ Dsz)
    (hC : 1 ≤ CC ∧ CC ≤ 256) (hDs : CC + Dsz ≤ 1023) (s : DState)
    (hb : s.Private.DictBase = CC + 1) (hs : s.Private.DictSize = Dsz)
    (hmp : s.Private.MaxCodePoint = CC + Dsz) (hrc : s.Private.RunningCode = CC + 2 + k)
    (hpre : ∀ j, s.Private.Prefix j
      = if j + 1 < k then (D.getD j (0, 0)).1 else NO_SUCH_CODE)
    (hsuf : ∀ j, j + 1 < k → s.Suffix j = (D.getD j (0, 0)).2)
    (hlast : s.LastCode = if k = 0 then NO_SUCH_CODE else cs.getD (k - 1) 0) :
    ∃ Pre' Suf', decodeUpdate s (cs.getD k 0) CC
        = .next { s with Private := { s.Private with Prefix := Pre' }
                         Suffix := Suf', LastCode := cs.getD k 0 } ∧
      (∀ j, Pre' j = if j + 1 < k + 1 then (D.getD j (0, 0)).1 else NO_SUCH_CODE) ∧
      (∀ j, j + 1 < k + 1 → Suf' j = (D.getD j (0, 0)).2) := by
  have hD := streamOk_dict CC D cs h
  have hlen := h.len
  by_cases hk0 : k = 0
  · subst hk0
    refine ⟨s.Private.Prefix, s.Suffix, ?_, ?_, ?_⟩
    · unfold decodeUpdate
      simp only [hlast, if_true, ne_eq, not_true_eq_false, if_false]
    · intro j; rw [hpre j]; simp
    · intro j hj; omega
  · obtain ⟨c1, c2⟩ := h.code k hk
    obtain ⟨l1, l2⟩ := h.code (k - 1) (by omega)
    obtain ⟨e1, e2⟩ := h.ent (k - 1) (by omega)
    rw [show k - 1 + 1 = k by omega] at e1
    rw [if_neg hk0] at hlast
    have hlastne : s.LastCode ≠ NO_SUCH_CODE := by
      rw [hlast]; unfold NO_SUCH_CODE LZ_MAX_CODE; omega
    have hcell : cell s.Private.DictSize (s.Private.RunningCode - 2) s.Private.DictBase
        = some (k - 1) := by
      rw [hs, hrc, hb, cell_some Dsz _ _ (by omega) (by omega)]
      congr 1; omega
    have hnone : s.Private.Prefix (k - 1) = NO_SUCH_CODE := by
      rw [hpre]; simp only [show ¬ (k - 1 + 1 < k) by omega, if_false]
    -- the prefix array with the new entry agrees with the list below `k`
    have hagree : ∀ j < k, (fun x => if x = k - 1 then s.LastCode else s.Private.Prefix x) j
        = (D.getD j (0, 0)).1 := by
      intro j hj
      by_cases hjk : j = k - 1
      · subst hjk
        simp only [if_true]
        rw [hlast, e1]
      · simp only [hjk, if_false]
        rw [hpre j, if_pos (by omega)]
    have hx : (if cs.getD k 0 = s.Private.RunningCode - 2 then s.LastCode else cs.getD k 0)
        ≤ CC + k := by
      split_ifs
      · rw [hlast]; omega
      · exact c1
    have hfirst : codeFirst CC D
        (if cs.getD k 0 = s.Private.RunningCode - 2 then s.LastCode else cs.getD k 0)
        = (D.getD (k - 1) (0, 0)).2 := by
      rw [e1]
      show _ = codeFirst CC D (cs.getD k 0)
      split_ifs with hkw
      · rw [hrc] at hkw
        have hgt : cs.getD k 0 > CC := by omega
        obtain ⟨-, f2⟩ := codeString_entry CC D (cs.getD k 0) hD hgt
        rw [f2]
        congr 1
        rw [hlast, (dictPrefix_entry CC D cs h _ hgt (by omega)).1, hkw]
        congr 1; omega
      · rfl
    have hget := getPrefixChar_first CC Dsz k D
      { s.Private with Prefix := fun x => if x = k - 1 then s.LastCode else s.Private.Prefix x }
      hb hs hmp (by omega) hD hagree _ hx (by omega)
    rw [hfirst] at hget
    refine ⟨fun x => if x = k - 1 then s.LastCode else s.Private.Prefix x,
      fun x => if x = k - 1 then (D.getD (k - 1) (0, 0)).2 % 256 else s.Suffix x, ?_, ?_, ?_⟩
    · unfold decodeUpdate
      dsimp only
      rw [if_pos hlastne, hcell]
      dsimp only
      rw [if_neg (by omega), if_pos hnone, hget]
    · intro j
      by_cases hjk : j = k - 1
      · subst hjk
        simp only [if_true]
        rw [if_pos (by omega), hlast, e1]
      · simp only [hjk, if_false]
        rw [hpre j]
        by_cases hj : j + 1 < k
        · rw [if_pos hj, if_pos (by omega)]
        · rw [if_neg hj, if_neg (by omega)]
    · intro j hj
      by_cases hjk : j = k - 1
      · subst hjk
        simp only [if_true]
        exact Nat.mod_eq_of_lt (by omega)
      · simp only [hjk, if_false]
        exact hsuf j (by omega)

/-! ## One pass of the loop of `TDGifDecompress` on a stream of the encoder -/

/-- The part of the `else` branch after the choice of `CrntPrefix`: the trace
loop puts the suffixes of the chain of `x` on the stack, above what is there
(`pushed`), the first pixel of `x` goes out, then the stack is popped. -/
theorem decodeTrace_rest (CC Dsz m n : Nat) (D : List (Nat × Nat)) (cs : List Nat)
    (h : StreamOk CC D cs) (hC : 1 ≤ CC ∧ CC ≤ 256) (s s1 : DState) (c x : Nat)
    (pushed : List Nat)
    (hTF : traceFirst s c CC = some (s1, x))
    (hb : s1.Private.DictBase = CC + 1) (hs : s1.Private.DictSize = Dsz)
    (hmp : s1.Private.MaxCodePoint = CC + Dsz) (hm : m ≤ Dsz)
    (hpre : ∀ j < m, s1.Private.Prefix j = (D.getD j (0, 0)).1)
    (hsuf : ∀ j < m, s1.Suffix j = (D.getD j (0, 0)).2)
    (hx : x ≤ CC + m) (hxne : x ≠ CC) (hxD : x ≤ CC + D.length)
    (hsp : s1.StackPtr = pushed.length)
    (hst : ∀ t < pushed.length, s1.Stack t = pushed.getD t 0)
    (hpb : ∀ y ∈ pushed, y < 256)
    (hlen : pushed.length + (codeChain CC D (x + 1) x).length < Dsz)
    (hroom : s1.i + 1 + (pushed.length + (codeChain CC D (x + 1) x).length) ≤ n) :
    ∃ Stack', decodeTrace n s c CC
      = decodeUpdate
          { s1 with Stack := Stack', StackPtr := 0
                    i := s1.i + 1 + (pushed.length + (codeChain CC D (x + 1) x).length)
                    Out := s1.Out ++ (codeFirst CC D x
                      :: (pushed ++ codeChain CC D (x + 1) x).reverse) } c CC := by
  have hD := streamOk_dict CC D cs h
  obtain ⟨Stack', e1, e2, e3⟩ := traceLoop_chain CC Dsz m D s1.Private s1.Suffix hb hs hmp hm
    hD hpre hsuf (x + 1) (Dsz - pushed.length) s1.Stack pushed.length x hx (by omega)
    (by omega) (by omega)
  have hroot : codeRoot CC D (x + 1) x < CC := codeRoot_lt CC D cs h _ x (by omega) hxne hxD
  have hchain := codeChain_lt CC D cs h (x + 1) x hxD
  have hchk : ¬ (pushed.length + (codeChain CC D (x + 1) x).length ≥ s1.Private.DictSize ∨
      codeRoot CC D (x + 1) x > s1.Private.MaxCodePoint) := by
    rw [hs, hmp]; omega
  have hstack : ∀ t < (pushed ++ codeChain CC D (x + 1) x).length,
      Stack' t = (pushed ++ codeChain CC D (x + 1) x).getD t 0 := by
    intro t ht
    rw [List.length_append] at ht
    by_cases htp : t < pushed.length
    · rw [List.getD_append _ _ _ _ htp, e3 t htp, hst t htp]
    · rw [List.getD_append_right _ _ _ _ (by omega), ← e2 (t - pushed.length) (by omega)]
      congr 1; omega
  have hpop := popLoop_list n Dsz Stack' (pushed ++ codeChain CC D (x + 1) x) (s1.i + 1)
    (s1.Out ++ [codeRoot CC D (x + 1) x % 256]) hstack
    (by
      intro y hy
      rcases List.mem_append.1 hy with hy | hy
      · exact hpb y hy
      · have := hchain y hy; omega)
    (by rw [List.length_append]; omega) (by rw [List.length_append]; omega)
  rw [List.length_append] at hpop
  refine ⟨Stack', ?_⟩
  unfold decodeTrace
  rw [hTF]
  dsimp only
  rw [hs, hsp, e1]
  dsimp only
  rw [← hs, if_neg hchk, hs, hpop]
  dsimp only
  rw [Nat.mod_eq_of_lt (by omega : codeRoot CC D (x + 1) x < 256), List.append_assoc]
  rfl

/-- The `else` branch of the pass for the `k`-th code, a dictionary code: the
string of the code goes out and the pass goes on to the dictionary update.
This covers the code of the entry still to be made (`CC + k`), whose string
is the string of the code before and its first pixel again. -/
theorem decodeTrace_out (CC Dsz n : Nat) (D : List (Nat × Nat)) (cs : List Nat)
    (h : StreamOk CC D cs) (k : Nat) (hk : k < cs.length) (hN : cs.length ≤ Dsz)
    (hC : 1 ≤ CC ∧ CC ≤ 256) (hDs : CC + Dsz ≤ 1023) (s : DState)
    (hb : s.Private.DictBase = CC + 1) (hs : s.Private.DictSize = Dsz)
    (hmp : s.Private.MaxCodePoint = CC + Dsz) (hrc : s.Private.RunningCode = CC + 2 + k)
    (hpre : ∀ j, s.Private.Prefix j
      = if j + 1 < k then (D.getD j (0, 0)).1 else NO_SUCH_CODE)
    (hsuf : ∀ j, j + 1 < k → s.Suffix j = (D.getD j (0, 0)).2)
    (hlast : s.LastCode = if k = 0 then NO_SUCH_CODE else cs.getD (k - 1) 0)
    (hsp : s.StackPtr = 0) (hgt : cs.getD k 0 > CC)
    (hroom : s.i + (codeString CC D (cs.getD k 0)).length ≤ n) :
    ∃ Stack' Suf1, decodeTrace n s (cs.getD k 0) CC
        = decodeUpdate
            { s with Stack := Stack', StackPtr := 0, Suffix := Suf1
                     i := s.i + (codeString CC D (cs.getD k 0)).length
                     Out := s.Out ++ codeString CC D (cs.getD k 0) } (cs.getD k 0) CC ∧
      (∀ j, j + 1 < k → Suf1 j = (D.getD j (0, 0)).2) := by
  have hD := streamOk_dict CC D cs h
  have hlen := h.len
  obtain ⟨c1, c2⟩ := h.code k hk
  have hk0 : k ≠ 0 := by omega
  obtain ⟨l1, l2⟩ := h.code (k - 1) (by omega)
  rw [if_neg hk0] at hlast
  have hcell : cell s.Private.DictSize (cs.getD k 0) s.Private.DictBase
      = some (cs.getD k 0 - (CC + 1)) := by
    rw [hs, hb, cell_some Dsz _ _ (by omega) (by omega)]
  have hpre' : ∀ j < k - 1, s.Private.Prefix j = (D.getD j (0, 0)).1 := by
    intro j hj; rw [hpre j, if_pos (by omega)]
  have hchain := codeChain_length CC D hD
  by_cases hold : cs.getD k 0 < CC + k
  · -- a code that is in the table
    obtain ⟨p1, -, -, -⟩ := dictPrefix_entry CC D cs h _ hgt (by omega)
    obtain ⟨q1, -⟩ := h.code (cs.getD k 0 - (CC + 1)) (by omega)
    have hne : s.Private.Prefix (cs.getD k 0 - (CC + 1)) ≠ NO_SUCH_CODE := by
      rw [hpre' _ (by omega)]
      unfold dictPrefix at p1
      rw [p1]
      unfold NO_SUCH_CODE LZ_MAX_CODE; omega
    have hTF : traceFirst s (cs.getD k 0) CC = some (s, cs.getD k 0) := by
      unfold traceFirst
      dsimp only
      rw [hcell]
      dsimp only
      rw [if_neg hne]
    have hcl := hchain (cs.getD k 0 + 1) (cs.getD k 0)
    have hsl : (codeString CC D (cs.getD k 0)).length
        = 1 + (codeChain CC D (cs.getD k 0 + 1) (cs.getD k 0)).length := by
      simp [codeString]; omega
    obtain ⟨Stack', e⟩ := decodeTrace_rest CC Dsz (k - 1) n D cs h hC s s (cs.getD k 0)
      (cs.getD k 0) [] hTF hb hs hmp (by omega) hpre' (fun j hj => hsuf j (by omega))
      (by omega) c2 (by omega) hsp (by intro t ht; simp at ht) (by simp)
      (by simp only [List.length_nil]; omega) (by simp only [List.length_nil]; omega)
    refine ⟨Stack', s.Suffix, ?_, hsuf⟩
    rw [e, hsl]
    simp only [List.length_nil, Nat.zero_add, List.nil_append, Nat.add_assoc]
    rfl
  · -- the code of the entry that is still to be made
    have hc : cs.getD k 0 = CC + k := by omega
    obtain ⟨e1, e2⟩ := h.ent (k - 1) (by omega)
    rw [show k - 1 + 1 = k by omega] at e1
    rw [← hlast] at l1 l2 e1
    have hnone : s.Private.Prefix (cs.getD k 0 - (CC + 1)) = NO_SUCH_CODE := by
      rw [hpre, if_neg (by omega)]
    have hget := getPrefixChar_first CC Dsz (k - 1) D s.Private hb hs hmp (by omega) hD hpre'
      (s.LastCode) (by omega) (by omega)
    have hroot : codeFirst CC D (s.LastCode) < CC :=
      codeRoot_lt CC D cs h _ _ (by omega) l2 (by omega)
    obtain ⟨f1, f2⟩ := codeString_entry CC D (cs.getD k 0) hD hgt
    obtain ⟨p1, -, -, -⟩ := dictPrefix_entry CC D cs h _ hgt (by omega)
    have hpl : dictPrefix CC D (cs.getD k 0) = s.LastCode := by
      rw [p1, hc, hlast]; congr 1; omega
    have hsf : dictSuffix CC D (cs.getD k 0) = codeFirst CC D (s.LastCode) := by
      have : dictSuffix CC D (cs.getD k 0) = (D.getD (k - 1) (0, 0)).2 := by
        unfold dictSuffix; rw [hc]; congr 2; omega
      rw [this, e1]
      show codeFirst CC D (cs.getD k 0) = _
      rw [f2, hpl]
    rw [hpl, hsf] at f1
    have hTF : traceFirst s (cs.getD k 0) CC
        = some ({ s with
            Stack := fun x =>
              if x = 0 then codeFirst CC D (s.LastCode) % 256 else s.Stack x
            StackPtr := s.StackPtr + 1
            Suffix := fun x =>
              if x = k - 1 then codeFirst CC D (s.LastCode) % 256 else s.Suffix x },
          s.LastCode) := by
      unfold traceFirst
      dsimp only
      rw [hcell]
      dsimp only
      rw [if_pos hnone, hrc, if_pos (by omega), hget, hs, hsp, hb,
        cell_some Dsz 0 0 (by omega) (by omega),
        cell_some Dsz (CC + 2 + k - 2) (CC + 1) (by omega) (by omega)]
      dsimp only
      rw [if_neg (by omega), show CC + 2 + k - 2 - (CC + 1) = k - 1 by omega]
    have hcl := hchain (s.LastCode + 1) (s.LastCode)
    have hsl : (codeString CC D (s.LastCode)).length
        = 1 + (codeChain CC D (s.LastCode + 1) (s.LastCode)).length := by
      simp [codeString]; omega
    have hroom' : s.i + ((codeString CC D (s.LastCode)).length + 1) ≤ n := by
      rw [f1, List.length_append, List.length_singleton] at hroom; exact hroom
    obtain ⟨Stack', e⟩ := decodeTrace_rest CC Dsz (k - 1) n D cs h hC s _ (cs.getD k 0)
      (s.LastCode) [codeFirst CC D (s.LastCode)] hTF hb hs hmp (by omega) hpre'
      (fun j hj => by
        have hj' : j ≠ k - 1 := by omega
        show (if j = k - 1 then _ else s.Suffix j) = _
        rw [if_neg hj']; exact hsuf j (by omega))
      (by omega) l2 (by omega)
      (by show s.StackPtr + 1 = _; rw [hsp]; rfl)
      (by
        intro t ht
        simp only [List.length_singleton] at ht
        have ht0 : t = 0 := by omega
        subst ht0
        show (if (0 : Nat) = 0 then codeFirst CC D (s.LastCode) % 256 else s.Stack 0)
          = _
        rw [if_pos rfl,
          Nat.mod_eq_of_lt (show codeFirst CC D (s.LastCode) < 256 by omega)]
        rfl)
      (by intro y hy; rw [List.mem_singleton.1 hy]; omega)
      (by simp only [List.length_singleton]; omega)
      (by show s.i + 1 + _ ≤ n; simp only [List.length_singleton]; omega)
    refine ⟨Stack', fun x =>
      if x = k - 1 then codeFirst CC D (s.LastCode) % 256 else s.Suffix x, ?_, ?_⟩
    · rw [e, f1]
      have eo : s.Out ++ (codeFirst CC D (s.LastCode)
          :: ([codeFirst CC D (s.LastCode)]
            ++ codeChain CC D (s.LastCode + 1) (s.LastCode)).reverse)
          = s.Out ++ (codeString CC D (s.LastCode)
            ++ [codeFirst CC D (s.LastCode)]) := by
        simp [codeString]
      have ei : s.i + 1 + (([codeFirst CC D (s.LastCode)] : List Nat).length
            + (codeChain CC D (s.LastCode + 1) (s.LastCode)).length)
          = s.i + (codeString CC D (s.LastCode)
            ++ [codeFirst CC D (s.LastCode)]).length := by
        rw [List.length_append, hsl]; simp only [List.length_singleton]; omega
      show decodeUpdate
        { s with
          Stack := Stack', StackPtr := 0
          Suffix := fun x =>
            if x = k - 1 then codeFirst CC D (s.LastCode) % 256 else s.Suffix x
          i := s.i + 1 + (([codeFirst CC D (s.LastCode)] : List Nat).length
            + (codeChain CC D (s.LastCode + 1) (s.LastCode)).length)
          Out := s.Out ++ (codeFirst CC D (s.LastCode)
            :: ([codeFirst CC D (s.LastCode)]
              ++ codeChain CC D (s.LastCode + 1) (s.LastCode)).reverse) }
        (cs.getD k 0) CC = _
      rw [eo, ei]
    · intro j hj
      have hj' : j ≠ k - 1 := by omega
      simp only [hj', if_false]
      exact hsuf j hj

theorem take_succ_getD (cs : List Nat) (k : Nat) (hk : k < cs.length) :
    cs.take (k + 1) = cs.take k ++ [cs.getD k 0] := by
  rw [List.take_succ, List.getD_eq_getElem _ _ hk, List.getElem?_eq_getElem hk]
  rfl

theorem codesString_take (CC : Nat) (D : List (Nat × Nat)) (cs : List Nat) (k : Nat)
    (hk : k < cs.length) :
    codesString CC D (cs.take (k + 1))
      = codesString CC D (cs.take k) ++ codeString CC D (cs.getD k 0) := by
  rw [take_succ_getD cs k hk, codesString_snoc]

/-- One pass of the loop of `TDGifDecompress` on the `k`-th code of a stream
of the encoder, when the stream holds that code: the string of the code goes
out and the decoder is ready for the next code. -/
theorem decodeBody_step (CC Dsz n : Nat) (D : List (Nat × Nat)) (cs : List Nat)
    (Info : TGifInfo) (V T k a : Nat) (s : DState)
    (h : StreamOk CC D cs) (hk : k < cs.length) (hN : cs.length ≤ Dsz)
    (hC : 1 ≤ CC ∧ CC ≤ 256) (hDs : CC + Dsz ≤ 1023)
    (hinv : DecInv CC Dsz D cs Info V T k a s)
    (hav : a + widthAt CC k ≤ T)
    (hcode : (V / 2 ^ a) % 2 ^ widthAt CC k = cs.getD k 0)
    (hroom : (codesString CC D (cs.take (k + 1))).length ≤ n) :
    ∃ s', decodeBody n CC s = .next s' ∧
      DecInv CC Dsz D cs Info V T (k + 1) (a + widthAt CC k) s' := by
  obtain ⟨P', hin, r1, r2, r3, r4, r5, r6, r7, r8, r9, r10, r11, r12⟩ :=
    decompressInput_code CC Dsz k V T a s.Private hC hDs (by omega) hinv.bits hinv.rc
      hinv.max1 hinv.maxp hinv.maxb hinv.read hav
  rw [hcode] at hin
  rw [hinv.cc] at r4
  rw [hinv.base] at r5
  rw [hinv.size] at r6
  rw [hinv.maxp] at r7
  rw [hinv.maxb] at r8
  rw [hinv.info] at r2
  obtain ⟨c1, c2⟩ := h.code k hk
  have hne : TGIF_OK ≠ TGIF_ERROR := by decide
  have hst := codesString_take CC D cs k hk
  rw [hst, List.length_append] at hroom
  have hpreP : ∀ j, P'.Prefix j = if j + 1 < k then (D.getD j (0, 0)).1 else NO_SUCH_CODE := by
    intro j; rw [r3]; exact hinv.pre j
  -- what is left to do once the dictionary update is known
  have build : ∀ (s1 : DState), s1.Private = P' → s1.StackPtr = 0 →
      s1.Out = s.Out ++ codeString CC D (cs.getD k 0) → s1.i = s1.Out.length →
      (∀ j, j + 1 < k → s1.Suffix j = (D.getD j (0, 0)).2) → s1.LastCode = s.LastCode →
      ∃ s', decodeUpdate s1 (cs.getD k 0) CC = .next s' ∧
        DecInv CC Dsz D cs Info V T (k + 1) (a + widthAt CC k) s' := by
    intro s1 hP hsp hout hcnt hsuf hlast
    obtain ⟨Pre', Suf', e, g1, g2⟩ := decodeUpdate_step CC Dsz D cs h k hk hN hC hDs s1
      (by rw [hP]; exact r5) (by rw [hP]; exact r6) (by rw [hP]; exact r7)
      (by rw [hP]; exact r10) (by rw [hP]; exact hpreP) hsuf (by rw [hlast]; exact hinv.last)
    refine ⟨_, e, ⟨?_, ?_, ?_, ?_, ?_, ?_, ?_, ?_, ?_, g1, g2, ?_, hsp, ?_, hcnt, ?_⟩⟩
    · show s1.Private.Info = Info
      rw [hP]; exact r2
    · show s1.Private.ClearCode = CC
      rw [hP]; exact r4
    · show s1.Private.DictBase = CC + 1
      rw [hP]; exact r5
    · show s1.Private.DictSize = Dsz
      rw [hP]; exact r6
    · show s1.Private.MaxCodePoint = CC + Dsz
      rw [hP]; exact r7
    · show s1.Private.MaxCodeBits = Dec.BitSize (CC + Dsz)
      rw [hP]; exact r8
    · show s1.Private.RunningCode = CC + 1 + (k + 1)
      rw [hP, r10]; omega
    · show s1.Private.RunningBits = widthAt CC (k + 1)
      rw [hP]; exact r11
    · show s1.Private.MaxCode1 = 2 ^ widthAt CC (k + 1)
      rw [hP]; exact r12
    · show cs.getD k 0 = if k + 1 = 0 then NO_SUCH_CODE else cs.getD (k + 1 - 1) 0
      rw [if_neg (by omega), Nat.add_sub_cancel]
    · show s1.Out = codesString CC D (cs.take (k + 1))
      rw [hout, hst, hinv.out]
    · show ReadInv V T (a + widthAt CC k) s1.Private
      rw [hP]; exact r1
  unfold decodeBody
  rw [hin]
  dsimp only
  rw [if_neg hne, r4, if_neg c2]
  by_cases hlit : cs.getD k 0 < CC
  · rw [if_pos hlit]
    have hs1 := (codeString_pixel CC D (cs.getD k 0) (by omega)).1
    apply build
    · rfl
    · exact hinv.sp
    · show s.Out ++ [cs.getD k 0 % 256] = _
      rw [hs1, Nat.mod_eq_of_lt (by omega)]
    · show s.i + 1 = (s.Out ++ [cs.getD k 0 % 256]).length
      rw [List.length_append, List.length_singleton, hinv.cnt]
    · exact hinv.suf
    · rfl
  · rw [if_neg hlit]
    obtain ⟨Stack', Suf1, e, g⟩ := decodeTrace_out CC Dsz n D cs h k hk hN hC hDs
      { s with Private := P' } r5 r6 r7 r10 hpreP hinv.suf hinv.last hinv.sp (by omega)
      (by show s.i + _ ≤ n; rw [hinv.cnt, hinv.out]; exact hroom)
    rw [e]
    apply build
    · rfl
    · rfl
    · rfl
    · show s.i + _ = (s.Out ++ _).length
      rw [List.length_append, hinv.cnt]
    · exact g
    · rfl

/-- One pass of the loop of `TDGifDecompress` when the stream ends inside the
next code: `TGIF_ERROR` with `Error = MAXSZ`, nothing more goes out. -/
theorem decodeBody_short (CC Dsz n : Nat) (D : List (Nat × Nat)) (cs : List Nat)
    (Info : TGifInfo) (V T k a : Nat) (s : DState) (hC : 1 ≤ CC ∧ CC ≤ 256)
    (hk : CC + k ≤ 1023)
    (hinv : DecInv CC Dsz D cs Info V T k a s) (hlt : T < a + widthAt CC k) :
    ∃ s', decodeBody n CC s = .ret TGIF_ERROR s' ∧ s'.Out = s.Out ∧
      s'.Private.Info.Error = D_TGIF_ERR_MAXSZ := by
  have hw := widthAt_le CC hC k hk
  obtain ⟨P', c, e1, e2⟩ := decompressInput_short V T a s.Private
    (by rw [hinv.bits]; omega) hinv.read (by rw [hinv.bits]; exact hlt)
  unfold decodeBody
  rw [e1]
  dsimp only
  rw [if_pos rfl]
  exact ⟨_, rfl, rfl, e2⟩

/-! ## The loop of `TDGifDecompress` on a stream of the encoder -/

theorem widthSum_mono (CC : Nat) (k : Nat) : ∀ j, widthSum CC k ≤ widthSum CC (k + j) := by
  intro j
  induction j with
  | zero => exact Nat.le_refl _
  | succ j ih =>
    show _ ≤ widthSum CC (k + j) + widthAt CC (k + j)
    omega

theorem widthAt_two (CC : Nat) (hC : 1 ≤ CC ∧ CC ≤ 256) (k : Nat) : 2 ≤ widthAt CC k := by
  have h1 := widthAt_ge CC k
  have h2 := (bitSize_small (CC + 1) (by omega) (by omega)).2.1
  have : widthAt CC 0 = Enc.BitSize (CC + 1) := rfl
  omega

theorem codesString_append (CC : Nat) (D : List (Nat × Nat)) (xs ys : List Nat) :
    codesString CC D (xs ++ ys) = codesString CC D xs ++ codesString CC D ys := by
  unfold codesString
  rw [List.map_append, List.flatten_append]

theorem codesString_take_le (CC : Nat) (D : List (Nat × Nat)) (cs : List Nat) (k : Nat) :
    (codesString CC D (cs.take k)).length ≤ (codesString CC D cs).length := by
  conv_rhs => rw [← List.take_append_drop k cs, codesString_append, List.length_append]
  omega

theorem codesString_take_lt (CC : Nat) (D : List (Nat × Nat)) (cs : List Nat) (k : Nat)
    (hk : k < cs.length) :
    (codesString CC D (cs.take k)).length < (codesString CC D cs).length := by
  have h1 := codesString_take_le CC D cs (k + 1)
  rw [codesString_take CC D cs k hk, List.length_append] at h1
  have := codeString_ne_nil CC D (cs.getD k 0)
  omega

/-- The loop of `TDGifDecompress` from the `k`-th code of a stream of the
encoder on: if the stream holds all the codes the loop ends with `TGIF_OK`
and the pixels of all the codes; if it is cut short the loop ends with
`TGIF_ERROR` and `Error = MAXSZ` at the first code that is not whole, with
the pixels of the codes before it. -/
theorem decodeLoop_stream (CC Dsz : Nat) (D : List (Nat × Nat)) (cs : List Nat)
    (Info : TGifInfo) (V T : Nat)
    (h : StreamOk CC D cs) (hN : cs.length ≤ Dsz)
    (hC : 1 ≤ CC ∧ CC ≤ 256) (hDs : CC + Dsz ≤ 1023)
    (hV : ∀ k < cs.length, widthSum CC (k + 1) ≤ T →
      (V / 2 ^ widthSum CC k) % 2 ^ widthAt CC k = cs.getD k 0) :
    ∀ (m k : Nat) (s : DState) (fuel : Nat), k + m = cs.length →
      DecInv CC Dsz D cs Info V T k (widthSum CC k) s → T - widthSum CC k < 2 * fuel →
      ∃ r s', decodeLoop (codesString CC D cs).length CC fuel s = .ret r s' ∧
        ((widthSum CC cs.length ≤ T ∧ r = TGIF_OK ∧ s'.Out = codesString CC D cs ∧
            s'.Private.Info = Info) ∨
         (T < widthSum CC cs.length ∧ r = TGIF_ERROR ∧
            s'.Private.Info.Error = D_TGIF_ERR_MAXSZ ∧
            ∃ k' < cs.length, s'.Out = codesString CC D (cs.take k'))) := by
  intro m
  induction m with
  | zero =>
    intro k s fuel hk hinv _
    have hk' : k = cs.length := by omega
    subst hk'
    have hout := hinv.out
    rw [List.take_length] at hout
    have hi : ¬ s.i < (codesString CC D cs).length := by
      rw [hinv.cnt, hout]; omega
    obtain ⟨rem, -, -, -, -, r5, -⟩ := hinv.read
    refine ⟨TGIF_OK, s, ?_, Or.inl ⟨by omega, rfl, hout, hinv.info⟩⟩
    cases fuel with
    | zero => simp only [decodeLoop, hi, if_false]
    | succ fuel => simp only [decodeLoop, hi, if_false]
  | succ m ih =>
    intro k s fuel hk hinv hfuel
    have hkN : k < cs.length := by omega
    have hi : s.i < (codesString CC D cs).length := by
      rw [hinv.cnt, hinv.out]; exact codesString_take_lt CC D cs k hkN
    obtain ⟨fuel', rfl⟩ : ∃ f, fuel = f + 1 := ⟨fuel - 1, by omega⟩
    have hw2 := widthAt_two CC hC k
    by_cases hav : widthSum CC k + widthAt CC k ≤ T
    · obtain ⟨s1, e1, hinv1⟩ := decodeBody_step CC Dsz (codesString CC D cs).length D cs Info
        V T k (widthSum CC k) s h hkN hN hC hDs hinv hav (hV k hkN hav)
        (codesString_take_le CC D cs (k + 1))
      obtain ⟨r, s', e2, hres⟩ := ih (k + 1) s1 fuel' (by omega) hinv1
        (by show T - (widthSum CC k + widthAt CC k) < 2 * fuel'; omega)
      refine ⟨r, s', ?_, hres⟩
      simp only [decodeLoop, hi, if_true, e1]
      exact e2
    · obtain ⟨s1, e1, e2, e3⟩ := decodeBody_short CC Dsz (codesString CC D cs).length D cs Info
        V T k (widthSum CC k) s hC (by omega) hinv (by omega)
      have hmono := widthSum_mono CC (k + 1) m
      rw [show k + 1 + m = cs.length by omega] at hmono
      refine ⟨TGIF_ERROR, s1, ?_, Or.inr ⟨?_, rfl, e3, k, hkN, ?_⟩⟩
      · simp only [decodeLoop, hi, if_true, e1]
      · have : widthSum CC (k + 1) = widthSum CC k + widthAt CC k := rfl
        omega
      · rw [e2, hinv.out]

/-! ## The codes in the value of the stream -/

theorem low_bits (X Y A a w : Nat) (h : a + w ≤ A) :
    ((X + 2 ^ A * Y) / 2 ^ a) % 2 ^ w = (X / 2 ^ a) % 2 ^ w := by
  have e1 : 2 ^ A = 2 ^ a * (2 ^ w * 2 ^ (A - a - w)) := by
    rw [← Nat.pow_add, ← Nat.pow_add]; congr 1; omega
  rw [e1, Nat.mul_assoc, Nat.add_mul_div_left _ _ (by positivity), Nat.mul_assoc,
    Nat.add_mul_mod_self_left]

theorem leValue_concat (xs ys : List Nat) :
    leValue (xs ++ ys) = leValue xs + 2 ^ (8 * xs.length) * leValue ys := by
  induction xs with
  | nil => simp [leValue]
  | cons x xs ih =>
    have e : 2 ^ (8 * (xs.length + 1)) = 256 * 2 ^ (8 * xs.length) := by
      rw [Nat.mul_add, Nat.pow_add]; simp [Nat.mul_comm]
    show x + 256 * leValue (xs ++ ys) = x + 256 * leValue xs + 2 ^ (8 * (xs.length + 1)) * _
    rw [ih, e]; ring

/-- In a log that follows the width schedule the `k`-th code sits in the bits
of the value from `widthSum k` on. -/
theorem bitsValue_codes (CC : Nat) :
    ∀ (L : List (Nat × Nat)), L.map Prod.snd = (List.range L.length).map (widthAt CC) →
      (∀ p ∈ L, p.1 < 2 ^ p.2) →
      totalBits L = widthSum CC L.length ∧ bitsValue L < 2 ^ widthSum CC L.length ∧
      ∀ k < L.length,
        (bitsValue L / 2 ^ widthSum CC k) % 2 ^ widthAt CC k = (L.getD k (0, 0)).1 := by
  intro L
  induction L using List.reverseRecOn with
  | nil =>
    intro _ _
    refine ⟨rfl, by simp [bitsValue, widthSum], ?_⟩
    intro k hk; simp at hk
  | append_singleton L p ih =>
    intro hw hc
    obtain ⟨c, w⟩ := p
    simp only [List.length_append, List.length_singleton, List.map_append, List.map_cons,
      List.map_nil, List.range_succ] at hw ⊢
    obtain ⟨hw1, hw2⟩ := List.append_inj hw (by simp)
    simp only [List.cons.injEq, and_true] at hw2
    obtain ⟨i1, i2, i3⟩ := ih hw1 (fun p hp => hc p (List.mem_append.2 (Or.inl hp)))
    have hcw : c < 2 ^ w := hc (c, w) (by simp)
    rw [totalBits_append, bitsValue_append, i1]
    refine ⟨?_, ?_, ?_⟩
    · show _ = widthSum CC L.length + widthAt CC L.length
      rw [hw2]
    · show _ < 2 ^ (widthSum CC L.length + widthAt CC L.length)
      rw [Nat.pow_add, ← hw2]
      have : 2 ^ widthSum CC L.length * c + 2 ^ widthSum CC L.length
          ≤ 2 ^ widthSum CC L.length * 2 ^ w := by
        rw [← Nat.mul_succ]; exact Nat.mul_le_mul_left _ hcw
      omega
    · intro k hk
      by_cases hkL : k < L.length
      · rw [List.getD_append _ _ _ _ hkL, ← i3 k hkL]
        apply low_bits
        have := widthSum_mono CC (k + 1) (L.length - (k + 1))
        rw [show k + 1 + (L.length - (k + 1)) = L.length by omega] at this
        exact this
      · have e : k = L.length := by omega
        subst e
        rw [List.getD_append_right _ _ _ _ (Nat.le_refl _), Nat.sub_self,
          Nat.add_mul_div_left _ _ (by positivity), Nat.div_eq_of_lt i2, Nat.zero_add, ← hw2]
        exact Nat.mod_eq_of_lt hcw

/-! ## Round trip of an image that fits the dictionary -/

/-- The state `TDGifDecompress` enters its loop with, on data that starts
with the preamble byte of `CC` colours and goes on with the bytes `data`. -/
theorem decodeInit_start (J : TGifInfo) (CC S : Nat) (hC : 1 ≤ CC ∧ CC ≤ 256)
    (hS : 256 ≤ S ∧ S ≤ 4096) (h1 : J.SRAMLimit = S)
    (h2 : TDGifReadByte J.Data 0 = CC % 256) (data : List Nat)
    (hdata : ∀ i < data.length, TDGifReadByte J.Data (1 + i) = data.getD i 0)
    (hsz : 1 + data.length = J.MaxSz) (D : List (Nat × Nat)) (cs : List Nat) :
    DecInv CC (min (S / 4) (1023 - CC)) D cs J (leValue data) (8 * data.length) 0 0
      (decodeInit J) := by
  have hcc : (if TDGifReadByte J.Data 0 = 0 then 256 else TDGifReadByte J.Data 0) = CC := by
    rw [h2]; split_ifs <;> omega
  obtain ⟨b1, b2, b3, b4⟩ := bitSize_small (CC + 1) (by omega) (by omega)
  have hsize : (if S / 4 + (CC + 1) > LZ_MAX_CODE + 1 then LZ_MAX_CODE + 1 - (CC + 1)
      else S / 4) = min (S / 4) (1023 - CC) := by
    unfold LZ_MAX_CODE; split_ifs <;> omega
  have hmaxp : (CC + 1 + min (S / 4) (1023 - CC) - 1) % 65536
      = CC + min (S / 4) (1023 - CC) := by omega
  have hpow : 2 ^ Enc.BitSize (CC + 1) < 65536 := by
    have : 2 ^ Enc.BitSize (CC + 1) ≤ 2 ^ 9 := Nat.pow_le_pow_right (by decide) b3
    omega
  unfold decodeInit
  dsimp only
  rw [hcc, h1, hsize, hmaxp, b4, Nat.one_shiftLeft, Nat.mod_eq_of_lt hpow]
  refine ⟨rfl, rfl, rfl, rfl, rfl, rfl, rfl, rfl, rfl, ?_, ?_, rfl, rfl, ?_, rfl, ?_⟩
  · intro j; simp
  · intro j hj; omega
  · simp [codesString]
  · refine ⟨data, ⟨hdata, ?_⟩, hsz, ?_, ?_, ?_, ?_⟩
    · show 1 + data.length ≤ J.MaxSz
      omega
    · show (0 : Nat) < 8
      decide
    · show (0 : Nat) < 2 ^ 0
      decide
    · show 0 + 8 * data.length + 0 = 8 * data.length
      omega
    · show 0 + 2 ^ 0 * leValue data = leValue data / 2 ^ 0
      simp

theorem bufferOf_append_left (xs ys : List Nat) (i : Nat) (h : i < xs.length) :
    bufferOf (xs ++ ys) i = bufferOf xs i := by
  unfold bufferOf
  rw [List.getD_append _ _ _ _ h]

theorem bufferOf_append_right (xs ys : List Nat) (i : Nat) :
    bufferOf (xs ++ ys) (xs.length + i) = bufferOf ys i := by
  unfold bufferOf
  rw [List.getD_append_right _ _ _ _ (by omega), Nat.add_sub_cancel_left]

theorem colorBytes_length (ColorMap : TColorMapObject) :
    (colorBytes ColorMap).length = 2 * ColorMap.ColorCount := by
  unfold colorBytes
  generalize ColorMap.ColorCount = n
  induction n with
  | zero => rfl
  | succ n ih =>
    rw [List.range_succ, List.flatMap_append, List.length_append, ih]
    simp
    omega

theorem screenDescBytes_length (W H S : Nat) (ColorMap : TColorMapObject) :
    (screenDescBytes W H S ColorMap).length = 4 + 2 * ColorMap.ColorCount + 1 := by
  unfold screenDescBytes
  simp only [List.length_append, List.length_cons, List.length_nil, colorBytes_length]

/-- The function `TDGifGetInfo` on a file made of the bytes of
`TEGifPutScreenDesc` and at least one byte of data. -/
theorem getInfo_file (W H S : Nat) (ColorMap : TColorMapObject) (data : List Nat)
    (hW : 1 ≤ W ∧ W ≤ 1023) (hH : 1 ≤ H ∧ H ≤ 1023)
    (hC : 1 ≤ ColorMap.ColorCount ∧ ColorMap.ColorCount ≤ 256)
    (hS : 256 ≤ S ∧ S ≤ 4096 ∧ S % 256 = 0) (hd : 1 ≤ data.length) :
    ∃ J, TDGifGetInfo (bufferOf (screenDescBytes W H S ColorMap ++ data)) (some zeroInfo)
        1023 1023 (screenDescBytes W H S ColorMap ++ data).length = (TGIF_OK, some J) ∧
      J.Width = W ∧ J.Height = H ∧ J.SRAMLimit = S ∧ J.Error = 0 ∧
      J.MaxSz = 1 + data.length ∧
      TDGifReadByte J.Data 0 = ColorMap.ColorCount % 256 ∧
      ∀ i, J.Data (1 + i) = bufferOf data i := by
  have hlen := screenDescBytes_length W H S ColorMap
  obtain ⟨hw, hh, hc, hs⟩ := screenDesc_header W H S ColorMap hW.2 hH.2 hC ⟨hS.1, hS.2.1⟩
  rw [sram_mask_valid S hS.2.1 hS.2.2] at hs
  have b0 := bufferOf_append_left (screenDescBytes W H S ColorMap) data 0 (by omega)
  have b1 := bufferOf_append_left (screenDescBytes W H S ColorMap) data 1 (by omega)
  have b2 := bufferOf_append_left (screenDescBytes W H S ColorMap) data 2 (by omega)
  have b3 := bufferOf_append_left (screenDescBytes W H S ColorMap) data 3 (by omega)
  have hw' : headerWidth (bufferOf (screenDescBytes W H S ColorMap ++ data)) = W := by
    refine Eq.trans ?_ hw
    unfold headerWidth TDGifReadByte; rw [b0, b1]
  have hh' : headerHeight (bufferOf (screenDescBytes W H S ColorMap ++ data)) = H := by
    refine Eq.trans ?_ hh
    unfold headerHeight TDGifReadByte; rw [b0, b2]
  have hc' : headerColorCount (bufferOf (screenDescBytes W H S ColorMap ++ data))
      = ColorMap.ColorCount := by
    refine Eq.trans ?_ hc
    unfold headerColorCount TDGifReadByte; rw [b3]
  have hs' : headerSRAMLimit (bufferOf (screenDescBytes W H S ColorMap ++ data)) = S := by
    refine Eq.trans ?_ hs
    unfold headerSRAMLimit TDGifReadByte; rw [b0]
  have hgi := getInfo_cases (bufferOf (screenDescBytes W H S ColorMap ++ data)) zeroInfo
    1023 1023 (screenDescBytes W H S ColorMap ++ data).length
  rw [List.length_append, hlen] at hgi ⊢
  rw [hgi]
  dsimp only
  rw [hw', hh', hc', hs']
  rw [if_neg (by omega), if_neg (by omega), if_neg (by omega), if_neg (by omega)]
  refine ⟨_, rfl, rfl, rfl, rfl, rfl, ?_, ?_, ?_⟩
  · show 4 + 2 * ColorMap.ColorCount + 1 + data.length - (2 * ColorMap.ColorCount + 4)
      = 1 + data.length
    omega
  · show TDGifReadByte (fun i => bufferOf (screenDescBytes W H S ColorMap ++ data)
      (4 + 2 * ColorMap.ColorCount + i)) 0 = _
    show bufferOf (screenDescBytes W H S ColorMap ++ data) (4 + 2 * ColorMap.ColorCount + 0) % 256
      = _
    rw [bufferOf_append_left _ _ _ (by omega)]
    unfold screenDescBytes bufferOf
    rw [List.append_assoc, List.getD_append_right _ _ _ _
      (by simp only [List.length_cons, List.length_nil]; omega)]
    rw [List.getD_append_right _ _ _ _
      (by simp only [List.length_cons, List.length_nil, colorBytes_length]; omega)]
    simp only [List.length_cons, List.length_nil, colorBytes_length]
    rw [show 4 + 2 * ColorMap.ColorCount + 0 - (0 + 1 + 1 + 1 + 1) - 2 * ColorMap.ColorCount = 0
      by omega]
    simp
  · intro i
    show bufferOf (screenDescBytes W H S ColorMap ++ data) (4 + 2 * ColorMap.ColorCount + (1 + i))
      = _
    rw [show 4 + 2 * ColorMap.ColorCount + (1 + i)
      = (screenDescBytes W H S ColorMap).length + i by omega]
    exact bufferOf_append_right _ _ _

/-- The program `testdec` on a header of `TEGifPutScreenDesc` followed by data
bytes whose bits hold the codes `cs` of a stream without a CLEAR code, as far
as the bytes reach: all the pixels when every code is there, otherwise
`D_TGIF_ERR_MAXSZ` after the pixels of the codes before some code. -/
theorem testdec_stream (W H S : Nat) (ColorMap : TColorMapObject) (data : List Nat)
    (D : List (Nat × Nat)) (cs : List Nat)
    (hW : 1 ≤ W ∧ W ≤ 1023) (hH : 1 ≤ H ∧ H ≤ 1023)
    (hC : 1 ≤ ColorMap.ColorCount ∧ ColorMap.ColorCount ≤ 256)
    (hS : 256 ≤ S ∧ S ≤ 4096 ∧ S % 256 = 0) (hd : 1 ≤ data.length)
    (hb : ∀ b ∈ data, b < 256)
    (h : StreamOk ColorMap.ColorCount D cs)
    (hN : cs.length ≤ S / 4 ∧ ColorMap.ColorCount + cs.length ≤ 1023)
    (hpix : (codesString ColorMap.ColorCount D cs).length = W * H)
    (hV : ∀ k < cs.length, widthSum ColorMap.ColorCount (k + 1) ≤ 8 * data.length →
      (leValue data / 2 ^ widthSum ColorMap.ColorCount k) % 2 ^ widthAt ColorMap.ColorCount k
        = cs.getD k 0) :
    ∃ r e out, testdec (screenDescBytes W H S ColorMap ++ data) = some (r, e, out) ∧
      ((widthSum ColorMap.ColorCount cs.length ≤ 8 * data.length ∧ r = TGIF_OK ∧ e = 0 ∧
          out = codesString ColorMap.ColorCount D cs) ∨
       (8 * data.length < widthSum ColorMap.ColorCount cs.length ∧ r = TGIF_ERROR ∧
          e = D_TGIF_ERR_MAXSZ ∧
          ∃ k < cs.length, out = codesString ColorMap.ColorCount D (cs.take k))) := by
  obtain ⟨J, hJ, jw, jh, js, je, jm, jc, jd⟩ := getInfo_file W H S ColorMap data hW hH hC hS hd
  have hinit := decodeInit_start J ColorMap.ColorCount S hC ⟨hS.1, hS.2.1⟩ js jc data
    (by
      intro i hi
      unfold TDGifReadByte
      rw [jd i]
      unfold bufferOf
      refine Nat.mod_eq_of_lt (hb _ ?_)
      rw [List.getD_eq_getElem _ _ hi]
      exact List.getElem_mem _)
    jm.symm D cs
  have hDs : ColorMap.ColorCount + min (S / 4) (1023 - ColorMap.ColorCount) ≤ 1023 := by
    have := Nat.min_le_right (S / 4) (1023 - ColorMap.ColorCount)
    omega
  have hNs : cs.length ≤ min (S / 4) (1023 - ColorMap.ColorCount) := by
    rw [Nat.le_min]
    omega
  obtain ⟨r, s', hrun, hres⟩ := decodeLoop_stream ColorMap.ColorCount
    (min (S / 4) (1023 - ColorMap.ColorCount)) D cs J (leValue data) (8 * data.length)
    h hNs hC hDs hV cs.length 0 (decodeInit J) (4 * J.MaxSz + 1) (by omega) hinit
    (by rw [jm]; show 8 * data.length - 0 < _; omega)
  have hpc : (J.Width * J.Height) % 2 ^ 32 = (codesString ColorMap.ColorCount D cs).length := by
    rw [jw, jh, hpix]
    refine Nat.mod_eq_of_lt ?_
    have : W * H ≤ 1023 * 1023 := Nat.mul_le_mul hW.2 hH.2
    omega
  have hdec : TDGifDecompress J true = .ret r s' := by
    unfold TDGifDecompress
    dsimp only
    rw [if_neg (by simp), hpc, hinit.cc]
    exact hrun
  refine ⟨r, s'.Private.Info.Error, s'.Out, ?_, ?_⟩
  · unfold testdec
    rw [hJ]
    dsimp only
    rw [if_neg (by decide), hdec]
  · rcases hres with ⟨h1, h2, h3, h4⟩ | ⟨h1, h2, h3, h4⟩
    · exact Or.inl ⟨h1, h2, by rw [h4, je], h3⟩
    · exact Or.inr ⟨h1, h2, h3, h4⟩

/-! ## The bytes already in the file do not steer the encoder -/

theorem internalWrite_prepend (h : List Nat) (P : TGifFilePrivateType) (buf : List Nat) :
    InternalWrite (prependFile h P) buf = prependFile h (InternalWrite P buf) := by
  simp [InternalWrite, prependFile, List.append_assoc]

theorem bufferedOutput_prepend (h : List Nat) (P : TGifFilePrivateType) (c : Nat) :
    TEGifBufferedOutput (prependFile h P) c = prependFile h (TEGifBufferedOutput P c) := by
  unfold TEGifBufferedOutput
  split_ifs <;> simp_all [InternalWrite, prependFile, List.append_assoc]

theorem emitLowByte_prepend (h : List Nat) (P : TGifFilePrivateType) :
    emitLowByte (prependFile h P) = prependFile h (emitLowByte P) := by
  unfold emitLowByte
  dsimp only
  rw [show (prependFile h P).CrntShiftDWord = P.CrntShiftDWord from rfl, bufferedOutput_prepend]
  rfl

theorem dumpBytes_prepend (h : List Nat) :
    ∀ (k : Nat) (P : TGifFilePrivateType),
      dumpBytes k (prependFile h P) = prependFile h (dumpBytes k P) := by
  intro k
  induction k with
  | zero => intro P; rfl
  | succ k ih =>
    intro P
    unfold dumpBytes
    rw [show (prependFile h P).CrntShiftState = P.CrntShiftState from rfl, emitLowByte_prepend, ih]
    split_ifs <;> rfl

theorem flushBytes_prepend (h : List Nat) :
    ∀ (k : Nat) (P : TGifFilePrivateType),
      flushBytes k (prependFile h P) = prependFile h (flushBytes k P) := by
  intro k
  induction k with
  | zero => intro P; rfl
  | succ k ih =>
    intro P
    unfold flushBytes
    rw [show (prependFile h P).CrntShiftState = P.CrntShiftState from rfl, emitLowByte_prepend, ih]
    split_ifs <;> rfl

theorem flushCode_prepend (h : List Nat) (P : TGifFilePrivateType) :
    flushCode (prependFile h P) = prependFile h (flushCode P) := by
  unfold flushCode
  dsimp only
  rw [show (prependFile h P).CrntShiftState = P.CrntShiftState from rfl, flushBytes_prepend]
  exact bufferedOutput_prepend h { flushBytes P.CrntShiftState P with CrntShiftState := 0 }
    FLUSH_OUTPUT

theorem packCode_prepend (h : List Nat) (P : TGifFilePrivateType) (Code width : Nat) :
    packCode (prependFile h P) Code width = prependFile h (packCode P Code width) := by
  unfold packCode
  dsimp only
  exact dumpBytes_prepend h _
    { P with CrntShiftDWord := P.CrntShiftDWord ||| (Code <<< P.CrntShiftState)
             CrntShiftState := P.CrntShiftState + width }

theorem compressOutput_prepend (h : List Nat) (P : TGifFilePrivateType) (Code : Nat) :
    TEGifCompressOutput (prependFile h P) Code = prependFile h (TEGifCompressOutput P Code) := by
  have key : ∀ Q : TGifFilePrivateType,
      (if (prependFile h Q).RunningCode ≥ (prependFile h Q).MaxCode1 ∧ Code ≤ LZ_MAX_CODE then
        { prependFile h Q with RunningBits := (prependFile h Q).RunningBits + 1,
                               MaxCode1 := 1 <<< ((prependFile h Q).RunningBits + 1) }
       else prependFile h Q)
      = prependFile h (if Q.RunningCode ≥ Q.MaxCode1 ∧ Code ≤ LZ_MAX_CODE then
        { Q with RunningBits := Q.RunningBits + 1, MaxCode1 := 1 <<< (Q.RunningBits + 1) }
       else Q) := by
    intro Q
    by_cases hq : Q.RunningCode ≥ Q.MaxCode1 ∧ Code ≤ LZ_MAX_CODE
    · rw [if_pos hq, if_pos (show (prependFile h Q).RunningCode ≥ (prependFile h Q).MaxCode1 ∧
        Code ≤ LZ_MAX_CODE from hq)]
      rfl
    · rw [if_neg hq, if_neg (show ¬ ((prependFile h Q).RunningCode ≥ (prependFile h Q).MaxCode1 ∧
        Code ≤ LZ_MAX_CODE) from hq)]
  unfold TEGifCompressOutput
  dsimp only
  by_cases hc : Code = FLUSH_OUTPUT
  · rw [if_pos hc, if_pos hc, flushCode_prepend]
    exact key _
  · rw [if_neg hc, if_neg hc]
    have e : packCode { prependFile h P with
        Log := (prependFile h P).Log ++ [(Code, (prependFile h P).RunningBits)] } Code
        (prependFile h P).RunningBits
        = prependFile h (packCode { P with Log := P.Log ++ [(Code, P.RunningBits)] } Code
          P.RunningBits) :=
      packCode_prepend h { P with Log := P.Log ++ [(Code, P.RunningBits)] } Code P.RunningBits
    rw [e]
    exact key _

theorem compressPixel_prepend (h : List Nat) (G : TGifFileType) (c p : Nat) :
    compressPixel { G with Private := prependFile h G.Private } c p
      = (compressPixel G c p).map
          (fun x => ({ x.1 with Private := prependFile h x.1.Private }, x.2)) := by
  unfold compressPixel
  dsimp only
  rw [show (prependFile h G.Private).HashTable = G.Private.HashTable from rfl]
  cases hv : _ExistsHashTable G.Private.HashTable ((c <<< 8) + p) with
  | none => rfl
  | some v =>
    dsimp only
    by_cases hv0 : v ≥ 0
    · rw [if_pos hv0, if_pos hv0]; rfl
    · rw [if_neg hv0, if_neg hv0, compressOutput_prepend]
      rw [show (prependFile h (TEGifCompressOutput G.Private c)).RunningCode
        = (TEGifCompressOutput G.Private c).RunningCode from rfl,
        show (prependFile h (TEGifCompressOutput G.Private c)).MaxCodePoint
        = (TEGifCompressOutput G.Private c).MaxCodePoint from rfl,
        show (prependFile h (TEGifCompressOutput G.Private c)).ClearCode
        = (TEGifCompressOutput G.Private c).ClearCode from rfl,
        show (prependFile h (TEGifCompressOutput G.Private c)).HashTable
        = (TEGifCompressOutput G.Private c).HashTable from rfl,
        compressOutput_prepend]
      by_cases hr : (TEGifCompressOutput G.Private c).RunningCode
          ≥ (TEGifCompressOutput G.Private c).MaxCodePoint
      · rw [if_pos hr, if_pos hr]; rfl
      · rw [if_neg hr, if_neg hr]
        cases _InsertHashTable (TEGifCompressOutput G.Private c).HashTable ((c <<< 8) + p)
          (TEGifCompressOutput G.Private c).RunningCode <;> rfl

theorem compressLoop_prepend (h : List Nat) :
    ∀ (l : List Nat) (G : TGifFileType) (c : Nat),
      compressLoop { G with Private := prependFile h G.Private } c l
        = (compressLoop G c l).map
            (fun x => ({ x.1 with Private := prependFile h x.1.Private }, x.2)) := by
  intro l
  induction l with
  | nil => intro G c; rfl
  | cons p l ih =>
    intro G c
    unfold compressLoop
    rw [compressPixel_prepend]
    cases compressPixel G c p with
    | none => rfl
    | some x => exact ih x.1 x.2

theorem compressFinish_prepend (h : List Nat) (G : TGifFileType) (c : Nat) :
    compressFinish { G with Private := prependFile h G.Private } c
      = ((compressFinish G c).1,
          { (compressFinish G c).2 with Private := prependFile h (compressFinish G c).2.Private })
      := by
  unfold compressFinish
  dsimp only
  rw [show (prependFile h G.Private).PixelCount = G.Private.PixelCount from rfl,
    show (prependFile h G.Private).RunningCode = G.Private.RunningCode from rfl]
  by_cases hz : G.Private.PixelCount = 0
  · rw [if_pos hz, if_pos hz]
    have e : ∀ Q : TGifFilePrivateType,
        TEGifCompressOutput (TEGifCompressOutput { prependFile h Q with CrntCode := c } c)
          FLUSH_OUTPUT
        = prependFile h (TEGifCompressOutput (TEGifCompressOutput { Q with CrntCode := c } c)
          FLUSH_OUTPUT) := by
      intro Q
      rw [← compressOutput_prepend, ← compressOutput_prepend]
      rfl
    by_cases hm : G.MaxCodeUsed < G.Private.RunningCode - 1
    · rw [if_pos hm, if_pos hm]
      exact congrArg
        (fun Q => (TGIF_OK, (⟨G.Error, G.Private.RunningCode - 1, Q⟩ : TGifFileType)))
        (e G.Private)
    · rw [if_neg hm, if_neg hm]
      exact congrArg (fun Q => (TGIF_OK, (⟨G.Error, G.MaxCodeUsed, Q⟩ : TGifFileType)))
        (e G.Private)
  · rw [if_neg hz, if_neg hz]
    rfl

theorem compressLine_prepend (h : List Nat) (G : TGifFileType) (Line : List Nat) :
    TEGifCompressLine { G with Private := prependFile h G.Private } Line
      = (TEGifCompressLine G Line).map
          (fun x => (x.1, { x.2 with Private := prependFile h x.2.Private })) := by
  have key : ∀ start : Option (Nat × List Nat),
      (match start with
        | none => none
        | some (CrntCode, rest) =>
          match compressLoop { G with Private := prependFile h G.Private } CrntCode rest with
          | none => none
          | some (G, CrntCode) => some (compressFinish G CrntCode))
      = Option.map (fun x => (x.1, { x.2 with Private := prependFile h x.2.Private }))
        (match start with
          | none => none
          | some (CrntCode, rest) =>
            match compressLoop G CrntCode rest with
            | none => none
            | some (G, CrntCode) => some (compressFinish G CrntCode)) := by
    intro start
    cases start with
    | none => rfl
    | some x =>
      obtain ⟨c, rest⟩ := x
      dsimp only
      rw [compressLoop_prepend]
      cases compressLoop G c rest with
      | none => rfl
      | some y =>
        obtain ⟨G1, c1⟩ := y
        dsimp only [Option.map]
        rw [compressFinish_prepend]
  exact key _

theorem putLine_prepend (h : List Nat) (G : TGifFileType) (Line : List Nat) :
    TEGifPutLine { G with Private := prependFile h G.Private } Line
      = (TEGifPutLine G Line).map
          (fun x => (x.1, { x.2 with Private := prependFile h x.2.Private })) := by
  unfold TEGifPutLine
  dsimp only
  rw [show (prependFile h G.Private).PixelCount = G.Private.PixelCount from rfl]
  by_cases hp : G.Private.PixelCount < Line.length
  · rw [if_pos hp, if_pos hp]; rfl
  · rw [if_neg hp, if_neg hp]
    exact compressLine_prepend h
      { G with Private := { G.Private with PixelCount := G.Private.PixelCount - Line.length } }
      Line

theorem putScreenDesc_startHandle (W H S : Nat) (ColorMap : TColorMapObject)
    (hL : S &&& 0xFF00 ≠ 0) :
    TEGifPutScreenDesc TEGifOpenFileName W H (some ColorMap) S
      = (TGIF_OK, { startHandle W H ColorMap.ColorCount S with
          Private := prependFile (screenDescBytes W H S ColorMap)
            (startHandle W H ColorMap.ColorCount S).Private }) := by
  unfold startHandle
  rw [putScreenDesc_ok TEGifOpenFileName W H S ColorMap (by decide) hL,
    putScreenDesc_ok TEGifOpenFileName W H S _ (by decide) hL]
  simp [TEGifSetupCompress, InternalWrite, prependFile, screenDescBytes, TEGifOpenFileName]

/-- The calls of `convert` in terms of the handle without the header bytes. -/
theorem convert_startHandle (W H S : Nat) (ColorMap : TColorMapObject) (Pixels : List Nat)
    (hL : S &&& 0xFF00 ≠ 0) :
    convert W H ColorMap S Pixels
      = (TEGifPutLine (startHandle W H ColorMap.ColorCount S) Pixels).map
          (fun x => (x.1, { x.2 with
            Private := prependFile (screenDescBytes W H S ColorMap) x.2.Private })) := by
  unfold convert
  rw [putScreenDesc_startHandle W H S ColorMap hL]
  dsimp only
  rw [if_neg (by decide)]
  exact putLine_prepend _ _ _

set_option maxRecDepth 1000000 in
set_option synthInstance.maxSize 2048 in
set_option synthInstance.maxHeartbeats 400000 in
/-- The encoder on five equal pixels over two colours, for the sixteen valid
SRAM limits: the codes `A`, 3, 3 at the widths 2, 2, 3 go into one byte. -/
theorem putLine_five_equal : ∀ m < 16, ∀ A < 2,
    (TEGifPutLine (startHandle 5 1 2 (256 * (m + 1))) [A, A, A, A, A]).map
        (fun x => (x.1, x.2.Private.File, x.2.Private.Log))
      = some (TGIF_OK, [60 + A], [(A, 2), (3, 2), (3, 3)]) := by
  decide

/-! ## From the encoder's file to the decoder's input -/

theorem widthSum_ge (CC : Nat) (w : Nat) (hw : w ≤ widthAt CC 0) :
    ∀ k, w * k ≤ widthSum CC k := by
  intro k
  induction k with
  | zero => simp [widthSum]
  | succ k ih =>
    have := widthAt_ge CC k
    show w * (k + 1) ≤ widthSum CC k + widthAt CC k
    rw [Nat.mul_succ]
    omega

theorem widthSum_le (CC : Nat) (hC : 1 ≤ CC ∧ CC ≤ 256) :
    ∀ k, CC + k ≤ 1024 → widthSum CC k ≤ 10 * k := by
  intro k
  induction k with
  | zero => intro _; simp [widthSum]
  | succ k ih =>
    intro hk
    have := widthAt_le CC hC k (by omega)
    have := ih (by omega)
    show widthSum CC k + widthAt CC k ≤ 10 * (k + 1)
    omega

/-- The strings of the first `k` codes of a stream of `N` codes have at most
`k * N` pixels. -/
theorem codesString_length_le (CC : Nat) (D : List (Nat × Nat)) (cs : List Nat)
    (h : StreamOk CC D cs) :
    ∀ k, k ≤ cs.length → (codesString CC D (cs.take k)).length ≤ k * cs.length := by
  intro k
  induction k with
  | zero => intro _; simp [codesString]
  | succ k ih =>
    intro hk
    have h1 := ih (by omega)
    have h2 := (codeString_length CC D (streamOk_dict CC D cs h) (cs.getD k 0)).2
    have h3 := (h.code k (by omega)).1
    rw [codesString_take CC D cs k (by omega), List.length_append, Nat.succ_mul]
    omega

theorem codesString_length_ge (CC : Nat) (D : List (Nat × Nat)) (cs : List Nat) :
    cs.length ≤ (codesString CC D cs).length := by
  induction cs with
  | nil => simp
  | cons c cs ih =>
    have e : codesString CC D (c :: cs) = codeString CC D c ++ codesString CC D cs := by
      simp [codesString]
    have := codeString_ne_nil CC D c
    rw [e, List.length_append, List.length_cons]
    omega

/-- The encoder on a valid image with no more pixels than the dictionary has
entries, in the terms of the decoder: the file is the header and the bytes
that hold, from bit 0 upwards at the widths of the schedule, the codes of a
stream whose strings make up the pixels. -/
theorem encode_stream (W H S : Nat) (ColorMap : TColorMapObject) (Pixels : List Nat)
    (hW : 1 ≤ W ∧ W ≤ 1023) (hH : 1 ≤ H ∧ H ≤ 1023)
    (hC : 1 ≤ ColorMap.ColorCount ∧ ColorMap.ColorCount ≤ 256)
    (hS : 256 ≤ S ∧ S ≤ 4096 ∧ S % 256 = 0)
    (hlen : Pixels.length = W * H) (hpix : ∀ p ∈ Pixels, p < ColorMap.ColorCount)
    (hsmall : W * H ≤ S / 4 ∧ ColorMap.ColorCount + W * H ≤ 1023) :
    ∃ D cs bs, convertFile W H ColorMap S Pixels = some (screenDescBytes W H S ColorMap ++ bs) ∧
      (∀ b ∈ bs, b < 256) ∧ StreamOk ColorMap.ColorCount D cs ∧
      codesString ColorMap.ColorCount D cs = Pixels ∧ cs.length ≤ W * H ∧
      widthSum ColorMap.ColorCount cs.length ≤ 8 * bs.length ∧
      8 * bs.length < widthSum ColorMap.ColorCount cs.length + 8 ∧
      ∀ k < cs.length,
        (leValue bs / 2 ^ widthSum ColorMap.ColorCount k) % 2 ^ widthAt ColorMap.ColorCount k
          = cs.getD k 0 := by
  obtain ⟨G, D, cs, c, bs, e1, e2, e3, e4, e5, e6, e7, e8, e9, e10⟩ :=
    encode_small W H S ColorMap Pixels hW hH hC hS hlen hpix hsmall
  have hst := streamOk_of_codesOk _ D cs c e9
  have hLlen : G.Private.Log.length = D.length + 1 := by
    have := congrArg List.length e8
    simpa using this
  have hclen : (cs ++ [c]).length = G.Private.Log.length := by
    have := congrArg List.length e7
    simpa using this.symm
  have hsnd : G.Private.Log.map Prod.snd
      = (List.range G.Private.Log.length).map (widthAt ColorMap.ColorCount) := by
    rw [hLlen]; exact e8
  have hfst : ∀ k, (G.Private.Log.getD k (0, 0)).1 = (cs ++ [c]).getD k 0 := by
    intro k
    rw [← e7]
    exact (List.getD_map (f := Prod.fst) (l := G.Private.Log) (d := ((0, 0) : Nat × Nat))
      (n := k)).symm
  have hsndk : ∀ k < G.Private.Log.length,
      (G.Private.Log.getD k (0, 0)).2 = widthAt ColorMap.ColorCount k := by
    intro k hk
    have := congrArg (fun l => l.getD k 0) hsnd
    dsimp only at this
    rw [show (0 : Nat) = Prod.snd ((0, 0) : Nat × Nat) from rfl, List.getD_map] at this
    rw [this, List.getD_eq_getElem _ _ (by simpa using hk)]
    simp
  have hlt : ∀ p ∈ G.Private.Log, p.1 < 2 ^ p.2 := by
    intro p hp
    obtain ⟨k, hk, rfl⟩ := List.getElem_of_mem hp
    have a1 := hfst k
    have a2 := hsndk k hk
    rw [List.getD_eq_getElem _ _ hk] at a1 a2
    rw [a1, a2]
    have := (hst.code k (by rw [hclen]; exact hk)).1
    have := widthAt_cover ColorMap.ColorCount hC k
    omega
  obtain ⟨b1, -, b3⟩ := bitsValue_codes ColorMap.ColorCount G.Private.Log hsnd hlt
  have hN : (cs ++ [c]).length ≤ W * H := by
    have := codesString_length_ge ColorMap.ColorCount D (cs ++ [c])
    rw [e10, hlen] at this
    exact this
  refine ⟨D, cs ++ [c], bs, ?_, e3, hst, e10, hN, ?_, ?_, ?_⟩
  · unfold convertFile
    rw [e1]
    dsimp only
    rw [if_pos rfl, e2]
  · rw [hclen, ← b1]; exact e5
  · rw [hclen, ← b1]; exact e6
  · intro k hk
    rw [e4, ← hfst k]
    exact b3 k (by rw [← hclen]; exact hk)

/-- Encoding a valid image with no more pixels than the dictionary has
entries and decoding the file gives the pixels back with `TGIF_OK`; decoding
the file cut after `t` of its data bytes, at least one and not all of them,
gives `D_TGIF_ERR_MAXSZ` after the pixels of the codes before some code. -/
theorem decode_encoded (W H S : Nat) (ColorMap : TColorMapObject) (Pixels : List Nat)
    (hW : 1 ≤ W ∧ W ≤ 1023) (hH : 1 ≤ H ∧ H ≤ 1023)
    (hC : 1 ≤ ColorMap.ColorCount ∧ ColorMap.ColorCount ≤ 256)
    (hS : 256 ≤ S ∧ S ≤ 4096 ∧ S % 256 = 0)
    (hlen : Pixels.length = W * H) (hpix : ∀ p ∈ Pixels, p < ColorMap.ColorCount)
    (hsmall : W * H ≤ S / 4 ∧ ColorMap.ColorCount + W * H ≤ 1023) :
    ∃ D cs bs, convertFile W H ColorMap S Pixels = some (screenDescBytes W H S ColorMap ++ bs) ∧
      StreamOk ColorMap.ColorCount D cs ∧ codesString ColorMap.ColorCount D cs = Pixels ∧
      widthSum ColorMap.ColorCount cs.length ≤ 8 * bs.length ∧
      testdec (screenDescBytes W H S ColorMap ++ bs) = some (TGIF_OK, 0, Pixels) ∧
      ∀ t, 1 ≤ t → t < bs.length → ∃ k < cs.length,
        testdec (screenDescBytes W H S ColorMap ++ bs.take t)
          = some (TGIF_ERROR, D_TGIF_ERR_MAXSZ, codesString ColorMap.ColorCount D (cs.take k)) := by
  obtain ⟨D, cs, bs, e1, e2, e3, e4, e5, e6, e7, e8⟩ :=
    encode_stream W H S ColorMap Pixels hW hH hC hS hlen hpix hsmall
  have hN1 : 1 ≤ cs.length := by rw [e3.len]; omega
  have hws := widthSum_ge ColorMap.ColorCount 2 (widthAt_two _ hC 0) cs.length
  have hpl : (codesString ColorMap.ColorCount D cs).length = W * H := by rw [e4, hlen]
  refine ⟨D, cs, bs, e1, e3, e4, e6, ?_, ?_⟩
  · obtain ⟨r, e, out, h1, h2⟩ := testdec_stream W H S ColorMap bs D cs hW hH hC hS (by omega)
      e2 e3 ⟨by omega, by omega⟩ hpl (fun k hk _ => e8 k hk)
    rcases h2 with ⟨-, h3, h4, h5⟩ | ⟨h3, -⟩
    · rw [h1, h3, h4, h5, e4]
    · omega
  · intro t ht1 ht2
    have htl : (bs.take t).length = t := by rw [List.length_take]; omega
    have hval : leValue bs = leValue (bs.take t) + 2 ^ (8 * t) * leValue (bs.drop t) := by
      conv_lhs => rw [← List.take_append_drop t bs, leValue_concat, htl]
    obtain ⟨r, e, out, h1, h2⟩ := testdec_stream W H S ColorMap (bs.take t) D cs hW hH hC hS
      (by omega) (fun b hb => e2 b (List.mem_of_mem_take hb)) e3 ⟨by omega, by omega⟩ hpl
      (by
        intro k hk hav
        rw [htl] at hav
        rw [← e8 k hk, hval]
        exact (low_bits _ _ _ _ _ hav).symm)
    rw [htl] at h2
    rcases h2 with ⟨h3, -⟩ | ⟨-, h3, h4, k, hk, h5⟩
    · omega
    · exact ⟨k, hk, by rw [h1, h3, h4, h5]⟩

/-! ## C11: a stream cut short -/

/-- C11: for every 64x1 image over a palette of 16 colours (pixels below 16)
encoded with SRAM limit 256, the encoder's file has more than three bytes of
data, and on the file without its last 3 bytes (`maxSz` three less)
`TDGifGetInfo` succeeds and `TDGifDecompress` returns `TGIF_ERROR` with
`Error = D_TGIF_ERR_MAXSZ` after at most 64 calls of the callback; the pixels
handed out are the first pixels of the image. -/
theorem C11_truncated_stream (ColorMap : TColorMapObject) (Pixels : List Nat)
    (hC : ColorMap.ColorCount = 16) (hlen : Pixels.length = 64)
    (hpix : ∀ p ∈ Pixels, p < 16) :
    ∃ file J s, convertFile 64 1 ColorMap 256 Pixels = some file ∧
      TDGifGetInfo (bufferOf (file.take (file.length - 3))) (some zeroInfo) 1023 1023
        (file.length - 3) = (TGIF_OK, some J) ∧
      TDGifDecompress J true = .ret TGIF_ERROR s ∧
      s.Private.Info.Error = D_TGIF_ERR_MAXSZ ∧ s.Out.length ≤ 64 ∧
      s.Out = Pixels.take s.Out.length := by
  have hC' : 1 ≤ ColorMap.ColorCount ∧ ColorMap.ColorCount ≤ 256 := by omega
  obtain ⟨D, cs, bs, e1, e2, e3, e4, -, e6⟩ := decode_encoded 64 1 256 ColorMap Pixels
    (by omega) (by omega) hC' (by omega) (by omega) (by rw [hC]; exact hpix)
    (by rw [hC]; omega)
  -- at least eight codes, of five bits or more
  have hN : 8 ≤ cs.length := by
    have h1 := codesString_length_le _ D cs e2 cs.length (Nat.le_refl _)
    rw [List.take_length, e3, hlen] at h1
    by_contra hcon
    have : cs.length * cs.length ≤ 7 * 7 := Nat.mul_le_mul (by omega) (by omega)
    omega
  have h5 : 5 ≤ widthAt ColorMap.ColorCount 0 := by rw [hC]; decide
  have hws := widthSum_ge ColorMap.ColorCount 5 h5 cs.length
  have hbl : 5 ≤ bs.length := by omega
  obtain ⟨k, hk, e7⟩ := e6 (bs.length - 3) (by omega) (by omega)
  have hdl : 1 ≤ (bs.take (bs.length - 3)).length := by rw [List.length_take]; omega
  obtain ⟨J, hJ, -⟩ := getInfo_file 64 1 256 ColorMap (bs.take (bs.length - 3))
    (by omega) (by omega) hC' (by omega) hdl
  have hcut : (screenDescBytes 64 1 256 ColorMap ++ bs).take
      ((screenDescBytes 64 1 256 ColorMap ++ bs).length - 3)
      = screenDescBytes 64 1 256 ColorMap ++ bs.take (bs.length - 3) := by
    rw [List.length_append, show (screenDescBytes 64 1 256 ColorMap).length + bs.length - 3
      = (screenDescBytes 64 1 256 ColorMap).length + (bs.length - 3) by omega, List.take_append]
  have hcl : (screenDescBytes 64 1 256 ColorMap ++ bs).length - 3
      = (screenDescBytes 64 1 256 ColorMap ++ bs.take (bs.length - 3)).length := by
    rw [List.length_append, List.length_append, List.length_take]
    omega
  unfold testdec at e7
  rw [hJ] at e7
  dsimp only at e7
  rw [if_neg (by decide)] at e7
  have hout : (codesString ColorMap.ColorCount D (cs.take k)).length ≤ 64 := by
    have := codesString_take_le ColorMap.ColorCount D cs k
    rw [e3, hlen] at this
    exact this
  have hpre : codesString ColorMap.ColorCount D (cs.take k)
      = Pixels.take (codesString ColorMap.ColorCount D (cs.take k)).length := by
    conv_rhs => rw [← e3]
    conv_rhs =>
      arg 2
      rw [← List.take_append_drop k cs, codesString_append]
    rw [List.take_left']
    rfl
  cases hd : TDGifDecompress J true with
  | ret r s =>
    rw [hd] at e7
    simp only [Option.some.injEq, Prod.mk.injEq] at e7
    obtain ⟨r1, r2, r3⟩ := e7
    refine ⟨_, J, s, e1, ?_, ?_, r2, ?_, ?_⟩
    · rw [hcut, hcl]; exact hJ
    · rw [hd, r1]
    · rw [r3]; exact hout
    · rw [r3]; exact hpre
  | next s => rw [hd] at e7; simp at e7
  | fault s => rw [hd] at e7; simp at e7
  | fuel s => rw [hd] at e7; simp at e7

/-- C11 at the pixels `sample64x1` over `palette16`. -/
theorem C11_truncated_stream_witness :
    ∃ file J s, convertFile 64 1 palette16 256 sample64x1 = some file ∧
      TDGifGetInfo (bufferOf (file.take (file.length - 3))) (some zeroInfo) 1023 1023
        (file.length - 3) = (TGIF_OK, some J) ∧
      TDGifDecompress J true = .ret TGIF_ERROR s ∧
      s.Private.Info.Error = D_TGIF_ERR_MAXSZ ∧ s.Out.length ≤ 64 ∧
      s.Out = sample64x1.take s.Out.length :=
  C11_truncated_stream palette16 sample64x1 rfl (by decide) (by decide)

/-! ## C19: five equal pixels -/

/-- The header of the encoder and data bytes in the decoder: `TDGifGetInfo`
succeeds and `TDGifDecompress` enters its loop in step with any stream. -/
theorem decode_start (W H S : Nat) (ColorMap : TColorMapObject) (data : List Nat)
    (D : List (Nat × Nat)) (cs : List Nat)
    (hW : 1 ≤ W ∧ W ≤ 1023) (hH : 1 ≤ H ∧ H ≤ 1023)
    (hC : 1 ≤ ColorMap.ColorCount ∧ ColorMap.ColorCount ≤ 256)
    (hS : 256 ≤ S ∧ S ≤ 4096 ∧ S % 256 = 0) (hd : 1 ≤ data.length)
    (hb : ∀ b ∈ data, b < 256) :
    ∃ J, TDGifGetInfo (bufferOf (screenDescBytes W H S ColorMap ++ data)) (some zeroInfo)
        1023 1023 (screenDescBytes W H S ColorMap ++ data).length = (TGIF_OK, some J) ∧
      DecInv ColorMap.ColorCount (min (S / 4) (1023 - ColorMap.ColorCount)) D cs J
        (leValue data) (8 * data.length) 0 0 (decodeInit J) := by
  obtain ⟨J, hJ, -, -, js, -, jm, jc, jd⟩ := getInfo_file W H S ColorMap data hW hH hC hS hd
  refine ⟨J, hJ, decodeInit_start J ColorMap.ColorCount S hC ⟨hS.1, hS.2.1⟩ js jc data ?_
    jm.symm D cs⟩
  intro i hi
  unfold TDGifReadByte
  rw [jd i]
  unfold bufferOf
  refine Nat.mod_eq_of_lt (hb _ ?_)
  rw [List.getD_eq_getElem _ _ hi]
  exact List.getElem_mem _

/-- The codes `A`, 3, 3 over two colours: a stream with the dictionary
`3 = (A, A)`, `4 = (3, A)`, the strings `A`, `A A`, `A A`, held by the byte
`60 + A` at the widths 2, 2, 3. -/
theorem five_equal_stream : ∀ A < 2,
    StreamOk 2 [(A, A), (3, A)] [A, 3, 3] ∧
    codesString 2 [(A, A), (3, A)] [A, 3, 3] = [A, A, A, A, A] ∧
    codesString 2 [(A, A), (3, A)] ([A, 3, 3].take 1) = [A] ∧
    codesString 2 [(A, A), (3, A)] ([A, 3, 3].take 2) = [A] ++ ([A] ++ [A]) ∧
    (∀ k < 3, (leValue [60 + A] / 2 ^ widthSum 2 k) % 2 ^ widthAt 2 k = [A, 3, 3].getD k 0) ∧
    widthSum 2 1 = 2 ∧ widthSum 2 2 = 4 ∧ widthSum 2 3 = 7 := by
  intro A hA
  have hs : StreamOk 2 [(A, A), (3, A)] [A, 3, 3] := by
    refine ⟨rfl, ?_, ?_⟩
    · intro k hk
      have hk3 : k < 3 := hk
      interval_cases k <;> interval_cases A <;> decide
    · intro j hj
      have hj2 : j < 2 := hj
      interval_cases j <;> interval_cases A <;> decide
  refine ⟨hs, ?_, ?_, ?_, ?_, by decide, by decide, by decide⟩
  · interval_cases A <;> decide
  · interval_cases A <;> decide
  · interval_cases A <;> decide
  · intro k hk
    interval_cases k <;> interval_cases A <;> decide

/-- C19: for a pixel value `A` in {0, 1}, every palette of two colours and
every valid SRAM limit (a multiple of 256 from 256 to 4096), the 5x1 image
`A A A A A` round-trips.  The encoder writes the codes `A`, 3, 3 at the widths
2, 2, 3.  The first pass of the decoder hands out `A`; in the second pass the
code read is 3, which is `RunningCode - 2` and whose `Prefix` cell is still
`NO_SUCH_CODE` (the entry under construction), and the pass hands out the
string of the code before, `A`, followed by its first pixel, `A`.  The whole
run returns `TGIF_OK` with `Error = 0` and hands out the five pixels. -/
theorem C19_kwkwk_roundtrip (A S : Nat) (ColorMap : TColorMapObject) (hA : A < 2)
    (hC : ColorMap.ColorCount = 2) (hS : 256 ≤ S ∧ S ≤ 4096 ∧ S % 256 = 0) :
    ∃ file J s1 P s2,
      convertFile 5 1 ColorMap S [A, A, A, A, A] = some file ∧
      convertCodes 5 1 ColorMap S [A, A, A, A, A] = some [(A, 2), (3, 2), (3, 3)] ∧
      TDGifGetInfo (bufferOf file) (some zeroInfo) 1023 1023 file.length = (TGIF_OK, some J) ∧
      decodeBody 5 2 (decodeInit J) = .next s1 ∧ s1.Out = [A] ∧ s1.LastCode = A ∧
      TDGifDecompressInput s1.Private = (TGIF_OK, P, 3) ∧ 3 = P.RunningCode - 2 ∧
      P.Prefix (3 - P.DictBase) = NO_SUCH_CODE ∧
      decodeBody 5 2 s1 = .next s2 ∧ s2.Out = [A] ++ ([A] ++ [A]) ∧
      testdec file = some (TGIF_OK, 0, [A, A, A, A, A]) := by
  obtain ⟨m, hm, rfl⟩ : ∃ m, m < 16 ∧ S = 256 * (m + 1) := ⟨S / 256 - 1, by omega, by omega⟩
  have hC' : 1 ≤ ColorMap.ColorCount ∧ ColorMap.ColorCount ≤ 256 := by omega
  have hL : (256 * (m + 1)) &&& 0xFF00 ≠ 0 := by
    rw [sram_mask_valid _ hS.2.1 hS.2.2]; omega
  -- the encoder
  have henc := putLine_five_equal m hm A hA
  have hconv := convert_startHandle 5 1 (256 * (m + 1)) ColorMap [A, A, A, A, A] hL
  rw [hC] at hconv
  cases hx : TEGifPutLine (startHandle 5 1 2 (256 * (m + 1))) [A, A, A, A, A] with
  | none => rw [hx] at henc; simp at henc
  | some x =>
    rw [hx] at henc hconv
    simp only [Option.map_some', Option.some.injEq, Prod.mk.injEq] at henc hconv
    obtain ⟨x1, x2, x3⟩ := henc
    have hfile : convertFile 5 1 ColorMap (256 * (m + 1)) [A, A, A, A, A]
        = some (screenDescBytes 5 1 (256 * (m + 1)) ColorMap ++ [60 + A]) := by
      unfold convertFile
      rw [hconv]
      dsimp only
      rw [if_pos x1]
      show some (screenDescBytes 5 1 (256 * (m + 1)) ColorMap ++ x.2.Private.File) = _
      rw [x2]
    have hcodes : convertCodes 5 1 ColorMap (256 * (m + 1)) [A, A, A, A, A]
        = some [(A, 2), (3, 2), (3, 3)] := by
      unfold convertCodes
      rw [hconv]
      dsimp only
      rw [if_pos x1]
      show some x.2.Private.Log = _
      rw [x3]
    -- the stream and the decoder
    obtain ⟨hst, t1, t2, t3, t4, w1, w2, w3⟩ := five_equal_stream A hA
    have hb : ∀ b ∈ [60 + A], b < 256 := by
      intro b hb
      rw [List.mem_singleton] at hb
      omega
    obtain ⟨J, hJ, hinit⟩ := decode_start 5 1 (256 * (m + 1)) ColorMap [60 + A]
      [(A, A), (3, A)] [A, 3, 3] (by omega) (by omega) hC' hS (by simp) hb
    have hDs : ColorMap.ColorCount + min (256 * (m + 1) / 4) (1023 - ColorMap.ColorCount)
        ≤ 1023 := by
      have := Nat.min_le_right (256 * (m + 1) / 4) (1023 - ColorMap.ColorCount)
      omega
    have hN : [A, 3, 3].length ≤ min (256 * (m + 1) / 4) (1023 - ColorMap.ColorCount) := by
      rw [Nat.le_min]
      constructor
      · show 3 ≤ _; omega
      · show 3 ≤ _; omega
    rw [hC] at hinit hDs hN
    have hC2 : 1 ≤ 2 ∧ 2 ≤ 256 := by omega
    have hw0 : widthAt 2 0 = 2 := by decide
    have hw1 : widthAt 2 1 = 2 := by decide
    obtain ⟨s1, b1, hinv1⟩ := decodeBody_step 2 _ 5 _ _ J _ _ 0 0 (decodeInit J) hst
      (by show 0 < 3; omega) hN hC2 hDs hinit (by rw [hw0]; show 0 + 2 ≤ 8; omega)
      (t4 0 (by omega)) (by rw [t2]; show 1 ≤ 5; omega)
    have hav1 : 0 + widthAt 2 0 + widthAt 2 1 ≤ 8 * [60 + A].length := by
      rw [hw0, hw1]; show 0 + 2 + 2 ≤ 8; omega
    have hcode1 : (leValue [60 + A] / 2 ^ (0 + widthAt 2 0)) % 2 ^ widthAt 2 1 = 3 := by
      have := t4 1 (by omega)
      rw [w1] at this
      rw [hw0]
      exact this
    obtain ⟨P, c1, -, -, c4, -, c6, -, -, -, -, c11, -, -⟩ := decompressInput_code 2
      (min (256 * (m + 1) / 4) (1023 - 2)) 1 _ _ _ s1.Private hC2 hDs
      (by have : [A, 3, 3].length = 3 := rfl
          omega)
      hinv1.bits hinv1.rc hinv1.max1 hinv1.maxp hinv1.maxb hinv1.read hav1
    rw [hcode1] at c1
    obtain ⟨s2, b2, hinv2⟩ := decodeBody_step 2 _ 5 _ _ J _ _ 1 _ s1 hst
      (by show 1 < 3; omega) hN hC2 hDs hinv1 hav1 hcode1 (by rw [t3]; show 3 ≤ 5; omega)
    -- the whole run
    obtain ⟨r, e, out, d1, d2⟩ := testdec_stream 5 1 (256 * (m + 1)) ColorMap [60 + A]
      [(A, A), (3, A)] [A, 3, 3] (by omega) (by omega) hC' hS (by simp) hb
      (by rw [hC]; exact hst)
      (by rw [hC]
          constructor
          · show 3 ≤ _; omega
          · show 2 + 3 ≤ 1023; omega)
      (by rw [hC, t1]; rfl)
      (by rw [hC]; exact fun k hk _ => t4 k hk)
    rw [hC] at d2
    have hrun : testdec (screenDescBytes 5 1 (256 * (m + 1)) ColorMap ++ [60 + A])
        = some (TGIF_OK, 0, [A, A, A, A, A]) := by
      rcases d2 with ⟨-, d3, d4, d5⟩ | ⟨d3, -⟩
      · rw [d1, d3, d4, d5, t1]
      · rw [show [A, 3, 3].length = 3 from rfl, w3] at d3
        simp at d3
    refine ⟨_, J, s1, P, s2, hfile, hcodes, hJ, b1, ?_, ?_, c1, ?_, ?_, b2, ?_, hrun⟩
    · rw [hinv1.out, t2]
    · rw [hinv1.last]; rfl
    · rw [c11]
    · rw [c4, c6, hinv1.base, hinv1.pre]
      rfl
    · rw [hinv2.out, t3]

/-- C19 at the pixel value 1, the palette `palette2` and SRAM limit 512. -/
theorem C19_kwkwk_roundtrip_witness :
    ∃ file J s1 P s2,
      convertFile 5 1 palette2 512 [1, 1, 1, 1, 1] = some file ∧
      convertCodes 5 1 palette2 512 [1, 1, 1, 1, 1] = some [(1, 2), (3, 2), (3, 3)] ∧
      TDGifGetInfo (bufferOf file) (some zeroInfo) 1023 1023 file.length = (TGIF_OK, some J) ∧
      decodeBody 5 2 (decodeInit J) = .next s1 ∧ s1.Out = [1] ∧ s1.LastCode = 1 ∧
      TDGifDecompressInput s1.Private = (TGIF_OK, P, 3) ∧ 3 = P.RunningCode - 2 ∧
      P.Prefix (3 - P.DictBase) = NO_SUCH_CODE ∧
      decodeBody 5 2 s1 = .next s2 ∧ s2.Out = [1] ++ ([1] ++ [1]) ∧
      testdec file = some (TGIF_OK, 0, [1, 1, 1, 1, 1]) :=
  C19_kwkwk_roundtrip 1 512 palette2 (by decide) rfl (by decide)

/-! ## C21: the sizes of the decoder's dictionary -/

/-- C21: for every `Info` that a successful `TDGifGetInfo` produces,
`TDGifDecompress` starts with `DictBase = CodeCount + 1` (`CodeCount` the
first data byte, 0 standing for 256), `DictSize = min(SRAMLimit/4, 1024 -
DictBase)` and `MaxCodePoint = DictBase + DictSize - 1`; so the `DictSize * 4`
bytes it allocates are at most `SRAMLimit`, `DictSize >= 1` and
`MaxCodePoint <= 1023`. -/
theorem C21_decoder_dict_sizing (b : Nat → Nat) (I J : TGifInfo) (MaxW MaxH maxSz : Nat)
    (h : TDGifGetInfo b (some I) MaxW MaxH maxSz = (TGIF_OK, some J)) :
    (decodeInit J).Private.DictBase
      = (if TDGifReadByte J.Data 0 = 0 then 256 else TDGifReadByte J.Data 0) + 1 ∧
    (decodeInit J).Private.DictSize
      = min (J.SRAMLimit / 4) (1024 - (decodeInit J).Private.DictBase) ∧
    (decodeInit J).Private.MaxCodePoint
      = (decodeInit J).Private.DictBase + (decodeInit J).Private.DictSize - 1 ∧
    (decodeInit J).Private.DictSize * 4 ≤ J.SRAMLimit ∧
    1 ≤ (decodeInit J).Private.DictSize ∧
    (decodeInit J).Private.MaxCodePoint ≤ 1023 := by
  rw [getInfo_cases] at h
  have hne : TGIF_ERROR ≠ TGIF_OK := by decide
  split_ifs at h <;> simp only [Prod.mk.injEq, hne, false_and] at h
  obtain ⟨-, hJ⟩ := h
  simp only [Option.some.injEq] at hJ
  have hS : J.SRAMLimit = headerSRAMLimit b := by rw [← hJ]
  have hb0 := readByte_lt b 0
  have hsr : 256 ≤ J.SRAMLimit ∧ J.SRAMLimit ≤ 4096 := by
    rw [hS]
    unfold headerSRAMLimit
    rw [(byte_fields _ hb0).2.2]
    split_ifs <;> omega
  have hd := readByte_lt J.Data 0
  generalize hcc : (if TDGifReadByte J.Data 0 = 0 then 256 else TDGifReadByte J.Data 0) = CC
  have hCC : 1 ≤ CC ∧ CC ≤ 256 := by
    rw [← hcc]; split_ifs <;> omega
  have e1 : (decodeInit J).Private.DictBase = CC + 1 := by
    rw [← hcc]; rfl
  have e2 : (decodeInit J).Private.DictSize
      = (if J.SRAMLimit / 4 + (CC + 1) > LZ_MAX_CODE + 1 then LZ_MAX_CODE + 1 - (CC + 1)
         else J.SRAMLimit / 4) := by
    rw [← hcc]; rfl
  have e3 : (decodeInit J).Private.MaxCodePoint
      = ((decodeInit J).Private.DictBase + (decodeInit J).Private.DictSize - 1) % 65536 := rfl
  unfold LZ_MAX_CODE at e2
  rw [e3, e1, e2]
  refine ⟨rfl, ?_, ?_, ?_, ?_, ?_⟩ <;> split_ifs <;> omega

/-- C21 at the file `sample2x1`. -/
theorem C21_decoder_dict_sizing_witness :
    (decodeInit sample2x1Info).Private.DictBase
      = (if TDGifReadByte sample2x1Info.Data 0 = 0 then 256
         else TDGifReadByte sample2x1Info.Data 0) + 1 ∧
    (decodeInit sample2x1Info).Private.DictSize
      = min (sample2x1Info.SRAMLimit / 4) (1024 - (decodeInit sample2x1Info).Private.DictBase) ∧
    (decodeInit sample2x1Info).Private.MaxCodePoint
      = (decodeInit sample2x1Info).Private.DictBase
        + (decodeInit sample2x1Info).Private.DictSize - 1 ∧
    (decodeInit sample2x1Info).Private.DictSize * 4 ≤ sample2x1Info.SRAMLimit ∧
    1 ≤ (decodeInit sample2x1Info).Private.DictSize ∧
    (decodeInit sample2x1Info).Private.MaxCodePoint ≤ 1023 :=
  C21_decoder_dict_sizing (bufferOf sample2x1) zeroInfo sample2x1Info 1023 1023 10
    sample2x1_getInfo

/-! ## C22: the bytes `TEGifBufferedOutput` writes -/

set_option maxRecDepth 100000 in
/-- C22 fails: the flush of a buffer `Buf[0] = 2`, `Buf[1..2] = 7, 9` writes the
two bytes 7, 9 and no length byte; a buffer of 255 bytes that gets another
byte is written as 255 bytes, not 256; and the file of the 1x1 image ends in
the one data byte `00`, not in `01 00`. -/
theorem C22_no_length_byte :
    (TEGifBufferedOutput { TEGifOpenFileName.Private with Buf := [7, 9] } FLUSH_OUTPUT).File
      = [7, 9] ∧
    (TEGifBufferedOutput { TEGifOpenFileName.Private with Buf := List.replicate 255 5 } 9).File
      = List.replicate 255 5 ∧
    convertFile 1 1 palette1 256 [0] = some ([0x10, 0x01, 0x01, 0x01, 0x00, 0xF8, 0x01] ++ [0x00])
      := by
  decide

/-- Bytes handed to `TEGifBufferedOutput` one after the other. -/
theorem bufferedOutput_bytes :
    ∀ (bytes : List Nat) (P : TGifFilePrivateType), (∀ b ∈ bytes, b < 256) →
      (bytes.foldl TEGifBufferedOutput P).File ++ (bytes.foldl TEGifBufferedOutput P).Buf
        = P.File ++ P.Buf ++ bytes := by
  intro bytes
  induction bytes with
  | nil => intro P _; simp
  | cons b bytes ih =>
    intro P hb
    rw [List.foldl_cons, ih _ (fun x hx => hb x (List.mem_cons_of_mem _ hx)),
      (bufferedOutput_byte P b (hb b (List.mem_cons_self _ _))).1]
    simp

/-- C22, amended: each time `TEGifBufferedOutput` writes its buffer out (when
the buffer holds 255 bytes and another byte arrives, and on the flush) the
bytes written are the data bytes `Buf[1 .. Buf[0]]` alone, without the length
byte `Buf[0]`; a byte that arrives otherwise is only stored.  So any bytes
handed to it one after the other and then flushed reach the file as they
are, in order, with nothing between them. -/
theorem C22_flat_output (P : TGifFilePrivateType) (c : Nat) (bytes : List Nat) :
    (c = FLUSH_OUTPUT → (TEGifBufferedOutput P c).File = P.File ++ P.Buf) ∧
    (c ≠ FLUSH_OUTPUT → P.Buf.length = 255 →
      (TEGifBufferedOutput P c).File = P.File ++ P.Buf ∧
      (TEGifBufferedOutput P c).Buf = [c % 256]) ∧
    (c ≠ FLUSH_OUTPUT → P.Buf.length ≠ 255 →
      (TEGifBufferedOutput P c).File = P.File ∧
      (TEGifBufferedOutput P c).Buf = P.Buf ++ [c % 256]) ∧
    ((∀ b ∈ bytes, b < 256) →
      (TEGifBufferedOutput (bytes.foldl TEGifBufferedOutput P) FLUSH_OUTPUT).File
        = P.File ++ P.Buf ++ bytes) := by
  refine ⟨?_, ?_, ?_, ?_⟩
  · intro hc
    rw [hc]
    exact bufferedOutput_flush P
  · intro hc h255
    unfold TEGifBufferedOutput
    simp [hc, h255, InternalWrite]
  · intro hc h255
    unfold TEGifBufferedOutput
    simp [hc, h255]
  · intro hb
    rw [bufferedOutput_flush, bufferedOutput_bytes bytes P hb]

/-- C22, amended, at four bytes after an empty buffer. -/
theorem C22_flat_output_witness :
    (TEGifBufferedOutput ([1, 2, 3, 4].foldl TEGifBufferedOutput TEGifOpenFileName.Private)
      FLUSH_OUTPUT).File = [1, 2, 3, 4] :=
  (C22_flat_output TEGifOpenFileName.Private 0 [1, 2, 3, 4]).2.2.2 (by decide)

/-! ## C24: the encoder's `MaxCodePoint` -/

/-- C24, where the code departs from it: for two colours and SRAM limit 256
`TEGifPutScreenDesc` leaves `MaxCodePoint = 67` in the handle, and the value
of the claim, `min(1023, 2 + 1 + 256/4 - 1)`, the largest code the dictionary
of 64 entries holds, is 66. -/
theorem C24_max_code_point_67 :
    (TEGifPutScreenDesc TEGifOpenFileName 2 1 (some palette2) 256).2.Private.MaxCodePoint = 67 ∧
    min LZ_MAX_CODE (palette2.ColorCount + 1 + 256 / 4 - 1) = 66 := by
  decide

/-- What the statement of `TEGifSetupCompress` computes, the `- 1` of its
comment left out: `min(LZ_MAX_CODE, ColorCount + 1 + floor(SRAMLimit/4))`, for
every `ColorCount` in 1..256 and `SRAMLimit` a multiple of 256 in 256..4096,
and `TEGifPutScreenDesc` leaves that value in the handle.  It is one more than
the decoder's `MaxCodePoint` unless the cap 1023 applies. -/
theorem setupCompress_max_code_point (P : TGifFilePrivateType) (W H S : Nat)
    (ColorMap : TColorMapObject)
    (hC : 1 ≤ ColorMap.ColorCount ∧ ColorMap.ColorCount ≤ 256)
    (hS : 256 ≤ S ∧ S ≤ 4096 ∧ S % 256 = 0) (hP : P.ColorCount = ColorMap.ColorCount) :
    (TEGifSetupCompress P S).MaxCodePoint
      = min LZ_MAX_CODE (ColorMap.ColorCount + 1 + S / 4) ∧
    LZ_MAX_CODE = 1023 ∧
    (TEGifPutScreenDesc TEGifOpenFileName W H (some ColorMap) S).2.Private.MaxCodePoint
      = min LZ_MAX_CODE (ColorMap.ColorCount + 1 + S / 4) ∧
    ∀ J : TGifInfo, J.SRAMLimit = S → TDGifReadByte J.Data 0 = ColorMap.ColorCount % 256 →
      min LZ_MAX_CODE (ColorMap.ColorCount + 1 + S / 4)
        = min LZ_MAX_CODE ((decodeInit J).Private.MaxCodePoint + 1) := by
  have hmask := sram_mask_valid S hS.2.1 hS.2.2
  have hL : S &&& 0xFF00 ≠ 0 := by rw [hmask]; omega
  obtain ⟨G, e0, -, -, g3, -⟩ := putScreenDesc_state W H S ColorMap hL
  rw [hmask] at g3
  refine ⟨?_, rfl, ?_, ?_⟩
  · show (if P.ColorCount + 1 + S / 4 > LZ_MAX_CODE then LZ_MAX_CODE
      else P.ColorCount + 1 + S / 4) = _
    rw [hP]
    unfold LZ_MAX_CODE
    split_ifs <;> omega
  · rw [e0]
    show G.Private.MaxCodePoint = _
    rw [g3]
    unfold LZ_MAX_CODE
    split_ifs <;> omega
  · intro J h1 h2
    obtain ⟨-, -, -, d4⟩ := decodeInit_dict J ColorMap.ColorCount S hC ⟨hS.1, hS.2.1⟩ h1 h2
    rw [d4]
    unfold LZ_MAX_CODE
    omega

/-! ## C26, C29: images that fit the dictionary -/

/-- The encoder on a valid image with no more pixels than the dictionary has
entries writes no CLEAR code. -/
theorem encode_no_clear (W H S : Nat) (ColorMap : TColorMapObject) (Pixels : List Nat)
    (hW : 1 ≤ W ∧ W ≤ 1023) (hH : 1 ≤ H ∧ H ≤ 1023)
    (hC : 1 ≤ ColorMap.ColorCount ∧ ColorMap.ColorCount ≤ 256)
    (hS : 256 ≤ S ∧ S ≤ 4096 ∧ S % 256 = 0)
    (hlen : Pixels.length = W * H) (hpix : ∀ p ∈ Pixels, p < ColorMap.ColorCount)
    (hsmall : W * H ≤ S / 4 ∧ ColorMap.ColorCount + W * H ≤ 1023) :
    ∃ codes, convertCodes W H ColorMap S Pixels = some codes ∧
      ∀ q ∈ codes, q.1 ≠ ColorMap.ColorCount := by
  obtain ⟨G, D, cs, c, bs, e1, -, -, -, -, -, e7, -, e9, -⟩ :=
    encode_small W H S ColorMap Pixels hW hH hC hS hlen hpix hsmall
  have hst := streamOk_of_codesOk _ D cs c e9
  refine ⟨G.Private.Log, ?_, ?_⟩
  · unfold convertCodes
    rw [e1]
    dsimp only
    rw [if_pos rfl]
  · intro q hq
    have hq1 : q.1 ∈ G.Private.Log.map Prod.fst := List.mem_map_of_mem _ hq
    rw [e7] at hq1
    obtain ⟨k, hk, e⟩ := List.getElem_of_mem hq1
    have := (hst.code k hk).2
    rw [List.getD_eq_getElem _ _ hk, e] at this
    exact this

/-- C26 fails: no 64x1 pixel sequence over a palette of 16 colours (pixels
below 16) makes the encoder, run with SRAM limit 256, write a CLEAR code
(code 16). -/
theorem C26_no_clear_in_64 :
    ¬ ∃ (ColorMap : TColorMapObject) (Pixels : List Nat) (codes : List (Nat × Nat)),
      ColorMap.ColorCount = 16 ∧ Pixels.length = 64 ∧ (∀ p ∈ Pixels, p < 16) ∧
      convertCodes 64 1 ColorMap 256 Pixels = some codes ∧ 16 ∈ codes.map Prod.fst := by
  rintro ⟨ColorMap, Pixels, codes, hC, hlen, hpix, hcodes, hmem⟩
  obtain ⟨codes', e1, e2⟩ := encode_no_clear 64 1 256 ColorMap Pixels (by omega) (by omega)
    (by omega) (by omega) (by omega) (by rw [hC]; exact hpix) (by rw [hC]; omega)
  rw [hcodes, Option.some.injEq] at e1
  subst e1
  obtain ⟨q, hq, e⟩ := List.mem_map.1 hmem
  exact e2 q hq (by rw [e, hC])

set_option maxRecDepth 1000000 in
/-- C26, amended: there is a 66x1 pixel sequence over a palette of 16 colours
(pixels below 16) for which the encoder, run with SRAM limit 256 (`DictSize =
64`), writes a CLEAR code (code 16): the sequence `sample66x1`, whose 65 pairs
of neighbours are all different, so that every pixel after the first makes a
dictionary entry until the 64 entries are used up. -/
theorem C26_clear_in_66 :
    ∃ Pixels codes, Pixels.length = 66 ∧ (∀ p ∈ Pixels, p < 16) ∧
      convertCodes 66 1 palette16 256 Pixels = some codes ∧ 16 ∈ codes.map Prod.fst ∧
      codes.drop 64 = [(0, 7), (16, 7), (9, 5)] :=
  ⟨sample66x1, _, by decide, by decide, rfl, by decide, by decide⟩

/-- C29: for every valid image whose pixel count `W*H` is at most the
decoder's `DictSize = min(SRAMLimit/4, 1023 - ColorCount)`, both encoder calls
succeed and write no CLEAR code, `TDGifGetInfo` accepts the file and sets up
that `DictSize`, and decoding the file returns `TGIF_OK` with `Error = 0` and
hands the callback exactly the input pixels, in order. -/
theorem C29_roundtrip_below_capacity (W H S : Nat) (ColorMap : TColorMapObject)
    (Pixels : List Nat)
    (hW : 1 ≤ W ∧ W ≤ 1023) (hH : 1 ≤ H ∧ H ≤ 1023)
    (hC : 1 ≤ ColorMap.ColorCount ∧ ColorMap.ColorCount ≤ 256)
    (hS : 256 ≤ S ∧ S ≤ 4096 ∧ S % 256 = 0)
    (hlen : Pixels.length = W * H) (hpix : ∀ p ∈ Pixels, p < ColorMap.ColorCount)
    (hsmall : W * H ≤ min (S / 4) (1023 - ColorMap.ColorCount)) :
    ∃ file codes J, convertFile W H ColorMap S Pixels = some file ∧
      convertCodes W H ColorMap S Pixels = some codes ∧
      (∀ q ∈ codes, q.1 ≠ ColorMap.ColorCount) ∧
      TDGifGetInfo (bufferOf file) (some zeroInfo) 1023 1023 file.length = (TGIF_OK, some J) ∧
      (decodeInit J).Private.DictSize = min (S / 4) (1023 - ColorMap.ColorCount) ∧
      testdec file = some (TGIF_OK, 0, Pixels) := by
  have hsm : W * H ≤ S / 4 ∧ ColorMap.ColorCount + W * H ≤ 1023 := by
    rw [Nat.le_min] at hsmall
    omega
  obtain ⟨codes, c1, c2⟩ := encode_no_clear W H S ColorMap Pixels hW hH hC hS hlen hpix hsm
  obtain ⟨D, cs, bs, e1, e2, -, e4, e5, -⟩ :=
    decode_encoded W H S ColorMap Pixels hW hH hC hS hlen hpix hsm
  have hN1 : 1 ≤ cs.length := by rw [e2.len]; omega
  have hws := widthSum_ge ColorMap.ColorCount 2 (widthAt_two _ hC 0) cs.length
  obtain ⟨J, hJ, -, -, js, -, -, jc, -⟩ := getInfo_file W H S ColorMap bs hW hH hC hS (by omega)
  obtain ⟨-, -, d3, -⟩ := decodeInit_dict J ColorMap.ColorCount S hC ⟨hS.1, hS.2.1⟩ js jc
  exact ⟨_, codes, J, e1, c1, c2, hJ, d3, e5⟩

/-- C29 at a 2x2 image with two colours and SRAM limit 256. -/
theorem C29_roundtrip_below_capacity_witness :
    ∃ file codes J, convertFile 2 2 palette2 256 [0, 1, 1, 1] = some file ∧
      convertCodes 2 2 palette2 256 [0, 1, 1, 1] = some codes ∧
      (∀ q ∈ codes, q.1 ≠ palette2.ColorCount) ∧
      TDGifGetInfo (bufferOf file) (some zeroInfo) 1023 1023 file.length = (TGIF_OK, some J) ∧
      (decodeInit J).Private.DictSize = min (256 / 4) (1023 - palette2.ColorCount) ∧
      testdec file = some (TGIF_OK, 0, [0, 1, 1, 1]) :=
  C29_roundtrip_below_capacity 2 2 256 palette2 [0, 1, 1, 1] (by decide) (by decide)
    (by decide) (by decide) (by decide) (by decide) (by decide)

/-! ## C23: the widths of writer and reader -/

set_option maxRecDepth 1000000 in
/-- C23 fails on the code: for the 66x1 image `pixels66` over 63 colours with
SRAM limit 256 the encoder writes its codes 64, 65, 66 (the code 3, the CLEAR
code 63, the code 5) with 7, 8, 7 bits, and the decoder reads its codes 64,
65, 66 with 7, 7, 7 bits: the CLEAR code is written with 8 bits and read with
7. -/
theorem C23_width_mismatch :
    (convertCodes 66 1 palette63 256 pixels66).map (fun l => l.drop 64)
      = some [(3, 7), (63, 8), (5, 7)] ∧
    ((convertFile 66 1 palette63 256 pixels66).bind testdecWidths).map (fun l => l.drop 64)
      = some [7, 7, 7] := by
  decide

/-! ## The widths of the encoder, CLEAR codes included -/

theorem sinceClear_snoc (CC : Nat) (L : List (Nat × Nat)) (p : Nat × Nat) :
    sinceClear CC (L ++ [p]) = if p.1 = CC then 0 else sinceClear CC L + 1 := by
  unfold sinceClear
  rw [List.foldl_append]
  rfl

/-- A width of the schedule is the first width or the least that holds the
code count. -/
theorem widthAt_least (CC : Nat) :
    ∀ n, widthAt CC n = widthAt CC 0 ∨ 2 ^ (widthAt CC n - 1) < CC + 1 + n := by
  intro n
  induction n with
  | zero => exact Or.inl rfl
  | succ n ih =>
    rw [widthAt_succ]
    split_ifs with h
    · right
      rw [Nat.add_sub_cancel]
      omega
    · rcases ih with e | e
      · exact Or.inl e
      · right; omega

/-- The schedule in closed form: the least width that holds `RunningCode`,
and at least the first width. -/
theorem widthAt_clog (CC : Nat) (hC : 1 ≤ CC ∧ CC ≤ 256) (n : Nat) :
    widthAt CC n = max (Enc.BitSize (CC + 1)) (Nat.clog 2 (CC + 1 + n)) := by
  have h0 : widthAt CC 0 = Enc.BitSize (CC + 1) := rfl
  have hge := widthAt_ge CC n
  have hcov := widthAt_cover CC hC n
  have h1 : Nat.clog 2 (CC + 1 + n) ≤ widthAt CC n :=
    (Nat.le_pow_iff_clog_le (by decide)).1 hcov
  apply Nat.le_antisymm
  · rcases widthAt_least CC n with e | e
    · rw [e, h0]; exact Nat.le_max_left _ _
    · have := (Nat.pow_lt_iff_lt_clog (by decide)).1 e
      have : widthAt CC n ≤ Nat.clog 2 (CC + 1 + n) := by omega
      exact Nat.le_trans this (Nat.le_max_right _ _)
  · rw [← h0]
    exact Nat.max_le.2 ⟨hge, h1⟩

set_option maxRecDepth 1000000 in
theorem enc_bitSize_cover : ∀ m < 1024, m < 2 ^ Enc.BitSize m := by
  decide

/-- The three ways a pass of the loop of `TEGifCompressLine` ends: the key is
in the table; the current code is written and the key goes into a free cell;
the current code and a CLEAR code are written and the coder starts over. -/
theorem compressPixel_three (G G' : TGifFileType) (c p c' : Nat)
    (h : compressPixel G c p = some (G', c')) :
    (∃ i, Occupied G.Private.HashTable i ∧
        c' = HT_GET_CODE (G.Private.HashTable i) ∧ G' = G) ∨
    (G.Private.RunningCode < G.Private.MaxCodePoint ∧
      ∃ j, c' = p ∧
        G' = { G with Private :=
          { TEGifCompressOutput G.Private c with
            HashTable := fun i =>
              if i = j then HT_PUT_KEY ((c <<< 8) + p) ||| HT_PUT_CODE G.Private.RunningCode
              else G.Private.HashTable i
            RunningCode := G.Private.RunningCode + 1 } }) ∨
    (G.Private.MaxCodePoint ≤ G.Private.RunningCode ∧ c' = p ∧
      ∃ P2, P2 = TEGifCompressOutput (TEGifCompressOutput G.Private c)
          (TEGifCompressOutput G.Private c).ClearCode ∧
        G' = { G with
          MaxCodeUsed := (TEGifCompressOutput G.Private c).MaxCodePoint
          Private :=
            { P2 with
              RunningCode := P2.ClearCode + 1
              RunningBits := P2.InitCodeBits
              MaxCode1 := 1 <<< P2.InitCodeBits
              HashTable := _ClearHashTable } }) := by
  by_cases hroom : G.Private.RunningCode < G.Private.MaxCodePoint
  · rcases compressPixel_cases G G' c p c' h hroom with ⟨i, hi, -, hc, hG⟩ | ⟨j, -, hc, hG⟩
    · exact Or.inl ⟨i, hi, hc, hG⟩
    · exact Or.inr (Or.inl ⟨hroom, j, hc, hG⟩)
  · obtain ⟨-, o2, o3, -, -, -, -, -, -, -⟩ := compressOutput_fields G.Private c
    unfold compressPixel at h
    dsimp only at h
    cases hv : _ExistsHashTable G.Private.HashTable ((c <<< 8) + p) with
    | none => rw [hv] at h; simp at h
    | some v =>
      rw [hv] at h
      dsimp only at h
      by_cases hv0 : v ≥ 0
      · rw [if_pos hv0] at h
        simp only [Option.some.injEq, Prod.mk.injEq] at h
        left
        rcases existsProbe_found _ _ _ _ _ hv with e | ⟨i, hi, -, e⟩
        · omega
        · refine ⟨i, hi, ?_, h.1.symm⟩
          rw [← h.2, e]; rfl
      · rw [if_neg hv0] at h
        have hfull : (TEGifCompressOutput G.Private c).RunningCode
            ≥ (TEGifCompressOutput G.Private c).MaxCodePoint := by
          rw [o2, o3]; omega
        rw [if_pos hfull] at h
        simp only [Option.some.injEq, Prod.mk.injEq] at h
        right; right
        exact ⟨by omega, h.2.symm, _, rfl, h.1.symm⟩

/-- A log that follows the schedule still does after a code written with the
width of the schedule. -/
theorem log_snoc (CC : Nat) (L : List (Nat × Nat)) (q : Nat × Nat)
    (hL : ∀ k < L.length, (L.getD k (0, 0)).2 = widthAt CC (sinceClear CC (L.take k)))
    (hq : q.2 = widthAt CC (sinceClear CC L)) :
    ∀ k < (L ++ [q]).length,
      ((L ++ [q]).getD k (0, 0)).2 = widthAt CC (sinceClear CC ((L ++ [q]).take k)) := by
  intro k hk
  rw [List.length_append, List.length_singleton] at hk
  by_cases hkL : k < L.length
  · rw [List.getD_append _ _ _ _ hkL, List.take_append_of_le_length (by omega)]
    exact hL k hkL
  · have hkeq : k = L.length := by omega
    subst hkeq
    rw [List.getD_append_right _ _ _ _ (Nat.le_refl _), Nat.sub_self,
      List.take_append_of_le_length (Nat.le_refl _), List.take_length]
    exact hq

/-- One pass of the loop of `TEGifCompressLine` keeps the widths in step with
the log, whether or not it writes a CLEAR code. -/
theorem compressPixel_width (CC M : Nat) (G G' : TGifFileType) (c p c' : Nat)
    (hC : 1 ≤ CC ∧ CC ≤ 256) (hI : EncInv CC M G c) (hW : WidthInv CC G c) (hp : p < CC)
    (h : compressPixel G c p = some (G', c')) : WidthInv CC G' c' := by
  obtain ⟨i1, i2, i3, i4, i5, i6, -, -, -⟩ := hI
  unfold LZ_MAX_CODE at i5
  have hcl : c ≤ LZ_MAX_CODE := by unfold LZ_MAX_CODE; omega
  have hcf : c ≠ FLUSH_OUTPUT := by unfold FLUSH_OUTPUT LZ_MAX_CODE; omega
  obtain ⟨o1, o2, o3, o4, o5, -, -, -, -, o10⟩ := compressOutput_fields G.Private c
  rw [if_neg hcf] at o10
  obtain ⟨w1, w2⟩ := compressOutput_width G.Private c hcl
  have hn1 : sinceClear CC (G.Private.Log ++ [(c, G.Private.RunningBits)])
      = sinceClear CC G.Private.Log + 1 := by
    rw [sinceClear_snoc, if_neg hW.cur]
  have hb1 : (TEGifCompressOutput G.Private c).RunningBits
      = widthAt CC (sinceClear CC G.Private.Log + 1) := by
    rw [w1, widthAt_succ, hW.max1, hW.rc, hW.bits]
  have hm1 : (TEGifCompressOutput G.Private c).MaxCode1
      = 2 ^ (TEGifCompressOutput G.Private c).RunningBits := by
    rw [w1, w2, hW.max1]
    split_ifs <;> rfl
  have hlog1 := log_snoc CC G.Private.Log (c, G.Private.RunningBits) hW.log hW.bits
  rcases compressPixel_three G G' c p c' h with ⟨i, hi, hc, hG⟩ | ⟨-, j, hc, hG⟩ |
    ⟨-, hc, P2, hP2, hG⟩
  · subst hG
    refine ⟨?_, hW.tab, hW.rc, hW.bits, hW.max1, hW.init, hW.log⟩
    have := hW.tab i hi
    omega
  · subst hG hc
    refine ⟨by omega, ?_, ?_, ?_, hm1, ?_, ?_⟩
    · intro i hi
      show CC < HT_GET_CODE (if i = j then
        HT_PUT_KEY ((c <<< 8) + c') ||| HT_PUT_CODE G.Private.RunningCode
        else G.Private.HashTable i)
      by_cases hij : i = j
      · rw [if_pos hij, entry_code, Nat.mod_eq_of_lt (by omega)]; omega
      · rw [if_neg hij]
        apply hW.tab
        have hi' : HT_GET_KEY (if i = j then
            HT_PUT_KEY ((c <<< 8) + c') ||| HT_PUT_CODE G.Private.RunningCode
            else G.Private.HashTable i) ≠ 0xFFFFF := hi
        rw [if_neg hij] at hi'
        exact hi'
    · show G.Private.RunningCode + 1
        = CC + 1 + sinceClear CC (TEGifCompressOutput G.Private c).Log
      rw [o10, hn1, hW.rc]
      omega
    · show (TEGifCompressOutput G.Private c).RunningBits
        = widthAt CC (sinceClear CC (TEGifCompressOutput G.Private c).Log)
      rw [o10, hn1, hb1]
    · show (TEGifCompressOutput G.Private c).InitCodeBits = _
      rw [o5]; exact hW.init
    · show ∀ k < (TEGifCompressOutput G.Private c).Log.length, _
      rw [o10]
      exact hlog1
  · subst hG hc
    have hccl : (TEGifCompressOutput G.Private c).ClearCode ≤ LZ_MAX_CODE := by
      rw [o1, i1]; unfold LZ_MAX_CODE; omega
    have hccf : (TEGifCompressOutput G.Private c).ClearCode ≠ FLUSH_OUTPUT := by
      rw [o1, i1]; unfold FLUSH_OUTPUT LZ_MAX_CODE; omega
    obtain ⟨q1, -, -, -, q5, -, -, -, -, q10⟩ := compressOutput_fields
      (TEGifCompressOutput G.Private c) (TEGifCompressOutput G.Private c).ClearCode
    rw [← hP2] at q1 q5 q10
    rw [if_neg hccf, o10, o1, i1, hb1] at q10
    have hn2 : sinceClear CC P2.Log = 0 := by
      rw [q10, sinceClear_snoc, if_pos rfl]
    refine ⟨by omega, ?_, ?_, ?_, ?_, ?_, ?_⟩
    · intro i hi
      exact absurd hi (clear_not_occupied i)
    · show P2.ClearCode + 1 = CC + 1 + sinceClear CC P2.Log
      rw [hn2, q1, o1, i1]
    · show P2.InitCodeBits = widthAt CC (sinceClear CC P2.Log)
      rw [hn2, q5, o5]; exact hW.init
    · show 1 <<< P2.InitCodeBits = 2 ^ P2.InitCodeBits
      exact Nat.one_shiftLeft _
    · show P2.InitCodeBits = _
      rw [q5, o5]; exact hW.init
    · show ∀ k < P2.Log.length, _
      rw [q10]
      exact log_snoc CC _ _ hlog1 (by rw [hn1])

theorem compressLoop_width (CC M : Nat) (hC : 1 ≤ CC ∧ CC ≤ 256) :
    ∀ (l : List Nat) (G : TGifFileType) (c : Nat), EncInv CC M G c → WidthInv CC G c →
      (∀ p ∈ l, p < CC) →
      ∃ G' c', compressLoop G c l = some (G', c') ∧ EncInv CC M G' c' ∧ WidthInv CC G' c' := by
  intro l
  induction l with
  | nil => intro G c hI hW _; exact ⟨G, c, rfl, hI, hW⟩
  | cons p l ih =>
    intro G c hI hW hl
    have hp := hl p (List.mem_cons_self _ _)
    obtain ⟨G1, c1, e1, hI1⟩ := compressPixel_inv CC M G c p hI hp
    have hW1 := compressPixel_width CC M G G1 c p c1 hC hI hW hp e1
    obtain ⟨G2, c2, e2, hI2, hW2⟩ := ih G1 c1 hI1 hW1
      (fun q hq => hl q (List.mem_cons_of_mem _ hq))
    refine ⟨G2, c2, ?_, hI2, hW2⟩
    simp only [compressLoop, e1, e2]

theorem compressFinish_logEq (G : TGifFileType) (c : Nat) (hz : G.Private.PixelCount = 0)
    (hc : c ≤ LZ_MAX_CODE) :
    (compressFinish G c).2.Private.Log = G.Private.Log ++ [(c, G.Private.RunningBits)] := by
  have hcf : c ≠ FLUSH_OUTPUT := by unfold FLUSH_OUTPUT; omega
  obtain ⟨-, -, -, -, -, -, -, -, -, o10⟩ := compressOutput_fields
    { G.Private with CrntCode := c } c
  obtain ⟨-, -, -, -, -, -, -, -, -, q10⟩ := compressOutput_fields
    (TEGifCompressOutput { G.Private with CrntCode := c } c) FLUSH_OUTPUT
  rw [if_neg hcf] at o10
  rw [if_pos rfl, o10] at q10
  unfold compressFinish
  dsimp only
  rw [if_pos hz]
  split_ifs <;> exact q10

/-- The encoder on a valid image, pixel by pixel: after every pass of the
loop of `TEGifCompressLine` the invariants of the coder and of its widths
hold, and the log of the whole image follows the width schedule between
CLEAR codes. -/
theorem encode_widths (W H S : Nat) (ColorMap : TColorMapObject) (Pixels : List Nat)
    (hW : 1 ≤ W ∧ W ≤ 1023) (hH : 1 ≤ H ∧ H ≤ 1023)
    (hC : 1 ≤ ColorMap.ColorCount ∧ ColorMap.ColorCount ≤ 256)
    (hS : 256 ≤ S ∧ S ≤ 4096 ∧ S % 256 = 0)
    (hlen : Pixels.length = W * H) (hpix : ∀ p ∈ Pixels, p < ColorMap.ColorCount) :
    ∃ G0 G, TEGifPutScreenDesc TEGifOpenFileName W H (some ColorMap) S = (TGIF_OK, G0) ∧
      convert W H ColorMap S Pixels = some (TGIF_OK, G) ∧
      (∀ k < G.Private.Log.length, (G.Private.Log.getD k (0, 0)).2
        = widthAt ColorMap.ColorCount
            (sinceClear ColorMap.ColorCount (G.Private.Log.take k))) ∧
      ∀ p done rest, Pixels = p :: (done ++ rest) →
        ∃ G' c', compressLoop { G0 with Private := { G0.Private with PixelCount := 0 } } p done
            = some (G', c') ∧
          EncInv ColorMap.ColorCount (min LZ_MAX_CODE (ColorMap.ColorCount + 1 + S / 4)) G' c' ∧
          WidthInv ColorMap.ColorCount G' c' := by
  have hmask := sram_mask_valid S hS.2.1 hS.2.2
  have hL : S &&& 0xFF00 ≠ 0 := by rw [hmask]; omega
  obtain ⟨G0, e0, g1, g2, g3, g4, g5, g6, g7, -, g9⟩ := putScreenDesc_state W H S ColorMap hL
  obtain ⟨G0', e0', k1, k2, -⟩ := putScreenDesc_start W H S ColorMap hL
  rw [e0] at e0'
  have hGG : G0' = G0 := by
    simp only [Prod.mk.injEq, true_and] at e0'; exact e0'.symm
  subst hGG
  have k3 : G0'.Private.InitCodeBits = Enc.BitSize (ColorMap.ColorCount + 1) := by
    have := putScreenDesc_ok TEGifOpenFileName W H S ColorMap (by decide) hL
    rw [e0] at this
    simp only [Prod.mk.injEq, true_and] at this
    rw [this]
    rfl
  rw [hmask] at g3
  have hMeq : (if ColorMap.ColorCount + 1 + S / 4 > LZ_MAX_CODE then LZ_MAX_CODE
      else ColorMap.ColorCount + 1 + S / 4)
      = min LZ_MAX_CODE (ColorMap.ColorCount + 1 + S / 4) := by
    unfold LZ_MAX_CODE; split_ifs <;> omega
  rw [hMeq] at g3
  have hpos : 0 < W * H := Nat.mul_pos (by omega) (by omega)
  obtain ⟨p, rest, rfl⟩ : ∃ p rest, Pixels = p :: rest := by
    cases Pixels with
    | nil => simp at hlen; omega
    | cons p rest => exact ⟨p, rest, rfl⟩
  have hM : ColorMap.ColorCount + 1 ≤ min LZ_MAX_CODE (ColorMap.ColorCount + 1 + S / 4) ∧
      min LZ_MAX_CODE (ColorMap.ColorCount + 1 + S / 4) ≤ LZ_MAX_CODE := by
    unfold LZ_MAX_CODE; omega
  have hp0 := hpix p (List.mem_cons_self _ _)
  have hI := encInv_start ColorMap.ColorCount _ G0' p g1 g2 g3 g4 g5 hM hp0
  have hne : TGIF_OK ≠ TGIF_ERROR := by decide
  have hW0 : WidthInv ColorMap.ColorCount
      { G0' with Private := { G0'.Private with PixelCount := 0 } } p := by
    refine ⟨by omega, ?_, ?_, ?_, ?_, ?_, ?_⟩
    · intro i hi
      have hi' : Occupied G0'.Private.HashTable i := hi
      rw [g4] at hi'
      exact absurd hi' (clear_not_occupied i)
    · show G0'.Private.RunningCode = _ + 1 + sinceClear _ G0'.Private.Log
      rw [g2, g5]; rfl
    · show G0'.Private.RunningBits = widthAt _ (sinceClear _ G0'.Private.Log)
      rw [k1, g5]; rfl
    · show G0'.Private.MaxCode1 = 2 ^ G0'.Private.RunningBits
      rw [k2, k1, Nat.one_shiftLeft]
    · exact k3
    · intro k hk
      have hk' : k < G0'.Private.Log.length := hk
      rw [g5] at hk'
      simp at hk'
  have hI0 : EncInv ColorMap.ColorCount (min LZ_MAX_CODE (ColorMap.ColorCount + 1 + S / 4))
      { G0' with Private := { G0'.Private with PixelCount := 0 } } p :=
    encInv_count _ _ G0' p 0 hI
  have hz0 : G0'.Private.PixelCount - (p :: rest).length = 0 := by
    rw [g7, hlen]; omega
  obtain ⟨G1, c1, e1, hI1, hW1⟩ := compressLoop_width ColorMap.ColorCount _ hC rest _ p hI0 hW0
    (fun q hq => hpix q (List.mem_cons_of_mem _ hq))
  obtain ⟨n1, -, -⟩ := compressLoop_count rest _ G1 p c1 e1
    (by show G0'.MaxCodeUsed ≤ G0'.Private.MaxCodePoint
        rw [g9]; exact Nat.zero_le _)
  have hz : G1.Private.PixelCount = 0 := n1
  have hc1 : c1 ≤ LZ_MAX_CODE := by
    obtain ⟨-, -, -, i4, i5, i6, -⟩ := hI1
    omega
  have hok := (compressFinish_frame G1 c1).1
  refine ⟨G0', (compressFinish G1 c1).2, e0, ?_, ?_, ?_⟩
  · unfold convert
    rw [e0]
    simp only [hne, if_false]
    rw [putLine_fits G0' _ (by rw [g7, hlen]), hz0,
      compressLine_first { G0' with Private := { G0'.Private with PixelCount := 0 } } p rest g6,
      e1]
    show some (compressFinish G1 c1) = _
    rw [← hok]
  · rw [compressFinish_logEq G1 c1 hz hc1]
    exact log_snoc _ _ _ hW1.log hW1.bits
  · intro p' done rest' hsplit
    rw [List.cons.injEq] at hsplit
    obtain ⟨h1, h2⟩ := hsplit
    rw [← h1]
    exact compressLoop_width ColorMap.ColorCount _ hC done _ p hI0 hW0
      (fun q hq => hpix q (List.mem_cons_of_mem _
        (by rw [h2]; exact List.mem_append.2 (Or.inl hq))))

/-! ## C25: when the encoder widens its codes -/

theorem widthAt_first (CC : Nat) (hC : 1 ≤ CC ∧ CC ≤ 256) (n : Nat)
    (h : n < 2 ^ Enc.BitSize (CC + 1) - CC) : widthAt CC n = Enc.BitSize (CC + 1) := by
  rw [widthAt_clog CC hC n]
  have : Nat.clog 2 (CC + 1 + n) ≤ Enc.BitSize (CC + 1) :=
    (Nat.le_pow_iff_clog_le (by decide)).1 (by omega)
  omega

theorem widthAt_second (CC : Nat) (hC : 1 ≤ CC ∧ CC ≤ 256) (n : Nat)
    (h : n = 2 ^ Enc.BitSize (CC + 1) - CC) : widthAt CC n = Enc.BitSize (CC + 1) + 1 := by
  rw [widthAt_clog CC hC n]
  have hcov := enc_bitSize_cover (CC + 1) (by omega)
  have h1 : Nat.clog 2 (CC + 1 + n) ≤ Enc.BitSize (CC + 1) + 1 :=
    (Nat.le_pow_iff_clog_le (by decide)).1 (by rw [pow_succ]; omega)
  have h2 : Enc.BitSize (CC + 1) < Nat.clog 2 (CC + 1 + n) :=
    (Nat.pow_lt_iff_lt_clog (by decide)).1 (by omega)
  omega

/-- C25, the text as it stands fails: five equal pixels over two colours
(`ClearCode = 2`, first width 2) give three codes of widths 2, 2, 3, so after
`(1 << 2) - (ClearCode + 1) = 1` code the next code still has 2 bits. -/
theorem C25_second_code_not_wider :
    convertCodes 5 1 palette2 256 [0, 0, 0, 0, 0] = some [(0, 2), (3, 2), (3, 3)] ∧
    (1 <<< 2) - (palette2.ColorCount + 1) = 1 := by
  decide

/-- C25, as the code has it: for every valid image the encoder starts with
`RunningBits = InitCodeBits = BitSize(ClearCode + 1)`, and counting the codes
written from the stream start or from the last CLEAR, a code that follows
fewer than `(1 << RunningBits) - ClearCode` codes is written with `RunningBits`
bits and the code that follows exactly `(1 << RunningBits) - ClearCode` codes
is written with `RunningBits + 1` bits; in general the width of a code after
`n` codes is the larger of `RunningBits` and `ceil(log2(ClearCode + 1 + n))`. -/
theorem C25_escalation_instant (W H S : Nat) (ColorMap : TColorMapObject) (Pixels : List Nat)
    (hW : 1 ≤ W ∧ W ≤ 1023) (hH : 1 ≤ H ∧ H ≤ 1023)
    (hC : 1 ≤ ColorMap.ColorCount ∧ ColorMap.ColorCount ≤ 256)
    (hS : 256 ≤ S ∧ S ≤ 4096 ∧ S % 256 = 0)
    (hlen : Pixels.length = W * H) (hpix : ∀ p ∈ Pixels, p < ColorMap.ColorCount) :
    ∃ G0 codes, TEGifPutScreenDesc TEGifOpenFileName W H (some ColorMap) S = (TGIF_OK, G0) ∧
      G0.Private.ClearCode = ColorMap.ColorCount ∧
      G0.Private.RunningBits = Enc.BitSize (ColorMap.ColorCount + 1) ∧
      G0.Private.InitCodeBits = Enc.BitSize (ColorMap.ColorCount + 1) ∧
      convertCodes W H ColorMap S Pixels = some codes ∧
      ∀ k < codes.length,
        (sinceClear G0.Private.ClearCode (codes.take k)
            < (1 <<< G0.Private.RunningBits) - G0.Private.ClearCode →
          (codes.getD k (0, 0)).2 = G0.Private.RunningBits) ∧
        (sinceClear G0.Private.ClearCode (codes.take k)
            = (1 <<< G0.Private.RunningBits) - G0.Private.ClearCode →
          (codes.getD k (0, 0)).2 = G0.Private.RunningBits + 1) ∧
        (codes.getD k (0, 0)).2 = max G0.Private.RunningBits
          (Nat.clog 2 (G0.Private.ClearCode + 1
            + sinceClear G0.Private.ClearCode (codes.take k))) := by
  obtain ⟨G0, G, e0, e1, hlog, hpre⟩ := encode_widths W H S ColorMap Pixels hW hH hC hS hlen hpix
  have hpos : 0 < W * H := Nat.mul_pos (by omega) (by omega)
  obtain ⟨p, rest, rfl⟩ : ∃ p rest, Pixels = p :: rest := by
    cases Pixels with
    | nil => simp at hlen; omega
    | cons p rest => exact ⟨p, rest, rfl⟩
  obtain ⟨G', c', e2, hI, hWd⟩ := hpre p [] rest rfl
  simp only [compressLoop, Option.some.injEq, Prod.mk.injEq] at e2
  have hcc : G0.Private.ClearCode = ColorMap.ColorCount := by
    have := hI.1; rw [← e2.1] at this; exact this
  have hinit : G0.Private.InitCodeBits = Enc.BitSize (ColorMap.ColorCount + 1) := by
    have := hWd.init; rw [← e2.1] at this; exact this
  have hbits : G0.Private.RunningBits = Enc.BitSize (ColorMap.ColorCount + 1) := by
    have h1 := hWd.bits
    have h2 := hWd.rc
    have h3 := hI.2.2.1
    rw [← e2.1] at h1 h2
    have h4 : G0.Private.RunningCode = ColorMap.ColorCount + 1 := by
      have := (putScreenDesc_state W H S ColorMap (by
        rw [sram_mask_valid S hS.2.1 hS.2.2]; omega))
      obtain ⟨G9, e9, -, g2, -⟩ := this
      rw [e0] at e9
      simp only [Prod.mk.injEq, true_and] at e9
      rw [e9]; exact g2
    have h5 : sinceClear ColorMap.ColorCount G0.Private.Log = 0 := by
      have h2' : G0.Private.RunningCode
          = ColorMap.ColorCount + 1 + sinceClear ColorMap.ColorCount G0.Private.Log := h2
      omega
    have h1' : G0.Private.RunningBits
        = widthAt ColorMap.ColorCount (sinceClear ColorMap.ColorCount G0.Private.Log) := h1
    rw [h1', h5]; rfl
  refine ⟨G0, G.Private.Log, e0, hcc, hbits, hinit, ?_, ?_⟩
  · unfold convertCodes
    rw [e1]
    rfl
  · intro k hk
    rw [hcc, hbits, Nat.one_shiftLeft, hlog k hk]
    exact ⟨fun h => widthAt_first _ hC _ h, fun h => widthAt_second _ hC _ h,
      widthAt_clog _ hC _⟩

/-- Five equal pixels over two colours: the third code follows
`(1 << 2) - ClearCode = 2` codes and has 3 bits. -/
theorem C25_escalation_instant_witness :
    ∃ G0 codes, TEGifPutScreenDesc TEGifOpenFileName 5 1 (some palette2) 256 = (TGIF_OK, G0) ∧
      G0.Private.ClearCode = palette2.ColorCount ∧
      G0.Private.RunningBits = Enc.BitSize (palette2.ColorCount + 1) ∧
      G0.Private.InitCodeBits = Enc.BitSize (palette2.ColorCount + 1) ∧
      convertCodes 5 1 palette2 256 [0, 0, 0, 0, 0] = some codes ∧
      ∀ k < codes.length,
        (sinceClear G0.Private.ClearCode (codes.take k)
            < (1 <<< G0.Private.RunningBits) - G0.Private.ClearCode →
          (codes.getD k (0, 0)).2 = G0.Private.RunningBits) ∧
        (sinceClear G0.Private.ClearCode (codes.take k)
            = (1 <<< G0.Private.RunningBits) - G0.Private.ClearCode →
          (codes.getD k (0, 0)).2 = G0.Private.RunningBits + 1) ∧
        (codes.getD k (0, 0)).2 = max G0.Private.RunningBits
          (Nat.clog 2 (G0.Private.ClearCode + 1
            + sinceClear G0.Private.ClearCode (codes.take k))) :=
  C25_escalation_instant 5 1 256 palette2 [0, 0, 0, 0, 0] (by decide) (by decide) (by decide)
    (by decide) (by decide) (by decide)

/-! ## C27: the widths follow `RunningCode` -/

theorem clog_step (R w : Nat) :
    Nat.clog 2 R ≤ Nat.clog 2 (R + 1) ∧ Nat.clog 2 (R + 1) ≤ Nat.clog 2 R + 1 ∧
    (2 ^ w < R + 1 ↔ w < Nat.clog 2 (R + 1)) ∧ (R ≤ 2 ^ w ↔ Nat.clog 2 R ≤ w) := by
  refine ⟨Nat.clog_mono_right 2 (Nat.le_succ R), ?_, Nat.pow_lt_iff_lt_clog (by decide),
    Nat.le_pow_iff_clog_le (by decide)⟩
  have h1 : R ≤ 2 ^ Nat.clog 2 R := Nat.le_pow_clog (by decide) R
  have h2 : 0 < 2 ^ Nat.clog 2 R := Nat.pos_pow_of_pos _ (by decide)
  exact (Nat.le_pow_iff_clog_le (by decide)).1 (by rw [pow_succ]; omega)

theorem clamp_step (R w w0 mb : Nat) (h : w = clampBits w0 mb (Nat.clog 2 R)) :
    (if 2 ^ w < R + 1 ∧ w < mb then w + 1 else w) = clampBits w0 mb (Nat.clog 2 (R + 1)) := by
  obtain ⟨c1, c2, c3, c4⟩ := clog_step R w
  unfold clampBits at h ⊢
  by_cases hh : 2 ^ w < R + 1 ∧ w < mb
  · rw [if_pos hh]
    have h5 := c3.1 hh.1
    have h6 := hh.2
    clear c3 c4 hh
    omega
  · rw [if_neg hh]
    have h5 : ¬ (w < Nat.clog 2 (R + 1) ∧ w < mb) := fun x => hh ⟨c3.2 x.1, x.2⟩
    clear c3 c4 hh
    omega

theorem decodeUpdate_width (s : DState) (c cc : Nat) :
    widthFields (decodeUpdate s c cc).state.Private = widthFields s.Private := by
  generalize h : decodeUpdate s c cc = r
  unfold decodeUpdate at h
  dsimp only at h
  repeat' split at h
  all_goals (subst h; simp [DResult.state, widthFields])

theorem decodeTrace_width (PC : Nat) (s s' : DState) (c cc : Nat)
    (h : decodeTrace PC s c cc = .next s') :
    widthFields s'.Private = widthFields s.Private := by
  unfold decodeTrace at h
  dsimp only at h
  split at h
  · exact absurd h (by simp)
  · rename_i s1 cp hf
    obtain ⟨-, -, g3⟩ := traceFirst_state s s1 c cc cp hf
    split at h
    · exact absurd h (by simp)
    · split at h
      · exact absurd h (by simp)
      · split at h
        · exact absurd h (by simp)
        · have u := congrArg (fun r => widthFields r.state.Private) h
          dsimp only at u
          rw [decodeUpdate_width] at u
          rw [← g3]
          exact u.symm

theorem decWidthInv_le (CC : Nat) (Q : TDGifPrivateType) (h : DecWidthInv CC Q) :
    Q.RunningBits ≤ 13 := by
  obtain ⟨⟨h1, -⟩, h2, h3, -⟩ := h
  have := dec_bitSize_le Q.MaxCodePoint
  unfold clampBits at h1
  omega

theorem decompressInput_width (CC : Nat) (Q : TDGifPrivateType) (h : DecWidthInv CC Q) :
    DecWidthInv CC (TDGifDecompressInput Q).2.1 := by
  have hle := decWidthInv_le CC Q h
  obtain ⟨⟨h1, h1'⟩, h2, h3, h4⟩ := h
  have hf := unpackCode_frame Q Q.RunningBits
  unfold TDGifDecompressInput
  rcases hu : unpackCode Q Q.RunningBits with ⟨r1, P, c1⟩
  rw [hu] at hf
  simp only [dictFields, Prod.mk.injEq] at hf
  obtain ⟨-, -, f3, f4, f5, -, -, f8, f9, f10⟩ := hf
  have hP : DecWidthInv CC P := by
    unfold DecWidthInv DecBitsOk
    rw [f3, f4, f5, f8, f9, f10]
    exact ⟨⟨h1, h1'⟩, h2, h3, h4⟩
  dsimp only
  split_ifs with hr hlt hb
  · exact hP
  · unfold DecWidthInv DecBitsOk
    dsimp only
    rw [f3, f4, f5, f8, f9, f10]
    rw [f3, f4, f8, f10, h1'] at hb
    have hmb := dec_bitSize_le Q.MaxCodePoint
    have key := clamp_step Q.RunningCode Q.RunningBits Q.InitCodeBits
      (Dec.BitSize Q.MaxCodePoint) h1
    rw [Nat.one_shiftLeft] at hb
    rw [if_pos (by rw [← h2]; exact ⟨by omega, hb.2⟩)] at key
    refine ⟨⟨key, ?_⟩, h2, h3, h4⟩
    rw [h1', Nat.one_shiftLeft, Nat.one_shiftLeft, Nat.shiftLeft_eq, pow_succ]
    have : 2 ^ Q.RunningBits * 2 ≤ 2 ^ 14 := by
      rw [← pow_succ]
      exact Nat.pow_le_pow_right (by decide) (by omega)
    omega
  · unfold DecWidthInv DecBitsOk
    dsimp only
    rw [f3, f4, f5, f8, f9, f10]
    rw [f3, f4, f8, f10, h1'] at hb
    have key := clamp_step Q.RunningCode Q.RunningBits Q.InitCodeBits
      (Dec.BitSize Q.MaxCodePoint) h1
    rw [Nat.one_shiftLeft] at hb
    rw [if_neg (by rw [← h2]; intro hh; exact hb ⟨by omega, hh.2⟩)] at key
    exact ⟨⟨key, h1'⟩, h2, h3, h4⟩
  · exact hP

theorem decWidthInv_of_fields (CC : Nat) (Q Q' : TDGifPrivateType)
    (hf : widthFields Q' = widthFields Q) (h : DecWidthInv CC Q) : DecWidthInv CC Q' := by
  simp only [widthFields, Prod.mk.injEq] at hf
  obtain ⟨f1, f2, f3, f4, f5, f6⟩ := hf
  unfold DecWidthInv DecBitsOk at h ⊢
  rw [f1, f2, f3, f4, f5, f6]
  exact h

theorem decodeBody_width (PC CC : Nat) (s s' : DState) (hP : DecWidthInv CC s.Private)
    (h : decodeBody PC CC s = .next s') : DecWidthInv CC s'.Private := by
  have hin := decompressInput_width CC s.Private hP
  rcases hd : TDGifDecompressInput s.Private with ⟨r, P, c⟩
  rw [hd] at hin
  unfold decodeBody at h
  rw [hd] at h
  dsimp only at h hin
  split_ifs at h with hr hc hl
  · simp only [DResult.next.injEq] at h
    subst h
    obtain ⟨⟨h1, h1'⟩, h2, h3, h4⟩ := hin
    have h5 : Nat.clog 2 (CC + 1) ≤ P.InitCodeBits :=
      (Nat.le_pow_iff_clog_le (by decide)).1 h4
    refine ⟨⟨?_, ?_⟩, h2, h3, h4⟩
    · show P.InitCodeBits = clampBits P.InitCodeBits (Dec.BitSize P.MaxCodePoint)
        (Nat.clog 2 (CC + 1))
      unfold clampBits
      omega
    · show (1 <<< P.InitCodeBits) % 65536 = 1 <<< P.InitCodeBits
      rw [Nat.one_shiftLeft]
      have : 2 ^ P.InitCodeBits ≤ 2 ^ 13 := Nat.pow_le_pow_right (by decide) h3
      omega
  · have u := congrArg (fun r => widthFields r.state.Private) h
    dsimp only at u
    rw [decodeUpdate_width] at u
    exact decWidthInv_of_fields CC P _ u.symm hin
  · exact decWidthInv_of_fields CC P _
      (decodeTrace_width PC { s with Private := P } s' c _ h) hin

theorem decodeLoop_width (PC CC : Nat) :
    ∀ (n : Nat) (s0 s : DState), DecWidthInv CC s0.Private → decodeLoop PC CC n s0 = .fuel s →
      DecWidthInv CC s.Private := by
  intro n
  induction n with
  | zero =>
    intro s0 s hP h
    unfold decodeLoop at h
    split_ifs at h
    simp only [DResult.fuel.injEq] at h
    subst h
    exact hP
  | succ n ih =>
    intro s0 s hP h
    unfold decodeLoop at h
    split_ifs at h with hlt
    rcases hbody : decodeBody PC CC s0 with s1 | ⟨r, s1⟩ | s1 | s1
    · rw [hbody] at h
      exact ih s1 s (decodeBody_width PC CC s0 s1 hP hbody) h
    · rw [hbody] at h; exact absurd h (by simp)
    · rw [hbody] at h; exact absurd h (by simp)
    · exact absurd hbody (decodeBody_kind PC CC s0 s1)

theorem decodeInit_width (Info : TGifInfo) :
    DecWidthInv (decodeInit Info).Private.ClearCode (decodeInit Info).Private := by
  have hb := readByte_lt Info.Data 0
  have hcc : (decodeInit Info).Private.ClearCode
      = if TDGifReadByte Info.Data 0 = 0 then 256 else TDGifReadByte Info.Data 0 := rfl
  have hcc' : (decodeInit Info).Private.ClearCode + 1 < 1024 := by
    rw [hcc]; split_ifs <;> omega
  have hcov := dec_bitSize_cover _ hcc'
  have hi : (decodeInit Info).Private.InitCodeBits
      = Dec.BitSize ((decodeInit Info).Private.ClearCode + 1) := rfl
  have hle := dec_bitSize_le ((decodeInit Info).Private.ClearCode + 1)
  have h5 : Nat.clog 2 ((decodeInit Info).Private.ClearCode + 1)
      ≤ Dec.BitSize ((decodeInit Info).Private.ClearCode + 1) :=
    (Nat.le_pow_iff_clog_le (by decide)).1 (by omega)
  refine ⟨⟨?_, ?_⟩, rfl, by rw [hi]; exact hle, by rw [hi]; omega⟩
  · show Dec.BitSize ((decodeInit Info).Private.ClearCode + 1)
      = clampBits (Dec.BitSize ((decodeInit Info).Private.ClearCode + 1))
          (Dec.BitSize (decodeInit Info).Private.MaxCodePoint)
          (Nat.clog 2 ((decodeInit Info).Private.ClearCode + 1))
    unfold clampBits
    omega
  · show (1 <<< Dec.BitSize ((decodeInit Info).Private.ClearCode + 1)) % 65536
      = 1 <<< Dec.BitSize ((decodeInit Info).Private.ClearCode + 1)
    rw [Nat.one_shiftLeft]
    have : 2 ^ Dec.BitSize ((decodeInit Info).Private.ClearCode + 1) ≤ 2 ^ 13 :=
      Nat.pow_le_pow_right (by decide) hle
    omega

theorem encBitsOk_of_inv (CC M : Nat) (hC : 1 ≤ CC ∧ CC ≤ 256) (G : TGifFileType) (c : Nat)
    (hI : EncInv CC M G c) (hW : WidthInv CC G c) : EncBitsOk G.Private := by
  obtain ⟨i1, i2, i3, i4, i5, -⟩ := hI
  have hcov := enc_bitSize_cover M (by unfold LZ_MAX_CODE at i5; omega)
  have h1 : Nat.clog 2 G.Private.RunningCode ≤ Enc.BitSize M :=
    (Nat.le_pow_iff_clog_le (by decide)).1 (by omega)
  refine ⟨?_, by rw [hW.max1, Nat.one_shiftLeft]⟩
  rw [hW.bits, widthAt_clog CC hC, hW.init, i2, ← hW.rc]
  have h0 : widthAt CC 0 = Enc.BitSize (CC + 1) := rfl
  rw [h0]
  unfold clampBits
  omega

theorem clog_two_five : Nat.clog 2 5 = 3 :=
  Nat.le_antisymm ((Nat.le_pow_iff_clog_le (by decide)).1 (by decide))
    ((Nat.pow_lt_iff_lt_clog (by decide)).1 (by decide))

set_option maxRecDepth 100000 in
/-- C27, the text as it stands fails when `RunningCode` is a power of two: on
the image 2x1 with pixels 0, 1 over two colours the encoder after its second
pixel, and the decoder of `sample2x1` after its first code, have
`RunningCode = 4` and `RunningBits = 2` with `InitCodeBits = 2` and
`BitSize(MaxCodePoint) = 7`, while `ceil(log2(4 + 1))` clamped to `[2, 7]`
is 3. -/
theorem C27_running_code_four :
    (compressLoop
        { (TEGifPutScreenDesc TEGifOpenFileName 2 1 (some palette2) 256).2 with
          Private :=
            { (TEGifPutScreenDesc TEGifOpenFileName 2 1 (some palette2) 256).2.Private with
              PixelCount := 0 } } 0 [1]).map
      (fun x => (x.1.Private.RunningCode, x.1.Private.RunningBits, x.1.Private.InitCodeBits,
        Enc.BitSize x.1.Private.MaxCodePoint, x.1.Private.MaxCode1)) = some (4, 2, 2, 7, 4) ∧
    ((TDGifDecompressInput (decodeInit sample2x1Info).Private).2.1.RunningCode,
      (TDGifDecompressInput (decodeInit sample2x1Info).Private).2.1.RunningBits,
      (TDGifDecompressInput (decodeInit sample2x1Info).Private).2.1.InitCodeBits,
      Dec.BitSize (TDGifDecompressInput (decodeInit sample2x1Info).Private).2.1.MaxCodePoint,
      (TDGifDecompressInput (decodeInit sample2x1Info).Private).2.1.MaxCode1)
      = (4, 2, 2, 7, 4) ∧
    clampBits 2 7 (Nat.clog 2 (4 + 1)) = 3 :=
  ⟨by decide, by decide, by rw [clog_two_five]; decide⟩

/-! ## C28: the hash table of the encoder -/

theorem insertProbe_path (HTable : TGifHashTableType) :
    ∀ (fuel h0 j : Nat), h0 < 8192 → insertProbe HTable fuel h0 = some j →
      ∃ d < fuel, j = (h0 + d) % 8192 ∧ ∀ e < d, Occupied HTable ((h0 + e) % 8192) := by
  intro fuel
  induction fuel with
  | zero => intro h0 j _ h; simp [insertProbe] at h
  | succ fuel ih =>
    intro h0 j hh h
    unfold insertProbe at h
    split_ifs at h with hocc
    · rw [key_mask_mod] at h
      obtain ⟨d, hd, e1, e2⟩ := ih ((h0 + 1) % 8192) j (Nat.mod_lt _ (by decide)) h
      refine ⟨d + 1, by omega, ?_, ?_⟩
      · rw [e1, Nat.mod_add_mod]; congr 1; omega
      · intro e he
        cases e with
        | zero => rw [Nat.add_zero, Nat.mod_eq_of_lt hh]; exact hocc
        | succ e =>
          have := e2 e (by omega)
          rw [Nat.mod_add_mod] at this
          rw [show h0 + (e + 1) = h0 + 1 + e by omega]
          exact this
    · simp only [Option.some.injEq] at h
      subst h
      exact ⟨0, by omega, by rw [Nat.add_zero, Nat.mod_eq_of_lt hh], fun e he => by omega⟩

/-- A key that sits on the probe path behind occupied cells only is found. -/
theorem existsProbe_hit (HTable : TGifHashTableType) (Key : Nat) :
    ∀ (fuel h0 d : Nat), d < fuel → h0 < 8192 →
      (∀ e ≤ d, Occupied HTable ((h0 + e) % 8192)) →
      Key = HT_GET_KEY (HTable ((h0 + d) % 8192)) →
      ∃ i, Occupied HTable i ∧ Key = HT_GET_KEY (HTable i) ∧
        existsProbe HTable Key fuel h0 = some ((HT_GET_CODE (HTable i) : Nat) : Int) := by
  intro fuel
  induction fuel with
  | zero => intro h0 d hd; omega
  | succ fuel ih =>
    intro h0 d hd hh hocc hkey
    have h0occ : Occupied HTable h0 := by
      have := hocc 0 (Nat.zero_le _)
      rw [Nat.add_zero, Nat.mod_eq_of_lt hh] at this
      exact this
    have h0occ' : HT_GET_KEY (HTable h0) ≠ 0xFFFFF := h0occ
    unfold existsProbe
    rw [if_pos h0occ']
    by_cases hk : Key = HT_GET_KEY (HTable h0)
    · rw [if_pos hk]
      exact ⟨h0, h0occ, hk, rfl⟩
    · rw [if_neg hk, key_mask_mod]
      cases d with
      | zero =>
        rw [Nat.add_zero, Nat.mod_eq_of_lt hh] at hkey
        exact absurd hkey hk
      | succ d =>
        refine ih ((h0 + 1) % 8192) d (by omega) (Nat.mod_lt _ (by decide)) ?_ ?_
        · intro e he
          have := hocc (e + 1) (by omega)
          rw [Nat.mod_add_mod, show h0 + 1 + e = h0 + (e + 1) by omega]
          exact this
        · rw [Nat.mod_add_mod, show h0 + 1 + d = h0 + (d + 1) by omega]
          exact hkey

theorem entry_occupied (Key Code : Nat) (hK : Key < 0xFFFFF) :
    HT_GET_KEY (HT_PUT_KEY Key ||| HT_PUT_CODE Code) ≠ 0xFFFFF := by
  rw [entry_key Key Code (by omega)]
  omega

theorem tableInv_clear : TableInv _ClearHashTable [] :=
  ⟨fun i h => absurd h (clear_not_occupied i), fun p hp => absurd hp (List.not_mem_nil p),
    ⟨[], Nat.le_refl _, fun i h => absurd h (clear_not_occupied i)⟩,
    fun p hp => absurd hp (List.not_mem_nil p)⟩

/-- One `_InsertHashTable` on a table with a free cell: the probe ends and
the table holds one pair more. -/
theorem tableInv_insert (T : TGifHashTableType) (kvs : List (Nat × Nat)) (k v : Nat)
    (hT : TableInv T kvs) (hlen : kvs.length < 8192) (hk : k < 0xFFFFF) :
    ∃ T', _InsertHashTable T k v = some T' ∧ TableInv T' (kvs ++ [(k, v)]) := by
  obtain ⟨L, hL, hcov⟩ := hT.count
  obtain ⟨j, hj⟩ := insertProbe_some T L k (by omega) hcov
  have hfree := insertProbe_free T _ _ j hj
  obtain ⟨d, hd, e1, e2⟩ := insertProbe_path T _ _ j (keyItem_lt k) hj
  unfold HT_SIZE at hd
  refine ⟨fun i => if i = j then HT_PUT_KEY k ||| HT_PUT_CODE v else T i, ?_, ?_, ?_, ?_, ?_⟩
  · unfold _InsertHashTable
    rw [hj]
  · intro i hi
    by_cases hij : i = j
    · refine ⟨(k, v), List.mem_append.2 (Or.inr (List.mem_singleton.2 rfl)), ?_⟩
      simp only [hij, if_true]
    · have hi' : Occupied T i := by
        unfold Occupied at hi ⊢
        simp only [hij, if_false] at hi
        exact hi
      obtain ⟨p, hp, e⟩ := hT.cells i hi'
      refine ⟨p, List.mem_append.2 (Or.inl hp), ?_⟩
      simp only [hij, if_false]
      exact e
  · intro p hp
    rcases List.mem_append.1 hp with hp | hp
    · obtain ⟨dp, hdp, f1, f2⟩ := hT.path p hp
      have hoccp : Occupied T ((KeyItem p.1 + dp) % 8192) := by
        unfold Occupied
        rw [f1]
        exact entry_occupied p.1 p.2 (hT.keys p hp)
      have hnp : (KeyItem p.1 + dp) % 8192 ≠ j := fun h => hfree (h ▸ hoccp)
      refine ⟨dp, hdp, ?_, ?_⟩
      · simp only [hnp, if_false]
        exact f1
      · intro e he
        have hocc := f2 e he
        have hne : (KeyItem p.1 + e) % 8192 ≠ j := fun h => hfree (h ▸ hocc)
        unfold Occupied at hocc ⊢
        simp only [hne, if_false]
        exact hocc
    · rw [List.mem_singleton] at hp
      subst hp
      refine ⟨d, hd, ?_, ?_⟩
      · simp only [e1, if_true]
      · intro e he
        have hocc := e2 e he
        have hne : (KeyItem k + e) % 8192 ≠ j := fun h => hfree (h ▸ hocc)
        unfold Occupied at hocc ⊢
        simp only [hne, if_false]
        exact hocc
  · refine ⟨j :: L, by simp; omega, ?_⟩
    intro i hi
    by_cases hij : i = j
    · rw [hij]; exact List.mem_cons_self _ _
    · have hi' : Occupied T i := by
        unfold Occupied at hi ⊢
        simp only [hij, if_false] at hi
        exact hi
      exact List.mem_cons_of_mem _ (hcov i hi')
  · intro p hp
    rcases List.mem_append.1 hp with hp | hp
    · exact hT.keys p hp
    · rw [List.mem_singleton] at hp
      subst hp
      exact hk

theorem insertMany_inv : ∀ (rest : List (Nat × Nat)) (T : TGifHashTableType)
    (kvs : List (Nat × Nat)), TableInv T kvs → (kvs ++ rest).length < 8192 →
    (∀ p ∈ rest, p.1 < 0xFFFFF) →
    ∃ T', insertMany T rest = some T' ∧ TableInv T' (kvs ++ rest) := by
  intro rest
  induction rest with
  | nil =>
    intro T kvs hT _ _
    exact ⟨T, rfl, by rw [List.append_nil]; exact hT⟩
  | cons p rest ih =>
    intro T kvs hT hlen hkeys
    rw [List.length_append, List.length_cons] at hlen
    obtain ⟨T1, e1, hT1⟩ := tableInv_insert T kvs p.1 p.2 hT (by omega)
      (hkeys p (List.mem_cons_self _ _))
    obtain ⟨T2, e2, hT2⟩ := ih T1 (kvs ++ [p]) hT1
      (by rw [List.length_append, List.length_append, List.length_singleton]; omega)
      (fun q hq => hkeys q (List.mem_cons_of_mem _ hq))
    refine ⟨T2, ?_, ?_⟩
    · unfold insertMany
      rw [e1]
      exact e2
    · rw [List.append_assoc] at hT2
      exact hT2

/-- Lookups in a table that holds the pairs of `kvs`, with pairwise distinct
keys and codes below 4096. -/
theorem tableInv_lookup (T : TGifHashTableType) (kvs : List (Nat × Nat))
    (hT : TableInv T kvs) (hlen : kvs.length < 8192)
    (hnd : (kvs.map Prod.fst).Nodup) (hcodes : ∀ p ∈ kvs, p.2 < 4096) :
    (∀ p ∈ kvs, _ExistsHashTable T p.1 = some ((p.2 : Nat) : Int)) ∧
    (∀ k, k ∉ kvs.map Prod.fst → _ExistsHashTable T k = some (-1)) := by
  obtain ⟨L, hL, hcov⟩ := hT.count
  have hkeyOf : ∀ i, Occupied T i → ∃ p ∈ kvs, HT_GET_KEY (T i) = p.1 ∧
      HT_GET_CODE (T i) = p.2 := by
    intro i hi
    obtain ⟨p, hp, e⟩ := hT.cells i hi
    refine ⟨p, hp, ?_, ?_⟩
    · rw [e, entry_key p.1 p.2 (by have := hT.keys p hp; omega)]
    · rw [e, entry_code, Nat.mod_eq_of_lt (hcodes p hp)]
  constructor
  · intro p hp
    obtain ⟨d, hd, f1, f2⟩ := hT.path p hp
    have hkp := hT.keys p hp
    have hoccd : Occupied T ((KeyItem p.1 + d) % 8192) := by
      unfold Occupied
      rw [f1]
      exact entry_occupied p.1 p.2 hkp
    obtain ⟨i, hi, hki, hv⟩ := existsProbe_hit T p.1 HT_SIZE (KeyItem p.1) d hd
      (keyItem_lt p.1)
      (fun e he => by
        rcases Nat.lt_or_eq_of_le he with h | h
        · exact f2 e h
        · rw [h]; exact hoccd)
      (by rw [f1, entry_key p.1 p.2 (by omega)])
    obtain ⟨q, hq, g1, g2⟩ := hkeyOf i hi
    have hpq : q = p := by
      have h1 : q.1 = p.1 := by rw [← g1, ← hki]
      exact (List.inj_on_of_nodup_map hnd hq hp h1)
    unfold _ExistsHashTable
    rw [hv, g2, hpq]
  · intro k hk
    obtain ⟨v, hv⟩ := existsProbe_some T L k (by omega) hcov
    rcases existsProbe_found T k _ _ v hv with h | ⟨i, hi, hki, -⟩
    · rw [hv, h]
    · obtain ⟨q, hq, g1, -⟩ := hkeyOf i hi
      exact absurd (List.mem_map.2 ⟨q, hq, by rw [← g1, ← hki]⟩) hk

theorem exists_clear (k : Nat) : _ExistsHashTable _ClearHashTable k = some (-1) := by
  have h := (tableInv_lookup _ClearHashTable [] tableInv_clear (by decide) List.nodup_nil
    (fun p hp => absurd hp (List.not_mem_nil p))).2 k (by simp)
  exact h

/-- C28: from a cleared table, `_InsertHashTable` on fewer than 8192 pairs
with pairwise distinct keys below `0xFFFFF` and codes below 4096 ends every
time (the run gives a table), a further insertion would find its cell, and
then `_ExistsHashTable` ends on every key, with the inserted code for an
inserted key and -1 for any other key; on the cleared table every lookup
gives -1. -/
theorem C28_hash_table (kvs : List (Nat × Nat)) (hlen : kvs.length < 8192)
    (hnd : (kvs.map Prod.fst).Nodup)
    (hkv : ∀ p ∈ kvs, p.1 < 0xFFFFF ∧ p.2 < 4096) :
    (∃ T, insertMany _ClearHashTable kvs = some T ∧
      (∀ p ∈ kvs, _ExistsHashTable T p.1 = some ((p.2 : Nat) : Int)) ∧
      (∀ k, k ∉ kvs.map Prod.fst → _ExistsHashTable T k = some (-1)) ∧
      (∀ k, ∃ j, insertProbe T HT_SIZE (KeyItem k) = some j)) ∧
    (∀ k, _ExistsHashTable _ClearHashTable k = some (-1)) := by
  obtain ⟨T, e, hT⟩ := insertMany_inv kvs _ClearHashTable [] tableInv_clear
    (by rw [List.nil_append]; exact hlen) (fun p hp => (hkv p hp).1)
  rw [List.nil_append] at hT
  obtain ⟨l1, l2⟩ := tableInv_lookup T kvs hT hlen hnd (fun p hp => (hkv p hp).2)
  obtain ⟨L, hL, hcov⟩ := hT.count
  exact ⟨⟨T, e, l1, l2, fun k => insertProbe_some T L k (by omega) hcov⟩, exists_clear⟩

/-- Two keys with the same hash, 1 and `0x2003`, and a third one. -/
theorem C28_hash_table_witness :
    (∃ T, insertMany _ClearHashTable [(1, 300), (0x2003, 301), (7, 4095)] = some T ∧
      (∀ p ∈ [(1, 300), (0x2003, 301), (7, 4095)], _ExistsHashTable T p.1 = some ((p.2 : Nat) : Int)) ∧
      (∀ k, k ∉ [(1, 300), (0x2003, 301), (7, 4095)].map Prod.fst →
        _ExistsHashTable T k = some (-1)) ∧
      (∀ k, ∃ j, insertProbe T HT_SIZE (KeyItem k) = some j)) ∧
    (∀ k, _ExistsHashTable _ClearHashTable k = some (-1)) :=
  C28_hash_table [(1, 300), (0x2003, 301), (7, 4095)] (by decide) (by decide) (by decide)

/-! ## C30: a uniform image that fills the dictionary -/

theorem flatten_rows (l : List Nat) :
    ∀ n, (List.replicate n l).flatten.length = n * l.length ∧
      ∀ q ∈ (List.replicate n l).flatten, q ∈ l := by
  intro n
  induction n with
  | zero => simp
  | succ n ih =>
    rw [List.replicate_succ, List.flatten_cons, List.length_append, ih.1]
    refine ⟨by rw [Nat.succ_mul]; omega, ?_⟩
    intro q hq
    rcases List.mem_append.1 hq with h | h
    · exact h
    · exact ih.2 q h

theorem replicate_rows : 0 :: List.replicate 64 0
    ++ (List.replicate 32 (List.replicate 65 0)).flatten = List.replicate 2145 0 := by
  apply List.eq_replicate_iff.2
  obtain ⟨h1, h2⟩ := flatten_rows (List.replicate 65 0) 32
  constructor
  · rw [List.length_append, List.length_cons, List.length_replicate, h1, List.length_replicate]
  · intro q hq
    rcases List.mem_append.1 hq with h | h
    · exact List.eq_of_mem_replicate (show q ∈ List.replicate 65 0 from h)
    · exact List.eq_of_mem_replicate (h2 q h)

set_option maxRecDepth 10000000 in
theorem putLines_65x33 :
    (putLines (TEGifPutScreenDesc TEGifOpenFileName 65 33 (some palette2) 256).2
        (List.replicate 33 (List.replicate 65 0))).map
      (fun x => (x.1, x.2.Private.File, x.2.Private.Log.length, x.2.Private.Log.drop 62))
      = some (TGIF_OK, file65x33, 65, [(64, 7), (65, 7), (66, 7)]) := by
  decide

theorem convert_65x33 :
    ∃ G, convert 65 33 palette2 256 (List.replicate 2145 0) = some (TGIF_OK, G) ∧
      G.Private.File = file65x33 ∧ G.Private.Log.length = 65 ∧
      G.Private.Log.drop 62 = [(64, 7), (65, 7), (66, 7)] := by
  have hL : 256 &&& 0xFF00 ≠ 0 := by decide
  obtain ⟨G0, e0, g1, g2, g3, g4, g5, g6, g7, -, -⟩ := putScreenDesc_state 65 33 256 palette2 hL
  have hI := encInv_start palette2.ColorCount _ G0 0 g1 g2 g3 g4 g5 (by decide) (by decide)
  obtain ⟨f1, f2⟩ := flatten_rows (List.replicate 65 0) 32
  obtain ⟨G', e1, e2⟩ := putLines_joined _ _ G0 g6 (List.replicate 32 (List.replicate 65 0)) 0
    (List.replicate 64 0) hI
    (fun l hl => by rw [List.eq_of_mem_replicate hl]; exact List.cons_ne_nil _ _)
    (by rw [g7, f1, List.length_cons, List.length_replicate, List.length_replicate])
    (fun q hq => by rw [List.eq_of_mem_replicate hq]; decide)
    (fun q hq => by rw [List.eq_of_mem_replicate (f2 q hq)]; decide)
  have hd := putLines_65x33
  rw [e0] at hd
  have e2' : putLines G0 (List.replicate 33 (List.replicate 65 0)) = some (TGIF_OK, G') := e2
  rw [e2'] at hd
  simp only [Option.map_some', Option.some.injEq, Prod.mk.injEq, true_and] at hd
  rw [replicate_rows] at e1
  refine ⟨G', ?_, hd.1, hd.2.1, hd.2.2⟩
  unfold convert
  rw [e0]
  have hne : TGIF_OK ≠ TGIF_ERROR := by decide
  simp only [hne, if_false]
  exact e1

theorem getInfo_65x33 :
    TDGifGetInfo (bufferOf file65x33) (some zeroInfo) 1023 1023 52
      = (TGIF_OK, some info65x33) := by
  rfl

/-- Fuel spent before a state the loop reaches can be added to the fuel from
that state on. -/
theorem decodeLoop_add (PC CC : Nat) :
    ∀ (n m : Nat) (s0 s : DState), decodeLoop PC CC n s0 = .fuel s →
      decodeLoop PC CC (n + m) s0 = decodeLoop PC CC m s := by
  intro n
  induction n with
  | zero =>
    intro m s0 s h
    unfold decodeLoop at h
    split_ifs at h
    simp only [DResult.fuel.injEq] at h
    subst h
    rw [Nat.zero_add]
  | succ n ih =>
    intro m s0 s h
    unfold decodeLoop at h
    split_ifs at h with hlt
    rw [show n + 1 + m = (n + m) + 1 by omega]
    rcases hbody : decodeBody PC CC s0 with s1 | ⟨r, s1⟩ | s1 | s1
    · rw [hbody] at h
      have := ih m s1 s h
      rw [decodeLoop, if_pos hlt, hbody]
      exact this
    · rw [hbody] at h; exact absurd h (by simp)
    · rw [hbody] at h; exact absurd h (by simp)
    · exact absurd hbody (decodeBody_kind PC CC s0 s1)

set_option maxRecDepth 10000000 in
set_option maxHeartbeats 4000000 in
set_option synthInstance.maxSize 2048 in
set_option synthInstance.maxHeartbeats 400000 in
theorem decode_65x33_pass :
    (match decodeLoop 2145 2 64 (decodeInit info65x33) with
     | .fuel s =>
       (match decodeBody 2145 2 s with
        | .ret r s' =>
          some (s.i, r, s'.Private.Info.Error, s'.StackPtr, s'.Private.DictSize)
        | _ => none)
     | _ => none)
      = some (2080, TGIF_ERROR, D_TGIF_ERR_IMAGE_DEFECT, 64, 64) := by
  decide

/-- C30 fails on the code: the encoder turns the 65x33 image of pixels 0 over
two colours, SRAM limit 256, into `file65x33` (65 codes, the last one 66, no
CLEAR), and the decoder returns `TGIF_ERROR` with `IMAGE_DEFECT` on that file.
At the top of its 65th pass it has put out 2080 pixels; the code of that
pass, 66, stands for 65 pixels, its trace leaves `StackPtr = 64`, which is
`DictSize`, and the check `StackPtr >= DictSize` rejects it. -/
theorem C30_uniform_image_defect :
    convertFile 65 33 palette2 256 (List.replicate 2145 0) = some file65x33 ∧
    (convertCodes 65 33 palette2 256 (List.replicate 2145 0)).map
      (fun l => (l.length, l.drop 62)) = some (65, [(64, 7), (65, 7), (66, 7)]) ∧
    TDGifGetInfo (bufferOf file65x33) (some zeroInfo) 1023 1023 file65x33.length
      = (TGIF_OK, some info65x33) ∧
    (testdec file65x33).map (fun x => (x.1, x.2.1))
      = some (TGIF_ERROR, D_TGIF_ERR_IMAGE_DEFECT) ∧
    ∃ s s', decodeLoop 2145 2 64 (decodeInit info65x33) = .fuel s ∧ s.i = 2080 ∧
      decodeBody 2145 2 s = .ret TGIF_ERROR s' ∧
      s'.Private.Info.Error = D_TGIF_ERR_IMAGE_DEFECT ∧
      s'.StackPtr = 64 ∧ s'.Private.DictSize = 64 := by
  obtain ⟨G, e1, e2, e3, e4⟩ := convert_65x33
  have hpass := decode_65x33_pass
  have hpc : info65x33.Width * info65x33.Height % 2 ^ 32 = 2145 := by decide
  have hcc : (decodeInit info65x33).Private.ClearCode = 2 := by decide
  have hf : 4 * info65x33.MaxSz + 1 = 64 + 113 := by decide
  have hdec : TDGifDecompress info65x33 true
      = decodeLoop 2145 2 (64 + 113) (decodeInit info65x33) := by
    unfold TDGifDecompress
    dsimp only
    rw [if_neg (by decide), hpc, hcc, hf]
  have hlen : file65x33.length = 52 := by decide
  have hne : TGIF_OK ≠ TGIF_ERROR := by decide
  cases hfuel : decodeLoop 2145 2 64 (decodeInit info65x33) with
  | fuel s =>
    rw [hfuel] at hpass
    dsimp only at hpass
    cases hbody : decodeBody 2145 2 s with
    | ret r s' =>
      rw [hbody] at hpass
      simp only [Option.some.injEq, Prod.mk.injEq] at hpass
      obtain ⟨p1, p2, p3, p4, p5⟩ := hpass
      refine ⟨?_, ?_, ?_, ?_, s, s', rfl, p1, by rw [hbody, p2], p3, p4, p5⟩
      · unfold convertFile
        rw [e1]
        simp only [if_true]
        rw [e2]
      · unfold convertCodes
        rw [e1]
        simp only [if_true, Option.map_some']
        rw [e3, e4]
      · rw [hlen]
        exact getInfo_65x33
      · unfold testdec
        rw [hlen, getInfo_65x33]
        simp only [hne, if_false]
        rw [hdec, decodeLoop_add 2145 2 64 113 _ s hfuel, decodeLoop,
          if_pos (by rw [p1]; decide), hbody]
        simp only [Option.map_some']
        rw [p2, p3]
    | next s' => rw [hbody] at hpass; exact absurd hpass (by simp)
    | fault s' => rw [hbody] at hpass; exact absurd hpass (by simp)
    | fuel s' => rw [hbody] at hpass; exact absurd hpass (by simp)
  | next s => rw [hfuel] at hpass; exact absurd hpass (by simp)
  | ret r s => rw [hfuel] at hpass; exact absurd hpass (by simp)
  | fault s => rw [hfuel] at hpass; exact absurd hpass (by simp)

/-! ## C31: array indices on corrupt streams -/

set_option maxRecDepth 100000 in
/-- C31 fails on the code, on two files that `TDGifGetInfo` accepts.  On
`sampleHighCode` (`DictBase = 257`, `DictSize = 64`) the first code is 511,
above the clear code 256, and `Prefix[CrntCode - DictBase]` is read at index
254.  On `sampleFirstCode` (`DictBase = 3`, `DictSize = 64`) the first code is
3, its `Prefix` cell 0 holds `NO_SUCH_CODE`, and with `RunningCode - 2 = 2`
the write to `Suffix[(RunningCode - 2) - DictBase]` is at index -1.  The
model ends both runs at the access. -/
theorem C31_index_outside_tables :
    (TDGifGetInfo (bufferOf sampleHighCode) (some zeroInfo) 1023 1023 sampleHighCode.length
        = (TGIF_OK, some sampleHighCodeInfo) ∧
      (TDGifDecompressInput (decodeInit sampleHighCodeInfo).Private).1 = TGIF_OK ∧
      (TDGifDecompressInput (decodeInit sampleHighCodeInfo).Private).2.2 = 511 ∧
      (decodeInit sampleHighCodeInfo).Private.ClearCode = 256 ∧
      (decodeInit sampleHighCodeInfo).Private.DictBase = 257 ∧
      (decodeInit sampleHighCodeInfo).Private.DictSize = 64 ∧
      511 - 257 = 254 ∧
      cell (decodeInit sampleHighCodeInfo).Private.DictSize 511
        (decodeInit sampleHighCodeInfo).Private.DictBase = none ∧
      (match TDGifDecompress sampleHighCodeInfo true with
       | .fault s => some (s.i, s.Out)
       | _ => none) = some (0, [])) ∧
    (TDGifGetInfo (bufferOf sampleFirstCode) (some zeroInfo) 1023 1023 sampleFirstCode.length
        = (TGIF_OK, some sampleFirstCodeInfo) ∧
      (TDGifDecompressInput (decodeInit sampleFirstCodeInfo).Private).1 = TGIF_OK ∧
      (TDGifDecompressInput (decodeInit sampleFirstCodeInfo).Private).2.2 = 3 ∧
      (decodeInit sampleFirstCodeInfo).Private.ClearCode = 2 ∧
      (decodeInit sampleFirstCodeInfo).Private.DictBase = 3 ∧
      (decodeInit sampleFirstCodeInfo).Private.DictSize = 64 ∧
      (decodeInit sampleFirstCodeInfo).Private.Prefix (3 - 3) = NO_SUCH_CODE ∧
      (TDGifDecompressInput (decodeInit sampleFirstCodeInfo).Private).2.1.RunningCode - 2 = 2 ∧
      cell (decodeInit sampleFirstCodeInfo).Private.DictSize 2
        (decodeInit sampleFirstCodeInfo).Private.DictBase = none ∧
      (match TDGifDecompress sampleFirstCodeInfo true with
       | .fault s => some (s.i, s.Out)
       | _ => none) = some (0, [])) :=
  ⟨⟨rfl, by decide, by decide, by decide, by decide, by decide, by decide, by decide,
      by decide⟩,
    ⟨rfl, by decide, by decide, by decide, by decide, by decide, by decide, by decide,
      by decide, by decide⟩⟩

/-! ## C32: the bytes the decoder reads -/

theorem input_reData (P : TDGifPrivateType) (C D : Nat → Nat) (hD : AgreeData P D) :
    TDGifInput (reDataP P C D)
      = ((TDGifInput P).1, reDataP (TDGifInput P).2.1 C D, (TDGifInput P).2.2) := by
  unfold TDGifInput
  by_cases h : P.ReadOffset ≥ P.Info.MaxSz
  · have h' : (reDataP P C D).ReadOffset ≥ (reDataP P C D).Info.MaxSz := h
    rw [if_pos h, if_pos h']
    rfl
  · have h' : ¬ (reDataP P C D).ReadOffset ≥ (reDataP P C D).Info.MaxSz := h
    rw [if_neg h, if_neg h']
    have e : TDGifReadByte (reDataP P C D).Info.Data (reDataP P C D).ReadOffset
        = TDGifReadByte P.Info.Data P.ReadOffset := hD P.ReadOffset (by omega)
    rw [e]
    rfl

/-- A byte that `TDGifInput` hands out lies below `MaxSz`, and the call
leaves `Info` alone. -/
theorem input_ok (P P' : TDGifPrivateType) (r byte : Nat)
    (h : TDGifInput P = (r, P', byte)) (hr : r ≠ TGIF_ERROR) :
    P.ReadOffset < P.Info.MaxSz ∧ byte = TDGifReadByte P.Info.Data P.ReadOffset ∧
    P'.Info = P.Info ∧ P'.ReadOffset = P.ReadOffset + 1 := by
  unfold TDGifInput at h
  split_ifs at h with h1
  · simp only [Prod.mk.injEq] at h
    exact absurd h.1.symm hr
  · simp only [Prod.mk.injEq] at h
    obtain ⟨-, h2, h3⟩ := h
    subst h2
    exact ⟨by omega, h3.symm, rfl, rfl⟩

theorem readBits_reData (w : Nat) (C D : Nat → Nat) :
    ∀ (k : Nat) (P : TDGifPrivateType), AgreeData P D →
      readBits w k (reDataP P C D) = ((readBits w k P).1, reDataP (readBits w k P).2 C D) := by
  intro k
  induction k with
  | zero => intro P _; rfl
  | succ k ih =>
    intro P hD
    unfold readBits
    have hs : (reDataP P C D).CrntShiftState = P.CrntShiftState := rfl
    rw [hs]
    split_ifs with h1
    · rw [input_reData P C D hD]
      rcases hin : TDGifInput P with ⟨r, P1, byte⟩
      dsimp only
      by_cases hr : r = TGIF_ERROR
      · rw [if_pos hr, if_pos hr]
      · rw [if_neg hr, if_neg hr]
        obtain ⟨-, -, e3, -⟩ := input_ok P P1 r byte hin hr
        have hD1 : AgreeData P1 D := by
          unfold AgreeData
          rw [e3]
          exact hD
        exact ih
          { P1 with
            CrntShiftDWord := P1.CrntShiftDWord |||
              (((if P1.CrntShiftState ≥ 8 then (byte <<< 8) % 2 ^ 32 else byte)
                <<< (if P1.CrntShiftState ≥ 8 then P1.CrntShiftState - 8
                     else P1.CrntShiftState)) % 2 ^ 32)
            CrntShiftState := (P1.CrntShiftState + 8) % 256 } hD1
    · rfl

theorem unpackCode_reData (w : Nat) (C D : Nat → Nat) (P : TDGifPrivateType)
    (hD : AgreeData P D) :
    unpackCode (reDataP P C D) w
      = ((unpackCode P w).1, reDataP (unpackCode P w).2.1 C D, (unpackCode P w).2.2) := by
  unfold unpackCode
  have hs : (reDataP P C D).CrntShiftState = P.CrntShiftState := rfl
  rw [hs, readBits_reData w C D _ P hD]
  rcases hrb : readBits w (w - P.CrntShiftState) P with ⟨r, P1⟩
  dsimp only
  split_ifs <;> rfl

theorem decompressInput_reData (C D : Nat → Nat) (P : TDGifPrivateType)
    (hD : AgreeData P D) :
    TDGifDecompressInput (reDataP P C D)
      = ((TDGifDecompressInput P).1, reDataP (TDGifDecompressInput P).2.1 C D,
          (TDGifDecompressInput P).2.2) := by
  unfold TDGifDecompressInput
  have hs : (reDataP P C D).RunningBits = P.RunningBits := rfl
  rw [hs, unpackCode_reData _ C D P hD]
  rcases hu : unpackCode P P.RunningBits with ⟨r, P1, c⟩
  simp only [reDataP]
  split_ifs <;> rfl

theorem prefixCharLoop_reData (C D : Nat → Nat) (P : TDGifPrivateType) (cc : Nat) :
    ∀ (k c : Nat), prefixCharLoop (reDataP P C D) cc k c = prefixCharLoop P cc k c := by
  intro k
  induction k with
  | zero => intro c; rfl
  | succ k ih =>
    intro c
    rw [prefixCharLoop, prefixCharLoop]
    have e1 : (reDataP P C D).MaxCodePoint = P.MaxCodePoint := rfl
    have e2 : (reDataP P C D).DictSize = P.DictSize := rfl
    have e3 : (reDataP P C D).DictBase = P.DictBase := rfl
    have e4 : (reDataP P C D).Prefix = P.Prefix := rfl
    rw [e1, e2, e3, e4]
    split_ifs
    · rfl
    · cases cell P.DictSize c P.DictBase with
      | none => rfl
      | some j => exact ih _
    · rfl

theorem getPrefixChar_reData (C D : Nat → Nat) (P : TDGifPrivateType) (c cc : Nat) :
    TDGifGetPrefixChar (reDataP P C D) c cc = TDGifGetPrefixChar P c cc :=
  prefixCharLoop_reData C D P cc _ c

theorem traceLoop_reData (C D : Nat → Nat) (P : TDGifPrivateType) (Suffix : Nat → Nat)
    (cc : Nat) :
    ∀ (k : Nat) (Stack : Nat → Nat) (sp cp : Nat),
      traceLoop (reDataP P C D) Suffix cc k Stack sp cp = traceLoop P Suffix cc k Stack sp cp := by
  intro k
  induction k with
  | zero => intro Stack sp cp; rfl
  | succ k ih =>
    intro Stack sp cp
    rw [traceLoop, traceLoop]
    have e1 : (reDataP P C D).MaxCodePoint = P.MaxCodePoint := rfl
    have e2 : (reDataP P C D).DictSize = P.DictSize := rfl
    have e3 : (reDataP P C D).DictBase = P.DictBase := rfl
    have e4 : (reDataP P C D).Prefix = P.Prefix := rfl
    rw [e1, e2, e3, e4]
    split_ifs
    · cases cell P.DictSize sp 0 with
      | none => rfl
      | some t =>
        cases cell P.DictSize cp P.DictBase with
        | none => rfl
        | some j => exact ih _ _ _
    · rfl

theorem getPrefixChar_upd (s : DState) (C D : Nat → Nat) (f : Nat → Nat) (c cc : Nat) :
    TDGifGetPrefixChar { (reData s C D).Private with Prefix := f } c cc
      = TDGifGetPrefixChar { s.Private with Prefix := f } c cc :=
  getPrefixChar_reData C D { s.Private with Prefix := f } c cc

theorem getPrefixChar_reData' (s : DState) (C D : Nat → Nat) (c cc : Nat) :
    TDGifGetPrefixChar (reData s C D).Private c cc = TDGifGetPrefixChar s.Private c cc :=
  getPrefixChar_reData C D s.Private c cc

theorem decodeUpdate_reData (C D : Nat → Nat) (s : DState) (c cc : Nat) :
    decodeUpdate (reData s C D) c cc = (decodeUpdate s c cc).reData C D := by
  unfold decodeUpdate
  dsimp only
  simp only [getPrefixChar_upd]
  have e1 : (reData s C D).LastCode = s.LastCode := rfl
  have e2 : (reData s C D).Private.DictSize = s.Private.DictSize := rfl
  have e3 : (reData s C D).Private.RunningCode = s.Private.RunningCode := rfl
  have e4 : (reData s C D).Private.DictBase = s.Private.DictBase := rfl
  have e5 : (reData s C D).Private.Prefix = s.Private.Prefix := rfl
  simp only [e1, e2, e3, e4, e5]
  repeat' (first | rfl | split)

theorem traceFirst_reData (C D : Nat → Nat) (s : DState) (c cc : Nat) :
    traceFirst (reData s C D) c cc
      = (traceFirst s c cc).map (fun x => (reData x.1 C D, x.2)) := by
  unfold traceFirst
  dsimp only
  simp only [getPrefixChar_reData']
  have e1 : (reData s C D).LastCode = s.LastCode := rfl
  have e2 : (reData s C D).Private.DictSize = s.Private.DictSize := rfl
  have e3 : (reData s C D).Private.RunningCode = s.Private.RunningCode := rfl
  have e4 : (reData s C D).Private.DictBase = s.Private.DictBase := rfl
  have e5 : (reData s C D).Private.Prefix = s.Private.Prefix := rfl
  have e6 : (reData s C D).StackPtr = s.StackPtr := rfl
  simp only [e1, e2, e3, e4, e5, e6]
  repeat' (first | rfl | split)

theorem traceLoop_reData' (C D : Nat → Nat) (s : DState) (cc k : Nat) (Stack : Nat → Nat)
    (sp cp : Nat) :
    traceLoop (reData s C D).Private (reData s C D).Suffix cc k Stack sp cp
      = traceLoop s.Private s.Suffix cc k Stack sp cp :=
  traceLoop_reData C D s.Private s.Suffix cc k Stack sp cp

theorem decodeTrace_reData (PC : Nat) (C D : Nat → Nat) (s : DState) (c cc : Nat) :
    decodeTrace PC (reData s C D) c cc = (decodeTrace PC s c cc).reData C D := by
  unfold decodeTrace
  rw [traceFirst_reData]
  cases traceFirst s c cc with
  | none => rfl
  | some x =>
    obtain ⟨s1, cp⟩ := x
    simp only [Option.map_some']
    rw [traceLoop_reData']
    have e2 : (reData s1 C D).Private.DictSize = s1.Private.DictSize := rfl
    have e6 : (reData s1 C D).StackPtr = s1.StackPtr := rfl
    have e7 : (reData s1 C D).Stack = s1.Stack := rfl
    rw [e2, e6, e7]
    cases traceLoop s1.Private s1.Suffix cc (s1.Private.DictSize - s1.StackPtr) s1.Stack
        s1.StackPtr cp with
    | none => rfl
    | some y =>
      obtain ⟨Stack, sp, cp'⟩ := y
      dsimp only
      have e8 : (reData s1 C D).Private.MaxCodePoint = s1.Private.MaxCodePoint := rfl
      have e9 : (reData s1 C D).i = s1.i := rfl
      have e10 : (reData s1 C D).Out = s1.Out := rfl
      simp only [e8, e9, e10]
      split_ifs with h
      · rfl
      · cases popLoop PC s1.Private.DictSize Stack sp (s1.i + 1) (s1.Out ++ [cp' % 256]) with
        | none => rfl
        | some z =>
          obtain ⟨sp', i', Out'⟩ := z
          exact decodeUpdate_reData C D
            { s1 with Stack := Stack, StackPtr := sp', i := i', Out := Out' } c cc

theorem decodeBody_reData (PC CC : Nat) (C D : Nat → Nat) (s : DState)
    (hD : AgreeData s.Private D) :
    decodeBody PC CC (reData s C D) = (decodeBody PC CC s).reData C D := by
  unfold decodeBody
  have e0 : (reData s C D).Private = reDataP s.Private C D := rfl
  rw [e0, decompressInput_reData C D s.Private hD]
  rcases hd : TDGifDecompressInput s.Private with ⟨r, P, c⟩
  dsimp only
  have e1 : (reDataP P C D).ClearCode = P.ClearCode := rfl
  rw [e1]
  split_ifs with h1 h2 h3
  · rfl
  · rfl
  · exact decodeUpdate_reData C D
      { s with Private := P, Out := s.Out ++ [c % 256], i := s.i + 1 } c P.ClearCode
  · exact decodeTrace_reData PC C D { s with Private := P } c P.ClearCode

/-- The cursor of the reader stays at or below `MaxSz`, and `Info` keeps its
`Data` and `MaxSz`, through the fill loop. -/
theorem readBits_offset (w : Nat) :
    ∀ (k : Nat) (P : TDGifPrivateType), P.ReadOffset ≤ P.Info.MaxSz →
      (readBits w k P).2.ReadOffset ≤ P.Info.MaxSz ∧
      (readBits w k P).2.Info.MaxSz = P.Info.MaxSz ∧
      (readBits w k P).2.Info.Data = P.Info.Data := by
  intro k
  induction k with
  | zero => intro P h; exact ⟨h, rfl, rfl⟩
  | succ k ih =>
    intro P h
    unfold readBits
    split_ifs with h1
    · rcases hin : TDGifInput P with ⟨r, P1, byte⟩
      dsimp only
      by_cases hr : r = TGIF_ERROR
      · rw [if_pos hr]
        unfold TDGifInput at hin
        split_ifs at hin with h2
        · simp only [Prod.mk.injEq] at hin
          obtain ⟨-, e, -⟩ := hin
          subst e
          exact ⟨h, rfl, rfl⟩
        · simp only [Prod.mk.injEq] at hin
          obtain ⟨-, e, -⟩ := hin
          subst e
          exact ⟨by show P.ReadOffset + 1 ≤ P.Info.MaxSz; omega, rfl, rfl⟩
      · rw [if_neg hr]
        obtain ⟨g1, -, g3, g4⟩ := input_ok P P1 r byte hin hr
        have := ih
          { P1 with
            CrntShiftDWord := P1.CrntShiftDWord |||
              (((if P1.CrntShiftState ≥ 8 then (byte <<< 8) % 2 ^ 32 else byte)
                <<< (if P1.CrntShiftState ≥ 8 then P1.CrntShiftState - 8
                     else P1.CrntShiftState)) % 2 ^ 32)
            CrntShiftState := (P1.CrntShiftState + 8) % 256 }
          (by show P1.ReadOffset ≤ P1.Info.MaxSz; rw [g4, g3]; omega)
        rw [← g3]
        exact this
    · exact ⟨h, rfl, rfl⟩

theorem decompressInput_offset (P : TDGifPrivateType) (h : P.ReadOffset ≤ P.Info.MaxSz) :
    (TDGifDecompressInput P).2.1.ReadOffset ≤ P.Info.MaxSz ∧
    (TDGifDecompressInput P).2.1.Info.MaxSz = P.Info.MaxSz ∧
    (TDGifDecompressInput P).2.1.Info.Data = P.Info.Data := by
  have hb := readBits_offset P.RunningBits (P.RunningBits - P.CrntShiftState) P h
  unfold TDGifDecompressInput unpackCode
  rcases hrb : readBits P.RunningBits (P.RunningBits - P.CrntShiftState) P with ⟨r, P1⟩
  rw [hrb] at hb
  dsimp only at hb ⊢
  split_ifs <;> exact hb

theorem decodeBody_offset (PC CC : Nat) (s s' : DState)
    (h : s.Private.ReadOffset ≤ s.Private.Info.MaxSz) (hb : decodeBody PC CC s = .next s') :
    s'.Private.ReadOffset ≤ s.Private.Info.MaxSz ∧
    s'.Private.Info.MaxSz = s.Private.Info.MaxSz ∧
    s'.Private.Info.Data = s.Private.Info.Data := by
  have hin := decompressInput_offset s.Private h
  rcases hd : TDGifDecompressInput s.Private with ⟨r, P, c⟩
  rw [hd] at hin
  unfold decodeBody at hb
  rw [hd] at hb
  dsimp only at hb hin
  split_ifs at hb with hr hc hl
  · simp only [DResult.next.injEq] at hb
    subst hb
    exact hin
  · obtain ⟨u1, u2, -⟩ := decodeUpdate_next _ _ _ _ hb
    dsimp only at u1 u2
    rw [u1, u2]
    exact hin
  · obtain ⟨u1, u2, -⟩ := decodeTrace_next PC { s with Private := P } s' c _ hb
    dsimp only at u1 u2
    rw [u1, u2]
    exact hin

theorem decodeLoop_offset (PC CC : Nat) :
    ∀ (n : Nat) (s0 s : DState), s0.Private.ReadOffset ≤ s0.Private.Info.MaxSz →
      decodeLoop PC CC n s0 = .fuel s →
      s.Private.ReadOffset ≤ s0.Private.Info.MaxSz ∧
      s.Private.Info.MaxSz = s0.Private.Info.MaxSz ∧
      s.Private.Info.Data = s0.Private.Info.Data := by
  intro n
  induction n with
  | zero =>
    intro s0 s hP h
    unfold decodeLoop at h
    split_ifs at h
    simp only [DResult.fuel.injEq] at h
    subst h
    exact ⟨hP, rfl, rfl⟩
  | succ n ih =>
    intro s0 s hP h
    unfold decodeLoop at h
    split_ifs at h with hlt
    rcases hbody : decodeBody PC CC s0 with s1 | ⟨r, s1⟩ | s1 | s1
    · rw [hbody] at h
      obtain ⟨b1, b2, b3⟩ := decodeBody_offset PC CC s0 s1 hP hbody
      obtain ⟨c1, c2, c3⟩ := ih s1 s (by rw [b2]; exact b1) h
      rw [b2] at c1 c2
      rw [b3] at c3
      exact ⟨c1, c2, c3⟩
    · rw [hbody] at h; exact absurd h (by simp)
    · rw [hbody] at h; exact absurd h (by simp)
    · exact absurd hbody (decodeBody_kind PC CC s0 s1)

theorem decodeLoop_reData (PC CC : Nat) (C D : Nat → Nat) :
    ∀ (n : Nat) (s : DState), AgreeData s.Private D →
      s.Private.ReadOffset ≤ s.Private.Info.MaxSz →
      decodeLoop PC CC n (reData s C D) = (decodeLoop PC CC n s).reData C D := by
  intro n
  induction n with
  | zero =>
    intro s _ _
    unfold decodeLoop
    have e : (reData s C D).i = s.i := rfl
    rw [e]
    split_ifs <;> rfl
  | succ n ih =>
    intro s hD hO
    rw [decodeLoop, decodeLoop]
    have e : (reData s C D).i = s.i := rfl
    rw [e]
    split_ifs with hlt
    · rw [decodeBody_reData PC CC C D s hD]
      rcases hbody : decodeBody PC CC s with s1 | ⟨r, s1⟩ | s1 | s1
      · obtain ⟨b1, b2, b3⟩ := decodeBody_offset PC CC s s1 hO hbody
        have hD1 : AgreeData s1.Private D := by
          unfold AgreeData at hD ⊢
          rw [b2, b3]
          exact hD
        exact ih s1 hD1 (by rw [b2]; exact b1)
      · rfl
      · rfl
      · rfl
    · rfl

theorem decodeInit_reData (J : TGifInfo) (C D : Nat → Nat)
    (h0 : TDGifReadByte D 0 = TDGifReadByte J.Data 0) :
    decodeInit { J with Colors := C, Data := D } = reData (decodeInit J) C D := by
  unfold decodeInit reData reDataP
  simp only [h0]

theorem decompress_reData (J : TGifInfo) (C D : Nat → Nat) (alloc : Bool)
    (hpos : 0 < J.MaxSz) (hD : ∀ i < J.MaxSz, TDGifReadByte D i = TDGifReadByte J.Data i) :
    TDGifDecompress { J with Colors := C, Data := D } alloc
      = (TDGifDecompress J alloc).reData C D := by
  have hinit := decodeInit_reData J C D (hD 0 hpos)
  unfold TDGifDecompress
  dsimp only
  rw [hinit]
  split_ifs with ha
  · rfl
  · have e : (reData (decodeInit J) C D).Private.ClearCode = (decodeInit J).Private.ClearCode :=
      rfl
    rw [e]
    exact decodeLoop_reData _ _ C D _ (decodeInit J) hD
      (show 1 ≤ J.MaxSz from hpos)

/-- What an accepting `TDGifGetInfo` has checked and stored. -/
theorem getInfo_accepted (b : Nat → Nat) (I J : TGifInfo) (MaxW MaxH maxSz : Nat)
    (h : TDGifGetInfo b (some I) MaxW MaxH maxSz = (TGIF_OK, some J)) :
    8 ≤ maxSz ∧ 6 + 2 * headerColorCount b ≤ maxSz ∧
    ¬ (headerWidth b = 0 ∨ headerHeight b = 0) ∧
    ¬ (headerWidth b > MaxW ∨ headerHeight b > MaxH) ∧
    J = { I with Width := headerWidth b, Height := headerHeight b
                 ColorCount := headerColorCount b, SRAMLimit := headerSRAMLimit b
                 Colors := fun i => b (4 + i)
                 Data := fun i => b (4 + 2 * headerColorCount b + i)
                 MaxSz := maxSz - (2 * headerColorCount b + 4)
                 Error := 0 } := by
  rw [getInfo_cases] at h
  have hne : TGIF_ERROR ≠ TGIF_OK := by decide
  split_ifs at h with h1 h2 h3 h4 <;> simp only [Prod.mk.injEq, hne, false_and] at h
  obtain ⟨-, hJ⟩ := h
  simp only [Option.some.injEq] at hJ
  exact ⟨by omega, by omega, h2, h3, hJ.symm⟩

/-- The header fields depend on the first four bytes only. -/
theorem header_agree (b b' : Nat → Nat) (h : ∀ i < 4, b' i = b i) :
    headerWidth b' = headerWidth b ∧ headerHeight b' = headerHeight b ∧
    headerColorCount b' = headerColorCount b ∧ headerSRAMLimit b' = headerSRAMLimit b := by
  have e0 : TDGifReadByte b' 0 = TDGifReadByte b 0 := by
    unfold TDGifReadByte; rw [h 0 (by omega)]
  have e1 : TDGifReadByte b' 1 = TDGifReadByte b 1 := by
    unfold TDGifReadByte; rw [h 1 (by omega)]
  have e2 : TDGifReadByte b' 2 = TDGifReadByte b 2 := by
    unfold TDGifReadByte; rw [h 2 (by omega)]
  have e3 : TDGifReadByte b' 3 = TDGifReadByte b 3 := by
    unfold TDGifReadByte; rw [h 3 (by omega)]
  unfold headerWidth headerHeight headerColorCount headerSRAMLimit
  rw [e0, e1, e2, e3]
  exact ⟨rfl, rfl, rfl, rfl⟩

/-! ## The decoder on the flat block: what a pass does -/

/-- The loop of `TDGifGetPrefixChar` ends by its own counter: with more fuel
than the counter has left it returns. -/
theorem flat_prefixCharLoop_some (P : TDGifPrivateType) (Mem : Int → Nat) (cc : Nat) :
    ∀ (fuel i Code : Nat), LZ_MAX_CODE + 1 ≤ fuel + i →
      ∃ c n, Flat.prefixCharLoop P Mem cc fuel i Code = some (c, n) := by
  intro fuel
  induction fuel with
  | zero =>
    intro i Code h
    unfold Flat.prefixCharLoop
    rw [if_neg (by omega)]
    exact ⟨_, _, rfl⟩
  | succ fuel ih =>
    intro i Code h
    unfold Flat.prefixCharLoop
    split_ifs with h1 h2
    · exact ⟨_, _, rfl⟩
    · obtain ⟨c, n, e⟩ := ih (i + 1) (Flat.readPrefix Mem ((Code : Int) - P.DictBase))
        (by omega)
      rw [e]
      exact ⟨_, _, rfl⟩
    · exact ⟨_, _, rfl⟩

/-- The body of the loop of `TDGifGetPrefixChar` is entered at most
`LZ_MAX_CODE + 1 - i` times from the counter `i`, whatever the fuel. -/
theorem flat_prefixCharLoop_passes (P : TDGifPrivateType) (Mem : Int → Nat) (cc : Nat) :
    ∀ (fuel i Code c n : Nat), Flat.prefixCharLoop P Mem cc fuel i Code = some (c, n) →
      n ≤ LZ_MAX_CODE + 1 - i := by
  intro fuel
  induction fuel with
  | zero =>
    intro i Code c n h
    unfold Flat.prefixCharLoop at h
    split_ifs at h
    simp only [Option.some.injEq, Prod.mk.injEq] at h
    omega
  | succ fuel ih =>
    intro i Code c n h
    unfold Flat.prefixCharLoop at h
    split_ifs at h with h1 h2
    · simp only [Option.some.injEq, Prod.mk.injEq] at h
      omega
    · cases e : Flat.prefixCharLoop P Mem cc fuel (i + 1)
          (Flat.readPrefix Mem ((Code : Int) - P.DictBase)) with
      | none => rw [e] at h; exact absurd h (by simp)
      | some x =>
        obtain ⟨c1, n1⟩ := x
        rw [e] at h
        simp only [Option.some.injEq, Prod.mk.injEq] at h
        have := ih (i + 1) _ c1 n1 e
        omega
    · simp only [Option.some.injEq, Prod.mk.injEq] at h
      omega

theorem flat_getPrefixChar_some (P : TDGifPrivateType) (Mem : Int → Nat) (Code cc : Nat) :
    ∃ c, Flat.TDGifGetPrefixChar P Mem Code cc = some c := by
  obtain ⟨c, n, e⟩ := flat_prefixCharLoop_some P Mem cc (LZ_MAX_CODE + 2) 0 Code (by omega)
  unfold Flat.TDGifGetPrefixChar Flat.prefixCharRun
  rw [e]
  exact ⟨c, rfl⟩

/-- The trace loop ends by its own test `StackPtr < DictSize`: with fuel for
the cells the stack has left it returns. -/
theorem flat_traceLoop_some (P : TDGifPrivateType) (cc : Nat) :
    ∀ (fuel : Nat) (Mem : Int → Nat) (sp cp : Nat), P.DictSize ≤ fuel + sp →
      ∃ Mem' sp' cp', Flat.traceLoop P cc fuel Mem sp cp = some (Mem', sp', cp') := by
  intro fuel
  induction fuel with
  | zero =>
    intro Mem sp cp h
    unfold Flat.traceLoop
    rw [if_neg (by omega)]
    exact ⟨_, _, _, rfl⟩
  | succ fuel ih =>
    intro Mem sp cp h
    unfold Flat.traceLoop
    split_ifs with h1
    · exact ih _ (sp + 1) _ (by omega)
    · exact ⟨_, _, _, rfl⟩

/-- Every pass of the trace loop adds one to `StackPtr` and the loop stops at
`DictSize`, whatever the fuel: it makes `sp' - sp` passes, no more than
`DictSize - sp`, and ends with its test false. -/
theorem flat_traceLoop_passes (P : TDGifPrivateType) (cc : Nat) :
    ∀ (fuel : Nat) (Mem : Int → Nat) (sp cp : Nat) (Mem' : Int → Nat) (sp' cp' : Nat),
      Flat.traceLoop P cc fuel Mem sp cp = some (Mem', sp', cp') →
      sp ≤ sp' ∧ sp' - sp ≤ P.DictSize - sp ∧ sp' - sp ≤ fuel ∧
      ¬ (sp' < P.DictSize ∧ cp' > cc ∧ cp' ≤ P.MaxCodePoint) := by
  intro fuel
  induction fuel with
  | zero =>
    intro Mem sp cp Mem' sp' cp' h
    unfold Flat.traceLoop at h
    split_ifs at h with h1
    simp only [Option.some.injEq, Prod.mk.injEq] at h
    obtain ⟨-, e2, e3⟩ := h
    subst e2 e3
    exact ⟨Nat.le_refl _, by omega, by omega, h1⟩
  | succ fuel ih =>
    intro Mem sp cp Mem' sp' cp' h
    unfold Flat.traceLoop at h
    split_ifs at h with h1
    · obtain ⟨a1, a2, a3, a4⟩ := ih _ _ _ _ _ _ h
      exact ⟨by omega, by omega, by omega, a4⟩
    · simp only [Option.some.injEq, Prod.mk.injEq] at h
      obtain ⟨-, e2, e3⟩ := h
      subst e2 e3
      exact ⟨Nat.le_refl _, by omega, by omega, h1⟩

/-- The pop loop: one callback for every cell taken off the stack, none past
`PixelCount`. -/
theorem flat_popLoop_count (PC D : Nat) (Mem : Int → Nat) :
    ∀ (sp i : Nat) (Out : List Nat),
      (Flat.popLoop PC D Mem sp i Out).2.1 + Out.length
        = (Flat.popLoop PC D Mem sp i Out).2.2.length + i ∧
      i ≤ (Flat.popLoop PC D Mem sp i Out).2.1 ∧
      (i ≤ PC → (Flat.popLoop PC D Mem sp i Out).2.1 ≤ PC) ∧
      ((Flat.popLoop PC D Mem sp i Out).1 = 0 ∨ PC ≤ (Flat.popLoop PC D Mem sp i Out).2.1) ∧
      (Flat.popLoop PC D Mem sp i Out).1 ≤ sp := by
  intro sp
  induction sp with
  | zero => intro i Out; simp [Flat.popLoop, Nat.add_comm]
  | succ sp ih =>
    intro i Out
    unfold Flat.popLoop
    split_ifs with h
    · have := ih (i + 1) (Out ++ [Flat.readStack D Mem sp])
      simp only [List.length_append, List.length_singleton] at this
      omega
    · simp only
      omega

/-- The dictionary update goes on to the next pass and touches only the
memory and `LastCode`. -/
theorem flat_decodeUpdate_next (s : Flat.State) (c cc : Nat) :
    ∃ s', Flat.decodeUpdate s c cc = .next s' ∧ s'.Private = s.Private ∧
      s'.StackPtr = s.StackPtr ∧ s'.i = s.i ∧ s'.Out = s.Out ∧ s'.LastCode = c := by
  unfold Flat.decodeUpdate
  dsimp only
  by_cases h : s.LastCode ≠ NO_SUCH_CODE ∧
      Flat.readPrefix s.Mem ((s.Private.RunningCode : Int) - 2 - s.Private.DictBase)
        = NO_SUCH_CODE
  · rw [if_pos h]
    obtain ⟨v, e⟩ := flat_getPrefixChar_some s.Private
      (Flat.writePrefix s.Mem ((s.Private.RunningCode : Int) - 2 - s.Private.DictBase) s.LastCode)
      (if (c : Int) = (s.Private.RunningCode : Int) - 2 then s.LastCode else c) cc
    rw [e]
    exact ⟨_, rfl, rfl, rfl, rfl, rfl, rfl⟩
  · rw [if_neg h]
    exact ⟨_, rfl, rfl, rfl, rfl, rfl, rfl⟩

theorem flat_traceFirst_some (s : Flat.State) (c cc : Nat) :
    ∃ Mem sp cp, Flat.traceFirst s c cc = some (Mem, sp, cp) ∧
      (sp = s.StackPtr ∨ sp = s.StackPtr + 1) := by
  unfold Flat.traceFirst
  dsimp only
  by_cases h : Flat.readPrefix s.Mem ((c : Int) - s.Private.DictBase) = NO_SUCH_CODE
  · rw [if_pos h]
    obtain ⟨v, e⟩ := flat_getPrefixChar_some s.Private s.Mem
      (if (c : Int) = (s.Private.RunningCode : Int) - 2 then s.LastCode else c) cc
    rw [e]
    exact ⟨_, _, _, rfl, Or.inr rfl⟩
  · rw [if_neg h]
    exact ⟨_, _, _, rfl, Or.inl rfl⟩

/-- The two ways the branch of a code to be traced ends: `return TGIF_ERROR`
with `IMAGE_DEFECT` and no callback, or the next pass after at least one
callback. -/
theorem flat_decodeTrace_cases (PC : Nat) (s : Flat.State) (c cc : Nat) :
    (∃ s', Flat.decodeTrace PC s c cc = .ret TGIF_ERROR s' ∧
      s'.Private = { s.Private with
        Info := { s.Private.Info with Error := D_TGIF_ERR_IMAGE_DEFECT } } ∧
      s'.i = s.i ∧ s'.Out = s.Out) ∨
    (∃ s', Flat.decodeTrace PC s c cc = .next s' ∧ s'.Private = s.Private ∧
      s'.i + s.Out.length = s'.Out.length + s.i ∧ s.i < s'.i ∧
      (s.i < PC → s'.i ≤ PC) ∧ (s'.StackPtr = 0 ∨ PC ≤ s'.i) ∧ s'.LastCode = c) := by
  unfold Flat.decodeTrace
  dsimp only
  obtain ⟨Mem, sp, cp, e1, -⟩ := flat_traceFirst_some s c cc
  rw [e1]
  dsimp only
  rcases e2 : Flat.traceLoop s.Private cc s.Private.DictSize Mem sp cp with _ | ⟨Mem', sp', cp'⟩
  · obtain ⟨M, a, b, e3⟩ := flat_traceLoop_some s.Private cc s.Private.DictSize Mem sp cp
      (by omega)
    rw [e3] at e2
    exact absurd e2 (by simp)
  · dsimp only
    split_ifs with h
    · exact Or.inl ⟨_, rfl, rfl, rfl, rfl⟩
    · right
      obtain ⟨p1, p2, p3, p4, p5⟩ := flat_popLoop_count PC s.Private.DictSize Mem' sp' (s.i + 1)
        (s.Out ++ [cp' % 256])
      rcases e4 : Flat.popLoop PC s.Private.DictSize Mem' sp' (s.i + 1)
          (s.Out ++ [cp' % 256]) with ⟨sp2, i2, Out2⟩
      rw [e4] at p1 p2 p3 p4 p5
      simp only [List.length_append, List.length_singleton] at p1 p2 p3 p4 p5
      dsimp only
      obtain ⟨s', u1, u2, u3, u4, u5, u6⟩ := flat_decodeUpdate_next
        { s with Mem := Mem', StackPtr := sp2, i := i2, Out := Out2 } c cc
      refine ⟨s', u1, u2, ?_, ?_, ?_, ?_, u6⟩
      · rw [u4, u5]; show i2 + s.Out.length = Out2.length + s.i; omega
      · rw [u4]; show s.i < i2; omega
      · intro hlt; rw [u4]; show i2 ≤ PC; exact p3 (by omega)
      · rw [u3, u4]; exact p4

/-- The four ways a pass of the loop ends, by the code read: no code left
(`return TGIF_ERROR`), the CLEAR code, a code that cannot be traced
(`return TGIF_ERROR` with `IMAGE_DEFECT`), or a code that gives at least one
callback.  The pass changes `Private` only through `TDGifDecompressInput`,
the reset after CLEAR and `Info->Error`. -/
theorem flat_decodeBody_cases (PC CC : Nat) (s : Flat.State) :
    ((TDGifDecompressInput s.Private).1 = TGIF_ERROR ∧
      Flat.decodeBody PC CC s
        = .ret TGIF_ERROR { s with Private := (TDGifDecompressInput s.Private).2.1 }) ∨
    ((TDGifDecompressInput s.Private).1 ≠ TGIF_ERROR ∧
      ∃ s', Flat.decodeBody PC CC s = .next s' ∧
        s'.Private = { (TDGifDecompressInput s.Private).2.1 with
          RunningCode := CC + 1
          RunningBits := (TDGifDecompressInput s.Private).2.1.InitCodeBits
          MaxCode1 := (1 <<< (TDGifDecompressInput s.Private).2.1.InitCodeBits) % 65536 } ∧
        s'.i = s.i ∧ s'.Out = s.Out) ∨
    ((TDGifDecompressInput s.Private).1 ≠ TGIF_ERROR ∧
      ∃ s', Flat.decodeBody PC CC s = .ret TGIF_ERROR s' ∧
        s'.Private = { (TDGifDecompressInput s.Private).2.1 with
          Info := { (TDGifDecompressInput s.Private).2.1.Info with
            Error := D_TGIF_ERR_IMAGE_DEFECT } } ∧
        s'.i = s.i ∧ s'.Out = s.Out) ∨
    ((TDGifDecompressInput s.Private).1 ≠ TGIF_ERROR ∧
      ∃ s', Flat.decodeBody PC CC s = .next s' ∧
        s'.Private = (TDGifDecompressInput s.Private).2.1 ∧
        s'.i + s.Out.length = s'.Out.length + s.i ∧ s.i < s'.i ∧
        (s.i < PC → s'.i ≤ PC)) := by
  unfold Flat.decodeBody
  rcases hd : TDGifDecompressInput s.Private with ⟨r, P, c⟩
  dsimp only
  by_cases hr : r = TGIF_ERROR
  · rw [if_pos hr]
    exact Or.inl ⟨hr, rfl⟩
  · rw [if_neg hr]
    by_cases hc : c = P.ClearCode
    · rw [if_pos hc]
      exact Or.inr (Or.inl ⟨hr, _, rfl, rfl, rfl, rfl⟩)
    · rw [if_neg hc]
      by_cases hl : c < P.ClearCode
      · rw [if_pos hl]
        obtain ⟨s', u1, u2, u3, u4, u5, u6⟩ := flat_decodeUpdate_next
          { s with Private := P, Out := s.Out ++ [c % 256], i := s.i + 1 } c P.ClearCode
        refine Or.inr (Or.inr (Or.inr ⟨hr, s', u1, u2, ?_, ?_, ?_⟩))
        · rw [u4, u5]
          show s.i + 1 + s.Out.length = (s.Out ++ [c % 256]).length + s.i
          simp only [List.length_append, List.length_singleton]
          omega
        · rw [u4]; show s.i < s.i + 1; omega
        · intro hlt; rw [u4]; show s.i + 1 ≤ PC; omega
      · rw [if_neg hl]
        rcases flat_decodeTrace_cases PC { s with Private := P } c P.ClearCode with
          ⟨s', v1, v2, v3, v4⟩ | ⟨s', v1, v2, v3, v4, v5, -⟩
        · exact Or.inr (Or.inr (Or.inl ⟨hr, s', v1, v2, v3, v4⟩))
        · exact Or.inr (Or.inr (Or.inr ⟨hr, s', v1, v2, v3, v4, v5⟩))

/-- What holds at the top of the first pass and is kept by every pass that
goes on holds at the top of every pass the loop reaches. -/
theorem flat_decodeLoop_reach (PC CC : Nat) (Inv : Flat.State → Prop)
    (hstep : ∀ s s', Inv s → s.i < PC → Flat.decodeBody PC CC s = .next s' → Inv s') :
    ∀ (n : Nat) (s0 s : Flat.State), Inv s0 → Flat.decodeLoop PC CC n s0 = .fuel s →
      Inv s ∧ s.i < PC := by
  intro n
  induction n with
  | zero =>
    intro s0 s h0 h
    unfold Flat.decodeLoop at h
    split_ifs at h with hlt
    simp only [Flat.Result.fuel.injEq] at h
    subst h
    exact ⟨h0, hlt⟩
  | succ n ih =>
    intro s0 s h0 h
    unfold Flat.decodeLoop at h
    split_ifs at h with hlt
    rcases hbody : Flat.decodeBody PC CC s0 with s1 | ⟨r, s1⟩ | s1
    · rw [hbody] at h
      exact ih s1 s (hstep s0 s1 h0 hlt hbody) h
    · rw [hbody] at h; exact absurd h (by simp)
    · rcases flat_decodeBody_cases PC CC s0 with ⟨-, e⟩ | ⟨-, s', e, -⟩ | ⟨-, s', e, -⟩ |
        ⟨-, s', e, -⟩ <;> (rw [e] at hbody; exact absurd hbody (by simp))

/-- Where a `return` of the loop comes from: the test `i < PixelCount` of a
state the loop reaches, or a pass from such a state. -/
theorem flat_decodeLoop_ret (PC CC : Nat) (Inv : Flat.State → Prop)
    (hstep : ∀ s s', Inv s → s.i < PC → Flat.decodeBody PC CC s = .next s' → Inv s') :
    ∀ (n : Nat) (s0 s : Flat.State) (r : Nat), Inv s0 →
      Flat.decodeLoop PC CC n s0 = .ret r s →
      (r = TGIF_OK ∧ Inv s ∧ PC ≤ s.i) ∨
      (∃ s1, Inv s1 ∧ s1.i < PC ∧ Flat.decodeBody PC CC s1 = .ret r s) := by
  intro n
  induction n with
  | zero =>
    intro s0 s r h0 h
    unfold Flat.decodeLoop at h
    split_ifs at h with hlt
    simp only [Flat.Result.ret.injEq] at h
    obtain ⟨e1, e2⟩ := h
    subst e2
    exact Or.inl ⟨e1.symm, h0, by omega⟩
  | succ n ih =>
    intro s0 s r h0 h
    unfold Flat.decodeLoop at h
    split_ifs at h with hlt
    · rcases hbody : Flat.decodeBody PC CC s0 with s1 | ⟨r1, s1⟩ | s1
      · rw [hbody] at h
        exact ih s1 s r (hstep s0 s1 h0 hlt hbody) h
      · rw [hbody] at h
        simp only [Flat.Result.ret.injEq] at h
        obtain ⟨e1, e2⟩ := h
        subst e1 e2
        exact Or.inr ⟨s0, h0, hlt, hbody⟩
      · rw [hbody] at h; exact absurd h (by simp)
    · simp only [Flat.Result.ret.injEq] at h
      obtain ⟨e1, e2⟩ := h
      subst e2
      exact Or.inl ⟨e1.symm, h0, by omega⟩

/-- A pass that goes on took at least two bits of the data and keeps the
widths in range. -/
theorem flat_decodeBody_bits (PC CC : Nat) (s s' : Flat.State) (hP : WidthsOk s.Private)
    (h : Flat.decodeBody PC CC s = .next s') :
    bitsLeft s'.Private + 2 ≤ bitsLeft s.Private ∧ WidthsOk s'.Private ∧
    s'.Private.Info.MaxSz = s.Private.Info.MaxSz := by
  rcases hd : TDGifDecompressInput s.Private with ⟨r, P, c⟩
  have hv := hP.1
  rcases flat_decodeBody_cases PC CC s with ⟨-, e⟩ | ⟨hr, s1, e, e1, -⟩ | ⟨-, s1, e, -⟩ |
    ⟨hr, s1, e, e1, -⟩
  · rw [e] at h; exact absurd h (by simp)
  · rw [e] at h
    simp only [Flat.Result.next.injEq] at h
    subst h
    rw [hd] at hr e1
    obtain ⟨b1, ⟨w1, w2, w3, w4, w5⟩, b3⟩ := decompressInput_bits s.Private P r c hP hd hr
    rw [e1]
    refine ⟨?_, ⟨w3, w4, w3, w4, w5⟩, b3⟩
    show bitsLeft P + 2 ≤ bitsLeft s.Private
    omega
  · rw [e] at h; exact absurd h (by simp)
  · rw [e] at h
    simp only [Flat.Result.next.injEq] at h
    subst h
    rw [hd] at hr e1
    obtain ⟨b1, b2, b3⟩ := decompressInput_bits s.Private P r c hP hd hr
    rw [e1]
    refine ⟨?_, b2, b3⟩
    show bitsLeft P + 2 ≤ bitsLeft s.Private
    omega

/-- With two units of fuel for every bit left, the loop ends with a
`return`. -/
theorem flat_decodeLoop_ends (PC CC : Nat) :
    ∀ (k : Nat) (s : Flat.State), WidthsOk s.Private → bitsLeft s.Private < 2 * k →
      ∃ r s', Flat.decodeLoop PC CC k s = .ret r s' := by
  intro k
  induction k with
  | zero => intro s _ h; omega
  | succ k ih =>
    intro s hP hb
    unfold Flat.decodeLoop
    split_ifs with hlt
    · rcases hbody : Flat.decodeBody PC CC s with s1 | ⟨r, s1⟩ | s1
      · obtain ⟨b1, b2, -⟩ := flat_decodeBody_bits PC CC s s1 hP hbody
        exact ih s1 b2 (by omega)
      · exact ⟨r, s1, rfl⟩
      · rcases flat_decodeBody_cases PC CC s with ⟨-, e⟩ | ⟨-, s', e, -⟩ | ⟨-, s', e, -⟩ |
          ⟨-, s', e, -⟩ <;> (rw [e] at hbody; exact absurd hbody (by simp))
    · exact ⟨_, _, rfl⟩

theorem decWidthInv_reset (CC : Nat) (P : TDGifPrivateType) (h : DecWidthInv CC P) :
    DecWidthInv CC { P with RunningCode := CC + 1
                            RunningBits := P.InitCodeBits
                            MaxCode1 := (1 <<< P.InitCodeBits) % 65536 } := by
  obtain ⟨⟨h1, h1'⟩, h2, h3, h4⟩ := h
  have h5 : Nat.clog 2 (CC + 1) ≤ P.InitCodeBits :=
    (Nat.le_pow_iff_clog_le (by decide)).1 h4
  refine ⟨⟨?_, ?_⟩, h2, h3, h4⟩
  · show P.InitCodeBits = clampBits P.InitCodeBits (Dec.BitSize P.MaxCodePoint)
      (Nat.clog 2 (CC + 1))
    unfold clampBits
    omega
  · show (1 <<< P.InitCodeBits) % 65536 = 1 <<< P.InitCodeBits
    rw [Nat.one_shiftLeft]
    have : 2 ^ P.InitCodeBits ≤ 2 ^ 13 := Nat.pow_le_pow_right (by decide) h3
    omega

theorem flat_decodeBody_width (PC CC : Nat) (s s' : Flat.State)
    (hP : DecWidthInv CC s.Private) (h : Flat.decodeBody PC CC s = .next s') :
    DecWidthInv CC s'.Private := by
  have hin := decompressInput_width CC s.Private hP
  rcases flat_decodeBody_cases PC CC s with ⟨-, e⟩ | ⟨-, s1, e, e1, -⟩ | ⟨-, s1, e, -⟩ |
    ⟨-, s1, e, e1, -⟩
  · rw [e] at h; exact absurd h (by simp)
  · rw [e] at h
    simp only [Flat.Result.next.injEq] at h
    subst h
    rw [e1]
    exact decWidthInv_reset CC _ hin
  · rw [e] at h; exact absurd h (by simp)
  · rw [e] at h
    simp only [Flat.Result.next.injEq] at h
    subst h
    rw [e1]
    exact hin

theorem flat_decodeBody_offset (PC CC : Nat) (s s' : Flat.State)
    (hP : s.Private.ReadOffset ≤ s.Private.Info.MaxSz)
    (h : Flat.decodeBody PC CC s = .next s') :
    s'.Private.ReadOffset ≤ s.Private.Info.MaxSz ∧
    s'.Private.Info.MaxSz = s.Private.Info.MaxSz ∧
    s'.Private.Info.Data = s.Private.Info.Data := by
  have hin := decompressInput_offset s.Private hP
  rcases flat_decodeBody_cases PC CC s with ⟨-, e⟩ | ⟨-, s1, e, e1, -⟩ | ⟨-, s1, e, -⟩ |
    ⟨-, s1, e, e1, -⟩
  · rw [e] at h; exact absurd h (by simp)
  · rw [e] at h
    simp only [Flat.Result.next.injEq] at h
    subst h
    rw [e1]
    exact hin
  · rw [e] at h; exact absurd h (by simp)
  · rw [e] at h
    simp only [Flat.Result.next.injEq] at h
    subst h
    rw [e1]
    exact hin

theorem flat_decodeBody_count (PC CC : Nat) (s s' : Flat.State)
    (hP : s.i = s.Out.length ∧ s.i ≤ PC) (hlt : s.i < PC)
    (h : Flat.decodeBody PC CC s = .next s') :
    s'.i = s'.Out.length ∧ s'.i ≤ PC := by
  rcases flat_decodeBody_cases PC CC s with ⟨-, e⟩ | ⟨-, s1, e, -, e1, e2⟩ | ⟨-, s1, e, -⟩ |
    ⟨-, s1, e, -, e1, e2, e3⟩
  · rw [e] at h; exact absurd h (by simp)
  · rw [e] at h
    simp only [Flat.Result.next.injEq] at h
    subst h
    rw [e1, e2]
    exact hP
  · rw [e] at h; exact absurd h (by simp)
  · rw [e] at h
    simp only [Flat.Result.next.injEq] at h
    subst h
    have := e3 hlt
    omega

/-- A `return` of a pass comes with `TGIF_ERROR` and without a callback. -/
theorem flat_decodeBody_ret (PC CC : Nat) (s s' : Flat.State) (r : Nat)
    (h : Flat.decodeBody PC CC s = .ret r s') :
    r = TGIF_ERROR ∧ s'.i = s.i ∧ s'.Out = s.Out := by
  rcases flat_decodeBody_cases PC CC s with ⟨-, e⟩ | ⟨-, s1, e, -⟩ | ⟨-, s1, e, -, e1, e2⟩ |
    ⟨-, s1, e, -⟩
  · rw [e] at h
    simp only [Flat.Result.ret.injEq] at h
    obtain ⟨h1, h2⟩ := h
    subst h2
    exact ⟨h1.symm, rfl, rfl⟩
  · rw [e] at h; exact absurd h (by simp)
  · rw [e] at h
    simp only [Flat.Result.ret.injEq] at h
    obtain ⟨h1, h2⟩ := h
    subst h2
    exact ⟨h1.symm, e1, e2⟩
  · rw [e] at h; exact absurd h (by simp)

/-! ### The flat run and the bytes of the buffer -/

theorem flat_prefixCharLoop_reData (C D : Nat → Nat) (P : TDGifPrivateType)
    (Mem : Int → Nat) (cc : Nat) :
    ∀ (fuel i c : Nat), Flat.prefixCharLoop (reDataP P C D) Mem cc fuel i c
      = Flat.prefixCharLoop P Mem cc fuel i c := by
  intro fuel
  induction fuel with
  | zero => intro i c; rfl
  | succ fuel ih =>
    intro i c
    rw [Flat.prefixCharLoop, Flat.prefixCharLoop]
    have e1 : (reDataP P C D).MaxCodePoint = P.MaxCodePoint := rfl
    have e3 : (reDataP P C D).DictBase = P.DictBase := rfl
    rw [e1, e3, ih]

theorem flat_getPrefixChar_reData (C D : Nat → Nat) (P : TDGifPrivateType)
    (Mem : Int → Nat) (c cc : Nat) :
    Flat.TDGifGetPrefixChar (reDataP P C D) Mem c cc = Flat.TDGifGetPrefixChar P Mem c cc := by
  unfold Flat.TDGifGetPrefixChar Flat.prefixCharRun
  rw [flat_prefixCharLoop_reData]

theorem flat_traceLoop_reData (C D : Nat → Nat) (P : TDGifPrivateType) (cc : Nat) :
    ∀ (fuel : Nat) (Mem : Int → Nat) (sp cp : Nat),
      Flat.traceLoop (reDataP P C D) cc fuel Mem sp cp = Flat.traceLoop P cc fuel Mem sp cp := by
  intro fuel
  induction fuel with
  | zero => intro Mem sp cp; rfl
  | succ fuel ih =>
    intro Mem sp cp
    rw [Flat.traceLoop, Flat.traceLoop]
    have e1 : (reDataP P C D).MaxCodePoint = P.MaxCodePoint := rfl
    have e2 : (reDataP P C D).DictSize = P.DictSize := rfl
    have e3 : (reDataP P C D).DictBase = P.DictBase := rfl
    rw [e1, e2, e3]
    split_ifs
    · exact ih _ _ _
    · rfl

theorem flat_decodeUpdate_reData (C D : Nat → Nat) (s : Flat.State) (c cc : Nat) :
    Flat.decodeUpdate (Flat.reData s C D) c cc = (Flat.decodeUpdate s c cc).reData C D := by
  unfold Flat.decodeUpdate
  have e0 : (Flat.reData s C D).Private = reDataP s.Private C D := rfl
  dsimp only
  rw [e0]
  simp only [flat_getPrefixChar_reData]
  have e1 : (Flat.reData s C D).LastCode = s.LastCode := rfl
  have e2 : (reDataP s.Private C D).DictSize = s.Private.DictSize := rfl
  have e3 : (reDataP s.Private C D).RunningCode = s.Private.RunningCode := rfl
  have e4 : (reDataP s.Private C D).DictBase = s.Private.DictBase := rfl
  have e5 : (Flat.reData s C D).Mem = s.Mem := rfl
  simp only [e1, e2, e3, e4, e5]
  repeat' (first | rfl | split)

theorem flat_traceFirst_reData (C D : Nat → Nat) (s : Flat.State) (c cc : Nat) :
    Flat.traceFirst (Flat.reData s C D) c cc = Flat.traceFirst s c cc := by
  unfold Flat.traceFirst
  have e0 : (Flat.reData s C D).Private = reDataP s.Private C D := rfl
  dsimp only
  rw [e0]
  simp only [flat_getPrefixChar_reData]
  rfl

theorem flat_decodeTrace_reData (PC : Nat) (C D : Nat → Nat) (s : Flat.State) (c cc : Nat) :
    Flat.decodeTrace PC (Flat.reData s C D) c cc = (Flat.decodeTrace PC s c cc).reData C D := by
  unfold Flat.decodeTrace
  rw [flat_traceFirst_reData]
  have e0 : (Flat.reData s C D).Private = reDataP s.Private C D := rfl
  dsimp only
  rw [e0]
  cases Flat.traceFirst s c cc with
  | none => rfl
  | some x =>
    obtain ⟨Mem, sp, cp⟩ := x
    dsimp only
    rw [flat_traceLoop_reData]
    have e2 : (reDataP s.Private C D).DictSize = s.Private.DictSize := rfl
    rw [e2]
    cases Flat.traceLoop s.Private cc s.Private.DictSize Mem sp cp with
    | none => rfl
    | some y =>
      obtain ⟨Mem', sp', cp'⟩ := y
      dsimp only
      have e8 : (reDataP s.Private C D).MaxCodePoint = s.Private.MaxCodePoint := rfl
      have e9 : (Flat.reData s C D).i = s.i := rfl
      have e10 : (Flat.reData s C D).Out = s.Out := rfl
      simp only [e8, e9, e10]
      split_ifs with h
      · rfl
      · rcases Flat.popLoop PC s.Private.DictSize Mem' sp' (s.i + 1) (s.Out ++ [cp' % 256])
          with ⟨sp2, i2, Out2⟩
        exact flat_decodeUpdate_reData C D
          { s with Mem := Mem', StackPtr := sp2, i := i2, Out := Out2 } c cc

theorem flat_decodeBody_reData (PC CC : Nat) (C D : Nat → Nat) (s : Flat.State)
    (hD : AgreeData s.Private D) :
    Flat.decodeBody PC CC (Flat.reData s C D) = (Flat.decodeBody PC CC s).reData C D := by
  unfold Flat.decodeBody
  have e0 : (Flat.reData s C D).Private = reDataP s.Private C D := rfl
  rw [e0, decompressInput_reData C D s.Private hD]
  rcases hd : TDGifDecompressInput s.Private with ⟨r, P, c⟩
  dsimp only
  have e1 : (reDataP P C D).ClearCode = P.ClearCode := rfl
  rw [e1]
  split_ifs with h1 h2 h3
  · rfl
  · rfl
  · exact flat_decodeUpdate_reData C D
      { s with Private := P, Out := s.Out ++ [c % 256], i := s.i + 1 } c P.ClearCode
  · exact flat_decodeTrace_reData PC C D { s with Private := P } c P.ClearCode

theorem flat_decodeLoop_reData (PC CC : Nat) (C D : Nat → Nat) :
    ∀ (n : Nat) (s : Flat.State), AgreeData s.Private D →
      s.Private.ReadOffset ≤ s.Private.Info.MaxSz →
      Flat.decodeLoop PC CC n (Flat.reData s C D) = (Flat.decodeLoop PC CC n s).reData C D := by
  intro n
  induction n with
  | zero =>
    intro s _ _
    unfold Flat.decodeLoop
    have e : (Flat.reData s C D).i = s.i := rfl
    rw [e]
    split_ifs <;> rfl
  | succ n ih =>
    intro s hD hO
    rw [Flat.decodeLoop, Flat.decodeLoop]
    have e : (Flat.reData s C D).i = s.i := rfl
    rw [e]
    split_ifs with hlt
    · rw [flat_decodeBody_reData PC CC C D s hD]
      rcases hbody : Flat.decodeBody PC CC s with s1 | ⟨r, s1⟩ | s1
      · obtain ⟨b1, b2, b3⟩ := flat_decodeBody_offset PC CC s s1 hO hbody
        have hD1 : AgreeData s1.Private D := by
          unfold AgreeData at hD ⊢
          rw [b2, b3]
          exact hD
        exact ih s1 hD1 (by rw [b2]; exact b1)
      · rfl
      · rfl
    · rfl

theorem flat_decompress_reData (J : TGifInfo) (C D : Nat → Nat) (alloc : Bool)
    (mem : Int → Nat)
    (hpos : 0 < J.MaxSz) (hD : ∀ i < J.MaxSz, TDGifReadByte D i = TDGifReadByte J.Data i) :
    Flat.TDGifDecompress { J with Colors := C, Data := D } alloc mem
      = (Flat.TDGifDecompress J alloc mem).reData C D := by
  have hinit := decodeInit_reData J C D (hD 0 hpos)
  have hP : (decodeInit { J with Colors := C, Data := D }).Private
      = reDataP (decodeInit J).Private C D := by rw [hinit]; rfl
  have hF : Flat.decodeInit { J with Colors := C, Data := D } mem
      = Flat.reData (Flat.decodeInit J mem) C D := by
    unfold Flat.decodeInit
    rw [hP]
    rfl
  unfold Flat.TDGifDecompress
  rw [hF, hP]
  split_ifs with ha
  · rfl
  · have e : (reDataP (decodeInit J).Private C D).ClearCode = (decodeInit J).Private.ClearCode :=
      rfl
    rw [e]
    exact flat_decodeLoop_reData _ _ C D _ (Flat.decodeInit J mem) hD
      (show 1 ≤ J.MaxSz from hpos)

/-! ## C9 and C10 on the flat block: the whole run on every stream -/

theorem flat_decodeInit_bits (Info : TGifInfo) (mem : Int → Nat) :
    bitsLeft (Flat.decodeInit Info mem).Private = 8 * (Info.MaxSz - 1) := by
  simp [bitsLeft, Flat.decodeInit, decodeInit]

/-- The run on the flat block returns: with the allocation failed at once,
otherwise because every pass of the loop that goes on takes 2 bits of the
data. -/
theorem flat_decompress_returns (Info : TGifInfo) (alloc : Bool) (mem : Int → Nat) :
    ∃ r s, Flat.TDGifDecompress Info alloc mem = .ret r s := by
  unfold Flat.TDGifDecompress
  split_ifs with ha
  · exact ⟨_, _, rfl⟩
  · exact flat_decodeLoop_ends _ _ _ _ (decodeInit_widths Info)
      (by rw [flat_decodeInit_bits]; omega)

/-- C9: for every `Info`, every content of its data and every content of
memory in and around the block of `ALLOC`, `TDGifDecompress` returns, and by
then it has called the output callback at most `Width * Height` times, and
exactly `Width * Height` times when it returns `TGIF_OK`.  The run is the one
of the C code on the flat block: an index outside a table reads or writes the
byte that lies there and the run goes on. -/
theorem C9_callback_count (Info : TGifInfo) (alloc : Bool) (mem : Int → Nat)
    (hW : Info.Width < 65536) (hH : Info.Height < 65536) :
    ∃ r s, Flat.TDGifDecompress Info alloc mem = .ret r s ∧
      s.Out.length ≤ Info.Width * Info.Height ∧
      (r = TGIF_OK → s.Out.length = Info.Width * Info.Height) := by
  have hne : TGIF_ERROR ≠ TGIF_OK := by decide
  have hmod : Info.Width * Info.Height % 2 ^ 32 = Info.Width * Info.Height := by
    apply Nat.mod_eq_of_lt
    calc Info.Width * Info.Height ≤ 65535 * 65535 :=
          Nat.mul_le_mul (by omega) (by omega)
      _ < 2 ^ 32 := by decide
  obtain ⟨r, s, hrun⟩ := flat_decompress_returns Info alloc mem
  refine ⟨r, s, hrun, ?_⟩
  unfold Flat.TDGifDecompress at hrun
  rw [hmod] at hrun
  split_ifs at hrun with ha
  · simp only [Flat.Result.ret.injEq] at hrun
    obtain ⟨h1, h2⟩ := hrun
    subst h2
    exact ⟨Nat.zero_le _, fun h => absurd (h1.trans h) hne⟩
  · rcases flat_decodeLoop_ret (Info.Width * Info.Height) _
        (fun s => s.i = s.Out.length ∧ s.i ≤ Info.Width * Info.Height)
        (fun s s' hI hlt hb => flat_decodeBody_count _ _ s s' hI hlt hb)
        _ _ s r ⟨rfl, Nat.zero_le _⟩ hrun with ⟨-, ⟨h1, h2⟩, h3⟩ | ⟨s1, ⟨h1, h2⟩, -, hb⟩
    · exact ⟨by omega, fun _ => by omega⟩
    · obtain ⟨e1, -, e3⟩ := flat_decodeBody_ret _ _ s1 s r hb
      rw [e3]
      exact ⟨by omega, fun h => absurd (e1.symm.trans h) hne⟩

/-- C9 at the file `sample2x1`, the block and its surroundings zeroed. -/
theorem C9_callback_count_witness :
    ∃ r s, Flat.TDGifDecompress sample2x1Info true (fun _ => 0) = .ret r s ∧
      s.Out.length ≤ sample2x1Info.Width * sample2x1Info.Height ∧
      (r = TGIF_OK → s.Out.length = sample2x1Info.Width * sample2x1Info.Height) :=
  C9_callback_count sample2x1Info true (fun _ => 0) (by decide) (by decide)

/-- C10 as amended: for every `Info` (those a successful `TDGifGetInfo`
produces among them), every content of the data and every content of memory
in and around the block of `ALLOC`, `TDGifDecompress` returns: the run of the
C code on the flat block, where an index outside a table reads or writes the
byte that lies there and the run goes on, ends with a return value and never
with the fuel of the model used up.  The data holds at most `8 * MaxSz` bits
and every pass of the outer loop that goes on to another takes at least 2 of
them.  The trace loop, whatever fuel it is given, makes `sp' - sp` passes from
`StackPtr = sp` to `StackPtr = sp'`, at most `DictSize`, and with the fuel
`DictSize` of the decoder it ends by its own test.  The loop of
`TDGifGetPrefixChar`, whatever fuel it is given, enters its body at most
`LZ_MAX_CODE + 1` times, and with the fuel of the decoder it ends by its own
test with the value `TDGifGetPrefixChar` returns. -/
theorem C10_decoder_terminates (Info : TGifInfo) (alloc : Bool) (mem : Int → Nat) :
    (∃ r s, Flat.TDGifDecompress Info alloc mem = .ret r s) ∧
    bitsLeft (Flat.decodeInit Info mem).Private ≤ 8 * Info.MaxSz ∧
    (∀ n s s',
      Flat.decodeLoop (Info.Width * Info.Height % 2 ^ 32) (decodeInit Info).Private.ClearCode n
        (Flat.decodeInit Info mem) = .fuel s →
      Flat.decodeBody (Info.Width * Info.Height % 2 ^ 32) (decodeInit Info).Private.ClearCode s
        = .next s' →
      bitsLeft s'.Private + 2 ≤ bitsLeft s.Private) ∧
    (∀ (P : TDGifPrivateType) (cc fuel : Nat) (Mem : Int → Nat) (sp cp : Nat)
        (Mem' : Int → Nat) (sp' cp' : Nat),
      Flat.traceLoop P cc fuel Mem sp cp = some (Mem', sp', cp') →
      sp ≤ sp' ∧ sp' - sp ≤ P.DictSize) ∧
    (∀ (P : TDGifPrivateType) (cc : Nat) (Mem : Int → Nat) (sp cp : Nat),
      ∃ Mem' sp' cp', Flat.traceLoop P cc P.DictSize Mem sp cp = some (Mem', sp', cp')) ∧
    (∀ (P : TDGifPrivateType) (Mem : Int → Nat) (cc fuel Code c n : Nat),
      Flat.prefixCharLoop P Mem cc fuel 0 Code = some (c, n) → n ≤ LZ_MAX_CODE + 1) ∧
    (∀ (P : TDGifPrivateType) (Mem : Int → Nat) (Code cc : Nat),
      ∃ c n, Flat.prefixCharRun P Mem Code cc = some (c, n) ∧
        Flat.TDGifGetPrefixChar P Mem Code cc = some c) := by
  refine ⟨flat_decompress_returns Info alloc mem, by rw [flat_decodeInit_bits]; omega,
    ?_, ?_, ?_, ?_, ?_⟩
  · intro n s s' hreach hbody
    obtain ⟨hw, -⟩ := flat_decodeLoop_reach _ _ (fun s => WidthsOk s.Private)
      (fun s s' hI _ hb => (flat_decodeBody_bits _ _ s s' hI hb).2.1)
      n _ s (decodeInit_widths Info) hreach
    exact (flat_decodeBody_bits _ _ s s' hw hbody).1
  · intro P cc fuel Mem sp cp Mem' sp' cp' h
    have := flat_traceLoop_passes P cc fuel Mem sp cp Mem' sp' cp' h
    omega
  · intro P cc Mem sp cp
    exact flat_traceLoop_some P cc P.DictSize Mem sp cp (by omega)
  · intro P Mem cc fuel Code c n h
    exact flat_prefixCharLoop_passes P Mem cc fuel 0 Code c n h
  · intro P Mem Code cc
    obtain ⟨c, n, h⟩ := flat_prefixCharLoop_some P Mem cc (LZ_MAX_CODE + 2) 0 Code (by omega)
    have hrun : Flat.prefixCharRun P Mem Code cc = some (c, n) := h
    refine ⟨c, n, hrun, ?_⟩
    unfold Flat.TDGifGetPrefixChar
    rw [hrun]
    rfl

/-! ## C27 on the flat block: the widths at every code read -/

/-- C27, as the code has it, with `RunningCode` in the place of
`RunningCode + 1`: for every valid image, in the encoder state after each
pass of the pixel loop of `TEGifCompressLine` (and before the first), and for
every `Info`, every content of the data and every content of memory in and
around the block of `ALLOC`, in the decoder state at the top of each pass of
the loop of `TDGifDecompress` and after the code read of that pass,
`RunningBits` equals `ceil(log2(RunningCode))` clamped to
`[InitCodeBits, BitSize(MaxCodePoint)]` and `MaxCode1` equals
`1 << RunningBits`.  The decoder run is the one of the C code on the flat
block: an index outside a table reads or writes the byte that lies there and
the run goes on reading codes. -/
theorem C27_running_bits_invariant (W H S : Nat) (ColorMap : TColorMapObject)
    (Pixels : List Nat) (Info : TGifInfo) (mem : Int → Nat)
    (hW : 1 ≤ W ∧ W ≤ 1023) (hH : 1 ≤ H ∧ H ≤ 1023)
    (hC : 1 ≤ ColorMap.ColorCount ∧ ColorMap.ColorCount ≤ 256)
    (hS : 256 ≤ S ∧ S ≤ 4096 ∧ S % 256 = 0)
    (hlen : Pixels.length = W * H) (hpix : ∀ p ∈ Pixels, p < ColorMap.ColorCount) :
    (∃ G0, TEGifPutScreenDesc TEGifOpenFileName W H (some ColorMap) S = (TGIF_OK, G0) ∧
      ∀ p done rest, Pixels = p :: (done ++ rest) →
        ∃ G' c', compressLoop { G0 with Private := { G0.Private with PixelCount := 0 } } p done
            = some (G', c') ∧
          EncBitsOk G'.Private) ∧
    (∀ n s,
      Flat.decodeLoop (Info.Width * Info.Height % 2 ^ 32) (decodeInit Info).Private.ClearCode n
        (Flat.decodeInit Info mem) = .fuel s →
      DecBitsOk s.Private ∧ DecBitsOk (TDGifDecompressInput s.Private).2.1) := by
  obtain ⟨G0, G, e0, -, -, hpre⟩ := encode_widths W H S ColorMap Pixels hW hH hC hS hlen hpix
  refine ⟨⟨G0, e0, ?_⟩, ?_⟩
  · intro p done rest hsplit
    obtain ⟨G', c', e1, hI, hWd⟩ := hpre p done rest hsplit
    exact ⟨G', c', e1, encBitsOk_of_inv _ _ hC G' c' hI hWd⟩
  · intro n s hreach
    obtain ⟨h1, -⟩ := flat_decodeLoop_reach _ _
      (fun s => DecWidthInv (decodeInit Info).Private.ClearCode s.Private)
      (fun s s' hI _ hb => flat_decodeBody_width _ _ s s' hI hb)
      n _ s (decodeInit_width Info) hreach
    exact ⟨h1.1, (decompressInput_width _ s.Private h1).1⟩

/-- The image 2x1 with pixels 0, 1 over two colours, and the decoder on
`sample2x1` with the block and its surroundings zeroed. -/
theorem C27_running_bits_invariant_witness :
    (∃ G0, TEGifPutScreenDesc TEGifOpenFileName 2 1 (some palette2) 256 = (TGIF_OK, G0) ∧
      ∀ p done rest, [0, 1] = p :: (done ++ rest) →
        ∃ G' c', compressLoop { G0 with Private := { G0.Private with PixelCount := 0 } } p done
            = some (G', c') ∧
          EncBitsOk G'.Private) ∧
    (∀ n s,
      Flat.decodeLoop (sample2x1Info.Width * sample2x1Info.Height % 2 ^ 32)
        (decodeInit sample2x1Info).Private.ClearCode n
        (Flat.decodeInit sample2x1Info (fun _ => 0)) = .fuel s →
      DecBitsOk s.Private ∧ DecBitsOk (TDGifDecompressInput s.Private).2.1) :=
  C27_running_bits_invariant 2 1 256 palette2 [0, 1] sample2x1Info (fun _ => 0) (by decide)
    (by decide) (by decide) (by decide) (by decide) (by decide)

/-! ## C32 on the flat block: the bytes read over the whole run -/

theorem flat_decodeLoop_offset (PC CC : Nat) (J : TGifInfo) (n : Nat) (s0 s : Flat.State)
    (h0 : s0.Private.Info.Data = J.Data ∧ s0.Private.Info.MaxSz = J.MaxSz ∧
      s0.Private.ReadOffset ≤ J.MaxSz)
    (h : Flat.decodeLoop PC CC n s0 = .fuel s) :
    s.Private.Info.Data = J.Data ∧ s.Private.Info.MaxSz = J.MaxSz ∧
    s.Private.ReadOffset ≤ J.MaxSz := by
  refine (flat_decodeLoop_reach PC CC
    (fun s => s.Private.Info.Data = J.Data ∧ s.Private.Info.MaxSz = J.MaxSz ∧
      s.Private.ReadOffset ≤ J.MaxSz) ?_ n s0 s h0 h).1
  intro s s' ⟨i1, i2, i3⟩ _ hb
  obtain ⟨b1, b2, b3⟩ := flat_decodeBody_offset PC CC s s' (by rw [i2]; exact i3) hb
  exact ⟨b3.trans i1, b2.trans i2, by rw [← i2]; exact b1⟩

/-- C32: when `TDGifGetInfo` accepts the buffer `b` with the size `maxSz`,
`Data` points at offset `4 + 2 * ColorCount` of `b` and `MaxSz` is what is left
of `maxSz` from there, at least 2 bytes, so the preamble byte `Data[0]` lies
below `maxSz`.  In every state at the top of the loop of `TDGifDecompress`,
on every content of memory in and around the block of `ALLOC`, `Info` still
has that `Data` and `MaxSz`, and `ReadOffset` is at most `MaxSz`.  Every call
of `TDGifInput` in a state with that `Data` and `MaxSz` that hands out a byte
takes it from an offset of `b` below `maxSz`, and keeps `Data` and `MaxSz`.
And the run does not depend on what lies at `maxSz` and beyond: on a buffer
`b'` with the same bytes below `maxSz`, `TDGifGetInfo` accepts as well and
`TDGifDecompress` from the same memory gives the same result (return value,
error code, output, block), up to the memory behind `Colors` and `Data`.  The
run is the one of the C code on the flat block: an index outside a table
reads or writes the byte that lies there and the run goes on. -/
theorem C32_input_bounds (b : Nat → Nat) (I J : TGifInfo) (MaxW MaxH maxSz : Nat)
    (h : TDGifGetInfo b (some I) MaxW MaxH maxSz = (TGIF_OK, some J)) :
    (J.Data = (fun i => b (4 + 2 * J.ColorCount + i)) ∧
      4 + 2 * J.ColorCount + J.MaxSz = maxSz ∧ 2 ≤ J.MaxSz ∧
      4 + 2 * J.ColorCount + 0 < maxSz) ∧
    (∀ (mem : Int → Nat) n s,
      Flat.decodeLoop (J.Width * J.Height % 2 ^ 32) (decodeInit J).Private.ClearCode n
        (Flat.decodeInit J mem) = .fuel s →
      s.Private.Info.Data = J.Data ∧ s.Private.Info.MaxSz = J.MaxSz ∧
      s.Private.ReadOffset ≤ J.MaxSz) ∧
    (∀ (P P' : TDGifPrivateType) (r byte : Nat),
      P.Info.Data = J.Data → P.Info.MaxSz = J.MaxSz →
      TDGifInput P = (r, P', byte) → r ≠ TGIF_ERROR →
      4 + 2 * J.ColorCount + P.ReadOffset < maxSz ∧
      byte = TDGifReadByte b (4 + 2 * J.ColorCount + P.ReadOffset) ∧
      P'.Info.Data = J.Data ∧ P'.Info.MaxSz = J.MaxSz ∧ P'.ReadOffset = P.ReadOffset + 1) ∧
    (∀ b' : Nat → Nat, (∀ i < maxSz, b' i = b i) →
      ∃ J', TDGifGetInfo b' (some I) MaxW MaxH maxSz = (TGIF_OK, some J') ∧
        J' = { J with Colors := fun i => b' (4 + i)
                      Data := fun i => b' (4 + 2 * J.ColorCount + i) } ∧
        ∀ alloc mem, (∃ r s, Flat.TDGifDecompress J alloc mem = .ret r s) ∧
          Flat.TDGifDecompress J' alloc mem
            = (Flat.TDGifDecompress J alloc mem).reData J'.Colors J'.Data) := by
  obtain ⟨a1, a2, a3, a4, hJ⟩ := getInfo_accepted b I J MaxW MaxH maxSz h
  have hcc : J.ColorCount = headerColorCount b := by rw [hJ]
  have hdata : J.Data = (fun i => b (4 + 2 * J.ColorCount + i)) := by rw [hcc, hJ]
  have hmax : J.MaxSz = maxSz - (2 * headerColorCount b + 4) := by rw [hJ]
  have hsum : 4 + 2 * J.ColorCount + J.MaxSz = maxSz := by rw [hcc, hmax]; omega
  have h2 : 2 ≤ J.MaxSz := by rw [hmax]; omega
  refine ⟨⟨hdata, hsum, h2, by omega⟩, ?_, ?_, ?_⟩
  · intro mem n s hs
    exact flat_decodeLoop_offset _ _ J n (Flat.decodeInit J mem) s
      ⟨rfl, rfl, show 1 ≤ J.MaxSz by omega⟩ hs
  · intro P P' r byte hPd hPm hin hr
    obtain ⟨g1, g2, g3, g4⟩ := input_ok P P' r byte hin hr
    refine ⟨by rw [hPm] at g1; omega, ?_, by rw [g3]; exact hPd, by rw [g3]; exact hPm, g4⟩
    rw [g2, hPd, hdata]
    rfl
  · intro b' hb'
    obtain ⟨k1, k2, k3, k4⟩ := header_agree b b' (fun i hi => hb' i (by omega))
    have hJ' : TDGifGetInfo b' (some I) MaxW MaxH maxSz
        = (TGIF_OK, some { J with Colors := fun i => b' (4 + i)
                                  Data := fun i => b' (4 + 2 * J.ColorCount + i) }) := by
      rw [getInfo_cases, k1, k2, k3, k4, if_neg (by omega), if_neg a3, if_neg a4,
        if_neg (by omega), hcc, hJ]
    refine ⟨_, hJ', rfl, ?_⟩
    intro alloc mem
    refine ⟨flat_decompress_returns J alloc mem, ?_⟩
    refine flat_decompress_reData J _ _ alloc mem (by omega) ?_
    intro i hi
    rw [hdata]
    show b' (4 + 2 * J.ColorCount + i) % 256 = b (4 + 2 * J.ColorCount + i) % 256
    rw [hb' (4 + 2 * J.ColorCount + i) (by omega)]

/-- C32 at the file `sample2x1`. -/
theorem C32_input_bounds_witness :
    (sample2x1Info.Data = (fun i => bufferOf sample2x1 (4 + 2 * sample2x1Info.ColorCount + i)) ∧
      4 + 2 * sample2x1Info.ColorCount + sample2x1Info.MaxSz = 10 ∧ 2 ≤ sample2x1Info.MaxSz ∧
      4 + 2 * sample2x1Info.ColorCount + 0 < 10) ∧
    (∀ (mem : Int → Nat) n s,
      Flat.decodeLoop (sample2x1Info.Width * sample2x1Info.Height % 2 ^ 32)
        (decodeInit sample2x1Info).Private.ClearCode n (Flat.decodeInit sample2x1Info mem)
        = .fuel s →
      s.Private.Info.Data = sample2x1Info.Data ∧ s.Private.Info.MaxSz = sample2x1Info.MaxSz ∧
      s.Private.ReadOffset ≤ sample2x1Info.MaxSz) ∧
    (∀ (P P' : TDGifPrivateType) (r byte : Nat),
      P.Info.Data = sample2x1Info.Data → P.Info.MaxSz = sample2x1Info.MaxSz →
      TDGifInput P = (r, P', byte) → r ≠ TGIF_ERROR →
      4 + 2 * sample2x1Info.ColorCount + P.ReadOffset < 10 ∧
      byte = TDGifReadByte (bufferOf sample2x1) (4 + 2 * sample2x1Info.ColorCount + P.ReadOffset) ∧
      P'.Info.Data = sample2x1Info.Data ∧ P'.Info.MaxSz = sample2x1Info.MaxSz ∧
      P'.ReadOffset = P.ReadOffset + 1) ∧
    (∀ b' : Nat → Nat, (∀ i < 10, b' i = bufferOf sample2x1 i) →
      ∃ J', TDGifGetInfo b' (some zeroInfo) 1023 1023 10 = (TGIF_OK, some J') ∧
        J' = { sample2x1Info with Colors := fun i => b' (4 + i)
                                  Data := fun i => b' (4 + 2 * sample2x1Info.ColorCount + i) } ∧
        ∀ alloc mem, (∃ r s, Flat.TDGifDecompress sample2x1Info alloc mem = .ret r s) ∧
          Flat.TDGifDecompress J' alloc mem
            = (Flat.TDGifDecompress sample2x1Info alloc mem).reData J'.Colors J'.Data) :=
  C32_input_bounds (bufferOf sample2x1) zeroInfo sample2x1Info 1023 1023 10 sample2x1_getInfo

/-! ## Concrete runs on the flat block -/

theorem flat_fillPrefix_bytes (mem : Int → Nat) :
    ∀ (n j : Nat), j < n →
      Flat.fillPrefix mem n (2 * (j : Int)) = NO_SUCH_CODE % 256 ∧
      Flat.fillPrefix mem n (2 * (j : Int) + 1) = NO_SUCH_CODE / 256 % 256 := by
  intro n
  induction n with
  | zero => intro j hj; omega
  | succ n ih =>
    intro j hj
    rw [Flat.fillPrefix]
    unfold Flat.writePrefix
    by_cases hjn : j = n
    · subst hjn
      refine ⟨by rw [if_pos rfl], ?_⟩
      rw [if_neg (by omega), if_pos rfl]
    · have := ih j (by omega)
      refine ⟨?_, ?_⟩
      · rw [if_neg (by omega), if_neg (by omega)]
        exact this.1
      · rw [if_neg (by omega), if_neg (by omega)]
        exact this.2

theorem flat_readPrefix_fill (mem : Int → Nat) (n j : Nat) (h : j < n) :
    Flat.readPrefix (Flat.fillPrefix mem n) (j : Int) = NO_SUCH_CODE := by
  obtain ⟨h1, h2⟩ := flat_fillPrefix_bytes mem n j h
  unfold Flat.readPrefix
  rw [h1, h2]
  decide

set_option maxRecDepth 100000 in
theorem sampleFirstCode_first_code :
    (TDGifDecompressInput (decodeInit sampleFirstCodeInfo).Private).1 = TGIF_OK ∧
    (TDGifDecompressInput (decodeInit sampleFirstCodeInfo).Private).2.2 = 3 ∧
    (TDGifDecompressInput (decodeInit sampleFirstCodeInfo).Private).2.1.ClearCode = 2 ∧
    (TDGifDecompressInput (decodeInit sampleFirstCodeInfo).Private).2.1.DictBase = 3 ∧
    (TDGifDecompressInput (decodeInit sampleFirstCodeInfo).Private).2.1.DictSize = 64 ∧
    (TDGifDecompressInput (decodeInit sampleFirstCodeInfo).Private).2.1.MaxCodePoint = 66 ∧
    (TDGifDecompressInput (decodeInit sampleFirstCodeInfo).Private).2.1.RunningCode = 4 ∧
    (decodeInit sampleFirstCodeInfo).Private.DictSize = 64 ∧
    (decodeInit sampleFirstCodeInfo).Private.ClearCode = 2 := by
  decide

/-- The file `sampleFirstCode` on the flat block, whatever the memory holds:
the first code 3 makes the decoder write `Suffix[-1]`, which is the high byte
of `Prefix[63]` (the cell goes from `NO_SUCH_CODE = 0x0402` to `0x0202`); the
run goes on to the defect check and returns `TGIF_ERROR` with `IMAGE_DEFECT`,
without a call of the callback. -/
theorem flat_sampleFirstCode_run (mem : Int → Nat) :
    ∃ s, Flat.TDGifDecompress sampleFirstCodeInfo true mem = .ret TGIF_ERROR s ∧
      s.Private.Info.Error = D_TGIF_ERR_IMAGE_DEFECT ∧ s.Out = [] ∧
      Flat.readPrefix (Flat.decodeInit sampleFirstCodeInfo mem).Mem 63 = 0x0402 ∧
      Flat.readPrefix s.Mem 63 = 0x0202 := by
  obtain ⟨h1, h2, h3, h4, h5, h6, h7, h8, h9⟩ := sampleFirstCode_first_code
  have hne : TGIF_OK ≠ TGIF_ERROR := by decide
  have hmem : (Flat.decodeInit sampleFirstCodeInfo mem).Mem = Flat.fillPrefix mem 64 := by
    show Flat.fillPrefix mem (decodeInit sampleFirstCodeInfo).Private.DictSize = _
    rw [h8]
  have hfill0 : Flat.readPrefix (Flat.fillPrefix mem 64) 0 = NO_SUCH_CODE :=
    flat_readPrefix_fill mem 64 0 (by decide)
  have hfill63 := flat_fillPrefix_bytes mem 64 63 (by decide)
  -- the call of `TDGifGetPrefixChar` for the code 3
  have hchar : ∀ P : TDGifPrivateType, P.DictBase = 3 → P.MaxCodePoint = 66 →
      Flat.TDGifGetPrefixChar P (Flat.fillPrefix mem 64) 3 2 = some NO_SUCH_CODE := by
    intro P e1 e2
    unfold Flat.TDGifGetPrefixChar Flat.prefixCharRun
    rw [Flat.prefixCharLoop, if_pos (by decide), if_neg (by rw [e2]; decide), e1,
      show ((3 : Nat) : Int) - ((3 : Nat) : Int) = 0 from rfl, hfill0,
      Flat.prefixCharLoop, if_pos (by decide), if_pos (by rw [e2]; decide)]
    rfl
  rcases hd : TDGifDecompressInput (decodeInit sampleFirstCodeInfo).Private with ⟨r, P, c⟩
  rw [hd] at h1 h2 h3 h4 h5 h6 h7
  simp only at h1 h2 h3 h4 h5 h6 h7
  subst h1 h2
  have hbody : ∃ s, Flat.decodeBody 1 2 (Flat.decodeInit sampleFirstCodeInfo mem)
        = .ret TGIF_ERROR s ∧
      s.Private.Info.Error = D_TGIF_ERR_IMAGE_DEFECT ∧ s.Out = [] ∧
      s.Mem = Flat.writeSuffix 64 (Flat.writeStack 64 (Flat.fillPrefix mem 64) 0
        NO_SUCH_CODE) (-1) NO_SUCH_CODE := by
    unfold Flat.decodeBody
    have e0 : (Flat.decodeInit sampleFirstCodeInfo mem).Private
        = (decodeInit sampleFirstCodeInfo).Private := rfl
    have eL : (Flat.decodeInit sampleFirstCodeInfo mem).LastCode = NO_SUCH_CODE := rfl
    have eS : (Flat.decodeInit sampleFirstCodeInfo mem).StackPtr = 0 := rfl
    rw [e0, hd]
    dsimp only
    rw [if_neg hne, h3, if_neg (by decide), if_neg (by decide)]
    unfold Flat.decodeTrace Flat.traceFirst
    dsimp only
    rw [hmem, eL, eS, h4, h5, h6, h7]
    rw [show ((3 : Nat) : Int) - ((3 : Nat) : Int) = 0 from rfl, if_pos hfill0,
      if_neg (by decide), hchar P h4 h6]
    dsimp only
    rw [Flat.traceLoop, h5, h6, if_neg (by decide)]
    dsimp only
    rw [if_pos (Or.inr (by decide))]
    exact ⟨_, rfl, rfl, rfl, rfl⟩
  obtain ⟨s, hb, hs1, hs2, hs3⟩ := hbody
  refine ⟨s, ?_, hs1, hs2, ?_, ?_⟩
  · unfold Flat.TDGifDecompress
    rw [if_neg (by decide), h9]
    show Flat.decodeLoop 1 2 (4 * 2 + 1) _ = _
    rw [Flat.decodeLoop,
      if_pos (show (Flat.decodeInit sampleFirstCodeInfo mem).i < 1 from Nat.zero_lt_one), hb]
  · rw [hmem]
    exact flat_readPrefix_fill mem 64 63 (by decide)
  · rw [hs3]
    unfold Flat.readPrefix Flat.writeSuffix Flat.writeStack
    rw [if_neg (by decide), if_neg (by decide), if_pos (by decide)]
    rw [show (2 : Int) * 63 = 2 * ((63 : Nat) : Int) from rfl, hfill63.1]
    decide

set_option maxRecDepth 100000 in
theorem sample2x1_two_codes :
    (TDGifDecompressInput (decodeInit sample2x1Info).Private).1 = TGIF_OK ∧
    (TDGifDecompressInput (decodeInit sample2x1Info).Private).2.2 = 0 ∧
    (TDGifDecompressInput (decodeInit sample2x1Info).Private).2.1.ClearCode = 2 ∧
    (TDGifDecompressInput
      (TDGifDecompressInput (decodeInit sample2x1Info).Private).2.1).1 = TGIF_OK ∧
    (TDGifDecompressInput
      (TDGifDecompressInput (decodeInit sample2x1Info).Private).2.1).2.2 = 1 ∧
    (TDGifDecompressInput
      (TDGifDecompressInput (decodeInit sample2x1Info).Private).2.1).2.1.ClearCode = 2 ∧
    (TDGifDecompressInput
      (TDGifDecompressInput (decodeInit sample2x1Info).Private).2.1).2.1.DictBase = 3 ∧
    (TDGifDecompressInput
      (TDGifDecompressInput (decodeInit sample2x1Info).Private).2.1).2.1.DictSize = 64 ∧
    (TDGifDecompressInput
      (TDGifDecompressInput (decodeInit sample2x1Info).Private).2.1).2.1.RunningCode = 5 ∧
    (decodeInit sample2x1Info).Private.DictSize = 64 ∧
    (decodeInit sample2x1Info).Private.ClearCode = 2 := by
  decide

/-- The file `sample2x1` on the flat block, whatever the memory holds: two
codes, two calls of the callback with the pixels 0 and 1, the dictionary entry
`Prefix[0] = 0`, `Suffix[0] = 1` written by the second pass, and
`TGIF_OK`. -/
theorem flat_sample2x1_run (mem : Int → Nat) :
    ∃ s, Flat.TDGifDecompress sample2x1Info true mem = .ret TGIF_OK s ∧
      s.Out = [0, 1] ∧ Flat.readPrefix s.Mem 0 = 0 ∧ Flat.readSuffix 64 s.Mem 0 = 1 := by
  obtain ⟨h1, h2, h3, k1, k2, k3, k4, k5, k7, h8, h9⟩ := sample2x1_two_codes
  have hne : TGIF_OK ≠ TGIF_ERROR := by decide
  have hfill0 : Flat.readPrefix (Flat.fillPrefix mem 64) 0 = NO_SUCH_CODE :=
    flat_readPrefix_fill mem 64 0 (by decide)
  rcases hd : TDGifDecompressInput (decodeInit sample2x1Info).Private with ⟨r, P, c⟩
  rw [hd] at h1 h2 h3 k1 k2 k3 k4 k5 k7
  simp only at h1 h2 h3 k1 k2 k3 k4 k5 k7
  subst h1 h2
  rcases hd2 : TDGifDecompressInput P with ⟨r2, P2, c2⟩
  rw [hd2] at k1 k2 k3 k4 k5 k7
  simp only at k1 k2 k3 k4 k5 k7
  subst k1 k2
  -- the first pass: the pixel 0
  have hbody1 : Flat.decodeBody 2 2 (Flat.decodeInit sample2x1Info mem)
      = .next { Private := P, Mem := Flat.fillPrefix mem 64, LastCode := 0, StackPtr := 0,
                i := 1, Out := [0] } := by
    unfold Flat.decodeBody
    have e0 : (Flat.decodeInit sample2x1Info mem).Private
        = (decodeInit sample2x1Info).Private := rfl
    rw [e0, hd]
    dsimp only
    rw [if_neg hne, h3, if_neg (by decide), if_pos (by decide)]
    unfold Flat.decodeUpdate
    dsimp only
    rw [if_neg (fun h => h.1 rfl)]
    show Flat.Result.next { Private := P
                            Mem := Flat.fillPrefix mem (decodeInit sample2x1Info).Private.DictSize
                            LastCode := 0, StackPtr := 0, i := 1, Out := [0] } = _
    rw [h8]
  -- the second pass: the pixel 1 and the first dictionary entry
  have hbody2 : Flat.decodeBody 2 2
      { Private := P, Mem := Flat.fillPrefix mem 64, LastCode := 0, StackPtr := 0,
        i := 1, Out := [0] }
      = .next { Private := P2
                Mem := Flat.writeSuffix 64 (Flat.writePrefix (Flat.fillPrefix mem 64) 0 0) 0 1
                LastCode := 1, StackPtr := 0, i := 2, Out := [0, 1] } := by
    unfold Flat.decodeBody
    dsimp only
    rw [hd2]
    dsimp only
    rw [if_neg hne, k3, if_neg (by decide), if_pos (by decide)]
    unfold Flat.decodeUpdate
    dsimp only
    rw [k4, k5, k7, show ((5 : Nat) : Int) - 2 - ((3 : Nat) : Int) = 0 from rfl,
      if_pos ⟨by decide, hfill0⟩, if_neg (by decide)]
    unfold Flat.TDGifGetPrefixChar Flat.prefixCharRun
    rw [Flat.prefixCharLoop, if_neg (by decide)]
    rfl
  refine ⟨{ Private := P2
            Mem := Flat.writeSuffix 64 (Flat.writePrefix (Flat.fillPrefix mem 64) 0 0) 0 1
            LastCode := 1, StackPtr := 0, i := 2, Out := [0, 1] }, ?_, rfl, ?_, ?_⟩
  · unfold Flat.TDGifDecompress
    rw [if_neg (by decide), h9]
    show Flat.decodeLoop 2 2 (4 * 2 + 1) _ = _
    rw [Flat.decodeLoop,
      if_pos (show (Flat.decodeInit sample2x1Info mem).i < 2 from Nat.zero_lt_two), hbody1]
    dsimp only
    rw [Flat.decodeLoop, if_pos (show (1 : Nat) < 2 from Nat.one_lt_two), hbody2]
    dsimp only
    rw [Flat.decodeLoop, if_neg (show ¬ (2 : Nat) < 2 from Nat.lt_irrefl 2)]
  · unfold Flat.readPrefix Flat.writeSuffix Flat.writePrefix
    dsimp only
    rw [if_neg (by decide), if_pos (by decide), if_neg (by decide), if_neg (by decide),
      if_pos (by decide)]
  · unfold Flat.readSuffix Flat.writeSuffix
    dsimp only
    rw [if_pos (by decide)]

/-- The bound of the trace loop is reached on the flat block as well: from a
dictionary entry that is its own prefix the loop goes on until `StackPtr` is
`DictSize`, which from `StackPtr = 0` are `DictSize` passes. -/
theorem flat_traceLoop_cycle (P : TDGifPrivateType) (cc cp : Nat)
    (hcp : cc < cp ∧ cp ≤ P.MaxCodePoint)
    (hj : P.DictBase ≤ cp ∧ cp - P.DictBase < P.DictSize) :
    ∀ (fuel : Nat) (Mem : Int → Nat) (sp : Nat), sp ≤ P.DictSize → P.DictSize ≤ fuel + sp →
      Flat.readPrefix Mem ((cp : Int) - P.DictBase) = cp →
      ∃ Mem', Flat.traceLoop P cc fuel Mem sp cp = some (Mem', P.DictSize, cp) := by
  intro fuel
  induction fuel with
  | zero =>
    intro Mem sp h1 h2 _
    have : sp = P.DictSize := by omega
    subst this
    refine ⟨Mem, ?_⟩
    rw [Flat.traceLoop, if_neg (by omega)]
  | succ fuel ih =>
    intro Mem sp h1 h2 hself
    rw [Flat.traceLoop]
    by_cases hsp : sp < P.DictSize
    · rw [if_pos ⟨hsp, hcp.1, hcp.2⟩]
      dsimp only
      have hkeep : Flat.readPrefix
          (Flat.writeStack P.DictSize Mem sp
            (Flat.readSuffix P.DictSize Mem ((cp : Int) - P.DictBase)))
          ((cp : Int) - P.DictBase) = cp := by
        unfold Flat.readPrefix Flat.writeStack
        unfold Flat.readPrefix at hself
        rw [if_neg (by omega), if_neg (by omega)]
        exact hself
      rw [hkeep]
      exact ih _ (sp + 1) (by omega) (by omega) hkeep
    · have : sp = P.DictSize := by omega
      subst this
      refine ⟨Mem, ?_⟩
      rw [if_neg (by omega)]

set_option maxRecDepth 100000 in
/-- With the tables of `sampleCycle` (`DictBase = 2`, `DictSize = 64`) and
`Prefix[0] = 2`, the code 2 its own prefix: 64 passes from `StackPtr = 0`. -/
theorem flat_traceLoop_cycle_sample :
    ∃ Mem', Flat.traceLoop (decodeInit sampleCycleInfo).Private 1 64
      (Flat.writePrefix (fun _ => 0) 0 2) 0 2 = some (Mem', 64, 2) :=
  flat_traceLoop_cycle (decodeInit sampleCycleInfo).Private 1 2 (by decide) (by decide)
    64 (Flat.writePrefix (fun _ => 0) 0 2) 0 (by decide) (by decide) (by decide)

end TinyGif
